import Mathlib

/-!
Demand-paging simulators: `os3-1_z.c` (flat page table) and `os3-2.c` (two-level page table)

Shallow embedding of the two C programs.

* The global byte array `pas` is a function from byte offsets to byte values; a
  `pte *` is the byte offset of the entry inside `pas`.  The fields of a `pte`
  lie at offsets `+0` (`frame`), `+1` (`vflag`), `+2` (`ref`), `+3` (`pad`).
* `unsigned char` stores are reduced modulo 256.
* The C `int` counters (`allocated_frame_count`, `page_faults`, `ref_count`,
  `processed_refs`, the loop indices) are natural numbers.  They start at 0 and are
  only ever incremented; all of them are bounded by the total number of references
  of the input, which is assumed to stay below `2^31` (signed overflow is undefined
  in C).
* The input stream is the list of records `(pid, references)` it holds; `ref_len`
  of a loaded process is the length of `references`.
* `allocate_frame` failing (`-1`) is `none`.
* The loops of `simulate` whose termination is not syntactic take an iteration
  bound (`fuel`); running out of it is a separate outcome.
* Every line that `simulate` prints for a serviced reference is kept in the `trace`
  of the state, in order.  The only ghost data are `Machine.returned` (the values
  returned by `allocate_frame` so far) and the position of the process in a trace
  record.
-/

/-- Global state shared by the functions of one program: the array `pas`, the
counter `allocated_frame_count`, and the ghost log of the frame numbers returned
by the successful calls of `allocate_frame`, oldest first. -/
structure Machine where
  pas : Nat → Nat
  allocated_frame_count : Nat
  returned : List Nat

/-- A one-byte store `pas[a] = v`. -/
def poke (pas : Nat → Nat) (a v : Nat) : Nat → Nat :=
  fun x => if x = a then v % 256 else pas x

/-- The call `memset(&pas[a], 0, len)`. -/
def memset0 (pas : Nat → Nat) (a len : Nat) : Nat → Nat :=
  fun x => if a ≤ x ∧ x < a + len then 0 else pas x

/-- How a run of `simulate` ends: the loop ran to its end, a frame allocation
failed, or the iteration bound of the model was reached. -/
inductive Outcome (σ : Type) where
  | finished : σ → Outcome σ
  | out_of_memory : σ → Outcome σ
  | out_of_fuel : σ → Outcome σ

/-- The state an outcome carries. -/
def Outcome.state {σ : Type} : Outcome σ → σ
  | .finished s => s
  | .out_of_memory s => s
  | .out_of_fuel s => s

/-- One record of the input stream: `pid` and the reference bytes. -/
abbrev Record := Int × List Nat

/-- Result of one `load_process` call: end of input (`0`), allocation failure
(`-1`), or success (`1`) with the filled `process`, the new globals and the rest of
the stream. -/
inductive LoadResult (π : Type) where
  | eof : LoadResult π
  | failed : Machine → LoadResult π
  | loaded : π → Machine → List Record → LoadResult π

/-- The machine at program start: `pas` zero-initialised, no frame allocated. -/
def Machine.init : Machine :=
  { pas := fun _ => 0, allocated_frame_count := 0, returned := [] }

/-! ## os3-1_z.c : flat page table -/

namespace Os3_1

def PAGESIZE : Nat := 32
def PAS_FRAMES : Nat := 256
def VAS_PAGES : Nat := 64
def PTE_SIZE : Nat := 4
def PAGETABLE_FRAMES : Nat := VAS_PAGES * PTE_SIZE / PAGESIZE
def PAGE_INVALID : Nat := 0
def PAGE_VALID : Nat := 1
def MAX_PROCESSES : Nat := 10

/-- The struct `process`; `page_table` is the byte offset of the table in `pas`. -/
structure process where
  pid : Int
  references : List Nat
  page_table : Nat
  page_faults : Nat
  ref_count : Nat

/-- The field `ref_len`. -/
def process.ref_len (p : process) : Nat := p.references.length

/-- One trace line of `simulate`: position of the process in `procs`, its pid, the
printed index, the page, whether the line reports a page fault, and the printed
frame. -/
structure Access where
  pos : Nat
  pid : Int
  idx : Nat
  page : Nat
  pf : Bool
  frame : Nat
deriving DecidableEq, Repr

/-- State of `simulate`: the globals, the array `procs`, the local
`processed_refs` and the lines printed so far. -/
structure Sim where
  mach : Machine
  procs : List process
  processed_refs : Nat
  trace : List Access

/-- `allocate_frame()`. -/
def allocate_frame (m : Machine) : Option Nat × Machine :=
  if m.allocated_frame_count ≥ PAS_FRAMES then (none, m)
  else
    (some m.allocated_frame_count,
      { m with allocated_frame_count := m.allocated_frame_count + 1,
               returned := m.returned ++ [m.allocated_frame_count] })

/-- `allocate_pagetable_frames(&page_table)`: on success the pointer stored through
the argument. -/
def allocate_pagetable_frames (m : Machine) : Option Nat × Machine :=
  if m.allocated_frame_count + PAGETABLE_FRAMES > PAS_FRAMES then (none, m)
  else
    let base_frame_index := m.allocated_frame_count
    (some (base_frame_index * PAGESIZE),
      { m with allocated_frame_count := m.allocated_frame_count + PAGETABLE_FRAMES,
               pas := memset0 m.pas (base_frame_index * PAGESIZE)
                        (PAGESIZE * PAGETABLE_FRAMES) })

/-- `load_process(fp, proc)`. -/
def load_process (fp : List Record) (m : Machine) : LoadResult process :=
  match fp with
  | [] => .eof
  | (pid, refs) :: rest =>
    match allocate_pagetable_frames m with
    | (none, m1) => .failed m1
    | (some pt, m1) =>
      .loaded { pid := pid, references := refs, page_table := pt,
                page_faults := 0, ref_count := 0 } m1 rest

/-- The loading loop of `main`, with `k = MAX_PROCESSES - count` iterations left;
`none` is the `return 1` after a failed load. -/
def load_loop : Nat → List Record → Machine → List process → Option (Machine × List process)
  | 0, _, m, procs => some (m, procs)
  | k + 1, fp, m, procs =>
    match load_process fp m with
    | .eof => some (m, procs)
    | .failed _ => none
    | .loaded p m1 rest => load_loop k rest m1 (procs ++ [p])

/-- Body of the inner `for` loop of `simulate` for index `i`; `Except.error` is the
early `return` after `allocate_frame` failed. -/
def service (s : Sim) (i : Nat) : Except Sim Sim :=
  match s.procs[i]? with
  | none => .ok s
  | some p =>
    if p.ref_count < p.ref_len then
      let page_num := p.references.getD p.ref_count 0
      let pte_entry := p.page_table + page_num * PTE_SIZE
      if s.mach.pas (pte_entry + 1) = PAGE_VALID then
        let pas1 := poke s.mach.pas (pte_entry + 2) (s.mach.pas (pte_entry + 2) + 1)
        .ok { mach := { s.mach with pas := pas1 },
              procs := s.procs.set i { p with ref_count := p.ref_count + 1 },
              processed_refs := s.processed_refs + 1,
              trace := s.trace ++ [{ pos := i, pid := p.pid, idx := p.ref_count,
                                      page := page_num, pf := false,
                                      frame := pas1 pte_entry }] }
      else
        let p1 := { p with page_faults := p.page_faults + 1 }
        match allocate_frame s.mach with
        | (none, m1) => .error { s with mach := m1, procs := s.procs.set i p1 }
        | (some new_frame, m1) =>
          let pas1 := poke m1.pas (pte_entry + 1) PAGE_VALID
          let pas2 := poke pas1 pte_entry new_frame
          let pas3 := poke pas2 (pte_entry + 2) 1
          .ok { mach := { m1 with pas := pas3 },
                procs := s.procs.set i { p1 with ref_count := p1.ref_count + 1 },
                processed_refs := s.processed_refs + 1,
                trace := s.trace ++ [{ pos := i, pid := p.pid, idx := p.ref_count,
                                        page := page_num, pf := true,
                                        frame := pas3 pte_entry }] }
    else .ok s

/-- The inner `for` loop of `simulate` over the remaining indices. -/
def sweep : List Nat → Sim → Except Sim Sim
  | [], s => .ok s
  | i :: rest, s =>
    match service s i with
    | .error e => .error e
    | .ok s1 => sweep rest s1

/-- The `while` loop of `simulate`; `total` is `total_references_to_process`. -/
def while_loop (total : Nat) : Nat → Sim → Outcome Sim
  | 0, s => if s.processed_refs < total then .out_of_fuel s else .finished s
  | fuel + 1, s =>
    if s.processed_refs < total then
      match sweep (List.range s.procs.length) s with
      | .error e => .out_of_memory e
      | .ok s1 => while_loop total fuel s1
    else .finished s

/-- The sum computed by the first loop of `simulate`. -/
def total_references_to_process (procs : List process) : Nat :=
  (procs.map process.ref_len).sum

/-- `simulate(procs, proc_count)`. -/
def simulate (fuel : Nat) (m : Machine) (procs : List process) : Outcome Sim :=
  while_loop (total_references_to_process procs) fuel
    { mach := m, procs := procs, processed_refs := 0, trace := [] }

/-- One printed block of `print_page_tables` for a process. -/
structure ProcReport where
  pid : Int
  allocated_frames : Nat
  page_faults : Nat
  references : Nat
  pages : List (Nat × Nat × Nat)
deriving DecidableEq, Repr

/-- Everything `print_page_tables` prints. -/
structure Report where
  procs : List ProcReport
  total_frames : Nat
  total_page_faults : Nat
  total_references : Nat
deriving DecidableEq, Repr

/-- The counting loop `for j < VAS_PAGES` of `print_page_tables`, from `j` on with
`n` iterations left. -/
def count_valid (pas : Nat → Nat) (page_table : Nat) : Nat → Nat → Nat → Nat
  | 0, _, acc => acc
  | n + 1, j, acc =>
    if pas (page_table + j * PTE_SIZE + 1) = PAGE_VALID then
      count_valid pas page_table n (j + 1) (acc + 1)
    else count_valid pas page_table n (j + 1) acc

/-- The printing loop `for j < VAS_PAGES` of `print_page_tables`. -/
def valid_lines (pas : Nat → Nat) (page_table : Nat) : Nat → Nat → List (Nat × Nat × Nat)
  | 0, _ => []
  | n + 1, j =>
    if pas (page_table + j * PTE_SIZE + 1) = PAGE_VALID then
      (j, pas (page_table + j * PTE_SIZE), pas (page_table + j * PTE_SIZE + 2))
        :: valid_lines pas page_table n (j + 1)
    else valid_lines pas page_table n (j + 1)

/-- The per-process part of `print_page_tables`. -/
def proc_report (pas : Nat → Nat) (p : process) : ProcReport :=
  { pid := p.pid,
    allocated_frames := count_valid pas p.page_table VAS_PAGES 0 PAGETABLE_FRAMES,
    page_faults := p.page_faults,
    references := p.ref_count,
    pages := valid_lines pas p.page_table VAS_PAGES 0 }

/-- `print_page_tables(procs, proc_count)`. -/
def print_page_tables (m : Machine) (procs : List process) : Report :=
  { procs := procs.map (proc_report m.pas),
    total_frames := m.allocated_frame_count,
    total_page_faults := (procs.map process.page_faults).sum,
    total_references := (procs.map process.ref_count).sum }

/-- What `main` produces: the exit status, the trace lines, whether
"Out of memory!!" was printed, and the statistics when they are printed. -/
structure Output where
  status : Nat
  trace : List Access
  oom : Bool
  report : Option Report

/-- The part of `main` up to the return of `simulate`: the loading loop, then
`simulate`; `none` is the `return 1` after a failed load. -/
def run (fuel : Nat) (input : List Record) : Option (Outcome Sim) :=
  match load_loop MAX_PROCESSES input Machine.init [] with
  | none => none
  | some (m, procs) => some (simulate fuel m procs)

/-- `main()` on the given input stream; `none` when the iteration bound of
`simulate` was reached. -/
def main (fuel : Nat) (input : List Record) : Option Output :=
  match run fuel input with
  | none => some { status := 1, trace := [], oom := true, report := none }
  | some (.finished s) =>
    some { status := 0, trace := s.trace, oom := false,
           report := some (print_page_tables s.mach s.procs) }
  | some (.out_of_memory s) =>
    some { status := 0, trace := s.trace, oom := true,
           report := some (print_page_tables s.mach s.procs) }
  | some (.out_of_fuel _) => none

end Os3_1

/-! ## os3-2.c : two-level page table -/

namespace Os3_2

def PAGESIZE : Nat := 32
def PAS_FRAMES : Nat := 256
def VAS_PAGES : Nat := 64
def PTE_SIZE : Nat := 4
def PAGE_INVALID : Nat := 0
def PAGE_VALID : Nat := 1
def MAX_PROCESSES : Nat := 10
def L1_PT_ENTRIES : Nat := 8
def L2_PT_ENTRIES : Nat := 8

/-- The struct `process`; `L1_page_table` is the byte offset of the table in `pas`. -/
structure process where
  pid : Int
  references : List Nat
  L1_page_table : Nat
  page_faults : Nat
  ref_count : Nat

/-- The field `ref_len`. -/
def process.ref_len (p : process) : Nat := p.references.length

/-- One trace line of `simulate`: position of the process in `procs`, its pid, the
index, the page, and for each level whether a fault is reported and the printed
frame. -/
structure Access where
  pos : Nat
  pid : Int
  idx : Nat
  page : Nat
  l1_pf : Bool
  l1_frame : Nat
  l2_pf : Bool
  l2_frame : Nat
deriving DecidableEq, Repr

/-- State of `simulate`: the globals, the array `procs` and the lines printed so
far. -/
structure Sim where
  mach : Machine
  procs : List process
  trace : List Access

/-- `allocate_frame()`. -/
def allocate_frame (m : Machine) : Option Nat × Machine :=
  if m.allocated_frame_count ≥ PAS_FRAMES then (none, m)
  else
    (some m.allocated_frame_count,
      { m with allocated_frame_count := m.allocated_frame_count + 1,
               returned := m.returned ++ [m.allocated_frame_count] })

/-- `allocate_pagetable_frame()`: the pointer returned, `none` for `NULL`. -/
def allocate_pagetable_frame (m : Machine) : Option Nat × Machine :=
  match allocate_frame m with
  | (none, m1) => (none, m1)
  | (some frame, m1) =>
    (some (frame * PAGESIZE), { m1 with pas := memset0 m1.pas (frame * PAGESIZE) PAGESIZE })

/-- `load_process(fp, proc)`. -/
def load_process (fp : List Record) (m : Machine) : LoadResult process :=
  match fp with
  | [] => .eof
  | (pid, refs) :: rest =>
    match allocate_pagetable_frame m with
    | (none, m1) => .failed m1
    | (some pt, m1) =>
      .loaded { pid := pid, references := refs, L1_page_table := pt,
                page_faults := 0, ref_count := 0 } m1 rest

/-- The loading loop of `main`, with `k = MAX_PROCESSES - count` iterations left;
`none` is the `return 1` after a failed load. -/
def load_loop : Nat → List Record → Machine → List process → Option (Machine × List process)
  | 0, _, m, procs => some (m, procs)
  | k + 1, fp, m, procs =>
    match load_process fp m with
    | .eof => some (m, procs)
    | .failed _ => none
    | .loaded p m1 rest => load_loop k rest m1 (procs ++ [p])

/-- The level-1 part of the loop body of `simulate`: the globals after it, the
process record after it and `l1_pf`; `none` is the `exit(1)`. -/
def level1 (m : Machine) (proc : process) (l1_entry : Nat) : Option (Machine × process × Bool) :=
  if m.pas (l1_entry + 1) = PAGE_INVALID then
    match allocate_frame m with
    | (none, _) => none
    | (some new_frame, m1) =>
      let pas1 := poke m1.pas l1_entry new_frame
      let pas2 := poke pas1 (l1_entry + 1) PAGE_VALID
      let pas3 := memset0 pas2 (new_frame * PAGESIZE) PAGESIZE
      some ({ m1 with pas := pas3 }, { proc with page_faults := proc.page_faults + 1 }, true)
  else some (m, proc, false)

/-- The level-2 part of the loop body of `simulate`, up to and including
`l2_entry->ref++`; `none` is the `exit(1)`. -/
def level2 (m : Machine) (proc : process) (l2_entry : Nat) : Option (Machine × process × Bool) :=
  if m.pas (l2_entry + 1) = PAGE_INVALID then
    match allocate_frame m with
    | (none, _) => none
    | (some new_frame, m1) =>
      let pas1 := poke m1.pas l2_entry new_frame
      let pas2 := poke pas1 (l2_entry + 1) PAGE_VALID
      let pas3 := poke pas2 (l2_entry + 2) (pas2 (l2_entry + 2) + 1)
      some ({ m1 with pas := pas3 }, { proc with page_faults := proc.page_faults + 1 }, true)
  else
    some ({ m with pas := poke m.pas (l2_entry + 2) (m.pas (l2_entry + 2) + 1) }, proc, false)

/-- Body of the inner `for` loop of `simulate` for sweep `idx` and process `p`,
on the state and the flag `all_done`; `Except.error` is the `exit(1)`, with the
state reached there. -/
def service (idx : Nat) (sd : Sim × Bool) (p : Nat) : Except Sim (Sim × Bool) :=
  match sd.1.procs[p]? with
  | none => .ok sd
  | some proc =>
    if idx ≥ proc.ref_len then .ok sd
    else
      let s := sd.1
      let vpn := proc.references.getD idx 0
      let l1_idx := vpn >>> 3
      let l2_idx := vpn &&& 0x07
      let l1_entry := proc.L1_page_table + l1_idx * PTE_SIZE
      match level1 s.mach proc l1_entry with
      | none => .error s
      | some (m1, proc1, l1_pf) =>
        let l2_pt := m1.pas l1_entry * PAGESIZE
        let l2_entry := l2_pt + l2_idx * PTE_SIZE
        match level2 m1 proc1 l2_entry with
        | none => .error { s with mach := m1, procs := s.procs.set p proc1 }
        | some (m2, proc2, l2_pf) =>
          .ok ({ mach := m2,
                 procs := s.procs.set p { proc2 with ref_count := proc2.ref_count + 1 },
                 trace := s.trace ++ [{ pos := p, pid := proc.pid, idx := idx, page := vpn,
                                         l1_pf := l1_pf, l1_frame := m2.pas l1_entry,
                                         l2_pf := l2_pf, l2_frame := m2.pas l2_entry }] },
               false)

/-- The inner `for` loop of `simulate` over the remaining process indices. -/
def sweep (idx : Nat) : List Nat → Sim × Bool → Except Sim (Sim × Bool)
  | [], sd => .ok sd
  | p :: rest, sd =>
    match service idx sd p with
    | .error e => .error e
    | .ok sd1 => sweep idx rest sd1

/-- The outer loop `for (idx = 0;; ++idx)` of `simulate`, from `idx` on. -/
def outer_loop : Nat → Nat → Sim → Outcome Sim
  | 0, _, s => .out_of_fuel s
  | fuel + 1, idx, s =>
    match sweep idx (List.range s.procs.length) (s, true) with
    | .error e => .out_of_memory e
    | .ok (s1, all_done) =>
      if all_done then .finished s1 else outer_loop fuel (idx + 1) s1

/-- `simulate(procs, proc_count)`. -/
def simulate (fuel : Nat) (m : Machine) (procs : List process) : Outcome Sim :=
  outer_loop fuel 0 { mach := m, procs := procs, trace := [] }

/-- One printed block of `print_page_tables` for a process: the summary line and
the lines of the valid level-1 entries and of the valid pages. -/
structure ProcReport where
  pid : Int
  frames_used : Nat
  page_faults : Nat
  references : Nat
  l1_lines : List (Nat × Nat)
  pages : List (Nat × Nat × Nat)
deriving DecidableEq, Repr

/-- Everything `print_page_tables` prints. -/
structure Report where
  procs : List ProcReport
  total_frames : Nat
  total_page_faults : Nat
  total_references : Nat
deriving DecidableEq, Repr

/-- The inner counting loop `for l2 < L2_PT_ENTRIES` of `print_page_tables`, from
`l2` on with `n` iterations left. -/
def count_l2 (pas : Nat → Nat) (l2_pt : Nat) : Nat → Nat → Nat → Nat
  | 0, _, frames_used => frames_used
  | n + 1, l2, frames_used =>
    if pas (l2_pt + l2 * PTE_SIZE + 1) = PAGE_VALID then
      count_l2 pas l2_pt n (l2 + 1) (frames_used + 1)
    else count_l2 pas l2_pt n (l2 + 1) frames_used

/-- The counting loop `for l1 < L1_PT_ENTRIES` of `print_page_tables`, from `l1`
on with `n` iterations left. -/
def count_l1 (pas : Nat → Nat) (L1_page_table : Nat) : Nat → Nat → Nat → Nat
  | 0, _, frames_used => frames_used
  | n + 1, l1, frames_used =>
    let l1_entry := L1_page_table + l1 * PTE_SIZE
    if pas (l1_entry + 1) ≠ PAGE_VALID then
      count_l1 pas L1_page_table n (l1 + 1) frames_used
    else
      count_l1 pas L1_page_table n (l1 + 1)
        (count_l2 pas (pas l1_entry * PAGESIZE) L2_PT_ENTRIES 0 (frames_used + 1))

/-- The inner printing loop of `print_page_tables`: the lines
`(page_num, frame, ref)` of the valid entries of one level-2 table. -/
def l2_lines (pas : Nat → Nat) (l1 l2_pt : Nat) : Nat → Nat → List (Nat × Nat × Nat)
  | 0, _ => []
  | n + 1, l2 =>
    let l2_entry := l2_pt + l2 * PTE_SIZE
    if pas (l2_entry + 1) ≠ PAGE_VALID then l2_lines pas l1 l2_pt n (l2 + 1)
    else
      ((l1 <<< 3) ||| l2, pas l2_entry, pas (l2_entry + 2)) :: l2_lines pas l1 l2_pt n (l2 + 1)

/-- The outer printing loop of `print_page_tables`: the `(L1PT)` lines and the
`(L2PT)` lines, each in printing order. -/
def l1_lines (pas : Nat → Nat) (L1_page_table : Nat) :
    Nat → Nat → List (Nat × Nat) × List (Nat × Nat × Nat)
  | 0, _ => ([], [])
  | n + 1, l1 =>
    let l1_entry := L1_page_table + l1 * PTE_SIZE
    let r := l1_lines pas L1_page_table n (l1 + 1)
    if pas (l1_entry + 1) ≠ PAGE_VALID then r
    else
      ((l1, pas l1_entry) :: r.1,
        l2_lines pas l1 (pas l1_entry * PAGESIZE) L2_PT_ENTRIES 0 ++ r.2)

/-- The per-process part of `print_page_tables`. -/
def proc_report (pas : Nat → Nat) (proc : process) : ProcReport :=
  { pid := proc.pid,
    frames_used := count_l1 pas proc.L1_page_table L1_PT_ENTRIES 0 0,
    page_faults := proc.page_faults,
    references := proc.ref_count,
    l1_lines := (l1_lines pas proc.L1_page_table L1_PT_ENTRIES 0).1,
    pages := (l1_lines pas proc.L1_page_table L1_PT_ENTRIES 0).2 }

/-- `print_page_tables(procs, proc_count)`. -/
def print_page_tables (m : Machine) (procs : List process) : Report :=
  { procs := procs.map (proc_report m.pas),
    total_frames := m.allocated_frame_count,
    total_page_faults := (procs.map process.page_faults).sum,
    total_references := (procs.map process.ref_count).sum }

/-- What `main` produces: the exit status, the trace lines, whether an
out-of-memory message was printed, and the statistics when they are printed. -/
structure Output where
  status : Nat
  trace : List Access
  oom : Bool
  report : Option Report

/-- The part of `main` up to the end of `simulate`: the loading loop, then
`simulate`; `none` is the `return 1` after a failed load. -/
def run (fuel : Nat) (input : List Record) : Option (Outcome Sim) :=
  match load_loop MAX_PROCESSES input Machine.init [] with
  | none => none
  | some (m, procs) => some (simulate fuel m procs)

/-- `main()` on the given input stream; `none` when the iteration bound of
`simulate` was reached.  When `simulate` calls `exit(1)` the program ends there and
`print_page_tables` is not reached. -/
def main (fuel : Nat) (input : List Record) : Option Output :=
  match run fuel input with
  | none => some { status := 1, trace := [], oom := true, report := none }
  | some (.finished s) =>
    some { status := 0, trace := s.trace, oom := false,
           report := some (print_page_tables s.mach s.procs) }
  | some (.out_of_memory s) =>
    some { status := 1, trace := s.trace, oom := true, report := none }
  | some (.out_of_fuel _) => none

end Os3_2

/-! ## Memory lemmas -/

theorem poke_same (pas : Nat → Nat) (a v : Nat) : poke pas a v a = v % 256 := by
  simp [poke]

theorem poke_other (pas : Nat → Nat) (a v x : Nat) (h : x ≠ a) : poke pas a v x = pas x := by
  simp [poke, h]

theorem memset0_inside (pas : Nat → Nat) (a len x : Nat) (h1 : a ≤ x) (h2 : x < a + len) :
    memset0 pas a len x = 0 := by
  simp [memset0, h1, h2]

theorem memset0_outside (pas : Nat → Nat) (a len x : Nat) (h : x < a ∨ a + len ≤ x) :
    memset0 pas a len x = pas x := by
  unfold memset0
  rw [if_neg]
  omega

theorem memset0_zero (a len : Nat) : memset0 (fun _ => 0) a len = fun _ => 0 := by
  funext x
  simp [memset0]

/-- Replacing an element of a list by one with the same image leaves the mapped
list unchanged. -/
theorem getElem?_set_map {α β : Type} (f : α → β) (l : List α) (i : Nat) (a b : α)
    (h : l[i]? = some a) (hf : f b = f a) (j : Nat) :
    ((l.set i b)[j]?).map f = (l[j]?).map f := by
  rw [List.getElem?_set]
  by_cases hij : i = j
  · subst hij
    have hlt : i < l.length := by
      rcases List.getElem?_eq_some.mp h with ⟨hl, _⟩
      exact hl
    simp [hlt, h, hf]
  · simp [hij]

theorem snoc_getElem? {α : Type} (t : List α) (e0 : α) (k : Nat) (e : α)
    (h : (t ++ [e0])[k]? = some e) :
    (k < t.length ∧ t[k]? = some e ∧ (t ++ [e0]).take k = t.take k) ∨
    (k = t.length ∧ e = e0 ∧ (t ++ [e0]).take k = t) := by
  by_cases hk : k < t.length
  · left
    rw [List.getElem?_append_left hk] at h
    refine ⟨hk, h, ?_⟩
    rw [List.take_append_eq_append_take]
    have : k - t.length = 0 := by omega
    simp [this]
  · right
    rw [List.getElem?_append_right (by omega)] at h
    have hk2 : k - t.length = 0 := by
      by_contra hne
      have : (k - t.length) = (k - t.length - 1) + 1 := by omega
      rw [this] at h
      simp at h
    rw [hk2] at h
    simp at h
    have hk3 : k = t.length := by omega
    refine ⟨hk3, h.symm, ?_⟩
    subst hk3
    simp

theorem set_getElem?_cases {α : Type} (l : List α) (i j : Nat) (a b : α)
    (h : (l.set i a)[j]? = some b) : (i = j ∧ b = a) ∨ (i ≠ j ∧ l[j]? = some b) := by
  rw [List.getElem?_set] at h
  by_cases hij : i = j
  · left
    subst hij
    by_cases hl : i < l.length
    · simp [hl] at h; exact ⟨rfl, h.symm⟩
    · simp [hl] at h
  · right
    simp [hij] at h
    exact ⟨hij, h⟩

namespace Os3_1

/-- State after a page hit of process `i` (record `p`) on page `v`. -/
def hit_state (s : Sim) (i : Nat) (p : process) (v : Nat) : Sim :=
  let a := p.page_table + v * PTE_SIZE
  let pas1 := poke s.mach.pas (a + 2) (s.mach.pas (a + 2) + 1)
  { mach := { s.mach with pas := pas1 },
    procs := s.procs.set i { p with ref_count := p.ref_count + 1 },
    processed_refs := s.processed_refs + 1,
    trace := s.trace ++ [{ pos := i, pid := p.pid, idx := p.ref_count, page := v, pf := false,
                            frame := pas1 a }] }

/-- State after a serviced page fault of process `i` (record `p`) on page `v`. -/
def fault_state (s : Sim) (i : Nat) (p : process) (v : Nat) : Sim :=
  let a := p.page_table + v * PTE_SIZE
  let c := s.mach.allocated_frame_count
  let pas3 := poke (poke (poke s.mach.pas (a + 1) PAGE_VALID) a c) (a + 2) 1
  { mach := { pas := pas3, allocated_frame_count := c + 1, returned := s.mach.returned ++ [c] },
    procs := s.procs.set i { p with page_faults := p.page_faults + 1, ref_count := p.ref_count + 1 },
    processed_refs := s.processed_refs + 1,
    trace := s.trace ++ [{ pos := i, pid := p.pid, idx := p.ref_count, page := v, pf := true,
                            frame := pas3 a }] }

/-- State in which `simulate` returns after a failed allocation for process `i`. -/
def abort_state (s : Sim) (i : Nat) (p : process) : Sim :=
  { s with procs := s.procs.set i { p with page_faults := p.page_faults + 1 } }

/-- The four ways the loop body can go. -/
inductive Step (s : Sim) (i : Nat) : Except Sim Sim → Prop where
  | idle : (∀ p, s.procs[i]? = some p → p.ref_len ≤ p.ref_count) → Step s i (.ok s)
  | hit (p : process) (v : Nat) : s.procs[i]? = some p → p.ref_count < p.ref_len →
      p.references[p.ref_count]? = some v →
      s.mach.pas (p.page_table + v * PTE_SIZE + 1) = 1 → Step s i (.ok (hit_state s i p v))
  | fault (p : process) (v : Nat) : s.procs[i]? = some p → p.ref_count < p.ref_len →
      p.references[p.ref_count]? = some v →
      s.mach.pas (p.page_table + v * PTE_SIZE + 1) ≠ 1 → s.mach.allocated_frame_count < 256 →
      Step s i (.ok (fault_state s i p v))
  | abort (p : process) (v : Nat) : s.procs[i]? = some p → p.ref_count < p.ref_len →
      p.references[p.ref_count]? = some v →
      s.mach.pas (p.page_table + v * PTE_SIZE + 1) ≠ 1 → 256 ≤ s.mach.allocated_frame_count →
      Step s i (.error (abort_state s i p))

theorem flat_service_step (s : Sim) (i : Nat) : Step s i (service s i) := by
  unfold service
  cases hp : s.procs[i]? with
  | none => exact Step.idle (by simp [hp])
  | some p =>
    by_cases hlt : p.ref_count < p.ref_len
    · have hlt' : p.ref_count < p.references.length := hlt
      have hg : p.references.getD p.ref_count 0 = p.references[p.ref_count] := by
        simp [List.getD_eq_getElem?_getD, hlt']
      have hr : p.references[p.ref_count]? = some p.references[p.ref_count] := by simp [hlt']
      simp only [hlt, if_true, hg]
      by_cases hv : s.mach.pas (p.page_table + p.references[p.ref_count] * PTE_SIZE + 1) = 1
      · have := Step.hit p _ hp hlt hr hv
        simpa [hv, PAGE_VALID, hit_state] using this
      · by_cases hc : s.mach.allocated_frame_count < 256
        · have := Step.fault p _ hp hlt hr hv hc
          have hn : ¬ (s.mach.allocated_frame_count ≥ PAS_FRAMES) := by simp [PAS_FRAMES]; omega
          simpa [hv, PAGE_VALID, allocate_frame, hn, fault_state] using this
        · have := Step.abort p _ hp hlt hr hv (by omega)
          have hn : s.mach.allocated_frame_count ≥ PAS_FRAMES := by simp [PAS_FRAMES]; omega
          simpa [hv, PAGE_VALID, allocate_frame, hn, abort_state] using this
    · simp only [hlt, if_false]
      exact Step.idle (by intro q hq; simp [hp] at hq; subst hq; omega)

/-- Invariant rule for the loop body, lifted to the inner loop. -/
theorem flat_sweep_induction (P Q : Sim → Prop)
    (hok : ∀ s i s', P s → service s i = .ok s' → P s')
    (herr : ∀ s i e, P s → service s i = .error e → Q e) :
    ∀ (l : List Nat) (s : Sim), P s →
      (∀ s', sweep l s = .ok s' → P s') ∧ (∀ e, sweep l s = .error e → Q e) := by
  intro l
  induction l with
  | nil =>
    intro s hs
    constructor
    · intro s' h; simp [sweep] at h; subst h; exact hs
    · intro e h; simp [sweep] at h
  | cons i rest ih =>
    intro s hs
    cases hsv : service s i with
    | error e0 =>
      constructor
      · intro s' h; simp [sweep, hsv] at h
      · intro e h; simp [sweep, hsv] at h; subst h; exact herr s i e0 hs hsv
    | ok s1 =>
      have h1 := ih s1 (hok s i s1 hs hsv)
      simpa [sweep, hsv] using h1

/-- What an invariant `P` of the loop body (with `Q` at an abort) says of an outcome. -/
def Outcome_sat (P Q : Sim → Prop) : Outcome Sim → Prop
  | .finished s => P s
  | .out_of_memory e => Q e
  | .out_of_fuel s => P s

/-- Invariant rule for the loop body, lifted to the `while` loop. -/
theorem flat_while_induction (P Q : Sim → Prop)
    (hok : ∀ s i s', P s → service s i = .ok s' → P s')
    (herr : ∀ s i e, P s → service s i = .error e → Q e) (total : Nat) :
    ∀ (fuel : Nat) (s : Sim), P s → Outcome_sat P Q (while_loop total fuel s) := by
  intro fuel
  induction fuel with
  | zero =>
    intro s hs
    unfold while_loop
    split <;> exact hs
  | succ fuel ih =>
    intro s hs
    unfold while_loop
    split
    · have h := flat_sweep_induction P Q hok herr (List.range s.procs.length) s hs
      cases hsw : sweep (List.range s.procs.length) s with
      | error e => exact h.2 e hsw
      | ok s1 => exact ih s1 (h.1 s1 hsw)
    · exact hs

end Os3_1

namespace Os3_1

/-- The array `procs` the loading loop builds from the records `recs`, the first
of them getting the table at frame `8 * base`. -/
def mk_procs (base : Nat) : List Record → List process
  | [] => []
  | r :: rest =>
    { pid := r.1, references := r.2, page_table := base * 256, page_faults := 0, ref_count := 0 }
      :: mk_procs (base + 1) rest

theorem flat_mk_procs_length (base : Nat) (recs : List Record) :
    (mk_procs base recs).length = recs.length := by
  induction recs generalizing base with
  | nil => rfl
  | cons r rest ih => simp [mk_procs, ih]

theorem flat_mk_procs_getElem? (recs : List Record) : ∀ (base i : Nat),
    (mk_procs base recs)[i]? = (recs[i]?).map (fun r =>
      { pid := r.1, references := r.2, page_table := (base + i) * 256,
        page_faults := 0, ref_count := 0 }) := by
  induction recs with
  | nil => intro base i; simp [mk_procs]
  | cons r rest ih =>
    intro base i
    cases i with
    | zero => simp [mk_procs]
    | succ i =>
      simp only [mk_procs, List.getElem?_cons_succ, ih]
      have : base + 1 + i = base + (i + 1) := by omega
      rw [this]

theorem flat_load_loop_eq : ∀ (k : Nat) (input : List Record) (procs : List process),
    procs.length + k ≤ 32 →
    load_loop k input
        { pas := fun _ => 0, allocated_frame_count := 8 * procs.length, returned := [] } procs =
      some ({ pas := fun _ => 0,
              allocated_frame_count := 8 * (procs.length + (input.take k).length),
              returned := [] },
            procs ++ mk_procs procs.length (input.take k)) := by
  intro k
  induction k with
  | zero => intro input procs _; simp [load_loop, mk_procs]
  | succ k ih =>
    intro input procs hk
    cases input with
    | nil => simp [load_loop, load_process, mk_procs]
    | cons r rest =>
      obtain ⟨pid, refs⟩ := r
      have hc : ¬ (8 * (procs.length + 1) > PAS_FRAMES) := by
        simp [PAS_FRAMES]; omega
      have h8 : 8 * procs.length + PAGETABLE_FRAMES = 8 * (procs.length + 1) := by
        simp [PAGETABLE_FRAMES, VAS_PAGES, PTE_SIZE, PAGESIZE]; omega
      have h32 : 8 * procs.length * PAGESIZE = procs.length * 256 := by
        simp [PAGESIZE]; omega
      simp only [load_loop, load_process, allocate_pagetable_frames, memset0_zero,
        h8, h32, hc, if_false]
      have := ih rest (procs ++ [(⟨pid, refs, procs.length * 256, 0, 0⟩ : process)])
        (by simp; omega)
      simp only [List.length_append, List.length_singleton] at this
      rw [this]
      simp [mk_procs, Nat.add_assoc, Nat.add_comm 1]

/-- The state in which `main` enters `simulate` on the given input: the first
`MAX_PROCESSES` records are loaded, their tables occupy frames `0 .. 8n-1`. -/
theorem flat_run_eq (fuel : Nat) (input : List Record) :
    run fuel input = some (simulate fuel
      { pas := fun _ => 0, allocated_frame_count := 8 * (input.take 10).length, returned := [] }
      (mk_procs 0 (input.take 10))) := by
  have h := flat_load_loop_eq 10 input [] (by simp)
  simp only [List.length_nil, Nat.mul_zero, Nat.zero_add, List.nil_append] at h
  simp [run, MAX_PROCESSES, Machine.init, h]

/-- The fields of the processes that `simulate` never writes agree with the loaded
records `recs`; the table of process `i` starts at byte `i * 256`. -/
def Static (recs : List Record) (s : Sim) : Prop :=
  ∀ i, (s.procs[i]?).map (fun p => (p.pid, p.references, p.page_table)) =
    (recs[i]?).map (fun r => (r.1, r.2, i * 256))

theorem flat_static_length {recs : List Record} {s : Sim} (h : Static recs s) :
    s.procs.length = recs.length := by
  by_contra hne
  rcases Nat.lt_or_gt_of_ne hne with hlt | hgt
  · have := h s.procs.length
    simp [hlt] at this
  · have := h recs.length
    have h1 : s.procs[recs.length]? = some (s.procs[recs.length]) := by simp [hgt]
    rw [h1] at this
    simp at this

theorem flat_static_get {recs : List Record} {s : Sim} (h : Static recs s) {i : Nat} {p : process}
    (hp : s.procs[i]? = some p) :
    recs[i]? = some (p.pid, p.references) ∧ p.page_table = i * 256 ∧ i < recs.length := by
  have := h i
  rw [hp] at this
  cases hr : recs[i]? with
  | none => rw [hr] at this; simp at this
  | some r =>
    rw [hr] at this
    simp at this
    have hl : i < recs.length := (List.getElem?_eq_some.mp hr).1
    obtain ⟨h1, h2, h3⟩ := this
    exact ⟨by rw [h1, h2], h3, hl⟩

theorem flat_static_init (recs : List Record) (m : Machine) :
    Static recs { mach := m, procs := mk_procs 0 recs, processed_refs := 0, trace := [] } := by
  intro i
  simp only [flat_mk_procs_getElem?]
  cases recs[i]? <;> simp

/-- The state a loop body leaves, whether it completes or aborts. -/
def after : Except Sim Sim → Sim
  | .ok s => s
  | .error e => e

theorem flat_static_step {recs : List Record} {s : Sim} {i : Nat} {r : Except Sim Sim}
    (h : Static recs s) (hs : Step s i r) : Static recs (after r) := by
  cases hs with
  | idle _ => exact h
  | hit p v hp _ _ _ =>
    intro j
    rw [← h j]
    exact getElem?_set_map (fun q : process => (q.pid, q.references, q.page_table)) s.procs i p
      { p with ref_count := p.ref_count + 1 } hp rfl j
  | fault p v hp _ _ _ _ =>
    intro j
    rw [← h j]
    exact getElem?_set_map (fun q : process => (q.pid, q.references, q.page_table)) s.procs i p
      { p with page_faults := p.page_faults + 1, ref_count := p.ref_count + 1 } hp rfl j
  | abort p v hp _ _ _ _ =>
    intro j
    rw [← h j]
    exact getElem?_set_map (fun q : process => (q.pid, q.references, q.page_table)) s.procs i p
      { p with page_faults := p.page_faults + 1 } hp rfl j

end Os3_1

namespace Os3_1

/-- Every page number of the loaded records is below `VAS_PAGES`. -/
def Pages (recs : List Record) : Prop := ∀ r ∈ recs, ∀ v ∈ r.2, v < 64

/-- Number of trace lines of process `i` for page `v`. -/
def hits (t : List Access) (i v : Nat) : Nat :=
  t.countP (fun e => decide (e.pos = i ∧ e.page = v))

theorem flat_hits_snoc (t : List Access) (e : Access) (i v : Nat) :
    hits (t ++ [e]) i v = hits t i v + (if e.pos = i ∧ e.page = v then 1 else 0) := by
  simp only [hits, List.countP_append, List.countP_cons, List.countP_nil]
  by_cases h : e.pos = i ∧ e.page = v <;> simp [h]

theorem flat_hits_pos {t : List Access} {i v : Nat} (h : hits t i v ≠ 0) :
    ∃ e ∈ t, e.pos = i ∧ e.page = v := by
  unfold hits at h
  by_contra hcon
  apply h
  rw [List.countP_eq_zero]
  intro a ha hda
  exact hcon ⟨a, ha, by simpa using hda⟩

theorem flat_hits_zero {t : List Access} {i v : Nat} (h : hits t i v = 0) :
    ∀ e ∈ t, ¬ (e.pos = i ∧ e.page = v) := by
  unfold hits at h
  rw [List.countP_eq_zero] at h
  intro e he
  simpa using h e he

/-- The page tables in `pas` agree with the trace printed so far. -/
structure MemInv (n : Nat) (s : Sim) : Prop where
  counter : s.mach.allocated_frame_count ≤ 256
  ev : ∀ e ∈ s.trace, e.pos < n ∧ e.page < 64
  vflag : ∀ i v, i < n → v < 64 →
    s.mach.pas (i * 256 + v * 4 + 1) = if hits s.trace i v = 0 then 0 else 1
  ref : ∀ i v, i < n → v < 64 → s.mach.pas (i * 256 + v * 4 + 2) = hits s.trace i v % 256
  frame : ∀ e ∈ s.trace, e.frame = s.mach.pas (e.pos * 256 + e.page * 4)
  pf : ∀ k e, s.trace[k]? = some e → (e.pf = true ↔ hits (s.trace.take k) e.pos e.page = 0)

theorem flat_mem_init (n : Nat) (c : Nat) (hc : c ≤ 256) (procs : List process) :
    MemInv n { mach := { pas := fun _ => 0, allocated_frame_count := c, returned := [] },
               procs := procs, processed_refs := 0, trace := [] } := by
  constructor <;> simp [hits, hc]

theorem flat_mem_step {recs : List Record} {s : Sim} {i : Nat} {r : Except Sim Sim}
    (hst : Static recs s) (hpg : Pages recs) (h : MemInv recs.length s) (hs : Step s i r) :
    MemInv recs.length (after r) := by
  cases hs with
  | idle _ => exact h
  | abort p v hp _ _ _ _ =>
    exact ⟨h.counter, h.ev, h.vflag, h.ref, h.frame, h.pf⟩
  | hit p v hp hlt hv hflag =>
    obtain ⟨hrec, hpt, hi⟩ := flat_static_get hst hp
    have hv64 : v < 64 := hpg _ (List.getElem?_mem hrec) v (List.getElem?_mem hv)
    have hflag' : s.mach.pas (i * 256 + v * 4 + 1) = 1 := by
      have := hflag
      rw [hpt] at this
      simpa [PTE_SIZE] using this
    have hne : hits s.trace i v ≠ 0 := by
      intro h0
      have := h.vflag i v hi hv64
      rw [h0] at this
      simp at this
      omega
    simp only [after, hit_state, hpt, PTE_SIZE]
    refine ⟨h.counter, ?_, ?_, ?_, ?_, ?_⟩
    · intro e he
      simp only [List.mem_append, List.mem_singleton] at he
      rcases he with he | he
      · exact h.ev e he
      · subst he; exact ⟨hi, hv64⟩
    · intro j w hj hw
      simp only [flat_hits_snoc]
      rw [poke_other _ _ _ _ (by omega), h.vflag j w hj hw]
      by_cases hjw : i = j ∧ v = w
      · obtain ⟨rfl, rfl⟩ := hjw
        simp [hne]
      · simp [hjw]
    · intro j w hj hw
      simp only [flat_hits_snoc]
      by_cases hjw : i = j ∧ v = w
      · obtain ⟨rfl, rfl⟩ := hjw
        rw [poke_same, h.ref i v hj hw]
        simp
      · rw [poke_other _ _ _ _ (by omega), h.ref j w hj hw]
        simp [hjw]
    · intro e he
      simp only [List.mem_append, List.mem_singleton] at he
      rcases he with he | he
      · dsimp only
        rw [poke_other _ _ _ _ (by have := h.ev e he; omega)]
        exact h.frame e he
      · subst he
        rfl
    · intro k e hk
      rcases snoc_getElem? _ _ _ _ hk with ⟨_, hk', htk⟩ | ⟨_, he, htk⟩
      · rw [htk]; exact h.pf k e hk'
      · rw [htk, he]
        simp [hne]
  | fault p v hp hlt hv hflag hc =>
    obtain ⟨hrec, hpt, hi⟩ := flat_static_get hst hp
    have hv64 : v < 64 := hpg _ (List.getElem?_mem hrec) v (List.getElem?_mem hv)
    have hflag' : s.mach.pas (i * 256 + v * 4 + 1) ≠ 1 := by
      rw [hpt] at hflag; simpa [PTE_SIZE] using hflag
    have h0 : hits s.trace i v = 0 := by
      by_contra hne
      have := h.vflag i v hi hv64
      simp [hne] at this
      exact hflag' this
    have hnone := flat_hits_zero h0
    simp only [after, fault_state, hpt, PTE_SIZE, PAGE_VALID]
    refine ⟨by simp; omega, ?_, ?_, ?_, ?_, ?_⟩
    · intro e he
      simp only [List.mem_append, List.mem_singleton] at he
      rcases he with he | he
      · exact h.ev e he
      · subst he; exact ⟨hi, hv64⟩
    · intro j w hj hw
      simp only [flat_hits_snoc]
      by_cases hjw : i = j ∧ v = w
      · obtain ⟨rfl, rfl⟩ := hjw
        rw [poke_other _ _ _ _ (by omega), poke_other _ _ _ _ (by omega), poke_same]
        simp [h0]
      · rw [poke_other _ _ _ _ (by omega), poke_other _ _ _ _ (by omega),
          poke_other _ _ _ _ (by omega), h.vflag j w hj hw]
        simp [hjw]
    · intro j w hj hw
      simp only [flat_hits_snoc]
      by_cases hjw : i = j ∧ v = w
      · obtain ⟨rfl, rfl⟩ := hjw
        rw [poke_same]
        simp [h0]
      · rw [poke_other _ _ _ _ (by omega), poke_other _ _ _ _ (by omega),
          poke_other _ _ _ _ (by omega), h.ref j w hj hw]
        simp [hjw]
    · intro e he
      simp only [List.mem_append, List.mem_singleton] at he
      rcases he with he | he
      · have hev := h.ev e he
        have hne := hnone e he
        dsimp only
        rw [poke_other _ _ _ _ (by omega), poke_other _ _ _ _ (by omega),
          poke_other _ _ _ _ (by omega)]
        exact h.frame e he
      · subst he
        rfl
    · intro k e hk
      rcases snoc_getElem? _ _ _ _ hk with ⟨_, hk', htk⟩ | ⟨_, he, htk⟩
      · rw [htk]; exact h.pf k e hk'
      · rw [htk, he]
        simp [h0]

end Os3_1

theorem countP_range_flip (P Q : Nat → Bool) : ∀ (n v : Nat), v < n → P v = false → Q v = true →
    (∀ w, w < n → w ≠ v → Q w = P w) →
    (List.range n).countP Q = (List.range n).countP P + 1 := by
  intro n
  induction n with
  | zero => intro v hv; omega
  | succ n ih =>
    intro v hv hP hQ hoth
    rw [List.range_succ, List.countP_append, List.countP_append]
    by_cases hvn : v = n
    · subst hvn
      have : (List.range v).countP Q = (List.range v).countP P := by
        apply List.countP_congr
        intro w hw
        rw [List.mem_range] at hw
        rw [hoth w (by omega) (by omega)]
      simp [this, hP, hQ]
    · have h1 := ih v (by omega) hP hQ (fun w hw hne => hoth w (by omega) hne)
      have h2 : Q n = P n := hoth n (by omega) (by omega)
      rw [h1]
      simp only [List.countP_cons, List.countP_nil, h2]
      omega

theorem countP_range_same (P Q : Nat → Bool) (n : Nat) (h : ∀ w, w < n → Q w = P w) :
    (List.range n).countP Q = (List.range n).countP P := by
  apply List.countP_congr
  intro w hw
  rw [List.mem_range] at hw
  rw [h w hw]

namespace Os3_1

/-- Number of page faults that the trace reports for process `i`. -/
def faults (t : List Access) (i : Nat) : Nat :=
  t.countP (fun e => decide (e.pos = i) && e.pf)

/-- Number of entries of the table at byte `pt` whose valid flag is set. -/
def valid_pages (pas : Nat → Nat) (pt : Nat) : Nat :=
  (List.range 64).countP (fun v => decide (pas (pt + v * 4 + 1) = 1))

theorem flat_faults_snoc (t : List Access) (e : Access) (i : Nat) :
    faults (t ++ [e]) i = faults t i + (if e.pos = i ∧ e.pf = true then 1 else 0) := by
  simp only [faults, List.countP_append, List.countP_cons, List.countP_nil]
  by_cases h : e.pos = i <;> by_cases h2 : e.pf = true <;> simp [h, h2]

/-- The allocator agrees with the trace: `n` tables of 8 frames were handed out by
the loader, then one frame per reported page fault, and `allocate_frame` returned
exactly those frames, in increasing order. -/
structure LogInv (n : Nat) (s : Sim) : Prop where
  le : s.mach.allocated_frame_count ≤ 256
  count : s.mach.allocated_frame_count = 8 * n + s.trace.countP (fun e => e.pf)
  log : s.mach.returned = List.range' (8 * n) (s.trace.countP (fun e => e.pf))

theorem flat_log_init (n : Nat) (hn : 8 * n ≤ 256) (procs : List process) :
    LogInv n { mach := { pas := fun _ => 0, allocated_frame_count := 8 * n, returned := [] },
               procs := procs, processed_refs := 0, trace := [] } := by
  constructor <;> simp [hn]

theorem flat_log_step {n : Nat} {s : Sim} {i : Nat} {r : Except Sim Sim}
    (h : LogInv n s) (hs : Step s i r) : LogInv n (after r) := by
  cases hs with
  | idle _ => exact h
  | abort p v hp _ _ _ _ => exact ⟨h.le, h.count, h.log⟩
  | hit p v hp hlt hv hflag =>
    simp only [after, hit_state]
    refine ⟨h.le, ?_, ?_⟩
    · simp [List.countP_append, h.count]
    · simp [List.countP_append, h.log]
  | fault p v hp hlt hv hflag hc =>
    simp only [after, fault_state]
    refine ⟨by simp; omega, ?_, ?_⟩
    · simp [List.countP_append, h.count]; omega
    · simp [List.countP_append, h.log, h.count, List.range'_concat]

/-- The number of valid entries of each page table is the number of page faults
the trace reports for its process. -/
def ValidInv (n : Nat) (s : Sim) : Prop :=
  ∀ i, i < n → valid_pages s.mach.pas (i * 256) = faults s.trace i

theorem flat_valid_init (n : Nat) (c : Nat) (procs : List process) :
    ValidInv n { mach := { pas := fun _ => 0, allocated_frame_count := c, returned := [] },
                 procs := procs, processed_refs := 0, trace := [] } := by
  intro i _
  simp [valid_pages, faults]

theorem flat_valid_step {recs : List Record} {s : Sim} {i : Nat} {r : Except Sim Sim}
    (hst : Static recs s) (hpg : Pages recs) (h : ValidInv recs.length s) (hs : Step s i r) :
    ValidInv recs.length (after r) := by
  cases hs with
  | idle _ => exact h
  | abort p v hp _ _ _ _ => exact h
  | hit p v hp hlt hv hflag =>
    obtain ⟨hrec, hpt, hi⟩ := flat_static_get hst hp
    have hv64 : v < 64 := hpg _ (List.getElem?_mem hrec) v (List.getElem?_mem hv)
    simp only [after, hit_state, hpt, PTE_SIZE]
    intro j hj
    rw [flat_faults_snoc, ← h j hj]
    simp only [valid_pages, Bool.false_eq_true, and_false, if_false, Nat.add_zero]
    apply countP_range_same
    intro w hw
    have e1 := poke_other s.mach.pas (i * 256 + v * 4 + 2) (s.mach.pas (i * 256 + v * 4 + 2) + 1)
      (j * 256 + w * 4 + 1) (by omega)
    simp only [e1]
  | fault p v hp hlt hv hflag hc =>
    obtain ⟨hrec, hpt, hi⟩ := flat_static_get hst hp
    have hv64 : v < 64 := hpg _ (List.getElem?_mem hrec) v (List.getElem?_mem hv)
    have hflag' : s.mach.pas (i * 256 + v * 4 + 1) ≠ 1 := by
      rw [hpt] at hflag; simpa [PTE_SIZE] using hflag
    simp only [after, fault_state, hpt, PTE_SIZE, PAGE_VALID]
    intro j hj
    rw [flat_faults_snoc, ← h j hj]
    simp only [valid_pages]
    by_cases hij : i = j
    · subst hij
      simp only [and_self, if_true]
      apply countP_range_flip _ _ 64 v hv64
      · simpa using hflag'
      · have e1 : poke (poke (poke s.mach.pas (i * 256 + v * 4 + 1) 1) (i * 256 + v * 4)
            s.mach.allocated_frame_count) (i * 256 + v * 4 + 2) 1 (i * 256 + v * 4 + 1) = 1 := by
          rw [poke_other _ _ _ _ (by omega), poke_other _ _ _ _ (by omega), poke_same]
        simp only [e1, decide_True]
      · intro w hw hne
        have e1 : poke (poke (poke s.mach.pas (i * 256 + v * 4 + 1) 1) (i * 256 + v * 4)
            s.mach.allocated_frame_count) (i * 256 + v * 4 + 2) 1 (i * 256 + w * 4 + 1) =
            s.mach.pas (i * 256 + w * 4 + 1) := by
          rw [poke_other _ _ _ _ (by omega), poke_other _ _ _ _ (by omega),
            poke_other _ _ _ _ (by omega)]
        simp only [e1]
    · simp only [hij, false_and, if_false, Nat.add_zero]
      apply countP_range_same
      intro w hw
      have e1 : poke (poke (poke s.mach.pas (i * 256 + v * 4 + 1) 1) (i * 256 + v * 4)
          s.mach.allocated_frame_count) (i * 256 + v * 4 + 2) 1 (j * 256 + w * 4 + 1) =
          s.mach.pas (j * 256 + w * 4 + 1) := by
        rw [poke_other _ _ _ _ (by omega), poke_other _ _ _ _ (by omega),
          poke_other _ _ _ _ (by omega)]
      simp only [e1]

/-- The counters of the processes agree with the trace.  `extra i` is the number of
page faults counted for process `i` that have no trace line. -/
structure Book (extra : Nat → Nat) (s : Sim) : Prop where
  processed : s.processed_refs = s.trace.length
  cursor : ∀ i p, s.procs[i]? = some p → p.ref_count ≤ p.ref_len ∧
    (s.trace.filter (fun e => decide (e.pos = i))).map (fun e => (e.idx, e.page, e.pid)) =
      (List.range p.ref_count).map (fun k => (k, p.references.getD k 0, p.pid))
  faults : ∀ i p, s.procs[i]? = some p → p.page_faults = faults s.trace i + extra i

theorem flat_book_init (recs : List Record) (m : Machine) :
    Book (fun _ => 0)
      { mach := m, procs := mk_procs 0 recs, processed_refs := 0, trace := [] } := by
  constructor
  · rfl
  · intro i p hp
    rw [flat_mk_procs_getElem?] at hp
    cases hr : recs[i]? with
    | none => simp [hr] at hp
    | some r =>
      simp [hr] at hp
      subst hp
      simp
  · intro i p hp
    rw [flat_mk_procs_getElem?] at hp
    cases hr : recs[i]? with
    | none => simp [hr] at hp
    | some r =>
      simp [hr] at hp
      subst hp
      simp [Os3_1.faults]

theorem flat_book_step_ok {s s' : Sim} {i : Nat} (h : Book (fun _ => 0) s)
    (hs : Step s i (.ok s')) : Book (fun _ => 0) s' := by
  cases hs with
  | idle _ => exact h
  | hit p v hp hlt hv hflag =>
    simp only [hit_state]
    refine ⟨by simp [h.processed], ?_, ?_⟩
    · intro j q hq
      rcases set_getElem?_cases _ _ _ _ _ hq with ⟨rfl, rfl⟩ | ⟨hne, hq'⟩
      · have hc := (h.cursor i p hp).2
        have hlt' : p.ref_count < p.references.length := hlt
        refine ⟨hlt, ?_⟩
        simp only [List.filter_append, List.map_append, hc, List.range_succ]
        simp [hv]
      · have hc := h.cursor j q hq'
        refine ⟨hc.1, ?_⟩
        simp only [List.filter_append, List.map_append, hc.2]
        simp [hne]
    · intro j q hq
      rcases set_getElem?_cases _ _ _ _ _ hq with ⟨rfl, rfl⟩ | ⟨hne, hq'⟩
      · simp [flat_faults_snoc, h.faults i p hp]
      · simp [flat_faults_snoc, h.faults j q hq']
  | fault p v hp hlt hv hflag hc =>
    simp only [fault_state]
    refine ⟨by simp [h.processed], ?_, ?_⟩
    · intro j q hq
      rcases set_getElem?_cases _ _ _ _ _ hq with ⟨rfl, rfl⟩ | ⟨hne, hq'⟩
      · have hc := (h.cursor i p hp).2
        have hlt' : p.ref_count < p.references.length := hlt
        refine ⟨hlt, ?_⟩
        simp only [List.filter_append, List.map_append, hc, List.range_succ]
        simp [hv]
      · have hc := h.cursor j q hq'
        refine ⟨hc.1, ?_⟩
        simp only [List.filter_append, List.map_append, hc.2]
        simp [hne]
    · intro j q hq
      rcases set_getElem?_cases _ _ _ _ _ hq with ⟨rfl, rfl⟩ | ⟨hne, hq'⟩
      · simp [flat_faults_snoc, h.faults i p hp]
      · simp [flat_faults_snoc, h.faults j q hq', hne]

/-- What holds when `simulate` returns early: the allocator is exhausted, and the
process `i` whose reference could not be served has been charged a page fault that
has no trace line. -/
def Aborted (s : Sim) : Prop :=
  s.mach.allocated_frame_count = 256 ∧
  ∃ i p v, s.procs[i]? = some p ∧ p.ref_count < p.ref_len ∧
    p.references[p.ref_count]? = some v ∧
    s.mach.pas (p.page_table + v * 4 + 1) ≠ 1 ∧
    Book (fun j => if j = i then 1 else 0) s

theorem flat_book_step_error {s e : Sim} {i : Nat} (h : Book (fun _ => 0) s)
    (hcnt : s.mach.allocated_frame_count ≤ 256)
    (hs : Step s i (.error e)) : Aborted e := by
  cases hs with
  | abort p v hp hlt hv hflag hc =>
    have hil : i < s.procs.length := (List.getElem?_eq_some.mp hp).1
    refine ⟨by simp [abort_state]; omega, i, { p with page_faults := p.page_faults + 1 }, v,
      by simp [abort_state, hil], hlt, hv, by simpa [abort_state, PTE_SIZE] using hflag, ?_⟩
    simp only [abort_state]
    refine ⟨h.processed, ?_, ?_⟩
    · intro j q hq
      rcases set_getElem?_cases _ _ _ _ _ hq with ⟨rfl, rfl⟩ | ⟨hne, hq'⟩
      · exact h.cursor i p hp
      · exact h.cursor j q hq'
    · intro j q hq
      rcases set_getElem?_cases _ _ _ _ _ hq with ⟨rfl, rfl⟩ | ⟨hne, hq'⟩
      · simp [h.faults i p hp]
      · have : j ≠ i := fun h => hne h.symm
        simp [h.faults j q hq', this]

end Os3_1

/-- Sweep `k` of the round-robin order over processes with reference lengths
`lens`: the positions of the processes with more than `k` references, in input
order, each paired with `k`. -/
def row (lens : List Nat) (k : Nat) : List (Nat × Nat) :=
  ((List.range lens.length).filter (fun i => decide (k < lens.getD i 0))).map (fun i => (i, k))

/-- The first `K` sweeps of the round-robin order. -/
def sched (lens : List Nat) (K : Nat) : List (Nat × Nat) :=
  (List.range K).flatMap (row lens)

/-- The round-robin order: sweeps `0, 1, 2, ...` up to the longest length. -/
def schedule (lens : List Nat) : List (Nat × Nat) :=
  sched lens (lens.foldr max 0)

theorem sched_succ (lens : List Nat) (K : Nat) :
    sched lens (K + 1) = sched lens K ++ row lens K := by
  simp [sched, List.range_succ, List.flatMap_append]

theorem maxlen_le_iff (lens : List Nat) (k : Nat) :
    lens.foldr max 0 ≤ k ↔ ∀ x ∈ lens, x ≤ k := by
  induction lens with
  | nil => simp
  | cons a rest ih => simp [ih]

theorem row_eq_nil_iff (lens : List Nat) (k : Nat) :
    row lens k = [] ↔ ∀ x ∈ lens, x ≤ k := by
  simp only [row, List.map_eq_nil_iff, List.filter_eq_nil_iff, List.mem_range, decide_eq_true_eq,
    Nat.not_lt]
  constructor
  · intro h x hx
    obtain ⟨i, hi, rfl⟩ := List.getElem_of_mem hx
    have := h i hi
    simpa [List.getD_eq_getElem?_getD, hi] using this
  · intro h i hi
    have : lens.getD i 0 = lens[i] := by simp [List.getD_eq_getElem?_getD, hi]
    rw [this]
    exact h _ (List.getElem_mem hi)

theorem sched_of_le (lens : List Nat) : ∀ (d K : Nat), (∀ x ∈ lens, x ≤ K) →
    sched lens (K + d) = sched lens K := by
  intro d
  induction d with
  | zero => intro K _; rfl
  | succ d ih =>
    intro K hK
    have h1 : K + (d + 1) = (K + d) + 1 := by omega
    rw [h1, sched_succ, ih K hK]
    have : row lens (K + d) = [] := by
      rw [row_eq_nil_iff]
      intro x hx
      have := hK x hx
      omega
    simp [this]

theorem sched_eq_schedule (lens : List Nat) (K : Nat) (hK : ∀ x ∈ lens, x ≤ K) :
    sched lens K = schedule lens := by
  have hm : lens.foldr max 0 ≤ K := (maxlen_le_iff lens K).mpr hK
  have h := sched_of_le lens (K - lens.foldr max 0) (lens.foldr max 0)
    ((maxlen_le_iff lens _).mp (Nat.le_refl _))
  have h2 : lens.foldr max 0 + (K - lens.foldr max 0) = K := by omega
  rw [h2] at h
  exact h

theorem sched_prefix (lens : List Nat) : ∀ (d K : Nat), sched lens K <+: sched lens (K + d) := by
  intro d
  induction d with
  | zero => intro K; exact List.prefix_refl _
  | succ d ih =>
    intro K
    have h1 : K + (d + 1) = (K + d) + 1 := by omega
    rw [h1, sched_succ]
    exact (ih K).trans (List.prefix_append _ _)

theorem sched_row_prefix (lens : List Nat) (k : Nat) (l : List (Nat × Nat))
    (hl : l <+: row lens k) (hk : k < lens.foldr max 0) : sched lens k ++ l <+: schedule lens := by
  have h1 : sched lens k ++ l <+: sched lens (k + 1) := by
    rw [sched_succ]
    exact (List.prefix_append_right_inj _).mpr hl
  have h2 := sched_prefix lens (lens.foldr max 0 - (k + 1)) (k + 1)
  have h3 : k + 1 + (lens.foldr max 0 - (k + 1)) = lens.foldr max 0 := by omega
  rw [h3] at h2
  exact h1.trans h2

/-- The part of sweep `k` that belongs to the processes `j, ..., j + m - 1`. -/
def row_part (lens : List Nat) (k j m : Nat) : List (Nat × Nat) :=
  ((List.range' j m).filter (fun i => decide (k < lens.getD i 0))).map (fun i => (i, k))

theorem row_part_zero (lens : List Nat) (k : Nat) : row_part lens k 0 lens.length = row lens k := by
  simp [row_part, row, List.range_eq_range']

theorem row_part_succ (lens : List Nat) (k j m : Nat) :
    row_part lens k j (m + 1) =
      (if k < lens.getD j 0 then [(j, k)] else []) ++ row_part lens k (j + 1) m := by
  simp only [row_part, List.range'_succ, List.filter_cons]
  split <;> simp_all

theorem sum_lt_sum_iff {α : Type} (f g : α → Nat) (l : List α) (h : ∀ a ∈ l, f a ≤ g a) :
    (l.map f).sum < (l.map g).sum ↔ ∃ a ∈ l, f a < g a := by
  induction l with
  | nil => simp
  | cons a rest ih =>
    have h1 := h a (List.mem_cons_self _ _)
    have h2 := ih (fun b hb => h b (List.mem_cons_of_mem _ hb))
    have h3 : (rest.map f).sum ≤ (rest.map g).sum := by
      apply List.sum_le_sum
      intro b hb
      exact h b (List.mem_cons_of_mem _ hb)
    simp only [List.map_cons, List.sum_cons, List.mem_cons, exists_eq_or_imp]
    constructor
    · intro hlt
      by_cases ha : f a < g a
      · exact Or.inl ha
      · right
        apply h2.mp
        omega
    · rintro (ha | hr)
      · omega
      · have := h2.mpr hr
        omega

theorem sum_map_set {α : Type} (f : α → Nat) : ∀ (l : List α) (i : Nat) (a b : α),
    l[i]? = some a → f b = f a + 1 → ((l.set i b).map f).sum = (l.map f).sum + 1 := by
  intro l
  induction l with
  | nil => intro i a b h; simp at h
  | cons x rest ih =>
    intro i a b h hf
    cases i with
    | zero =>
      simp at h
      subst h
      simp only [List.set_cons_zero, List.map_cons, List.sum_cons, hf]
      omega
    | succ i =>
      simp at h
      simp only [List.set_cons_succ, List.map_cons, List.sum_cons, ih i a b h hf]
      omega

namespace Os3_1

/-- The pairs (process position, printed index) of a trace. -/
def keys (t : List Access) : List (Nat × Nat) := t.map (fun e => (e.pos, e.idx))

/-- Cursor positions inside sweep `k` when the processes before position `j` have
had their turn. -/
def Cursors (lens : List Nat) (k j : Nat) (s : Sim) : Prop :=
  s.procs.map process.ref_len = lens ∧
  s.processed_refs = (s.procs.map process.ref_count).sum ∧
  ∀ i p, s.procs[i]? = some p →
    p.ref_count = if i < j then min (k + 1) p.ref_len else min k p.ref_len

theorem flat_cursors_len {lens : List Nat} {k j : Nat} {s : Sim} (h : Cursors lens k j s)
    {i : Nat} {p : process} (hp : s.procs[i]? = some p) : lens.getD i 0 = p.ref_len := by
  rw [← h.1]
  simp [List.getD_eq_getElem?_getD, hp]

theorem flat_cursors_serve {lens : List Nat} {k j : Nat} {s : Sim} (h : Cursors lens k j s)
    (hj : j < s.procs.length) :
    (∀ s', service s j = .ok s' → Cursors lens k (j + 1) s' ∧
      keys s'.trace = keys s.trace ++ (if k < lens.getD j 0 then [(j, k)] else [])) ∧
    (∀ e, service s j = .error e → k < lens.getD j 0 ∧ keys e.trace = keys s.trace) := by
  have hstep := flat_service_step s j
  obtain ⟨p0, hp0⟩ : ∃ p0, s.procs[j]? = some p0 := ⟨s.procs[j], by simp [hj]⟩
  have hlen0 := flat_cursors_len h hp0
  have hc0 := h.2.2 j p0 hp0
  simp only [Nat.lt_irrefl, if_false] at hc0
  have key : ∀ (q : process), q.references = p0.references → q.ref_count = p0.ref_count + 1 →
      p0.ref_count < p0.ref_len →
      (s.procs.set j q).map process.ref_len = lens ∧
      ∀ i p, (s.procs.set j q)[i]? = some p →
        p.ref_count = if i < j + 1 then min (k + 1) p.ref_len else min k p.ref_len := by
    intro q hq1 hq2 hlt
    constructor
    · rw [← h.1]
      apply List.ext_getElem?
      intro i
      simp only [List.getElem?_map]
      exact getElem?_set_map process.ref_len s.procs j p0 q hp0
        (by simp [process.ref_len, hq1]) i
    · intro i p hp
      rcases set_getElem?_cases _ _ _ _ _ hp with ⟨rfl, rfl⟩ | ⟨hne, hp'⟩
      · have : p.ref_len = p0.ref_len := by simp [process.ref_len, hq1]
        simp only [Nat.lt_succ_self, if_true, hq2, this]
        omega
      · have := h.2.2 i p hp'
        rw [this]
        by_cases hij : i < j
        · have : i < j + 1 := by omega
          simp [hij, this]
        · have : ¬ i < j + 1 := by omega
          simp [hij, this]
  generalize service s j = r at hstep
  cases hstep with
  | idle hid =>
    have hle := hid p0 hp0
    have hk : ¬ k < lens.getD j 0 := by rw [hlen0]; omega
    refine ⟨?_, by intro e he; cases he⟩
    intro s' hs'
    cases hs'
    refine ⟨⟨h.1, h.2.1, ?_⟩, by rw [if_neg hk]; simp⟩
    intro i p hp
    have := h.2.2 i p hp
    rw [this]
    by_cases hij : i < j
    · have : i < j + 1 := by omega
      simp [hij, this]
    · by_cases hij2 : i = j
      · subst hij2
        rw [hp0] at hp
        cases hp
        simp
        omega
      · have : ¬ i < j + 1 := by omega
        simp [hij, this]
  | hit p v hp hlt hv hflag =>
    rw [hp0] at hp
    cases hp
    have hk : k < lens.getD j 0 := by rw [hlen0]; omega
    have hkk : p0.ref_count = k := by omega
    refine ⟨?_, by intro e he; cases he⟩
    intro s' hs'
    cases hs'
    have := key { p0 with ref_count := p0.ref_count + 1 } rfl rfl hlt
    refine ⟨⟨this.1, ?_, this.2⟩, by rw [if_pos hk]; simp [hit_state, keys, hkk]⟩
    simp only [hit_state]
    rw [sum_map_set process.ref_count s.procs j p0 _ hp0 rfl, h.2.1]
  | fault p v hp hlt hv hflag hc =>
    rw [hp0] at hp
    cases hp
    have hk : k < lens.getD j 0 := by rw [hlen0]; omega
    have hkk : p0.ref_count = k := by omega
    refine ⟨?_, by intro e he; cases he⟩
    intro s' hs'
    cases hs'
    have := key { p0 with page_faults := p0.page_faults + 1, ref_count := p0.ref_count + 1 }
      rfl rfl hlt
    refine ⟨⟨this.1, ?_, this.2⟩, by rw [if_pos hk]; simp [fault_state, keys, hkk]⟩
    simp only [fault_state]
    rw [sum_map_set process.ref_count s.procs j p0 _ hp0 rfl, h.2.1]
  | abort p v hp hlt hv hflag hc =>
    rw [hp0] at hp
    cases hp
    have hk : k < lens.getD j 0 := by rw [hlen0]; omega
    refine ⟨fun s' hs' => (by cases hs'), ?_⟩
    intro e he
    cases he
    exact ⟨hk, rfl⟩

end Os3_1

namespace Os3_1

theorem flat_cursors_length {lens : List Nat} {k j : Nat} {s : Sim} (h : Cursors lens k j s) :
    s.procs.length = lens.length := by
  rw [← h.1]; simp

theorem flat_cursors_sweep {lens : List Nat} {k : Nat} : ∀ (m j : Nat) (s : Sim),
    j + m ≤ lens.length → Cursors lens k j s →
    (∀ s', sweep (List.range' j m) s = .ok s' →
      Cursors lens k (j + m) s' ∧ keys s'.trace = keys s.trace ++ row_part lens k j m) ∧
    (∀ e, sweep (List.range' j m) s = .error e →
      k < lens.foldr max 0 ∧ ∃ l, l <+: row_part lens k j m ∧ keys e.trace = keys s.trace ++ l) := by
  intro m
  induction m with
  | zero =>
    intro j s _ h
    constructor
    · intro s' hs'
      simp [sweep] at hs'
      subst hs'
      exact ⟨h, by simp [row_part]⟩
    · intro e he
      simp [sweep] at he
  | succ m ih =>
    intro j s hjm h
    have hj : j < s.procs.length := by rw [flat_cursors_length h]; omega
    have hsv := flat_cursors_serve h hj
    rw [List.range'_succ, row_part_succ]
    cases hr : service s j with
    | error e0 =>
      constructor
      · intro s' hs'
        simp [sweep, hr] at hs'
      · intro e he
        simp [sweep, hr] at he
        subst he
        obtain ⟨hk, hke⟩ := hsv.2 e0 hr
        refine ⟨?_, [], by simp, by simp [hke]⟩
        by_contra hcon
        have hle := (maxlen_le_iff lens k).mp (by omega)
        have hjl : j < lens.length := by omega
        have hx : lens.getD j 0 = lens[j] := by simp [List.getD_eq_getElem?_getD, hjl]
        have := hle _ (List.getElem_mem hjl)
        omega
    | ok s1 =>
      obtain ⟨hc1, hk1⟩ := hsv.1 s1 hr
      have h2 := ih (j + 1) s1 (by omega) hc1
      constructor
      · intro s' hs'
        simp only [sweep, hr] at hs'
        obtain ⟨hc', hk'⟩ := h2.1 s' hs'
        have e1 : j + 1 + m = j + (m + 1) := by omega
        rw [e1] at hc'
        exact ⟨hc', by rw [hk', hk1, List.append_assoc]⟩
      · intro e he
        simp only [sweep, hr] at he
        obtain ⟨hlt, l, hl, hke⟩ := h2.2 e he
        refine ⟨hlt, (if k < lens.getD j 0 then [(j, k)] else []) ++ l, ?_, ?_⟩
        · exact (List.prefix_append_right_inj _).mpr hl
        · rw [hke, hk1, List.append_assoc]

/-- What the round-robin order says of an outcome of the `while` loop entered at
sweep `k` with `fuel` iterations allowed. -/
def Ordered (lens : List Nat) (k fuel : Nat) : Outcome Sim → Prop
  | .finished s => keys s.trace = schedule lens ∧ ∀ p ∈ s.procs, p.ref_count = p.ref_len
  | .out_of_memory e => keys e.trace <+: schedule lens
  | .out_of_fuel s => keys s.trace = sched lens (k + fuel) ∧ k + fuel < lens.foldr max 0

theorem flat_cursors_loop {lens : List Nat} : ∀ (fuel k : Nat) (s : Sim),
    Cursors lens k 0 s → keys s.trace = sched lens k →
    Ordered lens k fuel (while_loop lens.sum fuel s) := by
  intro fuel
  induction fuel with
  | zero =>
    intro k s h hk
    have hle : ∀ p ∈ s.procs, p.ref_count ≤ p.ref_len := by
      intro p hp
      obtain ⟨i, hi⟩ := List.mem_iff_getElem?.mp hp
      have := h.2.2 i p hi
      simp at this
      omega
    have hcond := sum_lt_sum_iff process.ref_count process.ref_len s.procs hle
    rw [h.1, ← h.2.1] at hcond
    unfold while_loop
    by_cases hc : s.processed_refs < lens.sum
    · simp only [hc, if_true, Ordered]
      refine ⟨hk, ?_⟩
      obtain ⟨p, hp, hlt⟩ := hcond.mp hc
      obtain ⟨i, hi⟩ := List.mem_iff_getElem?.mp hp
      have := h.2.2 i p hi
      simp at this
      have hx : p.ref_len ∈ lens := by
        rw [← h.1]; exact List.mem_map_of_mem _ hp
      by_contra hcon
      have := (maxlen_le_iff lens k).mp (by omega) _ hx
      omega
    · simp only [hc, if_false, Ordered]
      have hall : ∀ p ∈ s.procs, p.ref_count = p.ref_len := by
        intro p hp
        by_contra hne
        exact hc (hcond.mpr ⟨p, hp, by have := hle p hp; omega⟩)
      refine ⟨?_, hall⟩
      rw [hk]
      apply sched_eq_schedule
      intro x hx
      rw [← h.1] at hx
      obtain ⟨p, hp, rfl⟩ := List.mem_map.mp hx
      obtain ⟨i, hi⟩ := List.mem_iff_getElem?.mp hp
      have h1 := h.2.2 i p hi
      have h2 := hall p hp
      simp at h1
      omega
  | succ fuel ih =>
    intro k s h hk
    have hle : ∀ p ∈ s.procs, p.ref_count ≤ p.ref_len := by
      intro p hp
      obtain ⟨i, hi⟩ := List.mem_iff_getElem?.mp hp
      have := h.2.2 i p hi
      simp at this
      omega
    have hcond := sum_lt_sum_iff process.ref_count process.ref_len s.procs hle
    rw [h.1, ← h.2.1] at hcond
    unfold while_loop
    by_cases hc : s.processed_refs < lens.sum
    · simp only [hc, if_true]
      have hsw := flat_cursors_sweep lens.length 0 s (by omega) h
      rw [flat_cursors_length h, List.range_eq_range']
      cases hr : Os3_1.sweep (List.range' 0 lens.length) s with
      | error e =>
        obtain ⟨hlt, l, hl, hke⟩ := hsw.2 e hr
        simp only [Ordered]
        rw [hke, hk]
        rw [row_part_zero] at hl
        exact sched_row_prefix lens k l hl hlt
      | ok s1 =>
        obtain ⟨hc1, hk1⟩ := hsw.1 s1 hr
        rw [row_part_zero, hk, ← sched_succ] at hk1
        have hc2 : Cursors lens (k + 1) 0 s1 := by
          refine ⟨hc1.1, hc1.2.1, ?_⟩
          intro i p hp
          have hi : i < s1.procs.length := (List.getElem?_eq_some.mp hp).1
          rw [flat_cursors_length hc1] at hi
          have := hc1.2.2 i p hp
          simp only [Nat.zero_add, hi, if_true] at this
          simpa using this
        have := ih (k + 1) s1 hc2 hk1
        simp only
        cases hw : while_loop lens.sum fuel s1 with
        | finished s2 => rw [hw] at this; exact this
        | out_of_memory e => rw [hw] at this; exact this
        | out_of_fuel s2 =>
          rw [hw] at this
          simp only [Ordered] at this ⊢
          have e1 : k + 1 + fuel = k + (fuel + 1) := by omega
          rw [e1] at this
          exact this
    · simp only [hc, if_false, Ordered]
      have hall : ∀ p ∈ s.procs, p.ref_count = p.ref_len := by
        intro p hp
        by_contra hne
        exact hc (hcond.mpr ⟨p, hp, by have := hle p hp; omega⟩)
      refine ⟨?_, hall⟩
      rw [hk]
      apply sched_eq_schedule
      intro x hx
      rw [← h.1] at hx
      obtain ⟨p, hp, rfl⟩ := List.mem_map.mp hx
      obtain ⟨i, hi⟩ := List.mem_iff_getElem?.mp hp
      have h1 := h.2.2 i p hi
      have h2 := hall p hp
      simp at h1
      omega

/-- Reference lengths of the loaded records. -/
def lens_of (recs : List Record) : List Nat := recs.map (fun r => r.2.length)

theorem flat_mk_procs_map_ref_len (recs : List Record) (base : Nat) :
    (mk_procs base recs).map process.ref_len = recs.map (fun r => r.2.length) := by
  induction recs generalizing base with
  | nil => rfl
  | cons r rest ih => simp [mk_procs, process.ref_len, ih]

theorem flat_mk_procs_map_ref_count (recs : List Record) (base : Nat) :
    ((mk_procs base recs).map process.ref_count).sum = 0 := by
  induction recs generalizing base with
  | nil => rfl
  | cons r rest ih => simp [mk_procs, ih]

theorem flat_cursors_init (recs : List Record) (m : Machine) :
    Cursors (recs.map (fun r => r.2.length)) 0 0
      { mach := m, procs := mk_procs 0 recs, processed_refs := 0, trace := [] } := by
  refine ⟨flat_mk_procs_map_ref_len recs 0, by simp [flat_mk_procs_map_ref_count], ?_⟩
  intro i p hp
  rw [flat_mk_procs_getElem?] at hp
  cases hr : recs[i]? with
  | none => simp [hr] at hp
  | some r =>
    simp [hr] at hp
    subst hp
    simp

/-- Round-robin order of `simulate` on the loaded records. -/
theorem flat_simulate_ordered (recs : List Record) (m : Machine) (fuel : Nat) :
    Ordered (recs.map (fun r => r.2.length)) 0 fuel (simulate fuel m (mk_procs 0 recs)) := by
  have h := flat_cursors_loop fuel 0 _ (flat_cursors_init recs m) (by simp [keys, sched])
  simpa [simulate, total_references_to_process, flat_mk_procs_map_ref_len] using h

end Os3_1

namespace Os3_1

/-- Everything that holds of the state of `simulate` between two loop bodies, for
loaded records `recs` with pages below `VAS_PAGES`. -/
structure Inv (recs : List Record) (s : Sim) : Prop where
  static : Static recs s
  log : LogInv recs.length s
  mem : MemInv recs.length s
  valid : ValidInv recs.length s
  book : Book (fun _ => 0) s

/-- Everything that holds of the state in which `simulate` returns early. -/
structure AbortInv (recs : List Record) (s : Sim) : Prop where
  static : Static recs s
  log : LogInv recs.length s
  mem : MemInv recs.length s
  valid : ValidInv recs.length s
  aborted : Aborted s

/-- The state in which `main` enters `simulate` after loading `recs`. -/
def start (recs : List Record) : Sim :=
  { mach := { pas := fun _ => 0, allocated_frame_count := 8 * recs.length, returned := [] },
    procs := mk_procs 0 recs, processed_refs := 0, trace := [] }

theorem flat_inv_start (recs : List Record) (hn : recs.length ≤ 32) : Inv recs (start recs) :=
  ⟨flat_static_init recs _, flat_log_init _ (by omega) _, flat_mem_init _ _ (by omega) _,
    flat_valid_init _ _ _, flat_book_init recs _⟩

theorem flat_inv_step_ok {recs : List Record} (hpg : Pages recs) (s : Sim) (i : Nat) (s' : Sim)
    (h : Inv recs s) (hs : service s i = .ok s') : Inv recs s' := by
  have hstep := flat_service_step s i
  rw [hs] at hstep
  exact ⟨flat_static_step h.static hstep, flat_log_step h.log hstep,
    flat_mem_step h.static hpg h.mem hstep, flat_valid_step h.static hpg h.valid hstep,
    flat_book_step_ok h.book hstep⟩

theorem flat_inv_step_error {recs : List Record} (hpg : Pages recs) (s : Sim) (i : Nat) (e : Sim)
    (h : Inv recs s) (hs : service s i = .error e) : AbortInv recs e := by
  have hstep := flat_service_step s i
  rw [hs] at hstep
  exact ⟨flat_static_step h.static hstep, flat_log_step h.log hstep,
    flat_mem_step h.static hpg h.mem hstep, flat_valid_step h.static hpg h.valid hstep,
    flat_book_step_error h.book h.log.le hstep⟩

theorem flat_simulate_inv (recs : List Record) (hpg : Pages recs) (hn : recs.length ≤ 32)
    (fuel : Nat) :
    Outcome_sat (Inv recs) (AbortInv recs)
      (simulate fuel (start recs).mach (mk_procs 0 recs)) :=
  flat_while_induction _ _ (flat_inv_step_ok hpg) (flat_inv_step_error hpg) _ fuel _ (flat_inv_start recs hn)

theorem flat_outcome_of_same {P : Sim → Prop} {o : Outcome Sim} (h : Outcome_sat P P o) :
    P o.state := by
  cases o <;> exact h

theorem flat_simulate_log (recs : List Record) (hn : recs.length ≤ 32) (fuel : Nat) :
    LogInv recs.length (simulate fuel (start recs).mach (mk_procs 0 recs)).state := by
  have h := flat_while_induction (LogInv recs.length) (LogInv recs.length)
    (fun s i s' h hs => by
      have hstep := flat_service_step s i
      rw [hs] at hstep
      exact flat_log_step h hstep)
    (fun s i e h hs => by
      have hstep := flat_service_step s i
      rw [hs] at hstep
      exact flat_log_step h hstep)
    (total_references_to_process (mk_procs 0 recs)) fuel (start recs)
    (flat_log_init _ (by omega) _)
  exact flat_outcome_of_same h

theorem flat_run_start (fuel : Nat) (input : List Record) :
    run fuel input =
      some (simulate fuel (start (input.take 10)).mach (mk_procs 0 (input.take 10))) :=
  flat_run_eq fuel input

theorem take_length_le (input : List Record) : (input.take 10).length ≤ 32 := by
  simp

end Os3_1

theorem shiftRight_three (v : Nat) : v >>> 3 = v / 8 := by
  rw [Nat.shiftRight_eq_div_pow]

theorem land_seven (v : Nat) : v &&& 0x07 = v % 8 := by
  have := Nat.and_pow_two_sub_one_eq_mod v 3
  simpa using this

namespace Os3_2

/-- The ways the loop body can go. -/
inductive Step (idx : Nat) (s : Sim) (d : Bool) (p : Nat) : Except Sim (Sim × Bool) → Prop where
  | idle : (∀ proc, s.procs[p]? = some proc → proc.ref_len ≤ idx) → Step idx s d p (.ok (s, d))
  | l1_abort (proc : process) (vpn : Nat) : s.procs[p]? = some proc → idx < proc.ref_len →
      proc.references[idx]? = some vpn →
      level1 s.mach proc (proc.L1_page_table + vpn / 8 * 4) = none →
      Step idx s d p (.error s)
  | l2_abort (proc : process) (vpn : Nat) (m1 : Machine) (proc1 : process) (l1_pf : Bool) :
      s.procs[p]? = some proc → idx < proc.ref_len →
      proc.references[idx]? = some vpn →
      level1 s.mach proc (proc.L1_page_table + vpn / 8 * 4) = some (m1, proc1, l1_pf) →
      level2 m1 proc1 (m1.pas (proc.L1_page_table + vpn / 8 * 4) * 32 + vpn % 8 * 4) = none →
      Step idx s d p (.error { s with mach := m1, procs := s.procs.set p proc1 })
  | done (proc : process) (vpn : Nat) (m1 : Machine) (proc1 : process) (l1_pf : Bool)
      (m2 : Machine) (proc2 : process) (l2_pf : Bool) :
      s.procs[p]? = some proc → idx < proc.ref_len →
      proc.references[idx]? = some vpn →
      level1 s.mach proc (proc.L1_page_table + vpn / 8 * 4) = some (m1, proc1, l1_pf) →
      level2 m1 proc1 (m1.pas (proc.L1_page_table + vpn / 8 * 4) * 32 + vpn % 8 * 4) =
        some (m2, proc2, l2_pf) →
      Step idx s d p (.ok (
        { mach := m2,
          procs := s.procs.set p { proc2 with ref_count := proc2.ref_count + 1 },
          trace := s.trace ++ [
            { pos := p, pid := proc.pid, idx := idx, page := vpn,
              l1_pf := l1_pf, l1_frame := m2.pas (proc.L1_page_table + vpn / 8 * 4),
              l2_pf := l2_pf,
              l2_frame :=
                m2.pas (m1.pas (proc.L1_page_table + vpn / 8 * 4) * 32 + vpn % 8 * 4) }] },
        false))

theorem hier_service_step (idx : Nat) (s : Sim) (d : Bool) (p : Nat) :
    Step idx s d p (service idx (s, d) p) := by
  unfold service
  cases hp : s.procs[p]? with
  | none => exact Step.idle (by simp [hp])
  | some proc =>
    by_cases hlt : idx < proc.ref_len
    · have hlt' : idx < proc.references.length := hlt
      have hg : proc.references.getD idx 0 = proc.references[idx] := by
        simp [List.getD_eq_getElem?_getD, hlt']
      have hr : proc.references[idx]? = some proc.references[idx] := by simp [hlt']
      have hge : ¬ idx ≥ proc.ref_len := by omega
      simp only [hge, if_false, hg, shiftRight_three, land_seven, PTE_SIZE, PAGESIZE]
      cases h1 : level1 s.mach proc (proc.L1_page_table + proc.references[idx] / 8 * 4) with
      | none => exact Step.l1_abort proc _ hp hlt hr h1
      | some r1 =>
        obtain ⟨m1, proc1, l1_pf⟩ := r1
        simp only
        cases h2 : level2 m1 proc1
            (m1.pas (proc.L1_page_table + proc.references[idx] / 8 * 4) * 32 +
              proc.references[idx] % 8 * 4) with
        | none => exact Step.l2_abort proc _ m1 proc1 l1_pf hp hlt hr h1 h2
        | some r2 =>
          obtain ⟨m2, proc2, l2_pf⟩ := r2
          exact Step.done proc _ m1 proc1 l1_pf m2 proc2 l2_pf hp hlt hr h1 h2
    · have hge : idx ≥ proc.ref_len := by omega
      simp only [hge, if_true]
      exact Step.idle (by intro q hq; simp [hp] at hq; subst hq; omega)

/-- What `level1` does, by cases on the valid flag of the entry. -/
theorem level1_spec (m : Machine) (proc : process) (e : Nat) :
    (m.pas (e + 1) ≠ 0 ∧ level1 m proc e = some (m, proc, false)) ∨
    (m.pas (e + 1) = 0 ∧ 256 ≤ m.allocated_frame_count ∧ level1 m proc e = none) ∨
    (m.pas (e + 1) = 0 ∧ m.allocated_frame_count < 256 ∧
      level1 m proc e = some
        ({ pas := memset0 (poke (poke m.pas e m.allocated_frame_count) (e + 1) 1)
                    (m.allocated_frame_count * 32) 32,
           allocated_frame_count := m.allocated_frame_count + 1,
           returned := m.returned ++ [m.allocated_frame_count] },
         { proc with page_faults := proc.page_faults + 1 }, true)) := by
  unfold level1
  by_cases h : m.pas (e + 1) = 0
  · right
    by_cases hc : m.allocated_frame_count < 256
    · right
      have hn : ¬ (m.allocated_frame_count ≥ PAS_FRAMES) := by simp [PAS_FRAMES]; omega
      refine ⟨h, hc, ?_⟩
      simp [h, PAGE_INVALID, allocate_frame, hn, PAGE_VALID, PAGESIZE]
    · left
      have hn : m.allocated_frame_count ≥ PAS_FRAMES := by simp [PAS_FRAMES]; omega
      refine ⟨h, by omega, ?_⟩
      simp [h, PAGE_INVALID, allocate_frame, hn]
  · left
    exact ⟨h, by simp [h, PAGE_INVALID]⟩

/-- What `level2` does, by cases on the valid flag of the entry. -/
theorem level2_spec (m : Machine) (proc : process) (e : Nat) :
    (m.pas (e + 1) ≠ 0 ∧ level2 m proc e =
      some ({ m with pas := poke m.pas (e + 2) (m.pas (e + 2) + 1) }, proc, false)) ∨
    (m.pas (e + 1) = 0 ∧ 256 ≤ m.allocated_frame_count ∧ level2 m proc e = none) ∨
    (m.pas (e + 1) = 0 ∧ m.allocated_frame_count < 256 ∧
      level2 m proc e = some
        ({ pas := poke (poke (poke m.pas e m.allocated_frame_count) (e + 1) 1) (e + 2)
                    (m.pas (e + 2) + 1),
           allocated_frame_count := m.allocated_frame_count + 1,
           returned := m.returned ++ [m.allocated_frame_count] },
         { proc with page_faults := proc.page_faults + 1 }, true)) := by
  unfold level2
  by_cases h : m.pas (e + 1) = 0
  · right
    by_cases hc : m.allocated_frame_count < 256
    · right
      have hn : ¬ (m.allocated_frame_count ≥ PAS_FRAMES) := by simp [PAS_FRAMES]; omega
      refine ⟨h, hc, ?_⟩
      have e1 : poke (poke m.pas e m.allocated_frame_count) (e + 1) 1 (e + 2) = m.pas (e + 2) := by
        rw [poke_other _ _ _ _ (by omega), poke_other _ _ _ _ (by omega)]
      simp [h, PAGE_INVALID, allocate_frame, hn, PAGE_VALID, e1]
    · left
      have hn : m.allocated_frame_count ≥ PAS_FRAMES := by simp [PAS_FRAMES]; omega
      refine ⟨h, by omega, ?_⟩
      simp [h, PAGE_INVALID, allocate_frame, hn]
  · left
    exact ⟨h, by simp [h, PAGE_INVALID]⟩

/-- Invariant rule for the loop body, lifted to the inner loop. -/
theorem hier_sweep_induction (P Q : Sim → Prop) (idx : Nat)
    (hok : ∀ s d p s' d', P s → service idx (s, d) p = .ok (s', d') → P s')
    (herr : ∀ s d p e, P s → service idx (s, d) p = .error e → Q e) :
    ∀ (l : List Nat) (s : Sim) (d : Bool), P s →
      (∀ s' d', sweep idx l (s, d) = .ok (s', d') → P s') ∧
      (∀ e, sweep idx l (s, d) = .error e → Q e) := by
  intro l
  induction l with
  | nil =>
    intro s d hs
    constructor
    · intro s' d' h; simp [sweep] at h; rw [← h.1]; exact hs
    · intro e h; simp [sweep] at h
  | cons i rest ih =>
    intro s d hs
    cases hsv : service idx (s, d) i with
    | error e0 =>
      constructor
      · intro s' d' h; simp [sweep, hsv] at h
      · intro e h; simp [sweep, hsv] at h; subst h; exact herr s d i e0 hs hsv
    | ok sd1 =>
      obtain ⟨s1, d1⟩ := sd1
      have h1 := ih s1 d1 (hok s d i s1 d1 hs hsv)
      simpa [sweep, hsv] using h1

/-- What an invariant `P` of the loop body (with `Q` at an abort) says of an outcome. -/
def Outcome_sat (P Q : Sim → Prop) : Outcome Sim → Prop
  | .finished s => P s
  | .out_of_memory e => Q e
  | .out_of_fuel s => P s

/-- Invariant rule for the loop body, lifted to the outer loop. -/
theorem hier_outer_induction (P Q : Sim → Prop)
    (hok : ∀ idx s d p s' d', P s → service idx (s, d) p = .ok (s', d') → P s')
    (herr : ∀ idx s d p e, P s → service idx (s, d) p = .error e → Q e) :
    ∀ (fuel idx : Nat) (s : Sim), P s → Outcome_sat P Q (outer_loop fuel idx s) := by
  intro fuel
  induction fuel with
  | zero => intro idx s hs; exact hs
  | succ fuel ih =>
    intro idx s hs
    unfold outer_loop
    have h := hier_sweep_induction P Q idx (hok idx) (herr idx) (List.range s.procs.length) s true hs
    cases hsw : sweep idx (List.range s.procs.length) (s, true) with
    | error e => exact h.2 e hsw
    | ok sd1 =>
      obtain ⟨s1, d1⟩ := sd1
      have hs1 := h.1 s1 d1 hsw
      simp only
      split
      · exact hs1
      · exact ih (idx + 1) s1 hs1

theorem hier_outcome_of_same {P : Sim → Prop} {o : Outcome Sim} (h : Outcome_sat P P o) :
    P o.state := by
  cases o <;> exact h

end Os3_2

namespace Os3_2

/-- The array `procs` the loading loop builds from the records `recs`, the first
of them getting the level-1 table in frame `base`. -/
def mk_procs (base : Nat) : List Record → List process
  | [] => []
  | r :: rest =>
    { pid := r.1, references := r.2, L1_page_table := base * 32, page_faults := 0,
      ref_count := 0 } :: mk_procs (base + 1) rest

theorem hier_mk_procs_getElem? (recs : List Record) : ∀ (base i : Nat),
    (mk_procs base recs)[i]? = (recs[i]?).map (fun r =>
      { pid := r.1, references := r.2, L1_page_table := (base + i) * 32,
        page_faults := 0, ref_count := 0 }) := by
  induction recs with
  | nil => intro base i; simp [mk_procs]
  | cons r rest ih =>
    intro base i
    cases i with
    | zero => simp [mk_procs]
    | succ i =>
      simp only [mk_procs, List.getElem?_cons_succ, ih]
      have : base + 1 + i = base + (i + 1) := by omega
      rw [this]

theorem hier_load_loop_eq : ∀ (k : Nat) (input : List Record) (procs : List process),
    procs.length + k ≤ 256 →
    load_loop k input
        { pas := fun _ => 0, allocated_frame_count := procs.length,
          returned := List.range procs.length } procs =
      some ({ pas := fun _ => 0,
              allocated_frame_count := procs.length + (input.take k).length,
              returned := List.range (procs.length + (input.take k).length) },
            procs ++ mk_procs procs.length (input.take k)) := by
  intro k
  induction k with
  | zero => intro input procs _; simp [load_loop, mk_procs]
  | succ k ih =>
    intro input procs hk
    cases input with
    | nil => simp [load_loop, load_process, mk_procs]
    | cons r rest =>
      obtain ⟨pid, refs⟩ := r
      have hc : ¬ (procs.length ≥ PAS_FRAMES) := by
        simp [PAS_FRAMES]; omega
      simp only [load_loop, load_process, allocate_pagetable_frame, allocate_frame,
        memset0_zero, hc, if_false, PAGESIZE, ← List.range_succ]
      have := ih rest (procs ++ [(⟨pid, refs, procs.length * 32, 0, 0⟩ : process)])
        (by simp; omega)
      simp only [List.length_append, List.length_singleton] at this
      rw [this]
      simp [mk_procs, Nat.add_assoc, Nat.add_comm 1]

/-- The state in which `main` enters `simulate` after loading `recs`. -/
def start (recs : List Record) : Sim :=
  { mach := { pas := fun _ => 0, allocated_frame_count := recs.length,
              returned := List.range recs.length },
    procs := mk_procs 0 recs, trace := [] }

theorem hier_run_start (fuel : Nat) (input : List Record) :
    run fuel input =
      some (simulate fuel (start (input.take 10)).mach (mk_procs 0 (input.take 10))) := by
  have h := hier_load_loop_eq 10 input [] (by simp)
  simp only [List.length_nil, Nat.zero_add, List.nil_append, List.range_zero] at h
  simp [run, MAX_PROCESSES, Machine.init, h, start]

/-- The fields of the processes that `simulate` never writes agree with the loaded
records `recs`; the level-1 table of process `i` is frame `i`. -/
def Static (recs : List Record) (s : Sim) : Prop :=
  ∀ i, (s.procs[i]?).map (fun p => (p.pid, p.references, p.L1_page_table)) =
    (recs[i]?).map (fun r => (r.1, r.2, i * 32))

theorem hier_static_length {recs : List Record} {s : Sim} (h : Static recs s) :
    s.procs.length = recs.length := by
  by_contra hne
  rcases Nat.lt_or_gt_of_ne hne with hlt | hgt
  · have := h s.procs.length
    simp [hlt] at this
  · have := h recs.length
    have h1 : s.procs[recs.length]? = some (s.procs[recs.length]) := by simp [hgt]
    rw [h1] at this
    simp at this

theorem hier_static_get {recs : List Record} {s : Sim} (h : Static recs s) {i : Nat} {p : process}
    (hp : s.procs[i]? = some p) :
    recs[i]? = some (p.pid, p.references) ∧ p.L1_page_table = i * 32 ∧ i < recs.length := by
  have := h i
  rw [hp] at this
  cases hr : recs[i]? with
  | none => rw [hr] at this; simp at this
  | some r =>
    rw [hr] at this
    simp at this
    have hl : i < recs.length := (List.getElem?_eq_some.mp hr).1
    obtain ⟨h1, h2, h3⟩ := this
    exact ⟨by rw [h1, h2], h3, hl⟩

theorem hier_static_init (recs : List Record) : Static recs (start recs) := by
  intro i
  simp only [start, hier_mk_procs_getElem?]
  cases recs[i]? <;> simp

/-- The state a loop body leaves, whether it completes or aborts. -/
def after : Except Sim (Sim × Bool) → Sim
  | .ok sd => sd.1
  | .error e => e

theorem level1_proc {m : Machine} {proc : process} {e : Nat} {m1 : Machine} {proc1 : process}
    {pf : Bool} (h : level1 m proc e = some (m1, proc1, pf)) :
    proc1 = { proc with page_faults := proc.page_faults + (if pf then 1 else 0) } := by
  rcases level1_spec m proc e with ⟨_, h1⟩ | ⟨_, _, h1⟩ | ⟨_, _, h1⟩ <;> rw [h1] at h <;>
    simp at h
  · obtain ⟨_, rfl, rfl⟩ := h; simp
  · obtain ⟨_, rfl, rfl⟩ := h; simp

theorem level2_proc {m : Machine} {proc : process} {e : Nat} {m1 : Machine} {proc1 : process}
    {pf : Bool} (h : level2 m proc e = some (m1, proc1, pf)) :
    proc1 = { proc with page_faults := proc.page_faults + (if pf then 1 else 0) } := by
  rcases level2_spec m proc e with ⟨_, h1⟩ | ⟨_, _, h1⟩ | ⟨_, _, h1⟩ <;> rw [h1] at h <;>
    simp at h
  · obtain ⟨_, rfl, rfl⟩ := h; simp
  · obtain ⟨_, rfl, rfl⟩ := h; simp

theorem hier_static_step {recs : List Record} {idx : Nat} {s : Sim} {d : Bool} {i : Nat}
    {r : Except Sim (Sim × Bool)} (h : Static recs s) (hs : Step idx s d i r) :
    Static recs (after r) := by
  cases hs with
  | idle _ => exact h
  | l1_abort proc vpn hp _ _ _ => exact h
  | l2_abort proc vpn m1 proc1 l1_pf hp _ _ h1 _ =>
    intro j
    rw [← h j]
    have := level1_proc h1
    exact getElem?_set_map (fun q : process => (q.pid, q.references, q.L1_page_table)) s.procs i
      proc proc1 hp (by rw [this]) j
  | done proc vpn m1 proc1 l1_pf m2 proc2 l2_pf hp _ _ h1 h2 =>
    intro j
    rw [← h j]
    have e1 := level1_proc h1
    have e2 := level2_proc h2
    exact getElem?_set_map (fun q : process => (q.pid, q.references, q.L1_page_table)) s.procs i
      proc { proc2 with ref_count := proc2.ref_count + 1 } hp (by rw [e2, e1]) j

/-- The allocator log: `allocate_frame` has returned `0, 1, 2, ...` up to the
counter. -/
structure LogInv (s : Sim) : Prop where
  le : s.mach.allocated_frame_count ≤ 256
  log : s.mach.returned = List.range s.mach.allocated_frame_count

theorem level1_log {m : Machine} {proc : process} {e : Nat} {m1 : Machine} {proc1 : process}
    {pf : Bool} (h : level1 m proc e = some (m1, proc1, pf)) (hle : m.allocated_frame_count ≤ 256)
    (hlog : m.returned = List.range m.allocated_frame_count) :
    m.allocated_frame_count ≤ m1.allocated_frame_count ∧ m1.allocated_frame_count ≤ 256 ∧
      m1.returned = List.range m1.allocated_frame_count := by
  rcases level1_spec m proc e with ⟨_, h1⟩ | ⟨_, _, h1⟩ | ⟨_, hc, h1⟩ <;> rw [h1] at h <;>
    simp at h
  · obtain ⟨rfl, _, _⟩ := h; exact ⟨Nat.le_refl _, hle, hlog⟩
  · obtain ⟨rfl, _, _⟩ := h
    exact ⟨by simp, by simp; omega, by simp [hlog, List.range_succ]⟩

theorem level2_log {m : Machine} {proc : process} {e : Nat} {m1 : Machine} {proc1 : process}
    {pf : Bool} (h : level2 m proc e = some (m1, proc1, pf)) (hle : m.allocated_frame_count ≤ 256)
    (hlog : m.returned = List.range m.allocated_frame_count) :
    m.allocated_frame_count ≤ m1.allocated_frame_count ∧ m1.allocated_frame_count ≤ 256 ∧
      m1.returned = List.range m1.allocated_frame_count := by
  rcases level2_spec m proc e with ⟨_, h1⟩ | ⟨_, _, h1⟩ | ⟨_, hc, h1⟩ <;> rw [h1] at h <;>
    simp at h
  · obtain ⟨rfl, _, _⟩ := h; exact ⟨Nat.le_refl _, hle, hlog⟩
  · obtain ⟨rfl, _, _⟩ := h
    exact ⟨by simp, by simp; omega, by simp [hlog, List.range_succ]⟩

theorem hier_log_step {idx : Nat} {s : Sim} {d : Bool} {i : Nat}
    {r : Except Sim (Sim × Bool)} (h : LogInv s) (hs : Step idx s d i r) :
    LogInv (after r) := by
  cases hs with
  | idle _ => exact h
  | l1_abort proc vpn hp _ _ _ => exact h
  | l2_abort proc vpn m1 proc1 l1_pf hp _ _ h1 _ =>
    obtain ⟨_, h2, h3⟩ := level1_log h1 h.le h.log
    exact ⟨h2, h3⟩
  | done proc vpn m1 proc1 l1_pf m2 proc2 l2_pf hp _ _ h1 h2 =>
    obtain ⟨_, h3, h4⟩ := level1_log h1 h.le h.log
    obtain ⟨_, h5, h6⟩ := level2_log h2 h3 h4
    exact ⟨h5, h6⟩

theorem hier_log_init (recs : List Record) (hn : recs.length ≤ 256) : LogInv (start recs) :=
  ⟨hn, rfl⟩

theorem hier_simulate_log (recs : List Record) (hn : recs.length ≤ 256) (fuel : Nat) :
    LogInv (simulate fuel (start recs).mach (mk_procs 0 recs)).state := by
  have h := hier_outer_induction LogInv LogInv
    (fun idx s d p s' d' h hs => by
      have hstep := hier_service_step idx s d p
      rw [hs] at hstep
      exact hier_log_step h hstep)
    (fun idx s d p e h hs => by
      have hstep := hier_service_step idx s d p
      rw [hs] at hstep
      exact hier_log_step h hstep)
    fuel 0 (start recs) (hier_log_init recs hn)
  exact hier_outcome_of_same h

end Os3_2

theorem row_part_snoc (lens : List Nat) (k j m : Nat) :
    row_part lens k j (m + 1) =
      row_part lens k j m ++ (if k < lens.getD (j + m) 0 then [(j + m, k)] else []) := by
  simp only [row_part, List.range'_concat, List.filter_append, List.map_append, Nat.one_mul]
  congr 1
  simp only [List.filter_cons, List.filter_nil]
  split <;> simp_all

namespace Os3_2

/-- The pairs (process position, sweep index) of a trace. -/
def keys (t : List Access) : List (Nat × Nat) := t.map (fun e => (e.pos, e.idx))

/-- Cursor positions and the flag `all_done` inside sweep `idx` when the processes
before position `j` have had their turn. -/
def Cursors (lens : List Nat) (idx j : Nat) (s : Sim) (d : Bool) : Prop :=
  s.procs.map process.ref_len = lens ∧
  (∀ i p, s.procs[i]? = some p →
    p.ref_count = if i < j then min (idx + 1) p.ref_len else min idx p.ref_len) ∧
  (d = true ↔ row_part lens idx 0 j = []) ∧
  (∀ i p, s.procs[i]? = some p →
    (s.trace.filter (fun e => decide (e.pos = i))).map (fun e => (e.idx, e.page)) =
      (List.range p.ref_count).map (fun k => (k, p.references.getD k 0)))

theorem hier_cursors_len {lens : List Nat} {idx j : Nat} {s : Sim} {d : Bool}
    (h : Cursors lens idx j s d) {i : Nat} {p : process} (hp : s.procs[i]? = some p) :
    lens.getD i 0 = p.ref_len := by
  rw [← h.1]
  simp [List.getD_eq_getElem?_getD, hp]

theorem hier_cursors_length {lens : List Nat} {idx j : Nat} {s : Sim} {d : Bool}
    (h : Cursors lens idx j s d) : s.procs.length = lens.length := by
  rw [← h.1]; simp

theorem hier_cursors_serve {lens : List Nat} {idx j : Nat} {s : Sim} {d : Bool}
    (h : Cursors lens idx j s d) (hj : j < s.procs.length) :
    (∀ s' d', service idx (s, d) j = .ok (s', d') → Cursors lens idx (j + 1) s' d' ∧
      keys s'.trace = keys s.trace ++ (if idx < lens.getD j 0 then [(j, idx)] else [])) ∧
    (∀ e, service idx (s, d) j = .error e → idx < lens.getD j 0 ∧ keys e.trace = keys s.trace) := by
  have hstep := hier_service_step idx s d j
  obtain ⟨p0, hp0⟩ : ∃ p0, s.procs[j]? = some p0 := ⟨s.procs[j], by simp [hj]⟩
  have hlen0 := hier_cursors_len h hp0
  have hc0 := h.2.1 j p0 hp0
  simp only [Nat.lt_irrefl, if_false] at hc0
  have hrow := row_part_snoc lens idx 0 j
  simp only [Nat.zero_add] at hrow
  have key : ∀ (q : process), q.references = p0.references → q.ref_count = p0.ref_count + 1 →
      idx < p0.ref_len →
      (s.procs.set j q).map process.ref_len = lens ∧
      ∀ i p, (s.procs.set j q)[i]? = some p →
        p.ref_count = if i < j + 1 then min (idx + 1) p.ref_len else min idx p.ref_len := by
    intro q hq1 hq2 hlt
    constructor
    · rw [← h.1]
      apply List.ext_getElem?
      intro i
      simp only [List.getElem?_map]
      exact getElem?_set_map process.ref_len s.procs j p0 q hp0
        (by simp [process.ref_len, hq1]) i
    · intro i p hp
      rcases set_getElem?_cases _ _ _ _ _ hp with ⟨rfl, rfl⟩ | ⟨hne, hp'⟩
      · have : p.ref_len = p0.ref_len := by simp [process.ref_len, hq1]
        simp only [Nat.lt_succ_self, if_true, hq2, this]
        omega
      · have := h.2.1 i p hp'
        rw [this]
        by_cases hij : i < j
        · have : i < j + 1 := by omega
          simp [hij, this]
        · have : ¬ i < j + 1 := by omega
          simp [hij, this]
  generalize service idx (s, d) j = r at hstep
  cases hstep with
  | idle hid =>
    have hle := hid p0 hp0
    have hk : ¬ idx < lens.getD j 0 := by rw [hlen0]; omega
    refine ⟨?_, by intro e he; cases he⟩
    intro s' d' hs'
    cases hs'
    refine ⟨⟨h.1, ?_, ?_, h.2.2.2⟩, by rw [if_neg hk]; simp⟩
    · intro i p hp
      have := h.2.1 i p hp
      rw [this]
      by_cases hij : i < j
      · have : i < j + 1 := by omega
        simp [hij, this]
      · by_cases hij2 : i = j
        · subst hij2
          rw [hp0] at hp
          cases hp
          simp
          omega
        · have : ¬ i < j + 1 := by omega
          simp [hij, this]
    · rw [hrow, if_neg hk, List.append_nil]
      exact h.2.2.1
  | l1_abort proc vpn hp hlt hv h1 =>
    rw [hp0] at hp
    cases hp
    have hk : idx < lens.getD j 0 := by rw [hlen0]; omega
    refine ⟨fun s' d' hs' => (by cases hs'), ?_⟩
    intro e he
    cases he
    exact ⟨hk, rfl⟩
  | l2_abort proc vpn m1 proc1 l1_pf hp hlt hv h1 h2 =>
    rw [hp0] at hp
    cases hp
    have hk : idx < lens.getD j 0 := by rw [hlen0]; omega
    refine ⟨fun s' d' hs' => (by cases hs'), ?_⟩
    intro e he
    cases he
    exact ⟨hk, rfl⟩
  | done proc vpn m1 proc1 l1_pf m2 proc2 l2_pf hp hlt hv h1 h2 =>
    rw [hp0] at hp
    cases hp
    have hk : idx < lens.getD j 0 := by rw [hlen0]; omega
    have e1 := level1_proc h1
    have e2 := level2_proc h2
    refine ⟨?_, by intro e he; cases he⟩
    intro s' d' hs'
    cases hs'
    have := key { proc2 with ref_count := proc2.ref_count + 1 } (by rw [e2, e1])
      (by rw [e2, e1]) hlt
    refine ⟨⟨this.1, this.2, ?_, ?_⟩, by rw [if_pos hk]; simp [keys]⟩
    · rw [hrow, if_pos hk]
      simp
    · intro i p hp
      simp only at hp
      rcases set_getElem?_cases _ _ _ _ _ hp with ⟨rfl, rfl⟩ | ⟨hne, hp'⟩
      · have hcur := h.2.2.2 j p0 hp0
        have hrc : p0.ref_count = idx := by omega
        simp only [List.filter_append, List.map_append, hcur, List.range_succ, e2, e1]
        simp [hrc, hv]
      · have hcur := h.2.2.2 i p hp'
        simp only [List.filter_append, List.map_append, hcur]
        simp [hne]

theorem hier_cursors_sweep {lens : List Nat} {idx : Nat} : ∀ (m j : Nat) (s : Sim) (d : Bool),
    j + m ≤ lens.length → Cursors lens idx j s d →
    (∀ s' d', sweep idx (List.range' j m) (s, d) = .ok (s', d') →
      Cursors lens idx (j + m) s' d' ∧ keys s'.trace = keys s.trace ++ row_part lens idx j m) ∧
    (∀ e, sweep idx (List.range' j m) (s, d) = .error e →
      idx < lens.foldr max 0 ∧
        ∃ l, l <+: row_part lens idx j m ∧ keys e.trace = keys s.trace ++ l) := by
  intro m
  induction m with
  | zero =>
    intro j s d _ h
    constructor
    · intro s' d' hs'
      simp [Os3_2.sweep] at hs'
      obtain ⟨rfl, rfl⟩ := hs'
      exact ⟨h, by simp [row_part]⟩
    · intro e he
      simp [Os3_2.sweep] at he
  | succ m ih =>
    intro j s d hjm h
    have hj : j < s.procs.length := by rw [hier_cursors_length h]; omega
    have hsv := hier_cursors_serve h hj
    rw [List.range'_succ, row_part_succ]
    cases hr : service idx (s, d) j with
    | error e0 =>
      constructor
      · intro s' d' hs'
        simp [Os3_2.sweep, hr] at hs'
      · intro e he
        simp [Os3_2.sweep, hr] at he
        subst he
        obtain ⟨hk, hke⟩ := hsv.2 e0 hr
        refine ⟨?_, [], by simp, by simp [hke]⟩
        by_contra hcon
        have hle := (maxlen_le_iff lens idx).mp (by omega)
        have hjl : j < lens.length := by omega
        have hx : lens.getD j 0 = lens[j] := by simp [List.getD_eq_getElem?_getD, hjl]
        have := hle _ (List.getElem_mem hjl)
        omega
    | ok sd1 =>
      obtain ⟨s1, d1⟩ := sd1
      obtain ⟨hc1, hk1⟩ := hsv.1 s1 d1 hr
      have h2 := ih (j + 1) s1 d1 (by omega) hc1
      constructor
      · intro s' d' hs'
        simp only [Os3_2.sweep, hr] at hs'
        obtain ⟨hc', hk'⟩ := h2.1 s' d' hs'
        have e1 : j + 1 + m = j + (m + 1) := by omega
        rw [e1] at hc'
        exact ⟨hc', by rw [hk', hk1, List.append_assoc]⟩
      · intro e he
        simp only [Os3_2.sweep, hr] at he
        obtain ⟨hlt, l, hl, hke⟩ := h2.2 e he
        refine ⟨hlt, (if idx < lens.getD j 0 then [(j, idx)] else []) ++ l, ?_, ?_⟩
        · exact (List.prefix_append_right_inj _).mpr hl
        · rw [hke, hk1, List.append_assoc]

/-- What the round-robin order says of an outcome of the outer loop entered at
sweep `idx` with `fuel` iterations allowed. -/
def Ordered (lens : List Nat) (idx fuel : Nat) : Outcome Sim → Prop
  | .finished s => keys s.trace = schedule lens ∧
      ∀ i p, s.procs[i]? = some p → p.ref_count = p.ref_len ∧
        (s.trace.filter (fun e => decide (e.pos = i))).map (fun e => (e.idx, e.page)) =
          (List.range p.ref_len).map (fun k => (k, p.references.getD k 0))
  | .out_of_memory e => keys e.trace <+: schedule lens
  | .out_of_fuel s => keys s.trace = sched lens (idx + fuel) ∧ idx + fuel ≤ lens.foldr max 0

theorem hier_cursors_loop {lens : List Nat} : ∀ (fuel idx : Nat) (s : Sim),
    Cursors lens idx 0 s true → keys s.trace = sched lens idx → idx ≤ lens.foldr max 0 →
    Ordered lens idx fuel (outer_loop fuel idx s) := by
  intro fuel
  induction fuel with
  | zero =>
    intro idx s h hk hidx
    exact ⟨hk, hidx⟩
  | succ fuel ih =>
    intro idx s h hk hidx
    unfold outer_loop
    have hsw := hier_cursors_sweep lens.length 0 s true (by omega) h
    rw [hier_cursors_length h, List.range_eq_range']
    cases hr : Os3_2.sweep idx (List.range' 0 lens.length) (s, true) with
    | error e =>
      obtain ⟨hlt, l, hl, hke⟩ := hsw.2 e hr
      simp only [Ordered]
      rw [hke, hk]
      rw [row_part_zero] at hl
      exact sched_row_prefix lens idx l hl hlt
    | ok sd1 =>
      obtain ⟨s1, d1⟩ := sd1
      obtain ⟨hc1, hk1⟩ := hsw.1 s1 d1 hr
      have hd := hc1.2.2.1
      simp only [Nat.zero_add] at hd
      rw [row_part_zero, row_eq_nil_iff] at hd
      rw [row_part_zero, hk, ← sched_succ] at hk1
      simp only
      cases d1 with
      | true =>
        simp only [if_true, Ordered]
        have hall := hd.mp rfl
        constructor
        · rw [hk1]
          apply sched_eq_schedule
          intro x hx
          have := hall x hx
          omega
        · intro i p hi
          have hp : p ∈ s1.procs := List.getElem?_mem hi
          have hil : i < s1.procs.length := (List.getElem?_eq_some.mp hi).1
          rw [hier_cursors_length hc1] at hil
          have h1 := hc1.2.1 i p hi
          simp only [Nat.zero_add, hil, if_true] at h1
          have hx : p.ref_len ∈ lens := by
            rw [← hc1.1]; exact List.mem_map_of_mem _ hp
          have := hall _ hx
          have hrc : p.ref_count = p.ref_len := by omega
          refine ⟨hrc, ?_⟩
          rw [← hrc]
          exact hc1.2.2.2 i p hi
      | false =>
        simp only [Bool.false_eq_true, if_false]
        have hnot : ¬ ∀ x ∈ lens, x ≤ idx := fun hh => by
          have := hd.mpr hh
          cases this
        have hidx1 : idx + 1 ≤ lens.foldr max 0 := by
          by_contra hcon
          exact hnot ((maxlen_le_iff lens idx).mp (by omega))
        have hc2 : Cursors lens (idx + 1) 0 s1 true := by
          refine ⟨hc1.1, ?_, by simp [row_part], hc1.2.2.2⟩
          intro i p hp
          have hi : i < s1.procs.length := (List.getElem?_eq_some.mp hp).1
          rw [hier_cursors_length hc1] at hi
          have := hc1.2.1 i p hp
          simp only [Nat.zero_add, hi, if_true] at this
          simpa using this
        have := ih (idx + 1) s1 hc2 hk1 hidx1
        cases hw : outer_loop fuel (idx + 1) s1 with
        | finished s2 => rw [hw] at this; exact this
        | out_of_memory e => rw [hw] at this; exact this
        | out_of_fuel s2 =>
          rw [hw] at this
          simp only [Ordered] at this ⊢
          have e1 : idx + 1 + fuel = idx + (fuel + 1) := by omega
          rw [e1] at this
          exact this

theorem hier_mk_procs_map_ref_len (recs : List Record) (base : Nat) :
    (mk_procs base recs).map process.ref_len = recs.map (fun r => r.2.length) := by
  induction recs generalizing base with
  | nil => rfl
  | cons r rest ih => simp [mk_procs, process.ref_len, ih]

theorem hier_cursors_init (recs : List Record) :
    Cursors (recs.map (fun r => r.2.length)) 0 0 (start recs) true := by
  refine ⟨hier_mk_procs_map_ref_len recs 0, ?_, by simp [row_part], ?_⟩
  · intro i p hp
    simp only [start] at hp
    rw [hier_mk_procs_getElem?] at hp
    cases hr : recs[i]? with
    | none => simp [hr] at hp
    | some r =>
      simp [hr] at hp
      subst hp
      simp
  · intro i p hp
    simp only [start] at hp
    rw [hier_mk_procs_getElem?] at hp
    cases hr : recs[i]? with
    | none => simp [hr] at hp
    | some r =>
      simp [hr] at hp
      subst hp
      simp [start]

/-- Round-robin order of `simulate` on the loaded records. -/
theorem hier_simulate_ordered (recs : List Record) (fuel : Nat) :
    Ordered (recs.map (fun r => r.2.length)) 0 fuel
      (simulate fuel (start recs).mach (mk_procs 0 recs)) :=
  hier_cursors_loop fuel 0 _ (hier_cursors_init recs) (by simp [keys, sched, start]) (Nat.zero_le _)

end Os3_2

namespace Os3_2

/-- Every page number of the loaded records is below `VAS_PAGES`. -/
def Pages (recs : List Record) : Prop := ∀ r ∈ recs, ∀ v ∈ r.2, v < 64

/-- Number of trace lines of process `i` for page `v`. -/
def hits (t : List Access) (i v : Nat) : Nat :=
  t.countP (fun e => decide (e.pos = i ∧ e.page = v))

/-- Number of trace lines of process `i` for pages under level-1 index `a`. -/
def hits1 (t : List Access) (i a : Nat) : Nat :=
  t.countP (fun e => decide (e.pos = i ∧ e.page / 8 = a))

theorem hier_hits_snoc (t : List Access) (e : Access) (i v : Nat) :
    hits (t ++ [e]) i v = hits t i v + (if e.pos = i ∧ e.page = v then 1 else 0) := by
  simp only [hits, List.countP_append, List.countP_cons, List.countP_nil]
  by_cases h : e.pos = i ∧ e.page = v <;> simp [h]

theorem hits1_snoc (t : List Access) (e : Access) (i a : Nat) :
    hits1 (t ++ [e]) i a = hits1 t i a + (if e.pos = i ∧ e.page / 8 = a then 1 else 0) := by
  simp only [hits1, List.countP_append, List.countP_cons, List.countP_nil]
  by_cases h : e.pos = i ∧ e.page / 8 = a <;> simp [h]

theorem hier_hits_zero {t : List Access} {i v : Nat} (h : hits t i v = 0) :
    ∀ e ∈ t, ¬ (e.pos = i ∧ e.page = v) := by
  unfold hits at h
  rw [List.countP_eq_zero] at h
  intro e he
  simpa using h e he

theorem hits1_zero {t : List Access} {i a : Nat} (h : hits1 t i a = 0) :
    ∀ e ∈ t, ¬ (e.pos = i ∧ e.page / 8 = a) := by
  unfold hits1 at h
  rw [List.countP_eq_zero] at h
  intro e he
  simpa using h e he

theorem hits1_of_mem {t : List Access} {e : Access} (he : e ∈ t) :
    hits1 t e.pos (e.page / 8) ≠ 0 := by
  intro h
  exact hits1_zero h e he ⟨rfl, rfl⟩

theorem hits_of_mem {t : List Access} {e : Access} (he : e ∈ t) :
    hits t e.pos e.page ≠ 0 := by
  intro h
  exact hier_hits_zero h e he ⟨rfl, rfl⟩

theorem hits_of_hits1 {t : List Access} {i v : Nat} (h : hits1 t i (v / 8) = 0) :
    hits t i v = 0 := by
  unfold hits
  rw [List.countP_eq_zero]
  intro e he hd
  simp at hd
  exact hits1_zero h e he ⟨hd.1, by rw [hd.2]⟩

/-- The page tables in `pas` agree with the trace printed so far; `n` is the
number of processes. -/
structure MemInv (n : Nat) (s : Sim) : Prop where
  lo : n ≤ s.mach.allocated_frame_count
  le : s.mach.allocated_frame_count ≤ 256
  ev : ∀ e ∈ s.trace, e.pos < n ∧ e.page < 64
  l1_flag : ∀ i a, i < n → a < 8 →
    s.mach.pas (i * 32 + a * 4 + 1) = if hits1 s.trace i a = 0 then 0 else 1
  l1_frame : ∀ i a, i < n → a < 8 → hits1 s.trace i a ≠ 0 →
    n ≤ s.mach.pas (i * 32 + a * 4) ∧ s.mach.pas (i * 32 + a * 4) < s.mach.allocated_frame_count
  l1_inj : ∀ i a j b, i < n → a < 8 → j < n → b < 8 →
    hits1 s.trace i a ≠ 0 → hits1 s.trace j b ≠ 0 →
    s.mach.pas (i * 32 + a * 4) = s.mach.pas (j * 32 + b * 4) → i = j ∧ a = b
  l2_flag : ∀ i v, i < n → v < 64 → hits1 s.trace i (v / 8) ≠ 0 →
    s.mach.pas (s.mach.pas (i * 32 + v / 8 * 4) * 32 + v % 8 * 4 + 1) =
      if hits s.trace i v = 0 then 0 else 1
  l2_ref : ∀ i v, i < n → v < 64 → hits1 s.trace i (v / 8) ≠ 0 →
    s.mach.pas (s.mach.pas (i * 32 + v / 8 * 4) * 32 + v % 8 * 4 + 2) = hits s.trace i v % 256
  frames : ∀ e ∈ s.trace, e.l1_frame = s.mach.pas (e.pos * 32 + e.page / 8 * 4) ∧
    e.l2_frame = s.mach.pas (e.l1_frame * 32 + e.page % 8 * 4)
  pf : ∀ k e, s.trace[k]? = some e →
    (e.l1_pf = true ↔ hits1 (s.trace.take k) e.pos (e.page / 8) = 0) ∧
    (e.l2_pf = true ↔ hits (s.trace.take k) e.pos e.page = 0)

/-- Effect of one serviced reference of process `i` to page `v` on the page tables,
the counter and the trace; `l1_pf` and `l2_pf` are the faults it reports. -/
structure Effect (n : Nat) (s s' : Sim) (i v : Nat) (l1_pf l2_pf : Bool) : Prop where
  counter : s'.mach.allocated_frame_count =
    s.mach.allocated_frame_count + (if l1_pf then 1 else 0) + (if l2_pf then 1 else 0)
  le : s'.mach.allocated_frame_count ≤ 256
  trace : ∃ e0, s'.trace = s.trace ++ [e0] ∧ e0.pos = i ∧ e0.page = v ∧ e0.l1_pf = l1_pf ∧
    e0.l2_pf = l2_pf ∧ e0.l1_frame = s'.mach.pas (i * 32 + v / 8 * 4) ∧
    e0.l2_frame = s'.mach.pas (s'.mach.pas (i * 32 + v / 8 * 4) * 32 + v % 8 * 4)
  l1_was : l1_pf = true ↔ s.mach.pas (i * 32 + v / 8 * 4 + 1) = 0
  l1_other : ∀ j a, j < n → a < 8 → ¬ (j = i ∧ a = v / 8) →
    s'.mach.pas (j * 32 + a * 4 + 1) = s.mach.pas (j * 32 + a * 4 + 1) ∧
    s'.mach.pas (j * 32 + a * 4) = s.mach.pas (j * 32 + a * 4)
  l1_flag : s'.mach.pas (i * 32 + v / 8 * 4 + 1) = 1
  l1_frame : s'.mach.pas (i * 32 + v / 8 * 4) =
    if l1_pf then s.mach.allocated_frame_count else s.mach.pas (i * 32 + v / 8 * 4)
  l2_was : l2_pf = true ↔
    (l1_pf = true ∨ s.mach.pas (s.mach.pas (i * 32 + v / 8 * 4) * 32 + v % 8 * 4 + 1) = 0)
  l2_other : ∀ f b, n ≤ f → f < s.mach.allocated_frame_count → b < 8 →
    ¬ (f = s'.mach.pas (i * 32 + v / 8 * 4) ∧ b = v % 8) →
    s'.mach.pas (f * 32 + b * 4) = s.mach.pas (f * 32 + b * 4) ∧
    s'.mach.pas (f * 32 + b * 4 + 1) = s.mach.pas (f * 32 + b * 4 + 1) ∧
    s'.mach.pas (f * 32 + b * 4 + 2) = s.mach.pas (f * 32 + b * 4 + 2)
  l2_flag : s'.mach.pas (s'.mach.pas (i * 32 + v / 8 * 4) * 32 + v % 8 * 4 + 1) = 1
  l2_ref : s'.mach.pas (s'.mach.pas (i * 32 + v / 8 * 4) * 32 + v % 8 * 4 + 2) =
    if l2_pf then 1
    else (s.mach.pas (s.mach.pas (i * 32 + v / 8 * 4) * 32 + v % 8 * 4 + 2) + 1) % 256
  l2_frame : s'.mach.pas (s'.mach.pas (i * 32 + v / 8 * 4) * 32 + v % 8 * 4) =
    if l2_pf then s.mach.allocated_frame_count + (if l1_pf then 1 else 0)
    else s.mach.pas (s.mach.pas (i * 32 + v / 8 * 4) * 32 + v % 8 * 4)
  fresh : l1_pf = true → ∀ b, b < 8 → b ≠ v % 8 →
    s'.mach.pas (s.mach.allocated_frame_count * 32 + b * 4 + 1) = 0 ∧
    s'.mach.pas (s.mach.allocated_frame_count * 32 + b * 4 + 2) = 0

theorem page_split {v w : Nat} (h1 : w / 8 = v / 8) (h2 : w % 8 = v % 8) : w = v := by
  omega

theorem hier_mem_of_effect {n : Nat} {s s' : Sim} {i v : Nat} {l1_pf l2_pf : Bool}
    (h : MemInv n s) (hi : i < n) (hv : v < 64) (ef : Effect n s s' i v l1_pf l2_pf) :
    MemInv n s' := by
  obtain ⟨e0, ht, hpos, hpage, hpf1, hpf2, hfr1, hfr2⟩ := ef.trace
  have ha : v / 8 < 8 := by omega
  have hb : v % 8 < 8 := by omega
  -- the reference hits an existing level-1 entry exactly when the group was touched
  have hl1 : l1_pf = true ↔ hits1 s.trace i (v / 8) = 0 := by
    rw [ef.l1_was, h.l1_flag i _ hi ha]
    by_cases h0 : hits1 s.trace i (v / 8) = 0 <;> simp [h0]
  have hl2 : l2_pf = true ↔ hits s.trace i v = 0 := by
    rw [ef.l2_was]
    by_cases h0 : hits1 s.trace i (v / 8) = 0
    · have := hits_of_hits1 h0
      simp [hl1.mpr h0, this]
    · have hn : ¬ l1_pf = true := fun hh => h0 (hl1.mp hh)
      rw [h.l2_flag i v hi hv h0]
      by_cases h2 : hits s.trace i v = 0 <;> simp [hn, h2]
  have hF : ¬ l1_pf = true → s'.mach.pas (i * 32 + v / 8 * 4) = s.mach.pas (i * 32 + v / 8 * 4) := by
    intro hn
    rw [ef.l1_frame]
    simp [hn]
  have hFc : l1_pf = true → s'.mach.pas (i * 32 + v / 8 * 4) = s.mach.allocated_frame_count := by
    intro hn
    rw [ef.l1_frame]
    simp [hn]
  have hcnt : s.mach.allocated_frame_count ≤ s'.mach.allocated_frame_count := by
    rw [ef.counter]; omega
  have hcnt1 : l1_pf = true → s.mach.allocated_frame_count < s'.mach.allocated_frame_count := by
    intro hh; rw [ef.counter]; simp [hh]; omega
  -- level-1 frames of the new state
  have hfr : ∀ j a, j < n → a < 8 → hits1 s'.trace j a ≠ 0 →
      (j = i ∧ a = v / 8) ∨ (¬ (j = i ∧ a = v / 8) ∧ hits1 s.trace j a ≠ 0 ∧
        s'.mach.pas (j * 32 + a * 4) = s.mach.pas (j * 32 + a * 4)) := by
    intro j a hj ha' hne
    by_cases hja : j = i ∧ a = v / 8
    · exact Or.inl hja
    · right
      refine ⟨hja, ?_, (ef.l1_other j a hj ha' hja).2⟩
      rw [ht, hits1_snoc, hpos, hpage] at hne
      have : ¬ (i = j ∧ v / 8 = a) := fun hh => hja ⟨hh.1.symm, hh.2.symm⟩
      simpa [this] using hne
  -- an existing level-2 table other than the one used is not written
  have hsame : ∀ j w, j < n → w < 64 → hits1 s.trace j (w / 8) ≠ 0 → ¬ (j = i ∧ w = v) →
      (¬ (j = i ∧ w / 8 = v / 8) → s'.mach.pas (j * 32 + w / 8 * 4) = s.mach.pas (j * 32 + w / 8 * 4)) →
      (j = i ∧ w / 8 = v / 8 → s'.mach.pas (j * 32 + w / 8 * 4) = s.mach.pas (j * 32 + w / 8 * 4)) →
      s'.mach.pas (s'.mach.pas (j * 32 + w / 8 * 4) * 32 + w % 8 * 4) =
        s.mach.pas (s.mach.pas (j * 32 + w / 8 * 4) * 32 + w % 8 * 4) ∧
      s'.mach.pas (s'.mach.pas (j * 32 + w / 8 * 4) * 32 + w % 8 * 4 + 1) =
        s.mach.pas (s.mach.pas (j * 32 + w / 8 * 4) * 32 + w % 8 * 4 + 1) ∧
      s'.mach.pas (s'.mach.pas (j * 32 + w / 8 * 4) * 32 + w % 8 * 4 + 2) =
        s.mach.pas (s.mach.pas (j * 32 + w / 8 * 4) * 32 + w % 8 * 4 + 2) := by
    intro j w hj hw hne hjw hA hB
    have hw8 : w / 8 < 8 := by omega
    have hwb : w % 8 < 8 := by omega
    have hfeq : s'.mach.pas (j * 32 + w / 8 * 4) = s.mach.pas (j * 32 + w / 8 * 4) := by
      by_cases hg : j = i ∧ w / 8 = v / 8
      · exact hB hg
      · exact hA hg
    rw [hfeq]
    obtain ⟨hf1, hf2⟩ := h.l1_frame j (w / 8) hj hw8 hne
    apply ef.l2_other _ _ hf1 hf2 hwb
    rintro ⟨hff, hbb⟩
    by_cases hp1 : l1_pf = true
    · rw [hFc hp1] at hff
      omega
    · rw [hF hp1] at hff
      have hv1 : hits1 s.trace i (v / 8) ≠ 0 := fun hh => hp1 (hl1.mpr hh)
      obtain ⟨rfl, hq⟩ := h.l1_inj j (w / 8) i (v / 8) hj hw8 hi ha hne hv1 hff
      exact hjw ⟨rfl, page_split hq hbb⟩
  refine ⟨by have := h.lo; omega, ef.le, ?_, ?_, ?_, ?_, ?_, ?_, ?_, ?_⟩
  · -- ev
    intro e he
    rw [ht] at he
    simp only [List.mem_append, List.mem_singleton] at he
    rcases he with he | he
    · exact h.ev e he
    · subst he; rw [hpos, hpage]; exact ⟨hi, hv⟩
  · -- l1_flag
    intro j a hj ha'
    rw [ht, hits1_snoc, hpos, hpage]
    by_cases hja : j = i ∧ a = v / 8
    · obtain ⟨rfl, rfl⟩ := hja
      rw [ef.l1_flag]
      simp
    · rw [(ef.l1_other j a hj ha' hja).1, h.l1_flag j a hj ha']
      have : ¬ (i = j ∧ v / 8 = a) := fun hh => hja ⟨hh.1.symm, hh.2.symm⟩
      simp [this]
  · -- l1_frame
    intro j a hj ha' hne
    rcases hfr j a hj ha' hne with ⟨rfl, rfl⟩ | ⟨_, hne', heq⟩
    · by_cases hp1 : l1_pf = true
      · rw [hFc hp1]
        exact ⟨h.lo, hcnt1 hp1⟩
      · rw [hF hp1]
        have hv1 : hits1 s.trace j (v / 8) ≠ 0 := fun hh => hp1 (hl1.mpr hh)
        have := h.l1_frame j _ hj ha hv1
        omega
    · rw [heq]
      have := h.l1_frame j a hj ha' hne'
      omega
  · -- l1_inj
    intro j a j2 b hj ha' hj2 hb' hne hne2 heq
    rcases hfr j a hj ha' hne with ⟨rfl, rfl⟩ | ⟨hx, hne', heq1⟩ <;>
      rcases hfr j2 b hj2 hb' hne2 with ⟨rfl, rfl⟩ | ⟨hy, hne2', heq2⟩
    · exact ⟨rfl, rfl⟩
    · exfalso
      rw [heq2] at heq
      have hr := h.l1_frame j2 b hj2 hb' hne2'
      by_cases hp1 : l1_pf = true
      · rw [hFc hp1] at heq
        omega
      · rw [hF hp1] at heq
        have hv1 : hits1 s.trace j (v / 8) ≠ 0 := fun hh => hp1 (hl1.mpr hh)
        have := h.l1_inj j (v / 8) j2 b hj ha hj2 hb' hv1 hne2' heq
        exact hy ⟨this.1.symm, this.2.symm⟩
    · exfalso
      rw [heq1] at heq
      have hr := h.l1_frame j a hj ha' hne'
      by_cases hp1 : l1_pf = true
      · rw [hFc hp1] at heq
        omega
      · rw [hF hp1] at heq
        have hv1 : hits1 s.trace j2 (v / 8) ≠ 0 := fun hh => hp1 (hl1.mpr hh)
        have := h.l1_inj j a j2 (v / 8) hj ha' hj2 ha hne' hv1 heq
        exact hx this
    · rw [heq1, heq2] at heq
      exact h.l1_inj j a j2 b hj ha' hj2 hb' hne' hne2' heq
  · -- l2_flag
    intro j w hj hw hne
    have hw8 : w / 8 < 8 := by omega
    rw [ht, hier_hits_snoc, hpos, hpage]
    by_cases hjw : j = i ∧ w = v
    · obtain ⟨rfl, rfl⟩ := hjw
      rw [ef.l2_flag]
      simp
    · have hjw' : ¬ (i = j ∧ v = w) := fun hh => hjw ⟨hh.1.symm, hh.2.symm⟩
      simp only [hjw', if_false, Nat.add_zero]
      rcases hfr j (w / 8) hj hw8 hne with ⟨rfl, hq⟩ | ⟨hx, hne', heq1⟩
      · have hwb : w % 8 ≠ v % 8 := fun hh => hjw ⟨rfl, page_split hq hh⟩
        by_cases hp1 : l1_pf = true
        · have h0 := hl1.mp hp1
          rw [hq, hFc hp1, (ef.fresh hp1 (w % 8) (by omega) hwb).1]
          rw [← hq] at h0
          simp [hits_of_hits1 h0]
        · have hv1 : hits1 s.trace j (w / 8) ≠ 0 := by
            rw [hq]; exact fun hh => hp1 (hl1.mpr hh)
          have := hsame j w hj hw hv1 hjw (fun hg => absurd ⟨rfl, hq⟩ hg)
            (fun _ => by rw [hq]; exact hF hp1)
          rw [this.2.1, h.l2_flag j w hj hw hv1]
      · have := hsame j w hj hw hne' hjw (fun _ => heq1) (fun hg => absurd hg hx)
        rw [this.2.1, h.l2_flag j w hj hw hne']
  · -- l2_ref
    intro j w hj hw hne
    have hw8 : w / 8 < 8 := by omega
    rw [ht, hier_hits_snoc, hpos, hpage]
    by_cases hjw : j = i ∧ w = v
    · obtain ⟨rfl, rfl⟩ := hjw
      rw [ef.l2_ref]
      by_cases hp2 : l2_pf = true
      · have := hl2.mp hp2
        simp [hp2, this]
      · have hp1 : ¬ l1_pf = true := fun hh => hp2 (ef.l2_was.mpr (Or.inl hh))
        have hv1 : hits1 s.trace j (w / 8) ≠ 0 := fun hh => hp1 (hl1.mpr hh)
        simp only [hp2, Bool.false_eq_true, if_false, and_self, if_true]
        rw [h.l2_ref j w hj hw hv1]
        omega
    · have hjw' : ¬ (i = j ∧ v = w) := fun hh => hjw ⟨hh.1.symm, hh.2.symm⟩
      simp only [hjw', if_false, Nat.add_zero]
      rcases hfr j (w / 8) hj hw8 hne with ⟨rfl, hq⟩ | ⟨hx, hne', heq1⟩
      · have hwb : w % 8 ≠ v % 8 := fun hh => hjw ⟨rfl, page_split hq hh⟩
        by_cases hp1 : l1_pf = true
        · have h0 := hl1.mp hp1
          rw [hq, hFc hp1, (ef.fresh hp1 (w % 8) (by omega) hwb).2]
          rw [← hq] at h0
          simp [hits_of_hits1 h0]
        · have hv1 : hits1 s.trace j (w / 8) ≠ 0 := by
            rw [hq]; exact fun hh => hp1 (hl1.mpr hh)
          have := hsame j w hj hw hv1 hjw (fun hg => absurd ⟨rfl, hq⟩ hg)
            (fun _ => by rw [hq]; exact hF hp1)
          rw [this.2.2, h.l2_ref j w hj hw hv1]
      · have := hsame j w hj hw hne' hjw (fun _ => heq1) (fun hg => absurd hg hx)
        rw [this.2.2, h.l2_ref j w hj hw hne']
  · -- frames
    intro e he
    rw [ht] at he
    simp only [List.mem_append, List.mem_singleton] at he
    rcases he with he | he
    · obtain ⟨hep, hev⟩ := h.ev e he
      have hv1 := hits1_of_mem he
      have hfe := h.frames e he
      have hL1 : s'.mach.pas (e.pos * 32 + e.page / 8 * 4) =
          s.mach.pas (e.pos * 32 + e.page / 8 * 4) := by
        by_cases hg : e.pos = i ∧ e.page / 8 = v / 8
        · have hp1 : ¬ l1_pf = true := by
            intro hh
            have := hl1.mp hh
            rw [← hg.1, ← hg.2] at this
            exact hv1 this
          rw [hg.1, hg.2]
          exact hF hp1
        · exact (ef.l1_other _ _ hep (by omega) hg).2
      refine ⟨by rw [hL1]; exact hfe.1, ?_⟩
      by_cases hjw : e.pos = i ∧ e.page = v
      · have hp2 : ¬ l2_pf = true := by
          intro hh
          have := hl2.mp hh
          rw [← hjw.1, ← hjw.2] at this
          exact hits_of_mem he this
        have hp1 : ¬ l1_pf = true := fun hh => hp2 (ef.l2_was.mpr (Or.inl hh))
        rw [hfe.2, hfe.1, hjw.1, hjw.2, ← hF hp1, ef.l2_frame]
        simp [hp2, hF hp1]
      · have := hsame e.pos e.page hep hev hv1 hjw (fun hg => (ef.l1_other _ _ hep (by omega) hg).2)
          (fun _ => hL1)
        rw [hfe.2, hfe.1, ← this.1, hL1]
    · subst he
      rw [hpos, hpage]
      exact ⟨hfr1, by rw [hfr2, hfr1]⟩
  · -- pf
    intro k e hk
    rw [ht] at hk ⊢
    rcases snoc_getElem? _ _ _ _ hk with ⟨_, hk', htk⟩ | ⟨_, he, htk⟩
    · rw [htk]; exact h.pf k e hk'
    · rw [htk, he, hpos, hpage, hpf1, hpf2]
      exact ⟨hl1, hl2⟩

end Os3_2

namespace Os3_2

theorem flag_one {x : Nat} {c : Prop} [Decidable c] (h : x = if c then 0 else 1) (hx : x ≠ 0) :
    x = 1 ∧ ¬ c := by
  by_cases hc : c
  · simp [hc] at h; exact absurd h hx
  · simp [hc] at h; exact ⟨h, hc⟩

theorem flag_zero {x : Nat} {c : Prop} [Decidable c] (h : x = if c then 0 else 1) (hx : x = 0) :
    c := by
  by_cases hc : c
  · exact hc
  · simp [hc] at h; omega

/-- The effect of a serviced reference, computed from the stores of the loop body. -/
theorem done_effect {n : Nat} {s s' : Sim} {i v : Nat} {proc proc1 proc2 : process}
    {m1 m2 : Machine} {l1_pf l2_pf : Bool} {e0 : Access}
    (h : MemInv n s) (hi : i < n) (hv : v < 64)
    (h1 : level1 s.mach proc (i * 32 + v / 8 * 4) = some (m1, proc1, l1_pf))
    (h2 : level2 m1 proc1 (m1.pas (i * 32 + v / 8 * 4) * 32 + v % 8 * 4) = some (m2, proc2, l2_pf))
    (hm : s'.mach = m2) (ht : s'.trace = s.trace ++ [e0])
    (hpos : e0.pos = i) (hpage : e0.page = v) (hp1 : e0.l1_pf = l1_pf) (hp2 : e0.l2_pf = l2_pf)
    (hf1 : e0.l1_frame = m2.pas (i * 32 + v / 8 * 4))
    (hf2 : e0.l2_frame = m2.pas (m1.pas (i * 32 + v / 8 * 4) * 32 + v % 8 * 4)) :
    Effect n s s' i v l1_pf l2_pf := by
  have ha : v / 8 < 8 := by omega
  have hb : v % 8 < 8 := by omega
  have hlo := h.lo
  have hle := h.le
  rcases level1_spec s.mach proc (i * 32 + v / 8 * 4) with ⟨hfl, e1⟩ | ⟨_, _, e1⟩ | ⟨hfl, hc, e1⟩
  · -- level-1 entry valid
    rw [e1] at h1
    simp only [Option.some.injEq, Prod.mk.injEq] at h1
    obtain ⟨rfl, rfl, rfl⟩ := h1
    obtain ⟨hfl1, hh1⟩ := flag_one (h.l1_flag i (v / 8) hi ha) hfl
    obtain ⟨hF1, hF2⟩ := h.l1_frame i (v / 8) hi ha hh1
    have hl2f := h.l2_flag i v hi hv hh1
    have hl2r := h.l2_ref i v hi hv hh1
    generalize hFdef : s.mach.pas (i * 32 + v / 8 * 4) = F at *
    rcases level2_spec s.mach proc (F * 32 + v % 8 * 4) with ⟨hfl2, e2⟩ | ⟨_, _, e2⟩ | ⟨hfl2, hc, e2⟩
    · -- level-2 entry valid
      rw [e2] at h2
      simp only [Option.some.injEq, Prod.mk.injEq] at h2
      obtain ⟨rfl, rfl, rfl⟩ := h2
      obtain ⟨hfl3, hh2⟩ := flag_one hl2f hfl2
      have rd : ∀ x, x ≠ F * 32 + v % 8 * 4 + 2 → s'.mach.pas x = s.mach.pas x := by
        intro x hx
        rw [hm]
        exact poke_other _ _ _ _ hx
      have rA : s'.mach.pas (i * 32 + v / 8 * 4) = F := by
        rw [rd _ (by omega), hFdef]
      refine ⟨by rw [hm]; simp, by rw [hm]; exact hle, ⟨e0, ht, hpos, hpage, hp1, hp2, ?_, ?_⟩,
        by simp [hfl], ?_, ?_, ?_, by simp [hFdef, hfl2], ?_, ?_, ?_, ?_, by simp⟩
      · rw [hf1, hm]
      · rw [hf2, rA, hm]
      · intro j a hj ha' _
        exact ⟨rd _ (by omega), rd _ (by omega)⟩
      · rw [rd _ (by omega)]; exact hfl1
      · rw [rA]; simp [hFdef]
      · intro f b hf hfc hb' hne
        rw [rA] at hne
        exact ⟨rd _ (by omega), rd _ (by omega), rd _ (by omega)⟩
      · rw [rA, rd _ (by omega)]; exact hfl3
      · rw [rA, hm]
        simp [poke_same, hFdef]
      · rw [rA, rd _ (by omega)]
        simp [hFdef]
    · rw [e2] at h2; cases h2
    · -- level-2 entry invalid, frame available
      rw [e2] at h2
      simp only [Option.some.injEq, Prod.mk.injEq] at h2
      obtain ⟨rfl, rfl, rfl⟩ := h2
      have hh2 : hits s.trace i v = 0 := flag_zero hl2f hfl2
      have hr0 : s.mach.pas (F * 32 + v % 8 * 4 + 2) = 0 := by rw [hl2r, hh2]
      have rd : ∀ x, x ≠ F * 32 + v % 8 * 4 → x ≠ F * 32 + v % 8 * 4 + 1 →
          x ≠ F * 32 + v % 8 * 4 + 2 → s'.mach.pas x = s.mach.pas x := by
        intro x hx0 hx1 hx2
        rw [hm]
        simp only
        rw [poke_other _ _ _ _ hx2, poke_other _ _ _ _ hx1, poke_other _ _ _ _ hx0]
      have rA : s'.mach.pas (i * 32 + v / 8 * 4) = F := by
        rw [rd _ (by omega) (by omega) (by omega), hFdef]
      refine ⟨by rw [hm]; simp, by rw [hm]; simp; omega, ⟨e0, ht, hpos, hpage, hp1, hp2, ?_, ?_⟩,
        by simp [hfl], ?_, ?_, ?_, by simp [hFdef, hfl2], ?_, ?_, ?_, ?_, by simp⟩
      · rw [hf1, hm]
      · rw [hf2, rA, hm]
      · intro j a hj ha' _
        exact ⟨rd _ (by omega) (by omega) (by omega), rd _ (by omega) (by omega) (by omega)⟩
      · rw [rd _ (by omega) (by omega) (by omega)]; exact hfl1
      · rw [rA]; simp [hFdef]
      · intro f b hf hfc hb' hne
        rw [rA] at hne
        exact ⟨rd _ (by omega) (by omega) (by omega), rd _ (by omega) (by omega) (by omega),
          rd _ (by omega) (by omega) (by omega)⟩
      · rw [rA, hm]
        simp only
        rw [poke_other _ _ _ _ (by omega), poke_same]
      · rw [rA, hm]
        simp only
        rw [poke_same, hr0]
        simp
      · rw [rA, hm]
        simp only
        rw [poke_other _ _ _ _ (by omega), poke_other _ _ _ _ (by omega), poke_same]
        simp
        omega
  · rw [e1] at h1; cases h1
  · -- level-1 entry invalid, frame available
    rw [e1] at h1
    simp only [Option.some.injEq, Prod.mk.injEq] at h1
    obtain ⟨rfl, rfl, rfl⟩ := h1
    have hcA : memset0 (poke (poke s.mach.pas (i * 32 + v / 8 * 4) s.mach.allocated_frame_count)
        (i * 32 + v / 8 * 4 + 1) 1) (s.mach.allocated_frame_count * 32) 32 (i * 32 + v / 8 * 4) =
        s.mach.allocated_frame_count := by
      rw [memset0_outside _ _ _ _ (by omega), poke_other _ _ _ _ (by omega), poke_same]
      omega
    simp only [hcA] at h2 hf2
    have hz : ∀ x, s.mach.allocated_frame_count * 32 ≤ x →
        x < s.mach.allocated_frame_count * 32 + 32 →
        memset0 (poke (poke s.mach.pas (i * 32 + v / 8 * 4) s.mach.allocated_frame_count)
          (i * 32 + v / 8 * 4 + 1) 1) (s.mach.allocated_frame_count * 32) 32 x = 0 :=
      fun x hx1 hx2 => memset0_inside _ _ _ _ hx1 hx2
    rcases level2_spec
        { pas := memset0 (poke (poke s.mach.pas (i * 32 + v / 8 * 4) s.mach.allocated_frame_count)
            (i * 32 + v / 8 * 4 + 1) 1) (s.mach.allocated_frame_count * 32) 32,
          allocated_frame_count := s.mach.allocated_frame_count + 1,
          returned := s.mach.returned ++ [s.mach.allocated_frame_count] }
        { proc with page_faults := proc.page_faults + 1 }
        (s.mach.allocated_frame_count * 32 + v % 8 * 4)
      with ⟨hfl2, e2⟩ | ⟨_, _, e2⟩ | ⟨hfl2, hc2, e2⟩
    · exact absurd (hz _ (by omega) (by omega)) hfl2
    · rw [e2] at h2; cases h2
    · rw [e2] at h2
      simp only [Option.some.injEq, Prod.mk.injEq] at h2
      obtain ⟨rfl, rfl, rfl⟩ := h2
      simp only at hc2
      have rd : ∀ x, x < s.mach.allocated_frame_count * 32 → x ≠ i * 32 + v / 8 * 4 →
          x ≠ i * 32 + v / 8 * 4 + 1 → s'.mach.pas x = s.mach.pas x := by
        intro x hx0 hx1 hx2
        rw [hm]
        simp only
        rw [poke_other _ _ _ _ (by omega), poke_other _ _ _ _ (by omega),
          poke_other _ _ _ _ (by omega), memset0_outside _ _ _ _ (by omega),
          poke_other _ _ _ _ hx2, poke_other _ _ _ _ hx1]
      have rA : s'.mach.pas (i * 32 + v / 8 * 4) = s.mach.allocated_frame_count := by
        rw [hm]
        simp only
        rw [poke_other _ _ _ _ (by omega), poke_other _ _ _ _ (by omega),
          poke_other _ _ _ _ (by omega), hcA]
      refine ⟨by rw [hm]; simp, by rw [hm]; simp; omega, ⟨e0, ht, hpos, hpage, hp1, hp2, ?_, ?_⟩,
        by simp [hfl], ?_, ?_, ?_, by simp, ?_, ?_, ?_, ?_, ?_⟩
      · rw [hf1, hm]
      · rw [hf2, rA, hm]
      · intro j a hj ha' hne
        exact ⟨rd _ (by omega) (by omega) (by omega), rd _ (by omega) (by omega) (by omega)⟩
      · rw [hm]
        simp only
        rw [poke_other _ _ _ _ (by omega), poke_other _ _ _ _ (by omega),
          poke_other _ _ _ _ (by omega), memset0_outside _ _ _ _ (by omega), poke_same]
      · rw [rA]; simp
      · intro f b hf hfc hb' hne
        exact ⟨rd _ (by omega) (by omega) (by omega), rd _ (by omega) (by omega) (by omega),
          rd _ (by omega) (by omega) (by omega)⟩
      · rw [rA, hm]
        simp only
        rw [poke_other _ _ _ _ (by omega), poke_same]
      · rw [rA, hm]
        simp only
        rw [poke_same, hz _ (by omega) (by omega)]
        simp
      · rw [rA, hm]
        simp only
        rw [poke_other _ _ _ _ (by omega), poke_other _ _ _ _ (by omega), poke_same]
        simp
        omega
      · intro _ b hb' hne
        rw [hm]
        simp only
        constructor
        · rw [poke_other _ _ _ _ (by omega), poke_other _ _ _ _ (by omega),
            poke_other _ _ _ _ (by omega), hz _ (by omega) (by omega)]
        · rw [poke_other _ _ _ _ (by omega), poke_other _ _ _ _ (by omega),
            poke_other _ _ _ _ (by omega), hz _ (by omega) (by omega)]

end Os3_2

namespace Os3_2

/-- Every trace line is a reference of the input: line `e` of process `e.pos` shows
reference number `e.idx` of that process. -/
def Real (recs : List Record) (t : List Access) : Prop :=
  ∀ e ∈ t, ∃ r, recs[e.pos]? = some r ∧ r.2[e.idx]? = some e.page ∧ e.pid = r.1

/-- Everything that holds of the state of `simulate` between two loop bodies, for
loaded records `recs` with pages below `VAS_PAGES`. -/
structure Inv (recs : List Record) (s : Sim) : Prop where
  static : Static recs s
  mem : MemInv recs.length s
  real : Real recs s.trace

/-- What is kept of the invariant at the `exit(1)`: the trace is the trace of a
state between two loop bodies. -/
def AbortInv (recs : List Record) (e : Sim) : Prop :=
  ∃ s, Inv recs s ∧ e.trace = s.trace

theorem hier_mem_init (recs : List Record) (hn : recs.length ≤ 256) :
    MemInv recs.length (start recs) := by
  constructor <;> simp [start, hits, hits1, hn]

theorem hier_inv_start (recs : List Record) (hn : recs.length ≤ 256) : Inv recs (start recs) :=
  ⟨hier_static_init recs, hier_mem_init recs hn, by intro e he; simp [Os3_2.start] at he⟩

theorem hier_inv_step {recs : List Record} (hpg : Pages recs) {idx : Nat} {s : Sim} {d : Bool}
    {i : Nat} {r : Except Sim (Sim × Bool)} (h : Inv recs s) (hs : Step idx s d i r) :
    (∀ s' d', r = .ok (s', d') → Inv recs s') ∧ (∀ e, r = .error e → AbortInv recs e) := by
  have hst := hier_static_step h.static hs
  cases hs with
  | idle _ =>
    refine ⟨?_, fun e he => by cases he⟩
    intro s' d' hr
    cases hr
    exact h
  | l1_abort proc vpn hp _ _ _ =>
    refine ⟨fun s' d' hr => (by cases hr), ?_⟩
    intro e he
    cases he
    exact ⟨s, h, rfl⟩
  | l2_abort proc vpn m1 proc1 l1_pf hp _ _ h1 _ =>
    refine ⟨fun s' d' hr => (by cases hr), ?_⟩
    intro e he
    cases he
    exact ⟨s, h, rfl⟩
  | done proc vpn m1 proc1 l1_pf m2 proc2 l2_pf hp hlt hv h1 h2 =>
    refine ⟨?_, fun e he => by cases he⟩
    intro s' d' hr
    cases hr
    obtain ⟨hrec, hpt, hi⟩ := hier_static_get h.static hp
    have hv64 : vpn < 64 := hpg _ (List.getElem?_mem hrec) vpn (List.getElem?_mem hv)
    rw [hpt] at h1 h2
    refine ⟨hst, ?_, ?_⟩
    · exact hier_mem_of_effect h.mem hi hv64
        (done_effect h.mem hi hv64 h1 h2 rfl rfl rfl rfl rfl rfl (by simp only [hpt])
          (by simp only [hpt]))
    · intro e he
      simp only [List.mem_append, List.mem_singleton] at he
      rcases he with he | he
      · exact h.real e he
      · subst he
        exact ⟨_, hrec, hv, rfl⟩

theorem hier_simulate_inv (recs : List Record) (hpg : Pages recs) (hn : recs.length ≤ 256)
    (fuel : Nat) :
    Outcome_sat (Inv recs) (AbortInv recs)
      (simulate fuel (start recs).mach (mk_procs 0 recs)) :=
  hier_outer_induction _ _
    (fun idx s d p s' d' h hs => by
      have hstep := hier_service_step idx s d p
      rw [hs] at hstep
      exact (hier_inv_step hpg h hstep).1 s' d' rfl)
    (fun idx s d p e h hs => by
      have hstep := hier_service_step idx s d p
      rw [hs] at hstep
      exact (hier_inv_step hpg h hstep).2 e rfl)
    fuel 0 (start recs) (hier_inv_start recs hn)

end Os3_2


/-- Reference lengths of the processes that `main` loads from the input: the first
`MAX_PROCESSES` records. -/
def ref_lens (input : List Record) : List Nat := (input.take 10).map (fun r => r.2.length)

/-- C1: `allocate_frame`, in both variants: with the counter `c` below 256 the call
returns `c`, leaves the counter at `c + 1` and does not touch `pas`; with the counter at
256 it fails and leaves the globals unchanged. -/
theorem allocate_frame_contract (m : Machine) :
    (m.allocated_frame_count < 256 →
      (Os3_1.allocate_frame m).1 = some m.allocated_frame_count ∧
      (Os3_1.allocate_frame m).2.allocated_frame_count = m.allocated_frame_count + 1 ∧
      (Os3_1.allocate_frame m).2.pas = m.pas ∧
      (Os3_2.allocate_frame m).1 = some m.allocated_frame_count ∧
      (Os3_2.allocate_frame m).2.allocated_frame_count = m.allocated_frame_count + 1 ∧
      (Os3_2.allocate_frame m).2.pas = m.pas) ∧
    (m.allocated_frame_count = 256 →
      Os3_1.allocate_frame m = (none, m) ∧ Os3_2.allocate_frame m = (none, m)) := by
  constructor
  · intro h
    have h1 : ¬ (m.allocated_frame_count ≥ Os3_1.PAS_FRAMES) := by
      simp [Os3_1.PAS_FRAMES]; omega
    have h2 : ¬ (m.allocated_frame_count ≥ Os3_2.PAS_FRAMES) := by
      simp [Os3_2.PAS_FRAMES]; omega
    simp [Os3_1.allocate_frame, Os3_2.allocate_frame, h1, h2]
  · intro h
    simp [Os3_1.allocate_frame, Os3_2.allocate_frame, Os3_1.PAS_FRAMES, Os3_2.PAS_FRAMES, h]

/-- C1 at concrete globals: a first call returns frame 0, a call with the counter at
256 fails. -/
theorem allocate_frame_contract_witness :
    ((Os3_1.allocate_frame Machine.init).1 = some 0 ∧
      (Os3_2.allocate_frame Machine.init).1 = some 0) ∧
    (Os3_1.allocate_frame { Machine.init with allocated_frame_count := 256 }).1 = none := by
  have h := (allocate_frame_contract Machine.init).1 (by decide)
  have h2 := (allocate_frame_contract { Machine.init with allocated_frame_count := 256 }).2 rfl
  exact ⟨⟨h.1, h.2.2.2.1⟩, by rw [h2.1]⟩

/-- C2 as stated fails for the flat variant: with one loaded process the first frame
that `allocate_frame` returns is 8, because `allocate_pagetable_frames` has taken
frames 0..7 without calling `allocate_frame`. -/
theorem frame_sequence_flat_starts_at_8 :
    (Os3_1.run 1 [(1, [5])]).map (fun o => o.state.mach.returned) = some [8] ∧
      ∀ k, [8] ≠ List.range k := by
  refine ⟨by decide, ?_⟩
  intro k h
  cases k with
  | zero => simp at h
  | succ k =>
    have : (List.range (k + 1))[0]? = some 0 := by simp
    rw [← h] at this
    simp at this

/-- C2 (amended): over a whole run no two `allocate_frame` calls return the same
frame; in the two-level variant the frames returned are `0, 1, 2, ...` up to the
counter, in the flat variant they are `8n, 8n + 1, ...` up to the counter, where `n` is
the number of loaded processes; the counter never exceeds 256. -/
theorem frame_sequence (input : List Record) (fuel : Nat) :
    (∃ o, Os3_1.run fuel input = some o ∧
      8 * (input.take 10).length ≤ o.state.mach.allocated_frame_count ∧
      o.state.mach.allocated_frame_count ≤ 256 ∧
      o.state.mach.returned = List.range' (8 * (input.take 10).length)
        (o.state.mach.allocated_frame_count - 8 * (input.take 10).length) ∧
      o.state.mach.returned.Nodup) ∧
    (∃ o, Os3_2.run fuel input = some o ∧
      o.state.mach.allocated_frame_count ≤ 256 ∧
      o.state.mach.returned = List.range o.state.mach.allocated_frame_count ∧
      o.state.mach.returned.Nodup) := by
  constructor
  · refine ⟨_, Os3_1.flat_run_start fuel input, ?_⟩
    have h := Os3_1.flat_simulate_log (input.take 10) (Os3_1.take_length_le input) fuel
    have hc := h.count
    refine ⟨by omega, h.le, ?_, ?_⟩
    · rw [h.log]
      congr 1
      omega
    · rw [h.log]
      exact List.nodup_range' _ _
  · refine ⟨_, Os3_2.hier_run_start fuel input, ?_⟩
    have h := Os3_2.hier_simulate_log (input.take 10) (by simp) fuel
    refine ⟨h.le, h.log, ?_⟩
    rw [h.log]
    exact List.nodup_range _

/-- C5: in both variants the serviced references of a completed run are, in order,
the pairs (process position `i`, index `k`) for `k = 0, 1, 2, ...` and, within one
`k`, the processes in input order that have more than `k` references; an aborted run
has serviced a prefix of that order; and `simulate` ends within the bound once the
bound exceeds the longest reference sequence. -/
theorem round_robin_order (input : List Record) (fuel : Nat) :
    ((∀ s, Os3_1.run fuel input = some (.finished s) →
        Os3_1.keys s.trace = schedule (ref_lens input)) ∧
      (∀ s, Os3_1.run fuel input = some (.out_of_memory s) →
        Os3_1.keys s.trace <+: schedule (ref_lens input)) ∧
      (∀ s, Os3_1.run fuel input = some (.out_of_fuel s) →
        fuel < (ref_lens input).foldr max 0)) ∧
    ((∀ s, Os3_2.run fuel input = some (.finished s) →
        Os3_2.keys s.trace = schedule (ref_lens input)) ∧
      (∀ s, Os3_2.run fuel input = some (.out_of_memory s) →
        Os3_2.keys s.trace <+: schedule (ref_lens input)) ∧
      (∀ s, Os3_2.run fuel input = some (.out_of_fuel s) →
        fuel ≤ (ref_lens input).foldr max 0)) := by
  constructor
  · have h := Os3_1.flat_simulate_ordered (input.take 10)
      (Os3_1.start (input.take 10)).mach fuel
    rw [Os3_1.flat_run_start]
    refine ⟨?_, ?_, ?_⟩ <;> intro s hs <;> simp only [Option.some.injEq] at hs <;>
      rw [hs] at h
    · exact h.1
    · exact h
    · have := h.2
      simpa [ref_lens] using this
  · have h := Os3_2.hier_simulate_ordered (input.take 10) fuel
    rw [Os3_2.hier_run_start]
    refine ⟨?_, ?_, ?_⟩ <;> intro s hs <;> simp only [Option.some.injEq] at hs <;>
      rw [hs] at h
    · exact h.1
    · exact h
    · have := h.2
      simpa [ref_lens] using this

/-- C5 on the example of the specification: process A with one reference and process
B with three are serviced in the order A[0], B[0], B[1], B[2], in both variants. -/
theorem round_robin_order_witness :
    (∃ s, Os3_1.run 4 [(1, [7]), (2, [1, 2, 3])] = some (.finished s) ∧
      Os3_1.keys s.trace = [(0, 0), (1, 0), (1, 1), (1, 2)]) ∧
    (∃ s, Os3_2.run 4 [(1, [7]), (2, [1, 2, 3])] = some (.finished s) ∧
      Os3_2.keys s.trace = [(0, 0), (1, 0), (1, 1), (1, 2)]) :=
  ⟨⟨_, rfl, ((round_robin_order [(1, [7]), (2, [1, 2, 3])] 4).1.1 _ rfl).trans (by decide)⟩,
   ⟨_, rfl, ((round_robin_order [(1, [7]), (2, [1, 2, 3])] 4).2.1 _ rfl).trans (by decide)⟩⟩


theorem pages_take {input : List Record} (hpg : ∀ r ∈ input, ∀ v ∈ r.2, v < 64) :
    ∀ r ∈ input.take 10, ∀ v ∈ r.2, v < 64 :=
  fun r hr => hpg r (List.mem_of_mem_take hr)

namespace Os3_1

/-- Every trace line is a reference of the input: line `e` of process `e.pos` shows
reference number `e.idx` of that process. -/
def Real (recs : List Record) (t : List Access) : Prop :=
  ∀ e ∈ t, ∃ r, recs[e.pos]? = some r ∧ r.2[e.idx]? = some e.page ∧ e.pid = r.1

/-- Hit/fault exclusivity of a trace: a line reports a page fault exactly when no
earlier line is for the same process and page, and it shows the same frame as every
earlier line for the same process and page. -/
def Exclusive (t : List Access) : Prop :=
  ∀ k e, t[k]? = some e →
    (e.pf = true ↔ ∀ e' ∈ t.take k, ¬ (e'.pos = e.pos ∧ e'.page = e.page)) ∧
    (∀ e' ∈ t.take k, e'.pos = e.pos → e'.page = e.page → e.frame = e'.frame)

theorem flat_exclusive_of_mem {n : Nat} {s : Sim} (h : MemInv n s) : Exclusive s.trace := by
  intro k e hk
  constructor
  · rw [h.pf k e hk]
    constructor
    · intro h0
      exact flat_hits_zero h0
    · intro hall
      by_contra hne
      obtain ⟨e', he', hh⟩ := flat_hits_pos hne
      exact hall e' he' hh
  · intro e' he' hp hv
    have h1 := h.frame e (List.getElem?_mem hk)
    have h2 := h.frame e' (List.mem_of_mem_take he')
    rw [h1, h2, hp, hv]

theorem flat_real_of_book {recs : List Record} {s : Sim} {extra : Nat → Nat}
    (hst : Static recs s) (hm : MemInv recs.length s) (hb : Book extra s) :
    Real recs s.trace := by
  intro e he
  have hn := flat_static_length hst
  obtain ⟨hpos, _⟩ := hm.ev e he
  have hp : s.procs[e.pos]? = some s.procs[e.pos] := by
    rw [List.getElem?_eq_getElem]
  obtain ⟨hrec, _, _⟩ := flat_static_get hst hp
  obtain ⟨hle, hcur⟩ := hb.cursor e.pos _ hp
  have hmem : (e.idx, e.page, e.pid) ∈
      (s.trace.filter (fun e' => decide (e'.pos = e.pos))).map (fun e => (e.idx, e.page, e.pid)) :=
    List.mem_map_of_mem _ (List.mem_filter.mpr ⟨he, by simp⟩)
  rw [hcur] at hmem
  obtain ⟨k, hk, heq⟩ := List.mem_map.mp hmem
  rw [List.mem_range] at hk
  simp only [Prod.mk.injEq] at heq
  obtain ⟨h1, h2, h3⟩ := heq
  have hkl : k < (s.procs[e.pos]).references.length := by
    have : (s.procs[e.pos]).ref_len = (s.procs[e.pos]).references.length := rfl
    omega
  refine ⟨_, hrec, ?_, h3.symm⟩
  simp only
  rw [← h1, ← h2, List.getD_eq_getElem?_getD, List.getElem?_eq_getElem hkl]
  rfl

end Os3_1

namespace Os3_2

/-- Hit/fault exclusivity of a trace: a line reports a level-2 fault exactly when no
earlier line is for the same process and page, a level-1 fault exactly when no earlier
line is for the same process and level-1 index, and it shows the same frames as
every earlier line for the same process and page. -/
def Exclusive (t : List Access) : Prop :=
  ∀ k e, t[k]? = some e →
    (e.l2_pf = true ↔ ∀ e' ∈ t.take k, ¬ (e'.pos = e.pos ∧ e'.page = e.page)) ∧
    (e.l1_pf = true ↔ ∀ e' ∈ t.take k, ¬ (e'.pos = e.pos ∧ e'.page / 8 = e.page / 8)) ∧
    (∀ e' ∈ t.take k, e'.pos = e.pos → e'.page = e.page →
      e.l2_frame = e'.l2_frame ∧ e.l1_frame = e'.l1_frame)

theorem hits_pos {t : List Access} {i v : Nat} (h : hits t i v ≠ 0) :
    ∃ e ∈ t, e.pos = i ∧ e.page = v := by
  unfold hits at h
  by_contra hcon
  apply h
  rw [List.countP_eq_zero]
  intro a ha hda
  exact hcon ⟨a, ha, by simpa using hda⟩

theorem hits1_pos {t : List Access} {i a : Nat} (h : hits1 t i a ≠ 0) :
    ∃ e ∈ t, e.pos = i ∧ e.page / 8 = a := by
  unfold hits1 at h
  by_contra hcon
  apply h
  rw [List.countP_eq_zero]
  intro a ha hda
  exact hcon ⟨a, ha, by simpa using hda⟩

theorem hier_exclusive_of_mem {n : Nat} {s : Sim} (h : MemInv n s) : Exclusive s.trace := by
  intro k e hk
  refine ⟨?_, ?_, ?_⟩
  · rw [(h.pf k e hk).2]
    constructor
    · intro h0
      exact hier_hits_zero h0
    · intro hall
      by_contra hne
      obtain ⟨e', he', hh⟩ := hits_pos hne
      exact hall e' he' hh
  · rw [(h.pf k e hk).1]
    constructor
    · intro h0
      exact hits1_zero h0
    · intro hall
      by_contra hne
      obtain ⟨e', he', hh⟩ := hits1_pos hne
      exact hall e' he' hh
  · intro e' he' hp hv
    have h1 := h.frames e (List.getElem?_mem hk)
    have h2 := h.frames e' (List.mem_of_mem_take he')
    have hl1 : e.l1_frame = e'.l1_frame := by rw [h1.1, h2.1, hp, hv]
    exact ⟨by rw [h1.2, h2.2, hl1, hv], hl1⟩

end Os3_2

theorem sum_indicator_range (c : Prop) [Decidable c] : ∀ (n j : Nat), j < n →
    ((List.range n).map (fun i => if j = i ∧ c then 1 else 0)).sum = if c then 1 else 0 := by
  intro n
  induction n with
  | zero => intro j hj; omega
  | succ n ih =>
    intro j hj
    rw [List.range_succ, List.map_append, List.sum_append]
    by_cases hjn : j = n
    · subst hjn
      have : ((List.range j).map (fun i => if j = i ∧ c then 1 else 0)).sum = 0 := by
        apply List.sum_eq_zero
        intro x hx
        obtain ⟨i, hi, rfl⟩ := List.mem_map.mp hx
        rw [List.mem_range] at hi
        have : ¬ (j = i ∧ c) := fun h => by omega
        simp [this]
      rw [this]
      simp
    · rw [ih j (by omega)]
      have : ¬ (j = n ∧ c) := fun h => hjn h.1
      simp [this]

theorem map_eq_range_map {α : Type} (l : List α) (f : α → Nat) (g : Nat → Nat)
    (h : ∀ i a, l[i]? = some a → f a = g i) :
    l.map f = (List.range l.length).map g := by
  apply List.ext_getElem?
  intro i
  simp only [List.getElem?_map]
  by_cases hi : i < l.length
  · rw [List.getElem?_eq_getElem hi, List.getElem?_range hi]
    simp [h i _ (List.getElem?_eq_getElem hi)]
  · rw [List.getElem?_eq_none (by omega), List.getElem?_eq_none (by simp; omega)]
    rfl

theorem range_map_getD (l : List Nat) : (List.range l.length).map (fun k => l.getD k 0) = l := by
  apply List.ext_getElem?
  intro i
  simp only [List.getElem?_map]
  by_cases hi : i < l.length
  · rw [List.getElem?_range hi, List.getElem?_eq_getElem hi]
    simp [List.getD_eq_getElem?_getD, hi]
  · rw [List.getElem?_eq_none (by simp; omega), List.getElem?_eq_none (by omega)]
    rfl

theorem countP_range_getD (l : List Nat) (v : Nat) :
    (List.range l.length).countP (fun k => decide (l.getD k 0 = v)) = l.count v := by
  conv_rhs => rw [← range_map_getD l]
  rw [List.count, List.countP_map]
  apply List.countP_congr
  intro k _
  simp [Function.comp]

namespace Os3_1

theorem sum_faults (n : Nat) : ∀ (t : List Access), (∀ e ∈ t, e.pos < n) →
    ((List.range n).map (fun i => faults t i)).sum = t.countP (fun e => e.pf) := by
  intro t
  induction t using List.reverseRecOn with
  | nil => intro _; simp [faults]
  | append_singleton t e ih =>
    intro h
    have h1 := ih (fun e' he' => h e' (List.mem_append_left _ he'))
    have he : e.pos < n := h e (by simp)
    simp only [flat_faults_snoc, List.countP_append, List.countP_cons, List.countP_nil]
    rw [List.sum_map_add, h1, sum_indicator_range (e.pf = true) n e.pos he]
    by_cases hp : e.pf = true <;> simp [hp]

theorem count_valid_eq (pas : Nat → Nat) (pt : Nat) : ∀ (n j acc : Nat),
    count_valid pas pt n j acc =
      acc + (List.range' j n).countP (fun v => decide (pas (pt + v * 4 + 1) = 1)) := by
  intro n
  induction n with
  | zero => intro j acc; simp [count_valid]
  | succ n ih =>
    intro j acc
    simp only [count_valid, PTE_SIZE, PAGE_VALID, List.range'_succ, List.countP_cons]
    split
    · rename_i h
      rw [ih]
      simp [h]
      omega
    · rename_i h
      rw [ih]
      simp [h]

theorem allocated_frames_eq (pas : Nat → Nat) (p : process) :
    (proc_report pas p).allocated_frames = 8 + valid_pages pas p.page_table := by
  simp only [proc_report, count_valid_eq, VAS_PAGES, PAGETABLE_FRAMES, PTE_SIZE, PAGESIZE,
    valid_pages, List.range_eq_range']

/-- The report adds up: the per-process frame counts sum to the allocator counter. -/
theorem report_sum {recs : List Record} {s : Sim} (hst : Static recs s)
    (hlog : LogInv recs.length s) (hm : MemInv recs.length s) (hv : ValidInv recs.length s) :
    ((print_page_tables s.mach s.procs).procs.map ProcReport.allocated_frames).sum =
      s.mach.allocated_frame_count := by
  have hn := flat_static_length hst
  simp only [print_page_tables, List.map_map]
  rw [map_eq_range_map s.procs _ (fun i => 8 + faults s.trace i)]
  · rw [List.sum_map_add, hn, sum_faults _ _ (fun e he => (hm.ev e he).1), hlog.count]
    simp
    omega
  · intro i p hp
    obtain ⟨_, hpt, hi⟩ := flat_static_get hst hp
    simp only [Function.comp, allocated_frames_eq, hpt]
    rw [hv i hi]

end Os3_1

/-- C9: in the flat variant, for every input with pages below 64 and whatever way the
replay ends, the total that `print_page_tables` reports is the final value of
`allocated_frame_count`, every process is reported with 8 frames plus its number of
valid entries, and these per-process values sum to the total; `main` prints exactly
this report, after a completed and after an aborted replay. -/
theorem flat_statistics_consistent (input : List Record) (fuel : Nat)
    (hpg : ∀ r ∈ input, ∀ v ∈ r.2, v < 64) :
    ∃ o, Os3_1.run fuel input = some o ∧
      (Os3_1.print_page_tables o.state.mach o.state.procs).total_frames =
        o.state.mach.allocated_frame_count ∧
      (Os3_1.print_page_tables o.state.mach o.state.procs).procs.map
          Os3_1.ProcReport.allocated_frames =
        o.state.procs.map (fun p => 8 + Os3_1.valid_pages o.state.mach.pas p.page_table) ∧
      ((Os3_1.print_page_tables o.state.mach o.state.procs).procs.map
          Os3_1.ProcReport.allocated_frames).sum =
        (Os3_1.print_page_tables o.state.mach o.state.procs).total_frames ∧
      (∀ out, Os3_1.main fuel input = some out →
        out.report = some (Os3_1.print_page_tables o.state.mach o.state.procs)) := by
  refine ⟨_, Os3_1.flat_run_start fuel input, rfl, ?_, ?_, ?_⟩
  · simp only [Os3_1.print_page_tables, List.map_map]
    apply List.map_congr_left
    intro p _
    simp [Function.comp, Os3_1.allocated_frames_eq]
  · have h := Os3_1.flat_simulate_inv (input.take 10) (pages_take hpg)
      (Os3_1.take_length_le input) fuel
    revert h
    generalize Os3_1.simulate fuel _ _ = o
    intro h
    cases o with
    | finished s => exact Os3_1.report_sum h.static h.log h.mem h.valid
    | out_of_fuel s => exact Os3_1.report_sum h.static h.log h.mem h.valid
    | out_of_memory s => exact Os3_1.report_sum h.static h.log h.mem h.valid
  · intro out hout
    simp only [Os3_1.main, Os3_1.flat_run_start] at hout
    revert hout
    generalize Os3_1.simulate fuel _ _ = o
    intro hout
    cases o with
    | finished s => simp at hout; rw [← hout]; rfl
    | out_of_memory s => simp at hout; rw [← hout]; rfl
    | out_of_fuel s => simp at hout

/-- C9 on a concrete input: two processes, three and four references. -/
theorem flat_statistics_consistent_witness :
    (∀ r ∈ [((1 : Int), [5, 5, 5]), (2, [1, 2, 3, 4])], ∀ v ∈ r.2, v < 64) ∧
    ∃ o, Os3_1.run 5 [(1, [5, 5, 5]), (2, [1, 2, 3, 4])] = some o ∧
      (Os3_1.print_page_tables o.state.mach o.state.procs).total_frames = 21 ∧
      ((Os3_1.print_page_tables o.state.mach o.state.procs).procs.map
          Os3_1.ProcReport.allocated_frames).sum = 21 := by
  refine ⟨by decide, ?_⟩
  obtain ⟨o, ho, h1, _, h3, _⟩ :=
    flat_statistics_consistent [(1, [5, 5, 5]), (2, [1, 2, 3, 4])] 5 (by decide)
  have hc : (Os3_1.run 5 [(1, [5, 5, 5]), (2, [1, 2, 3, 4])]).map
      (fun o => o.state.mach.allocated_frame_count) = some 21 := by decide
  rw [ho] at hc
  simp only [Option.map_some', Option.some.injEq] at hc
  exact ⟨o, ho, by rw [h1, hc], by rw [h3, h1, hc]⟩


namespace Os3_1

theorem flat_hits_eq_count {t : List Access} {i : Nat} {p : process}
    (hcur : (t.filter (fun e => decide (e.pos = i))).map (fun e => (e.idx, e.page, e.pid)) =
      (List.range p.references.length).map (fun k => (k, p.references.getD k 0, p.pid))) (v : Nat) :
    hits t i v = p.references.count v := by
  have h1 : hits t i v =
      ((t.filter (fun e => decide (e.pos = i))).map (fun e => (e.idx, e.page, e.pid))).countP
        (fun x => decide (x.2.1 = v)) := by
    rw [List.countP_map, List.countP_filter]
    apply List.countP_congr
    intro e _
    simp [Function.comp, and_comm]
  rw [h1, hcur, List.countP_map, ← countP_range_getD]
  apply List.countP_congr
  intro k _
  simp [Function.comp]

end Os3_1

namespace Os3_2

/-- Byte offset of the level-1 entry that `simulate` uses for page `vpn` of `proc`. -/
def l1_entry (proc : process) (vpn : Nat) : Nat :=
  proc.L1_page_table + (vpn >>> 3) * PTE_SIZE

/-- Byte offset of the level-2 entry that `simulate` uses for page `vpn` of `proc`,
read through the level-1 entry. -/
def l2_entry (pas : Nat → Nat) (proc : process) (vpn : Nat) : Nat :=
  pas (l1_entry proc vpn) * PAGESIZE + (vpn &&& 0x07) * PTE_SIZE

theorem hier_hits_eq_count {t : List Access} {i : Nat} {p : process}
    (hcur : (t.filter (fun e => decide (e.pos = i))).map (fun e => (e.idx, e.page)) =
      (List.range p.references.length).map (fun k => (k, p.references.getD k 0))) (v : Nat) :
    hits t i v = p.references.count v := by
  have h1 : hits t i v =
      ((t.filter (fun e => decide (e.pos = i))).map (fun e => (e.idx, e.page))).countP
        (fun x => decide (x.2 = v)) := by
    rw [List.countP_map, List.countP_filter]
    apply List.countP_congr
    intro e _
    simp [Function.comp, and_comm]
  rw [h1, hcur, List.countP_map, ← countP_range_getD]
  apply List.countP_congr
  intro k _
  simp [Function.comp]

end Os3_2

namespace Os3_1

/-- Byte offset of the entry of page `page_num` in the table of `p`, as `simulate`
computes it. -/
def pte_entry (p : process) (page_num : Nat) : Nat := p.page_table + page_num * PTE_SIZE

end Os3_1

/-- C10 (amended): after a completed replay of an input with pages below 64, in both
variants, the `ref` byte of the entry of every referenced page is the number of
occurrences of the page in the reference sequence of the process modulo 256 (hence
that number itself when it is below 256), the entry is valid, and every unreferenced
page has an invalid entry (flat: valid flag 0; two-level: level-1 entry invalid or
level-2 entry invalid). -/
theorem reference_counts (input : List Record) (fuel : Nat)
    (hpg : ∀ r ∈ input, ∀ v ∈ r.2, v < 64) :
    (∀ s, Os3_1.run fuel input = some (.finished s) →
      ∀ (i : Nat) (p : Os3_1.process), s.procs[i]? = some p →
      (input.take 10)[i]? = some (p.pid, p.references) ∧
      ∀ v, v < 64 →
        s.mach.pas (Os3_1.pte_entry p v + 2) = p.references.count v % 256 ∧
        (p.references.count v < 256 →
          s.mach.pas (Os3_1.pte_entry p v + 2) = p.references.count v) ∧
        (v ∈ p.references → s.mach.pas (Os3_1.pte_entry p v + 1) = 1) ∧
        (v ∉ p.references → s.mach.pas (Os3_1.pte_entry p v + 1) = 0)) ∧
    (∀ s, Os3_2.run fuel input = some (.finished s) →
      ∀ (i : Nat) (p : Os3_2.process), s.procs[i]? = some p →
      (input.take 10)[i]? = some (p.pid, p.references) ∧
      ∀ v, v < 64 →
        (v ∈ p.references →
          s.mach.pas (Os3_2.l1_entry p v + 1) = 1 ∧
          s.mach.pas (Os3_2.l2_entry s.mach.pas p v + 1) = 1 ∧
          s.mach.pas (Os3_2.l2_entry s.mach.pas p v + 2) = p.references.count v % 256 ∧
          (p.references.count v < 256 →
            s.mach.pas (Os3_2.l2_entry s.mach.pas p v + 2) = p.references.count v)) ∧
        (v ∉ p.references →
          s.mach.pas (Os3_2.l1_entry p v + 1) = 0 ∨
          s.mach.pas (Os3_2.l2_entry s.mach.pas p v + 1) = 0)) := by
  constructor
  · intro s hs i p hp
    have hinv := Os3_1.flat_simulate_inv (input.take 10) (pages_take hpg)
      (Os3_1.take_length_le input) fuel
    have hord := Os3_1.flat_simulate_ordered (input.take 10)
      (Os3_1.start (input.take 10)).mach fuel
    rw [Os3_1.flat_run_start] at hs
    simp only [Option.some.injEq] at hs
    rw [hs] at hinv hord
    obtain ⟨hrec, hpt, hi⟩ := Os3_1.flat_static_get hinv.static hp
    refine ⟨hrec, ?_⟩
    intro v hv
    have hrc : p.ref_count = p.references.length := hord.2 p (List.getElem?_mem hp)
    have hcur := (hinv.book.cursor i p hp).2
    rw [hrc] at hcur
    have hh := Os3_1.flat_hits_eq_count hcur v
    have hf := hinv.mem.vflag i v hi hv
    have hr := hinv.mem.ref i v hi hv
    rw [hh] at hf hr
    simp only [Os3_1.pte_entry, Os3_1.PTE_SIZE, hpt]
    refine ⟨hr, ?_, ?_, ?_⟩
    · intro hlt
      rw [hr]
      exact Nat.mod_eq_of_lt hlt
    · intro hmem
      have : p.references.count v ≠ 0 := by
        have := List.count_pos_iff.mpr hmem
        omega
      rw [hf]
      simp [this]
    · intro hmem
      have : p.references.count v = 0 := List.count_eq_zero_of_not_mem hmem
      rw [hf]
      simp [this]
  · intro s hs i p hp
    have hinv := Os3_2.hier_simulate_inv (input.take 10) (pages_take hpg) (by simp) fuel
    have hord := Os3_2.hier_simulate_ordered (input.take 10) fuel
    rw [Os3_2.hier_run_start] at hs
    simp only [Option.some.injEq] at hs
    rw [hs] at hinv hord
    obtain ⟨hrec, hpt, hi⟩ := Os3_2.hier_static_get hinv.static hp
    refine ⟨hrec, ?_⟩
    intro v hv
    obtain ⟨hrc, hcur⟩ := hord.2 i p hp
    have hh := Os3_2.hier_hits_eq_count hcur v
    have hv8 : v / 8 < 8 := by omega
    have hf1 := hinv.mem.l1_flag i (v / 8) hi hv8
    simp only [Os3_2.l1_entry, Os3_2.l2_entry, Os3_2.PTE_SIZE, Os3_2.PAGESIZE, hpt,
      shiftRight_three, land_seven]
    constructor
    · intro hmem
      have hc : p.references.count v ≠ 0 := by
        have := List.count_pos_iff.mpr hmem
        omega
      have h1 : Os3_2.hits1 s.trace i (v / 8) ≠ 0 := by
        intro h0
        have := Os3_2.hits_of_hits1 h0
        omega
      have hf2 := hinv.mem.l2_flag i v hi hv h1
      have hr2 := hinv.mem.l2_ref i v hi hv h1
      rw [hh] at hf2 hr2
      refine ⟨by rw [hf1]; simp [h1], by rw [hf2]; simp [hc], hr2, ?_⟩
      intro hlt
      rw [hr2]
      exact Nat.mod_eq_of_lt hlt
    · intro hmem
      have hc : p.references.count v = 0 := List.count_eq_zero_of_not_mem hmem
      by_cases h1 : Os3_2.hits1 s.trace i (v / 8) = 0
      · left
        rw [hf1]
        simp [h1]
      · right
        have hf2 := hinv.mem.l2_flag i v hi hv h1
        rw [hh, hc] at hf2
        rw [hf2]
        simp

/-- C10 on the example of the specification: the references `[5, 5, 5]` leave
reference count 3 in the entry of page 5, in both variants. -/
theorem reference_counts_witness :
    (∀ r ∈ [((1 : Int), [5, 5, 5])], ∀ v ∈ r.2, v < 64) ∧
    (∃ s p, Os3_1.run 3 [(1, [5, 5, 5])] = some (.finished s) ∧ s.procs[0]? = some p ∧
      s.mach.pas (Os3_1.pte_entry p 5 + 2) = 3) ∧
    (∃ s p, Os3_2.run 4 [(1, [5, 5, 5])] = some (.finished s) ∧ s.procs[0]? = some p ∧
      s.mach.pas (Os3_2.l2_entry s.mach.pas p 5 + 2) = 3) := by
  have hpg : ∀ r ∈ [((1 : Int), [5, 5, 5])], ∀ v ∈ r.2, v < 64 := by decide
  obtain ⟨s1, hs1⟩ : ∃ s, Os3_1.run 3 [(1, [5, 5, 5])] = some (.finished s) := ⟨_, rfl⟩
  obtain ⟨s2, hs2⟩ : ∃ s, Os3_2.run 4 [(1, [5, 5, 5])] = some (.finished s) := ⟨_, rfl⟩
  have h1 := (reference_counts [(1, [5, 5, 5])] 3 hpg).1 s1 hs1 0
  have h2 := (reference_counts [(1, [5, 5, 5])] 4 hpg).2 s2 hs2 0
  have hp1 : ∃ p, s1.procs[0]? = some p ∧ p.references = [5, 5, 5] := by
    have := Os3_1.flat_simulate_inv ([(1, [5, 5, 5])].take 10) (pages_take hpg) (by simp) 3
    rw [Os3_1.flat_run_start] at hs1
    simp only [Option.some.injEq] at hs1
    rw [hs1] at this
    have h0 := this.static 0
    cases hq : s1.procs[0]? with
    | none => rw [hq] at h0; simp at h0
    | some p =>
      rw [hq] at h0
      simp at h0
      exact ⟨p, rfl, h0.2.1⟩
  have hp2 : ∃ p, s2.procs[0]? = some p ∧ p.references = [5, 5, 5] := by
    have := Os3_2.hier_simulate_inv ([(1, [5, 5, 5])].take 10) (pages_take hpg) (by simp) 4
    rw [Os3_2.hier_run_start] at hs2
    simp only [Option.some.injEq] at hs2
    rw [hs2] at this
    have h0 := this.static 0
    cases hq : s2.procs[0]? with
    | none => rw [hq] at h0; simp at h0
    | some p =>
      rw [hq] at h0
      simp at h0
      exact ⟨p, rfl, h0.2.1⟩
  obtain ⟨p1, hq1, hr1⟩ := hp1
  obtain ⟨p2, hq2, hr2⟩ := hp2
  refine ⟨hpg, ⟨s1, p1, hs1, hq1, ?_⟩, ⟨s2, p2, hs2, hq2, ?_⟩⟩
  · have := ((h1 p1 hq1).2 5 (by decide)).1
    rw [this, hr1]
    decide
  · have := (((h2 p2 hq2).2 5 (by decide)).1 (by rw [hr2]; decide)).2.2.1
    rw [this, hr2]
    decide


namespace Os3_1

/-- What one serviced reference of process `i` to page `v` leaves alone: every byte
of every other page-table entry of every process, and every other process record. -/
def Untouched (s s' : Sim) (i v : Nat) : Prop :=
  (∀ (j : Nat) (q : process) (w : Nat), s.procs[j]? = some q → w < 64 → ¬ (j = i ∧ w = v) →
    ∀ k, k < 4 → s'.mach.pas (pte_entry q w + k) = s.mach.pas (pte_entry q w + k)) ∧
  (∀ j, j ≠ i → s'.procs[j]? = s.procs[j]?)

end Os3_1

/-- C3 (amended): one serviced reference of the flat `simulate`, for process `i` with
record `p` whose next reference is page `v < 64`, in a state whose page tables lie
where the loader put them.  If the entry of `v` is valid, its reference count becomes
the old one plus 1 modulo 256, its frame and valid flag and the allocator counter and
the fault count of the process are unchanged, and a hit on that frame is printed.  If
the entry is invalid and `allocate_frame` returns `f`, the entry becomes valid with
frame `f` and reference count 1, the fault count grows by 1, and a fault on `f` is
printed.  In both cases `ref_count` and `processed_refs` grow by 1 and no other entry
of any process changes. -/
theorem flat_translate_step (s : Os3_1.Sim) (i : Nat) (p : Os3_1.process) (v : Nat)
    (hlay : ∀ (j : Nat) (q : Os3_1.process), s.procs[j]? = some q → q.page_table = j * 256)
    (hp : s.procs[i]? = some p) (hcur : p.ref_count < p.ref_len)
    (hv : p.references[p.ref_count]? = some v) (hv64 : v < 64) :
    (s.mach.pas (Os3_1.pte_entry p v + 1) = 1 →
      ∃ s', Os3_1.service s i = .ok s' ∧
        s'.mach.pas (Os3_1.pte_entry p v + 2) = (s.mach.pas (Os3_1.pte_entry p v + 2) + 1) % 256 ∧
        s'.mach.pas (Os3_1.pte_entry p v) = s.mach.pas (Os3_1.pte_entry p v) ∧
        s'.mach.pas (Os3_1.pte_entry p v + 1) = 1 ∧
        s'.mach.allocated_frame_count = s.mach.allocated_frame_count ∧
        s'.procs[i]? = some { p with ref_count := p.ref_count + 1 } ∧
        s'.processed_refs = s.processed_refs + 1 ∧
        s'.trace = s.trace ++ [{ pos := i, pid := p.pid, idx := p.ref_count, page := v,
                                  pf := false, frame := s.mach.pas (Os3_1.pte_entry p v) }] ∧
        Os3_1.Untouched s s' i v) ∧
    (s.mach.pas (Os3_1.pte_entry p v + 1) ≠ 1 →
      ∀ f, (Os3_1.allocate_frame s.mach).1 = some f →
      ∃ s', Os3_1.service s i = .ok s' ∧
        s'.mach.pas (Os3_1.pte_entry p v + 1) = 1 ∧
        s'.mach.pas (Os3_1.pte_entry p v) = f ∧
        s'.mach.pas (Os3_1.pte_entry p v + 2) = 1 ∧
        s'.mach.allocated_frame_count = s.mach.allocated_frame_count + 1 ∧
        s'.procs[i]? = some { p with page_faults := p.page_faults + 1,
                                     ref_count := p.ref_count + 1 } ∧
        s'.processed_refs = s.processed_refs + 1 ∧
        s'.trace = s.trace ++ [{ pos := i, pid := p.pid, idx := p.ref_count, page := v,
                                  pf := true, frame := f }] ∧
        Os3_1.Untouched s s' i v) := by
  have hstep := Os3_1.flat_service_step s i
  have hil : i < s.procs.length := (List.getElem?_eq_some.mp hp).1
  have hpt := hlay i p hp
  have hunt : ∀ (pas' : Nat → Nat) (procs' : List Os3_1.process) (q0 : Os3_1.process),
      (∀ x, x ≠ i * 256 + v * 4 → x ≠ i * 256 + v * 4 + 1 → x ≠ i * 256 + v * 4 + 2 →
        pas' x = s.mach.pas x) →
      procs' = s.procs.set i q0 →
      (∀ (j : Nat) (q : Os3_1.process) (w : Nat), s.procs[j]? = some q → w < 64 →
          ¬ (j = i ∧ w = v) →
          ∀ k, k < 4 → pas' (Os3_1.pte_entry q w + k) = s.mach.pas (Os3_1.pte_entry q w + k)) ∧
        (∀ j, j ≠ i → procs'[j]? = s.procs[j]?) := by
    intro pas' procs' q0 hpas hprocs
    constructor
    · intro j q w hq hw hne k hk
      have := hlay j q hq
      simp only [Os3_1.pte_entry, Os3_1.PTE_SIZE, this]
      exact hpas _ (by omega) (by omega) (by omega)
    · intro j hj
      rw [hprocs, List.getElem?_set_ne (fun h => hj h.symm)]
  generalize Os3_1.service s i = r at hstep
  cases hstep with
  | idle hid =>
    have := hid p hp
    omega
  | hit p' v' hp' hlt hv' hflag =>
    rw [hp] at hp'
    cases hp'
    rw [hv] at hv'
    cases hv'
    simp only [Os3_1.pte_entry, Os3_1.PTE_SIZE, hpt] at hflag ⊢
    constructor
    · intro _
      refine ⟨_, rfl, ?_, ?_, ?_, rfl, ?_, rfl, ?_, ?_⟩
      · simp only [Os3_1.hit_state, Os3_1.PTE_SIZE, hpt]
        rw [poke_same]
      · simp only [Os3_1.hit_state, Os3_1.PTE_SIZE, hpt]
        rw [poke_other _ _ _ _ (by omega)]
      · simp only [Os3_1.hit_state, Os3_1.PTE_SIZE, hpt]
        rw [poke_other _ _ _ _ (by omega)]
        exact hflag
      · simp [Os3_1.hit_state, hil, hpt]
      · simp only [Os3_1.hit_state, Os3_1.PTE_SIZE, hpt]
        rw [poke_other _ _ _ _ (by omega)]
      · apply hunt _ _ _ _ rfl
        intro x h0 h1 h2
        simp only [Os3_1.hit_state, Os3_1.PTE_SIZE, hpt]
        rw [poke_other _ _ _ _ h2]
    · intro hne
      exact absurd hflag hne
  | fault p' v' hp' hlt hv' hflag hc =>
    rw [hp] at hp'
    cases hp'
    rw [hv] at hv'
    cases hv'
    simp only [Os3_1.pte_entry, Os3_1.PTE_SIZE, hpt] at hflag ⊢
    constructor
    · intro h1
      exact absurd h1 hflag
    · intro _ f hf
      have hn : ¬ (s.mach.allocated_frame_count ≥ Os3_1.PAS_FRAMES) := by
        simp [Os3_1.PAS_FRAMES]; omega
      simp only [Os3_1.allocate_frame, hn, if_false, Option.some.injEq] at hf
      subst hf
      refine ⟨_, rfl, ?_, ?_, ?_, rfl, ?_, rfl, ?_, ?_⟩
      · simp only [Os3_1.fault_state, Os3_1.PTE_SIZE, hpt, Os3_1.PAGE_VALID]
        rw [poke_other _ _ _ _ (by omega), poke_other _ _ _ _ (by omega), poke_same]
      · simp only [Os3_1.fault_state, Os3_1.PTE_SIZE, hpt, Os3_1.PAGE_VALID]
        rw [poke_other _ _ _ _ (by omega), poke_same]
        omega
      · simp only [Os3_1.fault_state, Os3_1.PTE_SIZE, hpt, Os3_1.PAGE_VALID]
        rw [poke_same]
      · simp [Os3_1.fault_state, hil, hpt]
      · simp only [Os3_1.fault_state, Os3_1.PTE_SIZE, hpt, Os3_1.PAGE_VALID]
        rw [poke_other _ _ _ _ (by omega), poke_same]
        have : s.mach.allocated_frame_count % 256 = s.mach.allocated_frame_count := by omega
        rw [this]
      · apply hunt _ _ _ _ rfl
        intro x h0 h1 h2
        simp only [Os3_1.fault_state, Os3_1.PTE_SIZE, hpt, Os3_1.PAGE_VALID]
        rw [poke_other _ _ _ _ h2, poke_other _ _ _ _ h0, poke_other _ _ _ _ h1]
  | abort p' v' hp' hlt hv' hflag hc =>
    rw [hp] at hp'
    cases hp'
    rw [hv] at hv'
    cases hv'
    simp only [Os3_1.pte_entry, Os3_1.PTE_SIZE, hpt] at hflag ⊢
    constructor
    · intro h1
      exact absurd h1 hflag
    · intro _ f hf
      have hn : s.mach.allocated_frame_count ≥ Os3_1.PAS_FRAMES := by
        simp [Os3_1.PAS_FRAMES]; omega
      simp [Os3_1.allocate_frame, hn] at hf

/-- C3 on a concrete state: process 0 with references `[5, 5]` right after loading.
The first reference faults and gets frame 8; in the state it leaves, the second
reference is a hit that raises the reference count to 2. -/
theorem flat_translate_step_witness :
    (∀ (j : Nat) (q : Os3_1.process),
      (Os3_1.start [(1, [5, 5])]).procs[j]? = some q → q.page_table = j * 256) ∧
    (∃ s', Os3_1.service (Os3_1.start [(1, [5, 5])]) 0 = .ok s' ∧
      s'.mach.pas 21 = 1 ∧ s'.mach.pas 20 = 8 ∧ s'.mach.pas 22 = 1 ∧
      s'.mach.allocated_frame_count = 9) ∧
    (∃ s', Os3_1.service
        (Os3_1.fault_state (Os3_1.start [(1, [5, 5])]) 0 ⟨1, [5, 5], 0, 0, 0⟩ 5) 0 = .ok s' ∧
      s'.mach.pas 22 = 2 ∧ s'.mach.pas 20 = 8 ∧ s'.mach.pas 21 = 1 ∧
      s'.mach.allocated_frame_count = 9) := by
  have hlay0 : ∀ (j : Nat) (q : Os3_1.process),
      (Os3_1.start [(1, [5, 5])]).procs[j]? = some q → q.page_table = j * 256 := by
    intro j q hq
    match j, hq with
    | 0, hq =>
      simp [Os3_1.start, Os3_1.mk_procs] at hq
      rw [← hq]
      rfl
    | j + 1, hq => simp [Os3_1.start, Os3_1.mk_procs] at hq
  have hlay1 : ∀ (j : Nat) (q : Os3_1.process),
      (Os3_1.fault_state (Os3_1.start [(1, [5, 5])]) 0 ⟨1, [5, 5], 0, 0, 0⟩ 5).procs[j]? = some q →
        q.page_table = j * 256 := by
    intro j q hq
    match j, hq with
    | 0, hq =>
      simp [Os3_1.fault_state, Os3_1.start, Os3_1.mk_procs] at hq
      rw [← hq]
    | j + 1, hq => simp [Os3_1.fault_state, Os3_1.start, Os3_1.mk_procs] at hq
  refine ⟨hlay0, ?_, ?_⟩
  · obtain ⟨s', h1, h2, h3, h4, h5, _⟩ :=
      (flat_translate_step (Os3_1.start [(1, [5, 5])]) 0 ⟨1, [5, 5], 0, 0, 0⟩ 5 hlay0 rfl
        (by decide) rfl (by decide)).2 (by decide) 8 rfl
    exact ⟨s', h1, h2, h3, h4, h5⟩
  · obtain ⟨s', h1, h2, h3, h4, h5, _⟩ :=
      (flat_translate_step
        (Os3_1.fault_state (Os3_1.start [(1, [5, 5])]) 0 ⟨1, [5, 5], 0, 0, 0⟩ 5) 0
        ⟨1, [5, 5], 0, 1, 1⟩ 5 hlay1 rfl (by decide) rfl (by decide)).1 (by decide)
    exact ⟨s', h1, h2.trans (by decide), h3.trans (by decide), h4, h5.trans (by decide)⟩


namespace Os3_2

/-- Number of valid level-1 entries of `proc`. -/
def valid_l1 (pas : Nat → Nat) (proc : process) : Nat :=
  (List.range L1_PT_ENTRIES).countP
    (fun l1 => decide (pas (proc.L1_page_table + l1 * PTE_SIZE + 1) = PAGE_VALID))

/-- Number of valid level-2 entries in the level-2 tables of the valid level-1
entries of `proc`. -/
def valid_l2 (pas : Nat → Nat) (proc : process) : Nat :=
  ((List.range L1_PT_ENTRIES).map (fun l1 =>
    if pas (proc.L1_page_table + l1 * PTE_SIZE + 1) = PAGE_VALID then
      (List.range L2_PT_ENTRIES).countP (fun l2 =>
        decide (pas (pas (proc.L1_page_table + l1 * PTE_SIZE) * PAGESIZE + l2 * PTE_SIZE + 1)
          = PAGE_VALID))
    else 0)).sum

theorem count_l2_eq (pas : Nat → Nat) (l2_pt : Nat) : ∀ (n l2 acc : Nat),
    count_l2 pas l2_pt n l2 acc =
      acc + (List.range' l2 n).countP
        (fun l2 => decide (pas (l2_pt + l2 * PTE_SIZE + 1) = PAGE_VALID)) := by
  intro n
  induction n with
  | zero => intro l2 acc; simp [count_l2]
  | succ n ih =>
    intro l2 acc
    simp only [count_l2, List.range'_succ, List.countP_cons]
    split
    · rename_i h
      rw [ih]
      simp [h]
      omega
    · rename_i h
      rw [ih]
      simp [h]

theorem count_l1_eq (pas : Nat → Nat) (L1 : Nat) : ∀ (n l1 acc : Nat),
    count_l1 pas L1 n l1 acc =
      acc + (List.range' l1 n).countP
          (fun l1 => decide (pas (L1 + l1 * PTE_SIZE + 1) = PAGE_VALID)) +
        ((List.range' l1 n).map (fun l1 =>
          if pas (L1 + l1 * PTE_SIZE + 1) = PAGE_VALID then
            (List.range L2_PT_ENTRIES).countP (fun l2 =>
              decide (pas (pas (L1 + l1 * PTE_SIZE) * PAGESIZE + l2 * PTE_SIZE + 1)
                = PAGE_VALID))
          else 0)).sum := by
  intro n
  induction n with
  | zero => intro l1 acc; simp [count_l1]
  | succ n ih =>
    intro l1 acc
    simp only [count_l1, List.range'_succ, List.countP_cons, List.map_cons, List.sum_cons]
    split
    · rename_i h
      rw [ih]
      simp [h]
    · rename_i h
      have h' : pas (L1 + l1 * PTE_SIZE + 1) = PAGE_VALID := by
        by_contra hc; exact h hc
      rw [ih, count_l2_eq]
      simp only [h', decide_True, if_true, List.range_eq_range']
      omega

end Os3_2

/-- C8 as stated fails: after the single reference to page 0 the process has one
valid level-1 entry and one valid level-2 entry, and `print_page_tables` reports 2
allocated frames, not 1 + 1 + 1: the frame of the level-1 table is not counted. -/
theorem frames_used_excludes_level1 :
    ∃ s p, Os3_2.run 2 [(1, [0])] = some (.finished s) ∧ s.procs = [p] ∧
      (Os3_2.print_page_tables s.mach s.procs).procs.map Os3_2.ProcReport.frames_used = [2] ∧
      1 + Os3_2.valid_l1 s.mach.pas p + Os3_2.valid_l2 s.mach.pas p = 3 :=
  ⟨_, _, rfl, rfl, rfl, rfl⟩

/-- C8 (amended): the value `print_page_tables` reports as allocated frames of a
process, in every state, is the number of its valid level-1 entries (one level-2
table each) plus the number of valid level-2 entries under them (data pages); the
frame of the level-1 table itself is not counted. -/
theorem frames_used_eq (pas : Nat → Nat) (proc : Os3_2.process) :
    (Os3_2.proc_report pas proc).frames_used =
      Os3_2.valid_l1 pas proc + Os3_2.valid_l2 pas proc := by
  simp only [Os3_2.proc_report, Os3_2.count_l1_eq, Os3_2.valid_l1, Os3_2.valid_l2,
    List.range_eq_range']
  omega


namespace Os3_1

/-- Ten processes `0..9`, each referencing the pages `0, 1, ..., 17` in order. -/
def ten_by_eighteen : List Record :=
  (List.range 10).map (fun i => ((i : Int), List.range 18))

theorem flat_cursor_length {extra : Nat → Nat} {s : Sim} (h : Book extra s) {i : Nat}
    {p : process} (hp : s.procs[i]? = some p) :
    (s.trace.filter (fun e => decide (e.pos = i))).length = p.ref_count := by
  have hc := congrArg List.length (h.cursor i p hp).2
  simpa using hc

end Os3_1

/-- C7 (divergence): in the flat variant, for every input with pages below 64, when
`simulate` returns early because `allocate_frame` failed, the counter is 256 and
every process is reported with as many references as it has trace lines; but the
process whose reference triggered the abort is reported with one page fault more
than it has valid entries and faulting trace lines, because `page_faults++` runs
before the failed `allocate_frame()`.  All other processes are reported with exactly
their number of valid entries. -/
theorem flat_abort_overcounts_faults (input : List Record) (fuel : Nat)
    (hpg : ∀ r ∈ input, ∀ v ∈ r.2, v < 64) (s : Os3_1.Sim)
    (h : Os3_1.run fuel input = some (.out_of_memory s)) :
    s.mach.allocated_frame_count = 256 ∧
    ∃ (i : Nat) (p : Os3_1.process), s.procs[i]? = some p ∧ p.ref_count < p.ref_len ∧
      (Os3_1.proc_report s.mach.pas p).page_faults =
        Os3_1.valid_pages s.mach.pas p.page_table + 1 ∧
      (Os3_1.proc_report s.mach.pas p).page_faults = Os3_1.faults s.trace i + 1 ∧
      (∀ (j : Nat) (q : Os3_1.process), s.procs[j]? = some q →
        (Os3_1.proc_report s.mach.pas q).references =
          (s.trace.filter (fun e => decide (e.pos = j))).length) ∧
      (∀ (j : Nat) (q : Os3_1.process), j ≠ i → s.procs[j]? = some q →
        (Os3_1.proc_report s.mach.pas q).page_faults =
            Os3_1.valid_pages s.mach.pas q.page_table ∧
        (Os3_1.proc_report s.mach.pas q).page_faults = Os3_1.faults s.trace j) := by
  have hinv := Os3_1.flat_simulate_inv (input.take 10) (pages_take hpg)
    (Os3_1.take_length_le input) fuel
  rw [Os3_1.flat_run_start] at h
  simp only [Option.some.injEq] at h
  rw [h] at hinv
  have ha : Os3_1.AbortInv (input.take 10) s := hinv
  obtain ⟨hcnt, i, p, v, hp, hlt, _, _, hbook⟩ := ha.aborted
  refine ⟨hcnt, i, p, hp, hlt, ?_, ?_, ?_, ?_⟩
  · obtain ⟨_, hpt, hi⟩ := Os3_1.flat_static_get ha.static hp
    have hf := hbook.faults i p hp
    simp only [if_true] at hf
    rw [hpt, ha.valid i hi]
    simpa [Os3_1.proc_report] using hf
  · have hf := hbook.faults i p hp
    simp only [if_true] at hf
    simpa [Os3_1.proc_report] using hf
  · intro j q hq
    rw [Os3_1.flat_cursor_length hbook hq]
    rfl
  · intro j q hne hq
    obtain ⟨_, hpt, hj⟩ := Os3_1.flat_static_get ha.static hq
    have hf := hbook.faults j q hq
    simp only [if_neg hne, Nat.add_zero] at hf
    rw [hpt, ha.valid j hj]
    exact ⟨by simpa [Os3_1.proc_report] using hf, by simpa [Os3_1.proc_report] using hf⟩


/-- Four processes `0..3`, each referencing the pages `0, 1, ..., 63` in order. -/
def four_by_sixtyfour : List Record :=
  (List.range 4).map (fun i => ((i : Int), List.range 64))


namespace Os3_2

/-- The local `l1_idx` of `simulate` for the page `vpn`. -/
def l1_idx (vpn : Nat) : Nat := vpn >>> 3

/-- The local `l2_idx` of `simulate` for the page `vpn`. -/
def l2_idx (vpn : Nat) : Nat := vpn &&& 0x07

/-- The local `page_num` of `print_page_tables` for the indices `l1` and `l2`. -/
def page_num (l1 l2 : Nat) : Nat := (l1 <<< 3) ||| l2

end Os3_2

/-- C18: `allocate_pagetable_frames` of the flat variant, for every state of the
globals with counter `c`.  If `c + 8 > 256` it fails and leaves the globals as they
were.  Otherwise it returns the pointer to byte `c * 32`, the counter becomes
`c + 8`, the 256 bytes of the frames `c .. c + 7` are zero, every other byte of `pas`
is unchanged, and so each of the 64 entries of the new table has frame 0, valid flag
`PAGE_INVALID` and reference count 0. -/
theorem allocate_pagetable_frames_contract (m : Machine) :
    (256 < m.allocated_frame_count + 8 → Os3_1.allocate_pagetable_frames m = (none, m)) ∧
    (m.allocated_frame_count + 8 ≤ 256 →
      ∃ m1, Os3_1.allocate_pagetable_frames m = (some (m.allocated_frame_count * 32), m1) ∧
        m1.allocated_frame_count = m.allocated_frame_count + 8 ∧
        m1.returned = m.returned ∧
        (∀ x, m.allocated_frame_count * 32 ≤ x → x < (m.allocated_frame_count + 8) * 32 →
          m1.pas x = 0) ∧
        (∀ x, x < m.allocated_frame_count * 32 ∨ (m.allocated_frame_count + 8) * 32 ≤ x →
          m1.pas x = m.pas x) ∧
        (∀ v, v < Os3_1.VAS_PAGES →
          m1.pas (m.allocated_frame_count * 32 + v * Os3_1.PTE_SIZE) = 0 ∧
          m1.pas (m.allocated_frame_count * 32 + v * Os3_1.PTE_SIZE + 1) = Os3_1.PAGE_INVALID ∧
          m1.pas (m.allocated_frame_count * 32 + v * Os3_1.PTE_SIZE + 2) = 0)) := by
  constructor
  · intro h
    have : m.allocated_frame_count + Os3_1.PAGETABLE_FRAMES > Os3_1.PAS_FRAMES := by
      simp only [Os3_1.PAGETABLE_FRAMES, Os3_1.PAS_FRAMES, Os3_1.VAS_PAGES, Os3_1.PTE_SIZE,
        Os3_1.PAGESIZE]
      omega
    simp [Os3_1.allocate_pagetable_frames, this]
  · intro h
    have hn : ¬ m.allocated_frame_count + Os3_1.PAGETABLE_FRAMES > Os3_1.PAS_FRAMES := by
      simp only [Os3_1.PAGETABLE_FRAMES, Os3_1.PAS_FRAMES, Os3_1.VAS_PAGES, Os3_1.PTE_SIZE,
        Os3_1.PAGESIZE]
      omega
    have hz : ∀ x, m.allocated_frame_count * 32 ≤ x → x < (m.allocated_frame_count + 8) * 32 →
        memset0 m.pas (m.allocated_frame_count * 32) (32 * 8) x = 0 := by
      intro x h1 h2
      apply memset0_inside
      · exact h1
      · omega
    refine ⟨{ m with allocated_frame_count := m.allocated_frame_count + 8,
                     pas := memset0 m.pas (m.allocated_frame_count * 32) (32 * 8) },
      by simp only [Os3_1.allocate_pagetable_frames, hn, if_false]; rfl, rfl, rfl, hz, ?_, ?_⟩
    · intro x hx
      apply memset0_outside
      omega
    · intro v hv
      simp only [Os3_1.VAS_PAGES] at hv
      simp only [Os3_1.PTE_SIZE, Os3_1.PAGE_INVALID]
      exact ⟨hz _ (by omega) (by omega), hz _ (by omega) (by omega), hz _ (by omega) (by omega)⟩

/-- C18 at the start of the program and with 249 frames taken: the first table lies at
byte 0 and leaves the counter at 8; with 249 frames taken the call fails. -/
theorem allocate_pagetable_frames_contract_witness :
    (∃ m1, Os3_1.allocate_pagetable_frames Machine.init = (some 0, m1) ∧
      m1.allocated_frame_count = 8 ∧ m1.pas 21 = 0) ∧
    (Os3_1.allocate_pagetable_frames { Machine.init with allocated_frame_count := 249 }).1
      = none := by
  obtain ⟨m1, h1, h2, _, _, _, h3⟩ :=
    (allocate_pagetable_frames_contract Machine.init).2 (by decide)
  have h4 := (allocate_pagetable_frames_contract
    { Machine.init with allocated_frame_count := 249 }).1 (by decide)
  refine ⟨⟨m1, h1, h2, ?_⟩, by rw [h4]⟩
  have := (h3 5 (by decide)).2.1
  simpa [Os3_1.PTE_SIZE, Machine.init, Os3_1.PAGE_INVALID] using this

/-- C14: the index decomposition of the two-level variant, for every page `v` below
64.  The indices `simulate` computes, `v >> 3` and `v & 0x07`, are `v / 8` and
`v % 8`, both below 8; they recombine to `v` as `l1_idx * 8 + l2_idx` and by the
expression `(l1 << 3) | l2` of `print_page_tables`; these are the indices of the
entries `simulate` uses, and `(l1 << 3) | l2` is the page number that
`print_page_tables` prints for a valid entry `l2` of the table under `l1`. -/
theorem index_decomposition (v : Nat) (hv : v < Os3_2.VAS_PAGES) :
    Os3_2.l1_idx v = v / 8 ∧ Os3_2.l2_idx v = v % 8 ∧
    Os3_2.l1_idx v < Os3_2.L1_PT_ENTRIES ∧ Os3_2.l2_idx v < Os3_2.L2_PT_ENTRIES ∧
    Os3_2.l1_idx v * 8 + Os3_2.l2_idx v = v ∧
    Os3_2.page_num (Os3_2.l1_idx v) (Os3_2.l2_idx v) = v ∧
    (∀ (pas : Nat → Nat) (proc : Os3_2.process),
      Os3_2.l1_entry proc v = proc.L1_page_table + Os3_2.l1_idx v * Os3_2.PTE_SIZE ∧
      Os3_2.l2_entry pas proc v =
        pas (Os3_2.l1_entry proc v) * Os3_2.PAGESIZE + Os3_2.l2_idx v * Os3_2.PTE_SIZE) ∧
    (∀ (pas : Nat → Nat) (l2_pt n : Nat),
      pas (l2_pt + Os3_2.l2_idx v * Os3_2.PTE_SIZE + 1) = Os3_2.PAGE_VALID →
      (Os3_2.l2_lines pas (Os3_2.l1_idx v) l2_pt (n + 1) (Os3_2.l2_idx v)).head? =
        some (v, pas (l2_pt + Os3_2.l2_idx v * Os3_2.PTE_SIZE),
          pas (l2_pt + Os3_2.l2_idx v * Os3_2.PTE_SIZE + 2))) := by
  simp only [Os3_2.VAS_PAGES] at hv
  have h1 : Os3_2.l1_idx v = v / 8 := shiftRight_three v
  have h2 : Os3_2.l2_idx v = v % 8 := land_seven v
  have h3 : Os3_2.page_num (v / 8) (v % 8) = v := by
    revert v
    decide
  refine ⟨h1, h2, ?_, ?_, ?_, ?_, ?_, ?_⟩
  · rw [h1]; simp only [Os3_2.L1_PT_ENTRIES]; omega
  · rw [h2]; simp only [Os3_2.L2_PT_ENTRIES]; omega
  · rw [h1, h2]; omega
  · rw [h1, h2]; exact h3
  · intro pas proc
    exact ⟨rfl, rfl⟩
  · intro pas l2_pt n hval
    have hp : (v / 8) <<< 3 ||| v % 8 = v := h3
    simp only [Os3_2.l2_lines]
    rw [if_neg (by simpa using hval)]
    simp only [List.head?_cons, h1, h2, hp]

/-- C14 for page 13: level-1 index 1, level-2 index 5. -/
theorem index_decomposition_witness :
    Os3_2.l1_idx 13 = 1 ∧ Os3_2.l2_idx 13 = 5 ∧ Os3_2.page_num 1 5 = 13 := by
  have h := index_decomposition 13 (by decide)
  refine ⟨h.1, h.2.1, ?_⟩
  have := h.2.2.2.2.2.1
  rw [h.1, h.2.1] at this
  exact this


namespace Os3_1

/-- The states of `simulate` between two loop bodies that can be reached from the
state after loading `recs`: any number of loop bodies, for any process indices, none
of which aborted. -/
inductive Reach (recs : List Record) : Sim → Prop where
  | start : Reach recs (start recs)
  | step (s : Sim) (i : Nat) (s' : Sim) : Reach recs s → service s i = .ok s' → Reach recs s'

/-- The states in which `simulate` returns early: a loop body aborted in a reachable
state. -/
def Halted (recs : List Record) (e : Sim) : Prop :=
  ∃ s i, Reach recs s ∧ service s i = .error e

/-- The frame invariant of the flat variant, for `n` loaded processes: the counter
lies between `8 * n` and 256, the frame of every valid entry lies between `8 * n` and
the counter, and no two valid entries hold the same frame. -/
structure Frames (n : Nat) (s : Sim) : Prop where
  lo : 8 * n ≤ s.mach.allocated_frame_count
  le : s.mach.allocated_frame_count ≤ 256
  bound : ∀ i v, i < n → v < 64 → s.mach.pas (i * 256 + v * 4 + 1) = 1 →
    8 * n ≤ s.mach.pas (i * 256 + v * 4) ∧
      s.mach.pas (i * 256 + v * 4) < s.mach.allocated_frame_count
  inj : ∀ i v j w, i < n → v < 64 → j < n → w < 64 →
    s.mach.pas (i * 256 + v * 4 + 1) = 1 → s.mach.pas (j * 256 + w * 4 + 1) = 1 →
    s.mach.pas (i * 256 + v * 4) = s.mach.pas (j * 256 + w * 4) → i = j ∧ v = w

theorem flat_fault_pas (pas : Nat → Nat) (a c x : Nat) :
    poke (poke (poke pas (a + 1) 1) a c) (a + 2) 1 x =
      if x = a + 2 then 1 else if x = a then c % 256 else if x = a + 1 then 1 else pas x := by
  unfold poke
  split_ifs <;> simp_all

theorem flat_frames_start (recs : List Record) (hn : recs.length ≤ 32) :
    Frames recs.length (start recs) := by
  constructor <;> simp [start]
  omega

/-- What a loop body does to the flag and the frame of the entries: the entry of a
faulting page becomes valid with the old counter as its frame, every other flag and
frame byte stays. -/
theorem flat_step_entries {recs : List Record} {s : Sim} {i : Nat} {r : Except Sim Sim}
    (hst : Static recs s) (hpg : Pages recs) (hs : Step s i r) :
    ((after r).mach.allocated_frame_count = s.mach.allocated_frame_count ∧
      ∀ j w, j < recs.length → w < 64 →
        (after r).mach.pas (j * 256 + w * 4 + 1) = s.mach.pas (j * 256 + w * 4 + 1) ∧
        (after r).mach.pas (j * 256 + w * 4) = s.mach.pas (j * 256 + w * 4)) ∨
    (∃ v, i < recs.length ∧ v < 64 ∧ s.mach.pas (i * 256 + v * 4 + 1) ≠ 1 ∧
      s.mach.allocated_frame_count < 256 ∧
      (after r).mach.allocated_frame_count = s.mach.allocated_frame_count + 1 ∧
      (after r).mach.pas (i * 256 + v * 4 + 1) = 1 ∧
      (after r).mach.pas (i * 256 + v * 4) = s.mach.allocated_frame_count ∧
      ∀ j w, j < recs.length → w < 64 → ¬ (j = i ∧ w = v) →
        (after r).mach.pas (j * 256 + w * 4 + 1) = s.mach.pas (j * 256 + w * 4 + 1) ∧
        (after r).mach.pas (j * 256 + w * 4) = s.mach.pas (j * 256 + w * 4)) := by
  cases hs with
  | idle _ => exact Or.inl ⟨rfl, fun j w _ _ => ⟨rfl, rfl⟩⟩
  | abort p v hp _ _ _ _ => exact Or.inl ⟨rfl, fun j w _ _ => ⟨rfl, rfl⟩⟩
  | hit p v hp hlt hv hflag =>
    left
    refine ⟨rfl, ?_⟩
    intro j w hj hw
    obtain ⟨hrec, hpt, hi⟩ := flat_static_get hst hp
    simp only [after, hit_state, PTE_SIZE, hpt]
    exact ⟨poke_other _ _ _ _ (by omega), poke_other _ _ _ _ (by omega)⟩
  | fault p v hp hlt hv hflag hc =>
    right
    obtain ⟨hrec, hpt, hi⟩ := flat_static_get hst hp
    have hv64 : v < 64 := hpg _ (List.getElem?_mem hrec) v (List.getElem?_mem hv)
    rw [hpt] at hflag
    refine ⟨v, hi, hv64, by simpa [PTE_SIZE] using hflag, hc, ?_⟩
    simp only [after, fault_state, PTE_SIZE, PAGE_VALID, hpt]
    refine ⟨trivial, ?_, ?_, ?_⟩
    · rw [flat_fault_pas, if_neg (by omega), if_neg (by omega), if_pos rfl]
    · rw [flat_fault_pas, if_neg (by omega), if_pos rfl]
      exact Nat.mod_eq_of_lt hc
    · intro j w hj hw hne
      constructor
      · rw [flat_fault_pas, if_neg (by omega), if_neg (by omega), if_neg (by omega)]
      · rw [flat_fault_pas, if_neg (by omega), if_neg (by omega), if_neg (by omega)]

theorem flat_frames_step {recs : List Record} {s : Sim} {i : Nat} {r : Except Sim Sim}
    (hst : Static recs s) (hpg : Pages recs) (h : Frames recs.length s) (hs : Step s i r) :
    Frames recs.length (after r) := by
  rcases flat_step_entries hst hpg hs with ⟨e3, hsame⟩ |
    ⟨v, hi, hv, hflag, hc, hcnt, hf1, hf0, hoth⟩
  · refine ⟨by rw [e3]; exact h.lo, by rw [e3]; exact h.le, ?_, ?_⟩
    · intro j w hj hw hfl
      obtain ⟨e1, e2⟩ := hsame j w hj hw
      rw [e1] at hfl
      rw [e2, e3]
      exact h.bound j w hj hw hfl
    · intro j w k x hj hw hk hx hfl1 hfl2 heq
      obtain ⟨e1, e2⟩ := hsame j w hj hw
      obtain ⟨e3, e4⟩ := hsame k x hk hx
      rw [e1] at hfl1
      rw [e3] at hfl2
      rw [e2, e4] at heq
      exact h.inj j w k x hj hw hk hx hfl1 hfl2 heq
  · have hlo := h.lo
    refine ⟨by omega, by omega, ?_, ?_⟩
    · intro j w hj hw hfl
      by_cases hjw : j = i ∧ w = v
      · obtain ⟨rfl, rfl⟩ := hjw
        rw [hf0, hcnt]
        omega
      · obtain ⟨e1, e2⟩ := hoth j w hj hw hjw
        rw [e1] at hfl
        rw [e2, hcnt]
        have := h.bound j w hj hw hfl
        omega
    · intro j w k x hj hw hk hx hfl1 hfl2 heq
      by_cases hjw : j = i ∧ w = v
      · by_cases hkx : k = i ∧ x = v
        · exact ⟨hjw.1.trans hkx.1.symm, hjw.2.trans hkx.2.symm⟩
        · obtain ⟨rfl, rfl⟩ := hjw
          obtain ⟨e3, e4⟩ := hoth k x hk hx hkx
          rw [e3] at hfl2
          rw [hf0, e4] at heq
          have := h.bound k x hk hx hfl2
          omega
      · obtain ⟨e1, e2⟩ := hoth j w hj hw hjw
        rw [e1] at hfl1
        by_cases hkx : k = i ∧ x = v
        · obtain ⟨rfl, rfl⟩ := hkx
          rw [hf0, e2] at heq
          have := h.bound j w hj hw hfl1
          omega
        · obtain ⟨e3, e4⟩ := hoth k x hk hx hkx
          rw [e3] at hfl2
          rw [e2, e4] at heq
          exact h.inj j w k x hj hw hk hx hfl1 hfl2 heq

/-- A loop body leaves every valid entry valid, with the same frame. -/
theorem flat_step_mono {recs : List Record} {s : Sim} {i : Nat} {r : Except Sim Sim}
    (hst : Static recs s) (hpg : Pages recs) (hs : Step s i r) :
    ∀ j w, j < recs.length → w < 64 → s.mach.pas (j * 256 + w * 4 + 1) = 1 →
      (after r).mach.pas (j * 256 + w * 4 + 1) = 1 ∧
      (after r).mach.pas (j * 256 + w * 4) = s.mach.pas (j * 256 + w * 4) := by
  intro j w hj hw hfl
  rcases flat_step_entries hst hpg hs with ⟨_, hsame⟩ |
    ⟨v, hi, hv, hflag, hc, hcnt, hf1, hf0, hoth⟩
  · obtain ⟨e1, e2⟩ := hsame j w hj hw
    exact ⟨by rw [e1]; exact hfl, e2⟩
  · have hjw : ¬ (j = i ∧ w = v) := by
      rintro ⟨rfl, rfl⟩
      exact hflag hfl
    obtain ⟨e1, e2⟩ := hoth j w hj hw hjw
    exact ⟨by rw [e1]; exact hfl, e2⟩

/-- Everything that holds in a reachable state. -/
theorem flat_reach_inv {recs : List Record} (hpg : Pages recs) (hn : recs.length ≤ 32)
    {s : Sim} (h : Reach recs s) : Inv recs s ∧ Frames recs.length s := by
  induction h with
  | start => exact ⟨flat_inv_start recs hn, flat_frames_start recs hn⟩
  | step s i s' _ hs ih =>
    have hstep := flat_service_step s i
    rw [hs] at hstep
    exact ⟨flat_inv_step_ok hpg s i s' ih.1 hs, flat_frames_step ih.1.static hpg ih.2 hstep⟩

theorem flat_halted_frames {recs : List Record} (hpg : Pages recs) (hn : recs.length ≤ 32)
    {e : Sim} (h : Halted recs e) : AbortInv recs e ∧ Frames recs.length e := by
  obtain ⟨s, i, hr, hs⟩ := h
  have ih := flat_reach_inv hpg hn hr
  have hstep := flat_service_step s i
  rw [hs] at hstep
  exact ⟨flat_inv_step_error hpg s i e ih.1 hs, flat_frames_step ih.1.static hpg ih.2 hstep⟩

/-- The states `simulate` ends in are reachable states, or halted states after an
abort. -/
theorem flat_simulate_reach (recs : List Record) (fuel : Nat) :
    Outcome_sat (Reach recs) (Halted recs)
      (simulate fuel (start recs).mach (mk_procs 0 recs)) :=
  flat_while_induction (Reach recs) (Halted recs)
    (fun s i s' h hs => Reach.step s i s' h hs)
    (fun s i _ h hs => ⟨s, i, h, hs⟩) _ fuel _ Reach.start

theorem flat_run_reach (fuel : Nat) (input : List Record) :
    ∃ o, run fuel input = some o ∧ Outcome_sat (Reach (input.take 10)) (Halted (input.take 10)) o :=
  ⟨_, flat_run_start fuel input, flat_simulate_reach (input.take 10) fuel⟩

end Os3_1


namespace Os3_2

/-- The states of `simulate` between two loop bodies that can be reached from the
state after loading `recs`: any number of loop bodies, for any sweep and process
indices, none of which aborted. -/
inductive Reach (recs : List Record) : Sim → Prop where
  | start : Reach recs (start recs)
  | step (idx : Nat) (s : Sim) (d : Bool) (p : Nat) (s' : Sim) (d' : Bool) :
      Reach recs s → service idx (s, d) p = .ok (s', d') → Reach recs s'

/-- The states in which `simulate` calls `exit(1)`: a loop body aborted in a
reachable state. -/
def Halted (recs : List Record) (e : Sim) : Prop :=
  ∃ idx s d p, Reach recs s ∧ service idx (s, d) p = .error e

/-- What `level1` does to the globals: nothing when the entry is not invalid;
otherwise the entry gets the old counter as frame and becomes valid, and the new
frame is zeroed. -/
theorem level1_bytes {m m1 : Machine} {proc proc1 : process} {e : Nat} {pf : Bool}
    (h : level1 m proc e = some (m1, proc1, pf)) (he : e + 1 < m.allocated_frame_count * 32) :
    (pf = false ∧ m1 = m ∧ m.pas (e + 1) ≠ 0) ∨
    (pf = true ∧ m.pas (e + 1) = 0 ∧ m.allocated_frame_count < 256 ∧
      m1.allocated_frame_count = m.allocated_frame_count + 1 ∧
      m1.pas e = m.allocated_frame_count ∧ m1.pas (e + 1) = 1 ∧
      (∀ x, m.allocated_frame_count * 32 ≤ x → x < m.allocated_frame_count * 32 + 32 →
        m1.pas x = 0) ∧
      (∀ x, x ≠ e → x ≠ e + 1 →
        x < m.allocated_frame_count * 32 ∨ m.allocated_frame_count * 32 + 32 ≤ x →
        m1.pas x = m.pas x)) := by
  rcases level1_spec m proc e with ⟨hf, h1⟩ | ⟨_, _, h1⟩ | ⟨hf, hc, h1⟩ <;> rw [h1] at h
  · simp only [Option.some.injEq, Prod.mk.injEq] at h
    obtain ⟨rfl, _, rfl⟩ := h
    exact Or.inl ⟨rfl, rfl, hf⟩
  · cases h
  · simp only [Option.some.injEq, Prod.mk.injEq] at h
    obtain ⟨rfl, _, rfl⟩ := h
    refine Or.inr ⟨rfl, hf, hc, rfl, ?_, ?_, ?_, ?_⟩
    · show memset0 _ _ _ _ = _
      rw [memset0_outside _ _ _ _ (by omega), poke_other _ _ _ _ (by omega), poke_same]
      exact Nat.mod_eq_of_lt hc
    · show memset0 _ _ _ _ = _
      rw [memset0_outside _ _ _ _ (by omega), poke_same]
    · intro x h1 h2
      exact memset0_inside _ _ _ _ h1 h2
    · intro x h1 h2 h3
      show memset0 _ _ _ _ = _
      rw [memset0_outside _ _ _ _ h3, poke_other _ _ _ _ h2, poke_other _ _ _ _ h1]

/-- What `level2` does to the globals: a valid entry only gets its reference count
incremented; an invalid one gets the old counter as frame and becomes valid. -/
theorem level2_bytes {m m2 : Machine} {proc proc2 : process} {e : Nat} {pf : Bool}
    (h : level2 m proc e = some (m2, proc2, pf)) :
    (pf = false ∧ m.pas (e + 1) ≠ 0 ∧ m2.allocated_frame_count = m.allocated_frame_count ∧
      m2.returned = m.returned ∧
      m2.pas (e + 2) = (m.pas (e + 2) + 1) % 256 ∧
      ∀ x, x ≠ e + 2 → m2.pas x = m.pas x) ∨
    (pf = true ∧ m.pas (e + 1) = 0 ∧ m.allocated_frame_count < 256 ∧
      m2.allocated_frame_count = m.allocated_frame_count + 1 ∧
      m2.pas e = m.allocated_frame_count ∧ m2.pas (e + 1) = 1 ∧
      m2.pas (e + 2) = (m.pas (e + 2) + 1) % 256 ∧
      (∀ x, x ≠ e → x ≠ e + 1 → x ≠ e + 2 → m2.pas x = m.pas x)) := by
  rcases level2_spec m proc e with ⟨hf, h1⟩ | ⟨_, _, h1⟩ | ⟨hf, hc, h1⟩ <;> rw [h1] at h
  · simp only [Option.some.injEq, Prod.mk.injEq] at h
    obtain ⟨rfl, _, rfl⟩ := h
    refine Or.inl ⟨rfl, hf, rfl, rfl, poke_same _ _ _, ?_⟩
    intro x hx
    exact poke_other _ _ _ _ hx
  · cases h
  · simp only [Option.some.injEq, Prod.mk.injEq] at h
    obtain ⟨rfl, _, rfl⟩ := h
    refine Or.inr ⟨rfl, hf, hc, rfl, ?_, ?_, ?_, ?_⟩
    · show poke _ _ _ _ = _
      rw [poke_other _ _ _ _ (by omega), poke_other _ _ _ _ (by omega), poke_same]
      exact Nat.mod_eq_of_lt hc
    · show poke _ _ _ _ = _
      rw [poke_other _ _ _ _ (by omega), poke_same]
    · show poke _ _ _ _ = _
      rw [poke_same]
    · intro x h1 h2 h3
      show poke _ _ _ _ = _
      rw [poke_other _ _ _ _ h3, poke_other _ _ _ _ h2, poke_other _ _ _ _ h1]

/-- The frame invariant of the two-level variant, for `n` loaded processes, on the
globals.  Level-1 entries are the entries `a < 8` of the tables at the frames
`i < n`; level-2 entries are the entries `b < 8` of the frames from `n` up to the
counter.  Flags are 0 or 1, the memory from the counter on is zero, the frame of
every valid entry lies between `n` and the counter, and no two valid entries hold the
same frame. -/
structure Frames (n : Nat) (m : Machine) : Prop where
  lo : n ≤ m.allocated_frame_count
  le : m.allocated_frame_count ≤ 256
  zero : ∀ x, m.allocated_frame_count * 32 ≤ x → m.pas x = 0
  l1_flag : ∀ i a, i < n → a < 8 →
    m.pas (i * 32 + a * 4 + 1) = 0 ∨ m.pas (i * 32 + a * 4 + 1) = 1
  l1_bound : ∀ i a, i < n → a < 8 → m.pas (i * 32 + a * 4 + 1) = 1 →
    n ≤ m.pas (i * 32 + a * 4) ∧ m.pas (i * 32 + a * 4) < m.allocated_frame_count
  l1_inj : ∀ i a j b, i < n → a < 8 → j < n → b < 8 →
    m.pas (i * 32 + a * 4 + 1) = 1 → m.pas (j * 32 + b * 4 + 1) = 1 →
    m.pas (i * 32 + a * 4) = m.pas (j * 32 + b * 4) → i = j ∧ a = b
  l2_flag : ∀ f b, n ≤ f → f < m.allocated_frame_count → b < 8 →
    m.pas (f * 32 + b * 4 + 1) = 0 ∨ m.pas (f * 32 + b * 4 + 1) = 1
  l2_bound : ∀ f b, n ≤ f → f < m.allocated_frame_count → b < 8 →
    m.pas (f * 32 + b * 4 + 1) = 1 →
    n ≤ m.pas (f * 32 + b * 4) ∧ m.pas (f * 32 + b * 4) < m.allocated_frame_count
  l2_inj : ∀ f b g c, n ≤ f → f < m.allocated_frame_count → b < 8 →
    n ≤ g → g < m.allocated_frame_count → c < 8 →
    m.pas (f * 32 + b * 4 + 1) = 1 → m.pas (g * 32 + c * 4 + 1) = 1 →
    m.pas (f * 32 + b * 4) = m.pas (g * 32 + c * 4) → f = g ∧ b = c
  l12 : ∀ i a f b, i < n → a < 8 → n ≤ f → f < m.allocated_frame_count → b < 8 →
    m.pas (i * 32 + a * 4 + 1) = 1 → m.pas (f * 32 + b * 4 + 1) = 1 →
    m.pas (i * 32 + a * 4) ≠ m.pas (f * 32 + b * 4)

theorem hier_frames_start (recs : List Record) (hn : recs.length ≤ 256) :
    Frames recs.length (start recs).mach := by
  constructor <;> simp [start]
  exact hn

/-- The frame invariant is kept when the flag and frame bytes of all entries and the
counter stay as they are. -/
theorem hier_frames_congr {n : Nat} {m m' : Machine} (h : Frames n m)
    (hc : m'.allocated_frame_count = m.allocated_frame_count)
    (h0 : ∀ x, m.allocated_frame_count * 32 ≤ x → m'.pas x = m.pas x)
    (h1 : ∀ i a, i < n → a < 8 → m'.pas (i * 32 + a * 4 + 1) = m.pas (i * 32 + a * 4 + 1) ∧
      m'.pas (i * 32 + a * 4) = m.pas (i * 32 + a * 4))
    (h2 : ∀ f b, n ≤ f → f < m.allocated_frame_count → b < 8 →
      m'.pas (f * 32 + b * 4 + 1) = m.pas (f * 32 + b * 4 + 1) ∧
      m'.pas (f * 32 + b * 4) = m.pas (f * 32 + b * 4)) : Frames n m' := by
  refine ⟨by rw [hc]; exact h.lo, by rw [hc]; exact h.le, ?_, ?_, ?_, ?_, ?_, ?_, ?_, ?_⟩
  · intro x hx
    rw [hc] at hx
    rw [h0 x hx]
    exact h.zero x hx
  · intro i a hi ha
    rw [(h1 i a hi ha).1]
    exact h.l1_flag i a hi ha
  · intro i a hi ha hf
    rw [(h1 i a hi ha).1] at hf
    rw [(h1 i a hi ha).2, hc]
    exact h.l1_bound i a hi ha hf
  · intro i a j b hi ha hj hb hf1 hf2 heq
    rw [(h1 i a hi ha).1] at hf1
    rw [(h1 j b hj hb).1] at hf2
    rw [(h1 i a hi ha).2, (h1 j b hj hb).2] at heq
    exact h.l1_inj i a j b hi ha hj hb hf1 hf2 heq
  · intro f b hf1 hf2 hb
    rw [hc] at hf2
    rw [(h2 f b hf1 hf2 hb).1]
    exact h.l2_flag f b hf1 hf2 hb
  · intro f b hf1 hf2 hb hfl
    rw [hc] at hf2
    rw [(h2 f b hf1 hf2 hb).1] at hfl
    rw [(h2 f b hf1 hf2 hb).2, hc]
    exact h.l2_bound f b hf1 hf2 hb hfl
  · intro f b g c hf1 hf2 hb hg1 hg2 hcc hfl1 hfl2 heq
    rw [hc] at hf2 hg2
    rw [(h2 f b hf1 hf2 hb).1] at hfl1
    rw [(h2 g c hg1 hg2 hcc).1] at hfl2
    rw [(h2 f b hf1 hf2 hb).2, (h2 g c hg1 hg2 hcc).2] at heq
    exact h.l2_inj f b g c hf1 hf2 hb hg1 hg2 hcc hfl1 hfl2 heq
  · intro i a f b hi ha hf1 hf2 hb hfl1 hfl2
    rw [hc] at hf2
    rw [(h1 i a hi ha).1] at hfl1
    rw [(h2 f b hf1 hf2 hb).1] at hfl2
    rw [(h1 i a hi ha).2, (h2 f b hf1 hf2 hb).2]
    exact h.l12 i a f b hi ha hf1 hf2 hb hfl1 hfl2

/-- The frame invariant is kept when one invalid entry, of level 1 (`k = none`) or
of level 2, becomes valid with the old counter as its frame, the counter grows by
one, and the flag and frame bytes of all other entries stay as they are. -/
theorem hier_frames_alloc {n : Nat} {m m' : Machine} (h : Frames n m)
    (hlt : m.allocated_frame_count < 256)
    (hc : m'.allocated_frame_count = m.allocated_frame_count + 1)
    (t : Nat)
    (htf : m'.pas (t + 1) = 1) (htv : m'.pas t = m.allocated_frame_count)
    (h0 : ∀ x, m.allocated_frame_count * 32 ≤ x → m'.pas x = 0)
    (h1 : ∀ i a, i < n → a < 8 → i * 32 + a * 4 ≠ t →
      m'.pas (i * 32 + a * 4 + 1) = m.pas (i * 32 + a * 4 + 1) ∧
      m'.pas (i * 32 + a * 4) = m.pas (i * 32 + a * 4))
    (h2 : ∀ f b, n ≤ f → f < m.allocated_frame_count → b < 8 → f * 32 + b * 4 ≠ t →
      m'.pas (f * 32 + b * 4 + 1) = m.pas (f * 32 + b * 4 + 1) ∧
      m'.pas (f * 32 + b * 4) = m.pas (f * 32 + b * 4)) : Frames n m' := by
  have hlo := h.lo
  refine ⟨by omega, by omega, ?_, ?_, ?_, ?_, ?_, ?_, ?_, ?_⟩
  · intro x hx
    exact h0 x (by omega)
  · intro i a hi ha
    by_cases he : i * 32 + a * 4 = t
    · right; rw [he]; exact htf
    · rw [(h1 i a hi ha he).1]
      exact h.l1_flag i a hi ha
  · intro i a hi ha hf
    by_cases he : i * 32 + a * 4 = t
    · rw [he, htv]; omega
    · rw [(h1 i a hi ha he).1] at hf
      rw [(h1 i a hi ha he).2]
      have := h.l1_bound i a hi ha hf
      omega
  · intro i a j b hi ha hj hb hf1 hf2 heq
    by_cases he : i * 32 + a * 4 = t
    · by_cases he' : j * 32 + b * 4 = t
      · omega
      · rw [(h1 j b hj hb he').1] at hf2
        rw [he, htv, (h1 j b hj hb he').2] at heq
        have := h.l1_bound j b hj hb hf2
        omega
    · rw [(h1 i a hi ha he).1] at hf1
      by_cases he' : j * 32 + b * 4 = t
      · rw [he', htv, (h1 i a hi ha he).2] at heq
        have := h.l1_bound i a hi ha hf1
        omega
      · rw [(h1 j b hj hb he').1] at hf2
        rw [(h1 i a hi ha he).2, (h1 j b hj hb he').2] at heq
        exact h.l1_inj i a j b hi ha hj hb hf1 hf2 heq
  · intro f b hf1 hf2 hb
    by_cases hfc : f < m.allocated_frame_count
    · by_cases he : f * 32 + b * 4 = t
      · right; rw [he]; exact htf
      · rw [(h2 f b hf1 hfc hb he).1]
        exact h.l2_flag f b hf1 hfc hb
    · left
      exact h0 _ (by omega)
  · intro f b hf1 hf2 hb hfl
    by_cases hfc : f < m.allocated_frame_count
    · by_cases he : f * 32 + b * 4 = t
      · rw [he, htv]; omega
      · rw [(h2 f b hf1 hfc hb he).1] at hfl
        rw [(h2 f b hf1 hfc hb he).2]
        have := h.l2_bound f b hf1 hfc hb hfl
        omega
    · rw [h0 _ (by omega)] at hfl
      omega
  · intro f b g c hf1 hf2 hb hg1 hg2 hcc hfl1 hfl2 heq
    have hfc : f < m.allocated_frame_count := by
      by_contra hcon
      rw [h0 _ (by omega)] at hfl1
      omega
    have hgc : g < m.allocated_frame_count := by
      by_contra hcon
      rw [h0 _ (by omega)] at hfl2
      omega
    by_cases he : f * 32 + b * 4 = t
    · by_cases he' : g * 32 + c * 4 = t
      · omega
      · rw [(h2 g c hg1 hgc hcc he').1] at hfl2
        rw [he, htv, (h2 g c hg1 hgc hcc he').2] at heq
        have := h.l2_bound g c hg1 hgc hcc hfl2
        omega
    · rw [(h2 f b hf1 hfc hb he).1] at hfl1
      by_cases he' : g * 32 + c * 4 = t
      · rw [he', htv, (h2 f b hf1 hfc hb he).2] at heq
        have := h.l2_bound f b hf1 hfc hb hfl1
        omega
      · rw [(h2 g c hg1 hgc hcc he').1] at hfl2
        rw [(h2 f b hf1 hfc hb he).2, (h2 g c hg1 hgc hcc he').2] at heq
        exact h.l2_inj f b g c hf1 hfc hb hg1 hgc hcc hfl1 hfl2 heq
  · intro i a f b hi ha hf1 hf2 hb hfl1 hfl2
    have hfc : f < m.allocated_frame_count := by
      by_contra hcon
      rw [h0 _ (by omega)] at hfl2
      omega
    by_cases he : i * 32 + a * 4 = t
    · by_cases he' : f * 32 + b * 4 = t
      · omega
      · rw [(h2 f b hf1 hfc hb he').1] at hfl2
        rw [he, htv, (h2 f b hf1 hfc hb he').2]
        have := h.l2_bound f b hf1 hfc hb hfl2
        omega
    · rw [(h1 i a hi ha he).1] at hfl1
      by_cases he' : f * 32 + b * 4 = t
      · rw [he', htv, (h1 i a hi ha he).2]
        have := h.l1_bound i a hi ha hfl1
        omega
      · rw [(h2 f b hf1 hfc hb he').1] at hfl2
        rw [(h1 i a hi ha he).2, (h2 f b hf1 hfc hb he').2]
        exact h.l12 i a f b hi ha hf1 hfc hb hfl1 hfl2

/-- Every valid entry stays valid with the same frame, and the counter does not
decrease, from `m` to `m'`. -/
structure Mono (n : Nat) (m m' : Machine) : Prop where
  counter : m.allocated_frame_count ≤ m'.allocated_frame_count
  l1 : ∀ i a, i < n → a < 8 → m.pas (i * 32 + a * 4 + 1) = 1 →
    m'.pas (i * 32 + a * 4 + 1) = 1 ∧ m'.pas (i * 32 + a * 4) = m.pas (i * 32 + a * 4)
  l2 : ∀ f b, n ≤ f → f < m.allocated_frame_count → b < 8 → m.pas (f * 32 + b * 4 + 1) = 1 →
    m'.pas (f * 32 + b * 4 + 1) = 1 ∧ m'.pas (f * 32 + b * 4) = m.pas (f * 32 + b * 4)

theorem hier_mono_refl (n : Nat) (m : Machine) : Mono n m m :=
  ⟨Nat.le_refl _, fun _ _ _ _ h => ⟨h, rfl⟩, fun _ _ _ _ _ h => ⟨h, rfl⟩⟩

theorem hier_mono_trans {n : Nat} {m m1 m2 : Machine} (h1 : Mono n m m1) (h2 : Mono n m1 m2) :
    Mono n m m2 := by
  refine ⟨Nat.le_trans h1.counter h2.counter, ?_, ?_⟩
  · intro i a hi ha hf
    obtain ⟨e1, e2⟩ := h1.l1 i a hi ha hf
    obtain ⟨e3, e4⟩ := h2.l1 i a hi ha e1
    exact ⟨e3, e4.trans e2⟩
  · intro f b hf1 hf2 hb hf
    obtain ⟨e1, e2⟩ := h1.l2 f b hf1 hf2 hb hf
    obtain ⟨e3, e4⟩ := h2.l2 f b hf1 (Nat.lt_of_lt_of_le hf2 h1.counter) hb e1
    exact ⟨e3, e4.trans e2⟩

/-- Contribution of level-1 entry `a` of the table at byte `pt` to the number of
frames reached from the table: the level-2 table and its valid entries. -/
def term (pas : Nat → Nat) (pt a : Nat) : Nat :=
  if pas (pt + a * 4 + 1) = 1 then
    1 + (List.range 8).countP (fun b => decide (pas (pas (pt + a * 4) * 32 + b * 4 + 1) = 1))
  else 0

/-- Number of valid level-1 entries of the table at byte `pt` plus the number of valid
level-2 entries under them. -/
def entries (pas : Nat → Nat) (pt : Nat) : Nat := ((List.range 8).map (term pas pt)).sum

theorem countP_add_sum (P : Nat → Prop) [DecidablePred P] (g : Nat → Nat) (l : List Nat) :
    l.countP (fun a => decide (P a)) + (l.map (fun a => if P a then g a else 0)).sum =
      (l.map (fun a => if P a then 1 + g a else 0)).sum := by
  induction l with
  | nil => simp
  | cons x rest ih =>
    simp only [List.countP_cons, List.map_cons, List.sum_cons]
    by_cases hx : P x
    · simp only [hx, decide_True, if_true]
      omega
    · simp only [hx, decide_False, if_false]
      simpa using ih

theorem entries_eq (pas : Nat → Nat) (proc : process) :
    valid_l1 pas proc + valid_l2 pas proc = entries pas proc.L1_page_table := by
  simp only [valid_l1, valid_l2, entries, term, L1_PT_ENTRIES, L2_PT_ENTRIES, PTE_SIZE,
    PAGE_VALID, PAGESIZE]
  exact countP_add_sum (fun l1 => pas (proc.L1_page_table + l1 * 4 + 1) = 1) _ _

theorem sum_range_flip (g g' : Nat → Nat) : ∀ (n a0 : Nat), a0 < n → g' a0 = g a0 + 1 →
    (∀ a, a < n → a ≠ a0 → g' a = g a) →
    ((List.range n).map g').sum = ((List.range n).map g).sum + 1 := by
  intro n
  induction n with
  | zero => intro a0 h; omega
  | succ n ih =>
    intro a0 ha0 h1 h2
    simp only [List.range_succ, List.map_append, List.sum_append, List.map_cons, List.map_nil,
      List.sum_cons, List.sum_nil, Nat.add_zero]
    by_cases hn : a0 = n
    · subst hn
      have : (List.range a0).map g' = (List.range a0).map g := by
        apply List.map_congr_left
        intro a ha
        rw [List.mem_range] at ha
        exact h2 a (by omega) (by omega)
      rw [this, h1]
      omega
    · rw [ih a0 (by omega) h1 (fun a ha hne => h2 a (by omega) hne), h2 n (by omega) (Ne.symm hn)]
      omega

theorem sum_range_same (g g' : Nat → Nat) (n : Nat) (h : ∀ a, a < n → g' a = g a) :
    ((List.range n).map g').sum = ((List.range n).map g).sum := by
  have : (List.range n).map g' = (List.range n).map g := by
    apply List.map_congr_left
    intro a ha
    rw [List.mem_range] at ha
    exact h a ha
  rw [this]

theorem term_congr (pas pas' : Nat → Nat) (pt a : Nat)
    (h1 : pas' (pt + a * 4 + 1) = pas (pt + a * 4 + 1))
    (h2 : pas (pt + a * 4 + 1) = 1 → pas' (pt + a * 4) = pas (pt + a * 4) ∧
      ∀ b, b < 8 → pas' (pas (pt + a * 4) * 32 + b * 4 + 1) =
        pas (pas (pt + a * 4) * 32 + b * 4 + 1)) :
    term pas' pt a = term pas pt a := by
  unfold term
  rw [h1]
  by_cases hf : pas (pt + a * 4 + 1) = 1
  · obtain ⟨e1, e2⟩ := h2 hf
    simp only [hf, if_true, e1]
    congr 1
    apply countP_range_same
    intro b hb
    rw [e2 b hb]
  · simp only [hf, if_false]

/-- The level-1 stage of a loop body keeps the frame invariant, leaves the entry it
used valid, keeps every valid entry, and adds one to the entries of the table it used
exactly when it reports a fault. -/
theorem hier_level1_stage {n : Nat} {m m1 : Machine} {proc proc1 : process} {i a : Nat}
    {pf : Bool} (h : Frames n m) (hi : i < n) (ha : a < 8)
    (h1 : level1 m proc (i * 32 + a * 4) = some (m1, proc1, pf)) :
    Frames n m1 ∧ m1.pas (i * 32 + a * 4 + 1) = 1 ∧ Mono n m m1 ∧
    m1.allocated_frame_count = m.allocated_frame_count + (if pf then 1 else 0) ∧
    (pf = true ↔ m.pas (i * 32 + a * 4 + 1) ≠ 1) ∧
    (pf = true → m1.pas (i * 32 + a * 4) = m.allocated_frame_count) ∧
    (∀ j, j < n →
      entries m1.pas (j * 32) = entries m.pas (j * 32) + (if pf = true ∧ j = i then 1 else 0)) := by
  have hlo := h.lo
  rcases level1_bytes h1 (by omega) with ⟨rfl, rfl, hf⟩ | ⟨rfl, hf, hc, hcnt, hv, hfl, hz, hoth⟩
  · have hf1 : m1.pas (i * 32 + a * 4 + 1) = 1 := by
      rcases h.l1_flag i a hi ha with h0 | h0
      · exact absurd h0 hf
      · exact h0
    refine ⟨h, hf1, hier_mono_refl _ _, by simp, by simp [hf1], by simp, ?_⟩
    intro j _
    simp
  · have hL1 : ∀ j b, j < n → b < 8 → j * 32 + b * 4 ≠ i * 32 + a * 4 →
        m1.pas (j * 32 + b * 4 + 1) = m.pas (j * 32 + b * 4 + 1) ∧
        m1.pas (j * 32 + b * 4) = m.pas (j * 32 + b * 4) := by
      intro j b hj hb hne
      exact ⟨hoth _ (by omega) (by omega) (by omega), hoth _ (by omega) (by omega) (by omega)⟩
    have hL2 : ∀ f b, n ≤ f → f < m.allocated_frame_count → b < 8 →
        m1.pas (f * 32 + b * 4 + 1) = m.pas (f * 32 + b * 4 + 1) ∧
        m1.pas (f * 32 + b * 4) = m.pas (f * 32 + b * 4) := by
      intro f b hf1 hf2 hb
      exact ⟨hoth _ (by omega) (by omega) (by omega), hoth _ (by omega) (by omega) (by omega)⟩
    have hZ : ∀ x, m.allocated_frame_count * 32 ≤ x → m1.pas x = 0 := by
      intro x hx
      by_cases hx2 : x < m.allocated_frame_count * 32 + 32
      · exact hz x hx hx2
      · rw [hoth x (by omega) (by omega) (by omega)]
        exact h.zero x hx
    refine ⟨?_, hfl, ?_, by simp [hcnt], by simp [hf], fun _ => hv, ?_⟩
    · exact hier_frames_alloc h hc hcnt (i * 32 + a * 4) hfl hv hZ hL1
        (fun f b hf1 hf2 hb _ => hL2 f b hf1 hf2 hb)
    · refine ⟨by omega, ?_, ?_⟩
      · intro j b hj hb hfj
        have hne : j * 32 + b * 4 ≠ i * 32 + a * 4 := by
          intro heq
          rw [heq, hf] at hfj
          omega
        obtain ⟨e1, e2⟩ := hL1 j b hj hb hne
        exact ⟨by rw [e1]; exact hfj, e2⟩
      · intro f b hf1 hf2 hb hfj
        obtain ⟨e1, e2⟩ := hL2 f b hf1 hf2 hb
        exact ⟨by rw [e1]; exact hfj, e2⟩
    · intro j hj
      have hcong : ∀ b, b < 8 → j * 32 + b * 4 ≠ i * 32 + a * 4 →
          term m1.pas (j * 32) b = term m.pas (j * 32) b := by
        intro b hb hne
        obtain ⟨e1, e2⟩ := hL1 j b hj hb hne
        apply term_congr _ _ _ _ e1
        intro hfj
        refine ⟨e2, ?_⟩
        intro b' hb'
        obtain ⟨hb1, hb2⟩ := h.l1_bound j b hj hb hfj
        exact (hL2 _ b' hb1 hb2 hb').1
      by_cases hji : j = i
      · subst hji
        simp only [true_and, if_true]
        unfold entries
        apply sum_range_flip _ _ 8 a ha
        · unfold term
          rw [hfl, hf, hv]
          simp only [if_true]
          have : (List.range 8).countP
              (fun b => decide (m1.pas (m.allocated_frame_count * 32 + b * 4 + 1) = 1)) = 0 := by
            rw [List.countP_eq_zero]
            intro b hb
            rw [List.mem_range] at hb
            rw [hz _ (by omega) (by omega)]
            simp
          rw [this]
          simp
        · intro b hb hne
          exact hcong b hb (by omega)
      · simp only [hji, and_false, if_false, Nat.add_zero]
        unfold entries
        apply sum_range_same
        intro b hb
        exact hcong b hb (by omega)

/-- The level-2 stage of a loop body, on entry `b` of the frame `f` of a valid
level-1 entry `(i, a)`, keeps the frame invariant, leaves the entry it used valid,
keeps every valid entry, and adds one to the entries of the table it used exactly
when it reports a fault. -/
theorem hier_level2_stage {n : Nat} {m m2 : Machine} {proc proc2 : process} {i a b : Nat}
    {pf : Bool} (h : Frames n m) (hi : i < n) (ha : a < 8) (hb : b < 8)
    (hfl : m.pas (i * 32 + a * 4 + 1) = 1)
    (h2 : level2 m proc (m.pas (i * 32 + a * 4) * 32 + b * 4) = some (m2, proc2, pf)) :
    Frames n m2 ∧ m2.pas (m.pas (i * 32 + a * 4) * 32 + b * 4 + 1) = 1 ∧ Mono n m m2 ∧
    m2.allocated_frame_count = m.allocated_frame_count + (if pf then 1 else 0) ∧
    (pf = true ↔ m.pas (m.pas (i * 32 + a * 4) * 32 + b * 4 + 1) ≠ 1) ∧
    (pf = true → m2.pas (m.pas (i * 32 + a * 4) * 32 + b * 4) = m.allocated_frame_count) ∧
    (∀ j, j < n →
      entries m2.pas (j * 32) = entries m.pas (j * 32) + (if pf = true ∧ j = i then 1 else 0)) := by
  have hlo := h.lo
  obtain ⟨hF1, hF2⟩ := h.l1_bound i a hi ha hfl
  generalize hF : m.pas (i * 32 + a * 4) = f at *
  rcases level2_bytes h2 with ⟨rfl, hf, hcnt, _, _, hoth⟩ | ⟨rfl, hf, hc, hcnt, hv, hfl2, _, hoth⟩
  · have hf1 : m.pas (f * 32 + b * 4 + 1) = 1 := by
      rcases h.l2_flag f b hF1 hF2 hb with h0 | h0
      · exact absurd h0 hf
      · exact h0
    have hL1 : ∀ j c, j < n → c < 8 →
        m2.pas (j * 32 + c * 4 + 1) = m.pas (j * 32 + c * 4 + 1) ∧
        m2.pas (j * 32 + c * 4) = m.pas (j * 32 + c * 4) := by
      intro j c hj hc
      exact ⟨hoth _ (by omega), hoth _ (by omega)⟩
    have hL2 : ∀ g c, n ≤ g → g < m.allocated_frame_count → c < 8 →
        m2.pas (g * 32 + c * 4 + 1) = m.pas (g * 32 + c * 4 + 1) ∧
        m2.pas (g * 32 + c * 4) = m.pas (g * 32 + c * 4) := by
      intro g c hg1 hg2 hc
      exact ⟨hoth _ (by omega), hoth _ (by omega)⟩
    refine ⟨?_, by rw [(hL2 f b hF1 hF2 hb).1]; exact hf1, ?_, by simp [hcnt], by simp [hf1],
      by simp, ?_⟩
    · exact hier_frames_congr h hcnt (fun x hx => hoth x (by omega)) hL1 hL2
    · refine ⟨by omega, ?_, ?_⟩
      · intro j c hj hc hfj
        obtain ⟨e1, e2⟩ := hL1 j c hj hc
        exact ⟨by rw [e1]; exact hfj, e2⟩
      · intro g c hg1 hg2 hc hfj
        obtain ⟨e1, e2⟩ := hL2 g c hg1 hg2 hc
        exact ⟨by rw [e1]; exact hfj, e2⟩
    · intro j hj
      simp only [Bool.false_eq_true, false_and, if_false, Nat.add_zero]
      unfold entries
      apply sum_range_same
      intro c hc
      obtain ⟨e1, e2⟩ := hL1 j c hj hc
      apply term_congr _ _ _ _ e1
      intro hfj
      refine ⟨e2, ?_⟩
      intro b' hb'
      obtain ⟨hb1, hb2⟩ := h.l1_bound j c hj hc hfj
      exact (hL2 _ b' hb1 hb2 hb').1
  · have hL1 : ∀ j c, j < n → c < 8 →
        m2.pas (j * 32 + c * 4 + 1) = m.pas (j * 32 + c * 4 + 1) ∧
        m2.pas (j * 32 + c * 4) = m.pas (j * 32 + c * 4) := by
      intro j c hj hc
      exact ⟨hoth _ (by omega) (by omega) (by omega), hoth _ (by omega) (by omega) (by omega)⟩
    have hL2 : ∀ g c, n ≤ g → c < 8 → g * 32 + c * 4 ≠ f * 32 + b * 4 →
        m2.pas (g * 32 + c * 4 + 1) = m.pas (g * 32 + c * 4 + 1) ∧
        m2.pas (g * 32 + c * 4) = m.pas (g * 32 + c * 4) := by
      intro g c hg1 hc hne
      exact ⟨hoth _ (by omega) (by omega) (by omega), hoth _ (by omega) (by omega) (by omega)⟩
    have hZ : ∀ x, m.allocated_frame_count * 32 ≤ x → m2.pas x = 0 := by
      intro x hx
      rw [hoth x (by omega) (by omega) (by omega)]
      exact h.zero x hx
    refine ⟨?_, hfl2, ?_, by simp [hcnt], by simp [hf], fun _ => hv, ?_⟩
    · exact hier_frames_alloc h hc hcnt (f * 32 + b * 4) hfl2 hv hZ
        (fun j c hj hc _ => hL1 j c hj hc) (fun g c hg1 _ hc hne => hL2 g c hg1 hc hne)
    · refine ⟨by omega, ?_, ?_⟩
      · intro j c hj hc hfj
        obtain ⟨e1, e2⟩ := hL1 j c hj hc
        exact ⟨by rw [e1]; exact hfj, e2⟩
      · intro g c hg1 hg2 hc hfj
        have hne : g * 32 + c * 4 ≠ f * 32 + b * 4 := by
          intro heq
          rw [heq, hf] at hfj
          omega
        obtain ⟨e1, e2⟩ := hL2 g c hg1 hc hne
        exact ⟨by rw [e1]; exact hfj, e2⟩
    · intro j hj
      have hcong : ∀ c, c < 8 → ¬ (j = i ∧ c = a) →
          term m2.pas (j * 32) c = term m.pas (j * 32) c := by
        intro c hc hne
        obtain ⟨e1, e2⟩ := hL1 j c hj hc
        apply term_congr _ _ _ _ e1
        intro hfj
        refine ⟨e2, ?_⟩
        intro b' hb'
        obtain ⟨hb1, hb2⟩ := h.l1_bound j c hj hc hfj
        have hgf : m.pas (j * 32 + c * 4) ≠ f := by
          intro heq
          rw [← hF] at heq
          exact hne (h.l1_inj j c i a hj hc hi ha hfj hfl heq)
        exact (hL2 _ b' hb1 hb' (by omega)).1
      by_cases hji : j = i
      · subst hji
        simp only [true_and, if_true]
        unfold entries
        apply sum_range_flip _ _ 8 a ha
        · unfold term
          rw [(hL1 j a hj ha).1, (hL1 j a hj ha).2, hfl, hF]
          simp only [if_true]
          rw [countP_range_flip
            (fun c => decide (m.pas (f * 32 + c * 4 + 1) = 1))
            (fun c => decide (m2.pas (f * 32 + c * 4 + 1) = 1)) 8 b hb
            (by simp [hf]) (by simp [hfl2])
            (fun c hc hne => by simp only [(hL2 f c hF1 hc (by omega)).1])]
          omega
        · intro c hc hne
          exact hcong c hc (fun hh => hne hh.2)
      · simp only [hji, and_false, if_false, Nat.add_zero]
        unfold entries
        apply sum_range_same
        intro c hc
        exact hcong c hc (fun hh => hji hh.1)

/-- The invariant of the page tables of the two-level variant: the frame invariant,
and the fault counter of every process is the number of valid entries reached from
its level-1 table. -/
structure Tables (n : Nat) (s : Sim) : Prop where
  frames : Frames n s.mach
  counts : ∀ i p, s.procs[i]? = some p → p.page_faults = entries s.mach.pas (i * 32)

theorem entries_zero (pt : Nat) : entries (fun _ => 0) pt = 0 := by
  have h : term (fun _ => 0) pt = fun _ => 0 := by
    funext a
    simp [term]
  unfold entries
  rw [h]
  decide

theorem hier_tables_start (recs : List Record) (hn : recs.length ≤ 256) :
    Tables recs.length (start recs) := by
  refine ⟨hier_frames_start recs hn, ?_⟩
  intro i p hp
  simp only [start, hier_mk_procs_getElem?] at hp
  cases hr : recs[i]? with
  | none => simp [hr] at hp
  | some r =>
    simp [hr] at hp
    subst hp
    simp [start, entries_zero]

theorem hier_tables_step {recs : List Record} {idx : Nat} {s : Sim} {d : Bool} {i : Nat}
    {r : Except Sim (Sim × Bool)} (hst : Static recs s) (hpg : Pages recs)
    (h : Tables recs.length s) (hs : Step idx s d i r) :
    Tables recs.length (after r) ∧ Mono recs.length s.mach (after r).mach := by
  cases hs with
  | idle _ => exact ⟨h, hier_mono_refl _ _⟩
  | l1_abort proc vpn hp _ _ _ => exact ⟨h, hier_mono_refl _ _⟩
  | l2_abort proc vpn m1 proc1 l1_pf hp hlt hv h1 h2 =>
    obtain ⟨hrec, hpt, hi⟩ := hier_static_get hst hp
    have hv64 : vpn < 64 := hpg _ (List.getElem?_mem hrec) vpn (List.getElem?_mem hv)
    rw [hpt] at h1
    obtain ⟨hfr, _, hmono, _, _, _, hent⟩ := hier_level1_stage h.frames hi (by omega) h1
    refine ⟨⟨hfr, ?_⟩, hmono⟩
    intro j q hq
    simp only [after] at hq ⊢
    rcases set_getElem?_cases _ _ _ _ _ hq with ⟨rfl, rfl⟩ | ⟨hne, hq'⟩
    · rw [hent i hi, level1_proc h1, ← h.counts i proc hp]
      cases l1_pf <;> simp
    · obtain ⟨_, _, hj⟩ := hier_static_get hst hq'
      rw [hent j hj, h.counts j q hq']
      have : ¬ (j = i) := fun hh => hne hh.symm
      simp [this]
  | done proc vpn m1 proc1 l1_pf m2 proc2 l2_pf hp hlt hv h1 h2 =>
    obtain ⟨hrec, hpt, hi⟩ := hier_static_get hst hp
    have hv64 : vpn < 64 := hpg _ (List.getElem?_mem hrec) vpn (List.getElem?_mem hv)
    rw [hpt] at h1 h2
    obtain ⟨hfr1, hfl1, hmono1, _, _, _, hent1⟩ := hier_level1_stage h.frames hi (by omega) h1
    obtain ⟨hfr2, _, hmono2, _, _, _, hent2⟩ :=
      hier_level2_stage hfr1 hi (by omega) (by omega) hfl1 h2
    refine ⟨⟨hfr2, ?_⟩, hier_mono_trans hmono1 hmono2⟩
    intro j q hq
    simp only [after] at hq ⊢
    rcases set_getElem?_cases _ _ _ _ _ hq with ⟨rfl, rfl⟩ | ⟨hne, hq'⟩
    · rw [hent2 i hi, hent1 i hi, level2_proc h2, level1_proc h1, ← h.counts i proc hp]
      cases l1_pf <;> cases l2_pf <;> simp
    · obtain ⟨_, _, hj⟩ := hier_static_get hst hq'
      rw [hent2 j hj, hent1 j hj, h.counts j q hq']
      have : ¬ (j = i) := fun hh => hne hh.symm
      simp [this]

/-- Everything that holds in a reachable state. -/
theorem hier_reach_inv {recs : List Record} (hpg : Pages recs) (hn : recs.length ≤ 256)
    {s : Sim} (h : Reach recs s) : Inv recs s ∧ Tables recs.length s := by
  induction h with
  | start => exact ⟨hier_inv_start recs hn, hier_tables_start recs hn⟩
  | step idx s d p s' d' _ hs ih =>
    have hstep := hier_service_step idx s d p
    rw [hs] at hstep
    exact ⟨(hier_inv_step hpg ih.1 hstep).1 s' d' rfl,
      (hier_tables_step ih.1.static hpg ih.2 hstep).1⟩

theorem hier_halted_inv {recs : List Record} (hpg : Pages recs) (hn : recs.length ≤ 256)
    {e : Sim} (h : Halted recs e) : Static recs e ∧ Tables recs.length e := by
  obtain ⟨idx, s, d, p, hr, hs⟩ := h
  have ih := hier_reach_inv hpg hn hr
  have hstep := hier_service_step idx s d p
  rw [hs] at hstep
  exact ⟨hier_static_step ih.1.static hstep, (hier_tables_step ih.1.static hpg ih.2 hstep).1⟩

/-- The states `simulate` ends in are reachable states, or halted states after an
abort. -/
theorem hier_simulate_reach (recs : List Record) (fuel : Nat) :
    Outcome_sat (Reach recs) (Halted recs)
      (simulate fuel (start recs).mach (mk_procs 0 recs)) :=
  hier_outer_induction (Reach recs) (Halted recs)
    (fun idx s d p s' d' h hs => Reach.step idx s d p s' d' h hs)
    (fun idx s d p _ h hs => ⟨idx, s, d, p, h, hs⟩) fuel 0 (start recs) Reach.start

theorem hier_run_reach (fuel : Nat) (input : List Record) :
    ∃ o, run fuel input = some o ∧ Outcome_sat (Reach (input.take 10)) (Halted (input.take 10)) o :=
  ⟨_, hier_run_start fuel input, hier_simulate_reach (input.take 10) fuel⟩

end Os3_2


namespace Os3_1

/-- The global frame invariant of the flat variant in state `s`: the counter is at
most `PAS_FRAMES`; the frame of every valid entry, of any process and page below 64,
is below the counter, is none of the frames that hold the page table of a process, and
is not the frame of any other valid entry. -/
def FrameOK (s : Sim) : Prop :=
  s.mach.allocated_frame_count ≤ PAS_FRAMES ∧
  ∀ (i : Nat) (p : process) (v : Nat), s.procs[i]? = some p → v < VAS_PAGES →
    s.mach.pas (pte_entry p v + 1) = PAGE_VALID →
    s.mach.pas (pte_entry p v) < s.mach.allocated_frame_count ∧
    (∀ (j : Nat) (q : process) (k : Nat), s.procs[j]? = some q →
      k < PAGESIZE * PAGETABLE_FRAMES → s.mach.pas (pte_entry p v) * PAGESIZE ≠ q.page_table + k) ∧
    (∀ (j : Nat) (q : process) (w : Nat), s.procs[j]? = some q → w < VAS_PAGES →
      s.mach.pas (pte_entry q w + 1) = PAGE_VALID →
      s.mach.pas (pte_entry p v) = s.mach.pas (pte_entry q w) → i = j ∧ v = w)

theorem flat_frame_ok {recs : List Record} {s : Sim} (hst : Static recs s)
    (h : Frames recs.length s) : FrameOK s := by
  refine ⟨h.le, ?_⟩
  intro i p v hp hv hfl
  obtain ⟨_, hpt, hi⟩ := flat_static_get hst hp
  simp only [VAS_PAGES] at hv
  simp only [pte_entry, PTE_SIZE, PAGE_VALID, hpt] at hfl ⊢
  obtain ⟨hb1, hb2⟩ := h.bound i v hi hv hfl
  refine ⟨hb2, ?_, ?_⟩
  · intro j q k hq hk
    obtain ⟨_, hqt, hj⟩ := flat_static_get hst hq
    simp only [PAGESIZE, PAGETABLE_FRAMES, VAS_PAGES, PTE_SIZE] at hk ⊢
    rw [hqt]
    omega
  · intro j q w hq hw hfl2 heq
    obtain ⟨_, hqt, hj⟩ := flat_static_get hst hq
    simp only [VAS_PAGES] at hw
    rw [hqt] at hfl2 heq
    exact h.inj i v j w hi hv hj hw hfl hfl2 heq

end Os3_1

namespace Os3_2

/-- The global frame invariant of the two-level variant in state `s`.  The counter is
at most `PAS_FRAMES`.  For every process and page below 64 whose level-1 entry is
valid, the frame of that entry is below the counter and is not the frame of the
level-1 table of a process; if the level-2 entry of the page is valid too, its frame
is below the counter and not the frame of a level-1 table either.  Two valid level-1
entries with the same frame are the same entry, two valid level-2 entries with the same
frame are the entries of the same page of the same process, and no valid level-1
entry has the frame of a valid level-2 entry. -/
def FrameOK (s : Sim) : Prop :=
  s.mach.allocated_frame_count ≤ PAS_FRAMES ∧
  ∀ (i : Nat) (p : process) (v : Nat), s.procs[i]? = some p → v < VAS_PAGES →
    s.mach.pas (l1_entry p v + 1) = PAGE_VALID →
    (s.mach.pas (l1_entry p v) < s.mach.allocated_frame_count ∧
      (∀ (j : Nat) (q : process) (k : Nat), s.procs[j]? = some q → k < PAGESIZE →
        s.mach.pas (l1_entry p v) * PAGESIZE ≠ q.L1_page_table + k) ∧
      (∀ (j : Nat) (q : process) (w : Nat), s.procs[j]? = some q → w < VAS_PAGES →
        s.mach.pas (l1_entry q w + 1) = PAGE_VALID →
        s.mach.pas (l1_entry p v) = s.mach.pas (l1_entry q w) → i = j ∧ v / 8 = w / 8)) ∧
    (s.mach.pas (l2_entry s.mach.pas p v + 1) = PAGE_VALID →
      s.mach.pas (l2_entry s.mach.pas p v) < s.mach.allocated_frame_count ∧
      (∀ (j : Nat) (q : process) (k : Nat), s.procs[j]? = some q → k < PAGESIZE →
        s.mach.pas (l2_entry s.mach.pas p v) * PAGESIZE ≠ q.L1_page_table + k) ∧
      (∀ (j : Nat) (q : process) (w : Nat), s.procs[j]? = some q → w < VAS_PAGES →
        s.mach.pas (l1_entry q w + 1) = PAGE_VALID →
        s.mach.pas (l2_entry s.mach.pas p v) ≠ s.mach.pas (l1_entry q w) ∧
        (s.mach.pas (l2_entry s.mach.pas q w + 1) = PAGE_VALID →
          s.mach.pas (l2_entry s.mach.pas p v) = s.mach.pas (l2_entry s.mach.pas q w) →
          i = j ∧ v = w)))

theorem hier_frame_ok {recs : List Record} {s : Sim} (hst : Static recs s)
    (h : Frames recs.length s.mach) : FrameOK s := by
  refine ⟨h.le, ?_⟩
  intro i p v hp hv hfl
  obtain ⟨_, hpt, hi⟩ := hier_static_get hst hp
  simp only [VAS_PAGES] at hv
  have ha : v / 8 < 8 := by omega
  have hb : v % 8 < 8 := by omega
  simp only [l1_entry, l2_entry, PTE_SIZE, PAGE_VALID, PAGESIZE, shiftRight_three, land_seven,
    hpt] at hfl ⊢
  obtain ⟨hb1, hb2⟩ := h.l1_bound i (v / 8) hi ha hfl
  refine ⟨⟨hb2, ?_, ?_⟩, ?_⟩
  · intro j q k hq hk
    obtain ⟨_, hqt, hj⟩ := hier_static_get hst hq
    rw [hqt]
    omega
  · intro j q w hq hw hfl2 heq
    obtain ⟨_, hqt, hj⟩ := hier_static_get hst hq
    simp only [VAS_PAGES] at hw
    rw [hqt] at hfl2 heq
    exact h.l1_inj i (v / 8) j (w / 8) hi ha hj (by omega) hfl hfl2 heq
  · intro hfl2
    obtain ⟨hd1, hd2⟩ := h.l2_bound _ (v % 8) hb1 hb2 hb hfl2
    refine ⟨hd2, ?_, ?_⟩
    · intro j q k hq hk
      obtain ⟨_, hqt, hj⟩ := hier_static_get hst hq
      rw [hqt]
      omega
    · intro j q w hq hw hflq
      obtain ⟨_, hqt, hj⟩ := hier_static_get hst hq
      simp only [VAS_PAGES] at hw
      rw [hqt] at hflq ⊢
      have hwa : w / 8 < 8 := by omega
      have hwb : w % 8 < 8 := by omega
      obtain ⟨hq1, hq2⟩ := h.l1_bound j (w / 8) hj hwa hflq
      refine ⟨fun heq => h.l12 j (w / 8) _ (v % 8) hj hwa hb1 hb2 hb hflq hfl2 heq.symm, ?_⟩
      intro hflq2 heq
      obtain ⟨e1, e2⟩ := h.l2_inj _ (v % 8) _ (w % 8) hb1 hb2 hb hq1 hq2 hwb hfl2 hflq2 heq
      obtain ⟨rfl, e3⟩ := h.l1_inj i (v / 8) j (w / 8) hi ha hj hwa hfl hflq e1
      exact ⟨rfl, by omega⟩

end Os3_2

/-- C15: the global frame invariant, in both variants, for every input with pages
below 64.  Every state in which `simulate` ends is a reachable state (between two
loop bodies) or the state at an abort, and in every such state the counter is at most
256, the frame stored in any valid entry (flat entries, level-1 entries, level-2
entries) is below the counter and is not a frame of a page table made at load time
(the 8-frame blocks of the flat variant, the level-1 frames of the two-level variant),
and no two valid entries store the same frame. -/
theorem frame_invariant (input : List Record) (hpg : ∀ r ∈ input, ∀ v ∈ r.2, v < 64) :
    ((∀ fuel, ∃ o, Os3_1.run fuel input = some o ∧
        Os3_1.Outcome_sat (Os3_1.Reach (input.take 10)) (Os3_1.Halted (input.take 10)) o) ∧
      ∀ s, Os3_1.Reach (input.take 10) s ∨ Os3_1.Halted (input.take 10) s → Os3_1.FrameOK s) ∧
    ((∀ fuel, ∃ o, Os3_2.run fuel input = some o ∧
        Os3_2.Outcome_sat (Os3_2.Reach (input.take 10)) (Os3_2.Halted (input.take 10)) o) ∧
      ∀ s, Os3_2.Reach (input.take 10) s ∨ Os3_2.Halted (input.take 10) s → Os3_2.FrameOK s) := by
  refine ⟨⟨fun fuel => Os3_1.flat_run_reach fuel input, ?_⟩,
    ⟨fun fuel => Os3_2.hier_run_reach fuel input, ?_⟩⟩
  · intro s hs
    rcases hs with hs | hs
    · obtain ⟨hinv, hfr⟩ := Os3_1.flat_reach_inv (pages_take hpg) (Os3_1.take_length_le input) hs
      exact Os3_1.flat_frame_ok hinv.static hfr
    · obtain ⟨hinv, hfr⟩ :=
        Os3_1.flat_halted_frames (pages_take hpg) (Os3_1.take_length_le input) hs
      exact Os3_1.flat_frame_ok hinv.static hfr
  · intro s hs
    rcases hs with hs | hs
    · obtain ⟨hinv, ht⟩ := Os3_2.hier_reach_inv (pages_take hpg) (by simp) hs
      exact Os3_2.hier_frame_ok hinv.static ht.frames
    · obtain ⟨hst, ht⟩ := Os3_2.hier_halted_inv (pages_take hpg) (by simp) hs
      exact Os3_2.hier_frame_ok hst ht.frames

/-- C15 on a concrete input: one process referencing the pages 5 and 13.  The flat
replay ends with counter 10 and the two-level replay with counter 5, both in a state
that satisfies the frame invariant. -/
theorem frame_invariant_witness :
    (∀ r ∈ [((1 : Int), [5, 13])], ∀ v ∈ r.2, v < 64) ∧
    (∃ s, Os3_1.run 2 [(1, [5, 13])] = some (.finished s) ∧ Os3_1.FrameOK s ∧
      s.mach.allocated_frame_count = 10) ∧
    (∃ s, Os3_2.run 3 [(1, [5, 13])] = some (.finished s) ∧ Os3_2.FrameOK s ∧
      s.mach.allocated_frame_count = 5) := by
  have hpg : ∀ r ∈ [((1 : Int), [5, 13])], ∀ v ∈ r.2, v < 64 := by decide
  have h := frame_invariant [(1, [5, 13])] hpg
  refine ⟨hpg, ?_, ?_⟩
  · obtain ⟨o, ho, hsat⟩ := h.1.1 2
    have key : (Os3_1.run 2 [(1, [5, 13])]).map (fun o =>
        match o with
        | .finished s => some s.mach.allocated_frame_count
        | _ => none) = some (some 10) := by decide
    rw [ho] at key
    cases o with
    | finished s => exact ⟨s, ho, h.1.2 s (Or.inl hsat), by simpa using key⟩
    | out_of_memory s => simp at key
    | out_of_fuel s => simp at key
  · obtain ⟨o, ho, hsat⟩ := h.2.1 3
    have key : (Os3_2.run 3 [(1, [5, 13])]).map (fun o =>
        match o with
        | .finished s => some s.mach.allocated_frame_count
        | _ => none) = some (some 5) := by decide
    rw [ho] at key
    cases o with
    | finished s => exact ⟨s, ho, h.2.2 s (Or.inl hsat), by simpa using key⟩
    | out_of_memory s => simp at key
    | out_of_fuel s => simp at key


namespace Os3_1

/-- Every entry that is valid in state `s` is valid in the memory `pas'`, with the
same frame. -/
def Kept (s : Sim) (pas' : Nat → Nat) : Prop :=
  ∀ (j : Nat) (q : process) (w : Nat), s.procs[j]? = some q → w < VAS_PAGES →
    s.mach.pas (pte_entry q w + 1) = PAGE_VALID →
    pas' (pte_entry q w + 1) = PAGE_VALID ∧ pas' (pte_entry q w) = s.mach.pas (pte_entry q w)

theorem flat_kept_step {recs : List Record} {s : Sim} (hst : Static recs s) (hpg : Pages recs)
    (i : Nat) : Kept s (after (service s i)).mach.pas := by
  intro j q w hq hw hfl
  obtain ⟨_, hqt, hj⟩ := flat_static_get hst hq
  simp only [VAS_PAGES] at hw
  simp only [pte_entry, PTE_SIZE, PAGE_VALID, hqt] at hfl ⊢
  exact flat_step_mono hst hpg (flat_service_step s i) j w hj hw hfl

end Os3_1

namespace Os3_2

/-- Every level-1 entry that is valid in state `s` is valid in the memory `pas'`
with the same frame, and so is every valid level-2 entry under a valid level-1
entry. -/
def Kept (s : Sim) (pas' : Nat → Nat) : Prop :=
  ∀ (j : Nat) (q : process) (w : Nat), s.procs[j]? = some q → w < VAS_PAGES →
    s.mach.pas (l1_entry q w + 1) = PAGE_VALID →
    (pas' (l1_entry q w + 1) = PAGE_VALID ∧ pas' (l1_entry q w) = s.mach.pas (l1_entry q w)) ∧
    (s.mach.pas (l2_entry s.mach.pas q w + 1) = PAGE_VALID →
      pas' (l2_entry pas' q w + 1) = PAGE_VALID ∧
      pas' (l2_entry pas' q w) = s.mach.pas (l2_entry s.mach.pas q w))

theorem hier_kept_of_mono {recs : List Record} {s : Sim} {m' : Machine} (hst : Static recs s)
    (h : Frames recs.length s.mach) (hm : Mono recs.length s.mach m') : Kept s m'.pas := by
  intro j q w hq hw hfl
  obtain ⟨_, hqt, hj⟩ := hier_static_get hst hq
  simp only [VAS_PAGES] at hw
  have ha : w / 8 < 8 := by omega
  have hb : w % 8 < 8 := by omega
  simp only [l1_entry, l2_entry, PTE_SIZE, PAGE_VALID, PAGESIZE, shiftRight_three, land_seven,
    hqt] at hfl ⊢
  obtain ⟨e1, e2⟩ := hm.l1 j (w / 8) hj ha hfl
  refine ⟨⟨e1, e2⟩, ?_⟩
  intro hfl2
  obtain ⟨hb1, hb2⟩ := h.l1_bound j (w / 8) hj ha hfl
  rw [e2]
  exact hm.l2 _ (w % 8) hb1 hb2 hb hfl2

end Os3_2

/-- C16: validity of page-table entries is monotone, in both variants, for every
input with pages below 64.  Whatever a loop body of `simulate` does in a reachable
state (serve a reference with or without a fault, skip the process, or abort), every
entry that was valid before it (flat entry, level-1 entry, level-2 entry under a
valid level-1 entry, of any process) is valid after it with the same frame.  In
particular the level-1 stage that allocates and zeroes a new level-2 table keeps
every valid entry. -/
theorem validity_monotone (input : List Record) (hpg : ∀ r ∈ input, ∀ v ∈ r.2, v < 64) :
    (∀ s i, Os3_1.Reach (input.take 10) s →
      Os3_1.Kept s (Os3_1.after (Os3_1.service s i)).mach.pas) ∧
    (∀ s idx d p, Os3_2.Reach (input.take 10) s →
      Os3_2.Kept s (Os3_2.after (Os3_2.service idx (s, d) p)).mach.pas) ∧
    (∀ s (i : Nat) (proc : Os3_2.process) (v : Nat) (m1 : Machine) (proc1 : Os3_2.process),
      Os3_2.Reach (input.take 10) s → s.procs[i]? = some proc → v < 64 →
      Os3_2.level1 s.mach proc (Os3_2.l1_entry proc v) = some (m1, proc1, true) →
      m1.pas = memset0 (poke (poke s.mach.pas (Os3_2.l1_entry proc v) s.mach.allocated_frame_count)
          (Os3_2.l1_entry proc v + 1) Os3_2.PAGE_VALID)
          (s.mach.allocated_frame_count * Os3_2.PAGESIZE) Os3_2.PAGESIZE ∧
      Os3_2.Kept s m1.pas) := by
  refine ⟨?_, ?_, ?_⟩
  · intro s i hs
    obtain ⟨hinv, _⟩ := Os3_1.flat_reach_inv (pages_take hpg) (Os3_1.take_length_le input) hs
    exact Os3_1.flat_kept_step hinv.static (pages_take hpg) i
  · intro s idx d p hs
    obtain ⟨hinv, ht⟩ := Os3_2.hier_reach_inv (pages_take hpg) (by simp) hs
    exact Os3_2.hier_kept_of_mono hinv.static ht.frames
      (Os3_2.hier_tables_step hinv.static (pages_take hpg) ht (Os3_2.hier_service_step idx s d p)).2
  · intro s i proc v m1 proc1 hs hp hv h1
    obtain ⟨hinv, ht⟩ := Os3_2.hier_reach_inv (pages_take hpg) (by simp) hs
    obtain ⟨_, hpt, hi⟩ := Os3_2.hier_static_get hinv.static hp
    constructor
    · rcases Os3_2.level1_spec s.mach proc (Os3_2.l1_entry proc v) with
        ⟨_, e1⟩ | ⟨_, _, e1⟩ | ⟨_, _, e1⟩ <;> rw [e1] at h1
      · simp at h1
      · cases h1
      · simp only [Option.some.injEq, Prod.mk.injEq] at h1
        rw [← h1.1]
        rfl
    · simp only [Os3_2.l1_entry, Os3_2.PTE_SIZE, shiftRight_three, hpt] at h1
      obtain ⟨_, _, hmono, _⟩ := Os3_2.hier_level1_stage ht.frames hi (by omega) h1
      exact Os3_2.hier_kept_of_mono hinv.static ht.frames hmono

/-- C16 on a concrete input: one process referencing the pages 5 and 13.  After the
first reference the entry of page 5 is valid (flat: frame 8; two-level: level-2
table in frame 1, page in frame 2); the loop body for the second reference, which
allocates (and in the two-level variant zeroes a new level-2 table), keeps it. -/
theorem validity_monotone_witness :
    (∀ r ∈ [((1 : Int), [5, 13])], ∀ v ∈ r.2, v < 64) ∧
    (∃ s1 p, Os3_1.service (Os3_1.start [(1, [5, 13])]) 0 = .ok s1 ∧ s1.procs[0]? = some p ∧
      s1.mach.pas (Os3_1.pte_entry p 5 + 1) = 1 ∧ s1.mach.pas (Os3_1.pte_entry p 5) = 8 ∧
      (Os3_1.after (Os3_1.service s1 0)).mach.allocated_frame_count = 10 ∧
      (Os3_1.after (Os3_1.service s1 0)).mach.pas (Os3_1.pte_entry p 5 + 1) = 1 ∧
      (Os3_1.after (Os3_1.service s1 0)).mach.pas (Os3_1.pte_entry p 5) = 8) ∧
    (∃ s1 p, Os3_2.service 0 (Os3_2.start [(1, [5, 13])], true) 0 = .ok (s1, false) ∧
      s1.procs[0]? = some p ∧
      s1.mach.pas (Os3_2.l1_entry p 5 + 1) = 1 ∧ s1.mach.pas (Os3_2.l1_entry p 5) = 1 ∧
      s1.mach.pas (Os3_2.l2_entry s1.mach.pas p 5 + 1) = 1 ∧
      s1.mach.pas (Os3_2.l2_entry s1.mach.pas p 5) = 2 ∧
      (Os3_2.after (Os3_2.service 1 (s1, true) 0)).mach.allocated_frame_count = 5 ∧
      (Os3_2.after (Os3_2.service 1 (s1, true) 0)).mach.pas (Os3_2.l1_entry p 5) = 1 ∧
      (Os3_2.after (Os3_2.service 1 (s1, true) 0)).mach.pas
        (Os3_2.l2_entry (Os3_2.after (Os3_2.service 1 (s1, true) 0)).mach.pas p 5) = 2) := by
  have hpg : ∀ r ∈ [((1 : Int), [5, 13])], ∀ v ∈ r.2, v < 64 := by decide
  have h := validity_monotone [(1, [5, 13])] hpg
  refine ⟨hpg, ?_, ?_⟩
  · refine ⟨_, ⟨1, [5, 13], 0, 1, 1⟩, rfl, rfl, by decide, by decide, by decide, ?_⟩
    have hk := h.1 _ 0 (Os3_1.Reach.step _ 0 _ Os3_1.Reach.start rfl) 0 ⟨1, [5, 13], 0, 1, 1⟩ 5
      rfl (by decide) (by decide)
    exact ⟨hk.1, hk.2.trans (by decide)⟩
  · refine ⟨_, ⟨1, [5, 13], 0, 2, 1⟩, rfl, rfl, by decide, by decide, by decide, by decide,
      by decide, ?_⟩
    have hk := h.2.1 _ 1 true 0 (Os3_2.Reach.step 0 _ true 0 _ false Os3_2.Reach.start rfl) 0
      ⟨1, [5, 13], 0, 2, 1⟩ 5 rfl (by decide) (by decide)
    exact ⟨hk.1.2.trans (by decide), (hk.2 (by decide)).2.trans (by decide)⟩

/-- C19: in the two-level variant, for every input with pages below 64, in every state
in which `simulate` can be between two loop bodies or at an abort, the fault counter
of every process equals the number of its valid level-1 entries plus the number of
valid level-2 entries under them, which is the value `print_page_tables` computes as
its allocated frames; so every process line of a printed report shows the same number
for the allocated frames and for the page faults. -/
theorem faults_equal_frames (input : List Record) (hpg : ∀ r ∈ input, ∀ v ∈ r.2, v < 64) :
    (∀ s, Os3_2.Reach (input.take 10) s ∨ Os3_2.Halted (input.take 10) s →
      ∀ (i : Nat) (p : Os3_2.process), s.procs[i]? = some p →
        p.page_faults = Os3_2.valid_l1 s.mach.pas p + Os3_2.valid_l2 s.mach.pas p ∧
        (Os3_2.proc_report s.mach.pas p).frames_used =
          (Os3_2.proc_report s.mach.pas p).page_faults) ∧
    (∀ fuel, ∃ o, Os3_2.run fuel input = some o ∧
      Os3_2.Outcome_sat (Os3_2.Reach (input.take 10)) (Os3_2.Halted (input.take 10)) o) ∧
    (∀ fuel out rep, Os3_2.main fuel input = some out → out.report = some rep →
      ∀ r ∈ rep.procs, r.frames_used = r.page_faults) := by
  have hmain : ∀ s, Os3_2.Reach (input.take 10) s ∨ Os3_2.Halted (input.take 10) s →
      ∀ (i : Nat) (p : Os3_2.process), s.procs[i]? = some p →
        p.page_faults = Os3_2.valid_l1 s.mach.pas p + Os3_2.valid_l2 s.mach.pas p ∧
        (Os3_2.proc_report s.mach.pas p).frames_used =
          (Os3_2.proc_report s.mach.pas p).page_faults := by
    intro s hs i p hp
    have hst : Os3_2.Static (input.take 10) s ∧ Os3_2.Tables (input.take 10).length s := by
      rcases hs with hs | hs
      · obtain ⟨hinv, ht⟩ := Os3_2.hier_reach_inv (pages_take hpg) (by simp) hs
        exact ⟨hinv.static, ht⟩
      · exact Os3_2.hier_halted_inv (pages_take hpg) (by simp) hs
    obtain ⟨_, hpt, hi⟩ := Os3_2.hier_static_get hst.1 hp
    have h1 : p.page_faults = Os3_2.valid_l1 s.mach.pas p + Os3_2.valid_l2 s.mach.pas p := by
      rw [Os3_2.entries_eq, hpt]
      exact hst.2.counts i p hp
    refine ⟨h1, ?_⟩
    have h2 : (Os3_2.proc_report s.mach.pas p).frames_used =
        Os3_2.valid_l1 s.mach.pas p + Os3_2.valid_l2 s.mach.pas p := by
      simp only [Os3_2.proc_report, Os3_2.count_l1_eq, Os3_2.valid_l1, Os3_2.valid_l2,
        List.range_eq_range']
      omega
    rw [h2, ← h1]
    rfl
  refine ⟨hmain, fun fuel => Os3_2.hier_run_reach fuel input, ?_⟩
  intro fuel out rep hout hrep r hr
  obtain ⟨o, ho, hsat⟩ := Os3_2.hier_run_reach fuel input
  simp only [Os3_2.main, ho] at hout
  cases o with
  | finished s =>
    simp only [Option.some.injEq] at hout
    rw [← hout] at hrep
    simp only [Option.some.injEq] at hrep
    rw [← hrep] at hr
    simp only [Os3_2.print_page_tables, List.mem_map] at hr
    obtain ⟨p, hp, rfl⟩ := hr
    obtain ⟨i, hi⟩ := List.mem_iff_getElem?.mp hp
    exact (hmain s (Or.inl hsat) i p hi).2
  | out_of_memory s =>
    simp only [Option.some.injEq] at hout
    rw [← hout] at hrep
    cases hrep
  | out_of_fuel s => cases hout

/-- C19 on the example of the specification: the references `[0, 8]` of one process
cause 4 page faults, and the report shows 4 allocated frames and 4 page faults. -/
theorem faults_equal_frames_witness :
    (∀ r ∈ [((1 : Int), [0, 8])], ∀ v ∈ r.2, v < 64) ∧
    (Os3_2.main 3 [(1, [0, 8])]).map (fun out => out.report.map (fun rep =>
      rep.procs.map (fun r => (r.frames_used, r.page_faults)))) = some (some [(4, 4)]) ∧
    (∀ out rep, Os3_2.main 3 [(1, [0, 8])] = some out → out.report = some rep →
      ∀ r ∈ rep.procs, r.frames_used = r.page_faults) :=
  ⟨by decide, by decide,
    (faults_equal_frames [(1, [0, 8])] (by decide)).2.2 3⟩


/-- The members of `l` among `0 .. n-1` are as many as the distinct elements of `l`,
when all of them are below `n`. -/
theorem countP_range_mem (l : List Nat) (n : Nat) (h : ∀ v ∈ l, v < n) :
    (List.range n).countP (fun v => decide (v ∈ l)) = l.dedup.length := by
  rw [List.countP_eq_length_filter]
  apply List.Perm.length_eq
  apply (List.perm_ext_iff_of_nodup ((List.nodup_range n).filter _) (List.nodup_dedup l)).mpr
  intro a
  simp only [List.mem_filter, List.mem_range, decide_eq_true_eq, List.mem_dedup]
  constructor
  · intro ha; exact ha.2
  · intro ha; exact ⟨h a ha, ha⟩

/-- Counting over `0 .. nm-1` is counting over the `n` groups of `m`. -/
theorem countP_range_groups (P : Nat → Bool) (m : Nat) : ∀ n : Nat,
    (List.range (n * m)).countP P =
      ((List.range n).map (fun a => (List.range m).countP (fun b => P (a * m + b)))).sum := by
  intro n
  induction n with
  | zero => simp
  | succ n ih =>
    rw [Nat.succ_mul, List.range_add, List.countP_append, ih, List.range_succ, List.map_append,
      List.sum_append, List.countP_map]
    simp only [List.map_cons, List.map_nil, List.sum_cons, List.sum_nil, Nat.add_zero]
    rfl

namespace Os3_1

/-- After a completed replay the number of valid entries of the table of a process
is the number of distinct pages of its reference sequence, and so is its fault
counter. -/
theorem flat_final_faults {recs : List Record} (hpg : Pages recs) {s : Sim} (hinv : Inv recs s)
    {i : Nat} {p : process} (hp : s.procs[i]? = some p) (hrc : p.ref_count = p.ref_len) :
    valid_pages s.mach.pas p.page_table = p.references.dedup.length ∧
    p.page_faults = p.references.dedup.length := by
  obtain ⟨hrec, hpt, hi⟩ := flat_static_get hinv.static hp
  have hcur := (hinv.book.cursor i p hp).2
  rw [hrc] at hcur
  have hv : valid_pages s.mach.pas p.page_table = p.references.dedup.length := by
    rw [← countP_range_mem p.references 64
      (fun v hv => hpg _ (List.getElem?_mem hrec) v hv), hpt]
    unfold valid_pages
    apply countP_range_same
    intro w hw
    rw [hinv.mem.vflag i w hi hw, flat_hits_eq_count hcur w]
    by_cases hm : w ∈ p.references
    · have : p.references.count w ≠ 0 := by
        have := List.count_pos_iff.mpr hm
        omega
      simp [hm, this]
    · have : p.references.count w = 0 := List.count_eq_zero_of_not_mem hm
      simp [hm, this]
  refine ⟨hv, ?_⟩
  have hf := hinv.book.faults i p hp
  rw [hf, Nat.add_zero, ← hinv.valid i hi, ← hpt, hv]

end Os3_1

namespace Os3_2

theorem hier_hits1_eq_count {t : List Access} {i : Nat} {p : process}
    (hcur : (t.filter (fun e => decide (e.pos = i))).map (fun e => (e.idx, e.page)) =
      (List.range p.references.length).map (fun k => (k, p.references.getD k 0))) (a : Nat) :
    hits1 t i a = (p.references.map (fun v => v / 8)).count a := by
  have h1 : hits1 t i a =
      ((t.filter (fun e => decide (e.pos = i))).map (fun e => (e.idx, e.page))).countP
        (fun x => decide (x.2 / 8 = a)) := by
    rw [List.countP_map, List.countP_filter]
    apply List.countP_congr
    intro e _
    simp [Function.comp, and_comm]
  rw [h1, hcur, List.countP_map, List.count, List.countP_map]
  conv_rhs => rw [← range_map_getD p.references]
  rw [List.countP_map]
  apply List.countP_congr
  intro k _
  simp [Function.comp]

/-- After a completed replay the valid level-1 entries of a process are as many as the
distinct level-1 indices of its reference sequence, and the valid level-2 entries
under them as many as its distinct pages. -/
theorem hier_final_counts {recs : List Record} (hpg : Pages recs) {s : Sim} (hinv : Inv recs s)
    {i : Nat} {p : process} (hp : s.procs[i]? = some p)
    (hcur : (s.trace.filter (fun e => decide (e.pos = i))).map (fun e => (e.idx, e.page)) =
      (List.range p.references.length).map (fun k => (k, p.references.getD k 0))) :
    valid_l1 s.mach.pas p = (p.references.map (fun v => v / 8)).dedup.length ∧
    valid_l2 s.mach.pas p = p.references.dedup.length := by
  obtain ⟨hrec, hpt, hi⟩ := hier_static_get hinv.static hp
  have hlt : ∀ v ∈ p.references, v < 64 := fun v hv => hpg _ (List.getElem?_mem hrec) v hv
  have hmem1 : ∀ a, hits1 s.trace i a ≠ 0 ↔ a ∈ p.references.map (fun v => v / 8) := by
    intro a
    rw [hier_hits1_eq_count hcur a]
    constructor
    · intro h
      exact List.count_pos_iff.mp (by omega)
    · intro h
      have := List.count_pos_iff.mpr h
      omega
  have hmem2 : ∀ v, hits s.trace i v ≠ 0 ↔ v ∈ p.references := by
    intro v
    rw [hier_hits_eq_count hcur v]
    constructor
    · intro h
      exact List.count_pos_iff.mp (by omega)
    · intro h
      have := List.count_pos_iff.mpr h
      omega
  constructor
  · rw [← countP_range_mem (p.references.map (fun v => v / 8)) 8 (by
      intro a ha
      obtain ⟨v, hv, rfl⟩ := List.mem_map.mp ha
      have := hlt v hv
      omega)]
    simp only [valid_l1, L1_PT_ENTRIES, PTE_SIZE, PAGE_VALID, hpt]
    apply countP_range_same
    intro a ha
    rw [hinv.mem.l1_flag i a hi ha]
    by_cases h0 : hits1 s.trace i a = 0
    · have : ¬ a ∈ p.references.map (fun v => v / 8) := fun hh => (hmem1 a).mpr hh h0
      simp [h0, this]
    · have := (hmem1 a).mp h0
      simp [h0, this]
  · rw [← countP_range_mem p.references 64 hlt]
    have e64 : (64 : Nat) = 8 * 8 := rfl
    rw [e64, countP_range_groups _ 8 8]
    simp only [valid_l2, L1_PT_ENTRIES, L2_PT_ENTRIES, PTE_SIZE, PAGE_VALID, PAGESIZE, hpt]
    apply sum_range_same
    intro a ha
    have hva : ∀ b, b < 8 → (a * 8 + b) / 8 = a ∧ (a * 8 + b) % 8 = b ∧ a * 8 + b < 64 := by
      intro b hb
      omega
    rw [hinv.mem.l1_flag i a hi ha]
    by_cases h0 : hits1 s.trace i a = 0
    · simp only [h0, if_true, Nat.zero_ne_one, if_false]
      symm
      rw [List.countP_eq_zero]
      intro b hb
      rw [List.mem_range] at hb
      obtain ⟨e1, _, _⟩ := hva b hb
      have : hits s.trace i (a * 8 + b) = 0 := hits_of_hits1 (by rw [e1]; exact h0)
      have hn : ¬ (a * 8 + b) ∈ p.references := fun hh => (hmem2 _).mpr hh this
      simp [hn]
    · simp only [h0, if_false, if_true]
      apply countP_range_same
      intro b hb
      obtain ⟨e1, e2, e3⟩ := hva b hb
      have hfl := hinv.mem.l2_flag i (a * 8 + b) hi e3 (by rw [e1]; exact h0)
      rw [e1, e2] at hfl
      rw [hfl]
      by_cases h2 : hits s.trace i (a * 8 + b) = 0
      · have hn : ¬ (a * 8 + b) ∈ p.references := fun hh => (hmem2 _).mpr hh h2
        simp [h2, hn]
      · have := (hmem2 _).mp h2
        simp [h2, this]

end Os3_2

/-- C11: totals of a flat run, for every input with pages below 64.  When the replay
completes, the fault counter of every process is the number of distinct pages of its
reference sequence, that is also its number of valid entries, the process is reported
with 8 frames plus that number, and its `ref_count` is the length of the sequence. -/
theorem flat_run_totals (input : List Record) (fuel : Nat)
    (hpg : ∀ r ∈ input, ∀ v ∈ r.2, v < 64) (s : Os3_1.Sim)
    (h : Os3_1.run fuel input = some (.finished s)) :
    ∀ (i : Nat) (p : Os3_1.process), s.procs[i]? = some p →
      (input.take 10)[i]? = some (p.pid, p.references) ∧
      p.page_faults = p.references.dedup.length ∧
      Os3_1.valid_pages s.mach.pas p.page_table = p.references.dedup.length ∧
      (Os3_1.proc_report s.mach.pas p).page_faults = p.references.dedup.length ∧
      (Os3_1.proc_report s.mach.pas p).allocated_frames = 8 + p.references.dedup.length ∧
      (Os3_1.proc_report s.mach.pas p).references = p.references.length := by
  intro i p hp
  have hinv := Os3_1.flat_simulate_inv (input.take 10) (pages_take hpg)
    (Os3_1.take_length_le input) fuel
  have hord := Os3_1.flat_simulate_ordered (input.take 10)
    (Os3_1.start (input.take 10)).mach fuel
  rw [Os3_1.flat_run_start] at h
  simp only [Option.some.injEq] at h
  rw [h] at hinv hord
  have hinv' : Os3_1.Inv (input.take 10) s := hinv
  have hrc : p.ref_count = p.ref_len := hord.2 p (List.getElem?_mem hp)
  obtain ⟨hv, hf⟩ := Os3_1.flat_final_faults (pages_take hpg) hinv' hp hrc
  refine ⟨(Os3_1.flat_static_get hinv'.static hp).1, hf, hv, hf, ?_, hrc⟩
  rw [Os3_1.allocated_frames_eq, hv]

/-- C12: fault counting of the two-level variant, for every input with pages below
64.  When the replay completes, the fault counter of every process is the number of
distinct level-1 indices `v / 8` plus the number of distinct pages of its reference
sequence (these are its numbers of valid level-1 and level-2 entries), and its
`ref_count` is the length of the sequence. -/
theorem hier_fault_count (input : List Record) (fuel : Nat)
    (hpg : ∀ r ∈ input, ∀ v ∈ r.2, v < 64) (s : Os3_2.Sim)
    (h : Os3_2.run fuel input = some (.finished s)) :
    ∀ (i : Nat) (p : Os3_2.process), s.procs[i]? = some p →
      (input.take 10)[i]? = some (p.pid, p.references) ∧
      p.page_faults =
        (p.references.map (fun v => v / 8)).dedup.length + p.references.dedup.length ∧
      Os3_2.valid_l1 s.mach.pas p = (p.references.map (fun v => v / 8)).dedup.length ∧
      Os3_2.valid_l2 s.mach.pas p = p.references.dedup.length ∧
      p.ref_count = p.references.length := by
  intro i p hp
  obtain ⟨o, ho, hsat⟩ := Os3_2.hier_run_reach fuel input
  have hord := Os3_2.hier_simulate_ordered (input.take 10) fuel
  rw [h] at ho
  simp only [Option.some.injEq] at ho
  rw [← ho] at hsat
  rw [Os3_2.hier_run_start] at h
  simp only [Option.some.injEq] at h
  rw [h] at hord
  obtain ⟨hinv, ht⟩ := Os3_2.hier_reach_inv (pages_take hpg) (by simp) hsat
  obtain ⟨hrc, hcur⟩ := hord.2 i p hp
  obtain ⟨h1, h2⟩ := Os3_2.hier_final_counts (pages_take hpg) hinv hp hcur
  obtain ⟨hrec, hpt, hi⟩ := Os3_2.hier_static_get hinv.static hp
  refine ⟨hrec, ?_, h1, h2, hrc⟩
  rw [← h1, ← h2, Os3_2.entries_eq, hpt]
  exact ht.counts i p hp


namespace Os3_2

/-- In a state whose tables agree with its trace, the loop body for a reference of
process `i` to a page `v` that has a trace line already completes without a fault
and without an allocation, and prints the frames the tables hold for the page. -/
theorem hier_second_translation {recs : List Record} {s : Sim} (hinv : Inv recs s)
    {i v : Nat} (hh : hits s.trace i v ≠ 0) (idx : Nat) (d : Bool) {proc : process}
    (hp : s.procs[i]? = some proc) (hv : proc.references[idx]? = some v) :
    ∃ s' e', service idx (s, d) i = .ok (s', false) ∧ s'.trace = s.trace ++ [e'] ∧
      e'.pos = i ∧ e'.page = v ∧ e'.idx = idx ∧ e'.l1_pf = false ∧ e'.l2_pf = false ∧
      e'.l1_frame = s.mach.pas (i * 32 + v / 8 * 4) ∧
      e'.l2_frame = s.mach.pas (s.mach.pas (i * 32 + v / 8 * 4) * 32 + v % 8 * 4) ∧
      s'.mach.allocated_frame_count = s.mach.allocated_frame_count ∧
      s'.mach.returned = s.mach.returned := by
  obtain ⟨hrec, hpt, hi⟩ := hier_static_get hinv.static hp
  obtain ⟨e, he, hpos, hpage⟩ := hits_pos hh
  have hv64 : v < 64 := by rw [← hpage]; exact (hinv.mem.ev e he).2
  have ha : v / 8 < 8 := by omega
  have hh1 : hits1 s.trace i (v / 8) ≠ 0 := fun h0 => hh (hits_of_hits1 h0)
  have hf1 : s.mach.pas (i * 32 + v / 8 * 4 + 1) = 1 := by
    rw [hinv.mem.l1_flag i _ hi ha]; simp [hh1]
  have hf2 : s.mach.pas (s.mach.pas (i * 32 + v / 8 * 4) * 32 + v % 8 * 4 + 1) = 1 := by
    rw [hinv.mem.l2_flag i v hi hv64 hh1]; simp [hh]
  obtain ⟨hF1, hF2⟩ := hinv.mem.l1_frame i _ hi ha hh1
  have hlen : idx < proc.references.length := (List.getElem?_eq_some.mp hv).1
  have e1 : level1 s.mach proc (i * 32 + v / 8 * 4) = some (s.mach, proc, false) := by
    rcases level1_spec s.mach proc (i * 32 + v / 8 * 4) with ⟨_, h1⟩ | ⟨h0, _, _⟩ | ⟨h0, _, _⟩
    · exact h1
    · rw [hf1] at h0; cases h0
    · rw [hf1] at h0; cases h0
  obtain ⟨m2, e2⟩ : ∃ m2, level2 s.mach proc
      (s.mach.pas (i * 32 + v / 8 * 4) * 32 + v % 8 * 4) = some (m2, proc, false) := by
    rcases level2_spec s.mach proc (s.mach.pas (i * 32 + v / 8 * 4) * 32 + v % 8 * 4) with
      ⟨_, h1⟩ | ⟨h0, _, _⟩ | ⟨h0, _, _⟩
    · exact ⟨_, h1⟩
    · rw [hf2] at h0; cases h0
    · rw [hf2] at h0; cases h0
  obtain ⟨hcnt, hret, hoth⟩ : m2.allocated_frame_count = s.mach.allocated_frame_count ∧
      m2.returned = s.mach.returned ∧
      ∀ x, x ≠ s.mach.pas (i * 32 + v / 8 * 4) * 32 + v % 8 * 4 + 2 → m2.pas x = s.mach.pas x := by
    rcases level2_bytes e2 with ⟨_, _, h3, h4, _, h6⟩ | ⟨hcon, _⟩
    · exact ⟨h3, h4, h6⟩
    · cases hcon
  have hstep := hier_service_step idx s d i
  generalize service idx (s, d) i = r at hstep
  cases hstep with
  | idle hid =>
    have := hid proc hp
    simp only [process.ref_len] at this
    omega
  | l1_abort proc' vpn hp' _ hv' h1 =>
    rw [hp] at hp'
    cases hp'
    rw [hv] at hv'
    cases hv'
    rw [hpt, e1] at h1
    cases h1
  | l2_abort proc' vpn m1 proc1 l1_pf hp' _ hv' h1 h2 =>
    rw [hp] at hp'
    cases hp'
    rw [hv] at hv'
    cases hv'
    rw [hpt, e1] at h1
    cases h1
    rw [hpt, e2] at h2
    cases h2
  | done proc' vpn m1 proc1 l1_pf m2 proc2 l2_pf hp' _ hv' h1 h2 =>
    rw [hp] at hp'
    cases hp'
    rw [hv] at hv'
    cases hv'
    rw [hpt, e1] at h1
    cases h1
    rw [hpt, e2] at h2
    cases h2
    refine ⟨_, _, rfl, rfl, rfl, rfl, rfl, rfl, rfl, ?_, ?_, hcnt, hret⟩
    · simp only [hpt]
      exact hoth _ (by omega)
    · simp only [hpt]
      exact hoth _ (by omega)

end Os3_2

/-- C13: translation in the two-level variant is stable, for every input with pages
below 64.  In every reachable state, if process `e.pos` has translated page `e.page`
before (trace line `e`), the loop body for another reference of that process to that
page completes, prints the same level-1 and level-2 frames as `e`, reports neither a
level-1 nor a level-2 fault, and leaves the allocator (counter and returned frames) as
it was.  Consequently, in the trace of every run, a later line for the same process
and page shows the same pair of frames as an earlier one and reports no fault. -/
theorem translation_stable (input : List Record) (hpg : ∀ r ∈ input, ∀ v ∈ r.2, v < 64) :
    (∀ s (e : Os3_2.Access) (idx : Nat) (d : Bool) (proc : Os3_2.process),
      Os3_2.Reach (input.take 10) s → e ∈ s.trace → s.procs[e.pos]? = some proc →
      proc.references[idx]? = some e.page →
      ∃ s' e', Os3_2.service idx (s, d) e.pos = .ok (s', false) ∧ s'.trace = s.trace ++ [e'] ∧
        e'.pos = e.pos ∧ e'.page = e.page ∧
        e'.l1_frame = e.l1_frame ∧ e'.l2_frame = e.l2_frame ∧
        e'.l1_pf = false ∧ e'.l2_pf = false ∧
        s'.mach.allocated_frame_count = s.mach.allocated_frame_count ∧
        s'.mach.returned = s.mach.returned) ∧
    (∀ fuel, ∃ o, Os3_2.run fuel input = some o ∧
      ∀ (k1 k2 : Nat) (e1 e2 : Os3_2.Access), k1 < k2 →
        o.state.trace[k1]? = some e1 → o.state.trace[k2]? = some e2 →
        e1.pos = e2.pos → e1.page = e2.page →
        e2.l1_frame = e1.l1_frame ∧ e2.l2_frame = e1.l2_frame ∧
        e2.l1_pf = false ∧ e2.l2_pf = false) := by
  constructor
  · intro s e idx d proc hs he hp hv
    obtain ⟨hinv, _⟩ := Os3_2.hier_reach_inv (pages_take hpg) (by simp) hs
    obtain ⟨s', e', h1, h2, h3, h4, _, h5, h6, h7, h8, h9, h10⟩ :=
      Os3_2.hier_second_translation hinv (Os3_2.hits_of_mem he) idx d hp hv
    obtain ⟨f1, f2⟩ := hinv.mem.frames e he
    refine ⟨s', e', h1, h2, h3, h4, ?_, ?_, h5, h6, h9, h10⟩
    · rw [h7, f1]
    · rw [h8, f2, f1]
  · intro fuel
    refine ⟨_, Os3_2.hier_run_start fuel input, ?_⟩
    have hinv := Os3_2.hier_simulate_inv (input.take 10) (pages_take hpg) (by simp) fuel
    have hex : Os3_2.Exclusive
        (Os3_2.simulate fuel (Os3_2.start (input.take 10)).mach
          (Os3_2.mk_procs 0 (input.take 10))).state.trace := by
      revert hinv
      generalize Os3_2.simulate fuel _ _ = o
      intro hinv
      cases o with
      | finished s => exact Os3_2.hier_exclusive_of_mem hinv.mem
      | out_of_fuel s => exact Os3_2.hier_exclusive_of_mem hinv.mem
      | out_of_memory s =>
        obtain ⟨s0, h0, ht⟩ := hinv
        simp only [Outcome.state]
        rw [ht]
        exact Os3_2.hier_exclusive_of_mem h0.mem
    intro k1 k2 e1 e2 hk h1 h2 hpos hpage
    obtain ⟨hx1, hx2, hx3⟩ := hex k2 e2 h2
    have hmem : e1 ∈ (Os3_2.simulate fuel (Os3_2.start (input.take 10)).mach
        (Os3_2.mk_procs 0 (input.take 10))).state.trace.take k2 := by
      rw [List.mem_iff_getElem?]
      exact ⟨k1, by rw [List.getElem?_take_of_lt hk]; exact h1⟩
    obtain ⟨g2, g1⟩ := hx3 e1 hmem hpos hpage
    refine ⟨g1, g2, ?_, ?_⟩
    · cases hb : e2.l1_pf with
      | false => rfl
      | true => exact absurd ⟨hpos, by rw [hpage]⟩ (hx2.mp hb e1 hmem)
    · cases hb : e2.l2_pf with
      | false => rfl
      | true => exact absurd ⟨hpos, hpage⟩ (hx1.mp hb e1 hmem)

/-- C13 on a concrete input: one process with the references `[5, 5]`.  The first
reference faults at both levels and prints the frames 1 and 2; the loop body for the
second prints the same frames, reports no fault and leaves the counter at 3. -/
theorem translation_stable_witness :
    (∀ r ∈ [((1 : Int), [5, 5])], ∀ v ∈ r.2, v < 64) ∧
    ∃ s1 s2 e', Os3_2.service 0 (Os3_2.start [(1, [5, 5])], true) 0 = .ok (s1, false) ∧
      s1.trace = [⟨0, 1, 0, 5, true, 1, true, 2⟩] ∧ s1.mach.allocated_frame_count = 3 ∧
      Os3_2.service 1 (s1, true) 0 = .ok (s2, false) ∧ s2.trace = s1.trace ++ [e'] ∧
      e'.l1_frame = 1 ∧ e'.l2_frame = 2 ∧ e'.l1_pf = false ∧ e'.l2_pf = false ∧
      s2.mach.allocated_frame_count = 3 := by
  have hpg : ∀ r ∈ [((1 : Int), [5, 5])], ∀ v ∈ r.2, v < 64 := by decide
  refine ⟨hpg, ?_⟩
  obtain ⟨s2, e', h1, h2, _, _, h3, h4, h5, h6, h7, _⟩ :=
    (translation_stable [(1, [5, 5])] hpg).1 _ ⟨0, 1, 0, 5, true, 1, true, 2⟩ 1 true
      ⟨1, [5, 5], 0, 2, 1⟩
      (Os3_2.Reach.step 0 _ true 0 _ false Os3_2.Reach.start rfl) (by decide) rfl rfl
  exact ⟨_, s2, e', rfl, by decide, by decide, h1, h2, h3, h4, h5, h6, h7⟩


namespace Os3_1

/-- The `while` loop entered at sweep `k` cannot end normally before the sweep of the
longest reference sequence. -/
theorem flat_finished_fuel {lens : List Nat} : ∀ (fuel k : Nat) (s : Sim),
    Cursors lens k 0 s → ∀ s', while_loop lens.sum fuel s = .finished s' →
    lens.foldr max 0 ≤ k + fuel := by
  have hdone : ∀ (k : Nat) (s : Sim), Cursors lens k 0 s → ¬ s.processed_refs < lens.sum →
      lens.foldr max 0 ≤ k := by
    intro k s h hc
    have hle : ∀ p ∈ s.procs, p.ref_count ≤ p.ref_len := by
      intro p hp
      obtain ⟨i, hi⟩ := List.mem_iff_getElem?.mp hp
      have := h.2.2 i p hi
      simp at this
      omega
    have hcond := sum_lt_sum_iff process.ref_count process.ref_len s.procs hle
    rw [h.1, ← h.2.1] at hcond
    have hall : ∀ p ∈ s.procs, p.ref_count = p.ref_len := by
      intro p hp
      by_contra hne
      exact hc (hcond.mpr ⟨p, hp, by have := hle p hp; omega⟩)
    rw [maxlen_le_iff]
    intro x hx
    rw [← h.1] at hx
    obtain ⟨p, hp, rfl⟩ := List.mem_map.mp hx
    obtain ⟨i, hi⟩ := List.mem_iff_getElem?.mp hp
    have h1 := h.2.2 i p hi
    have h2 := hall p hp
    simp at h1
    omega
  intro fuel
  induction fuel with
  | zero =>
    intro k s h s' hs'
    unfold while_loop at hs'
    by_cases hc : s.processed_refs < lens.sum
    · simp [hc] at hs'
    · exact hdone k s h hc
  | succ fuel ih =>
    intro k s h s' hs'
    unfold while_loop at hs'
    by_cases hc : s.processed_refs < lens.sum
    · simp only [hc, if_true] at hs'
      have hsw := flat_cursors_sweep lens.length 0 s (by omega) h
      rw [flat_cursors_length h, List.range_eq_range'] at hs'
      cases hr : Os3_1.sweep (List.range' 0 lens.length) s with
      | error e => rw [hr] at hs'; cases hs'
      | ok s1 =>
        rw [hr] at hs'
        obtain ⟨hc1, _⟩ := hsw.1 s1 hr
        have hc2 : Cursors lens (k + 1) 0 s1 := by
          refine ⟨hc1.1, hc1.2.1, ?_⟩
          intro i p hp
          have hi : i < s1.procs.length := (List.getElem?_eq_some.mp hp).1
          rw [flat_cursors_length hc1] at hi
          have := hc1.2.2 i p hp
          simp only [Nat.zero_add, hi, if_true] at this
          simpa using this
        have := ih (k + 1) s1 hc2 s' hs'
        omega
    · have := hdone k s h hc
      omega

theorem flat_simulate_static (recs : List Record) (fuel : Nat) :
    Static recs (simulate fuel (start recs).mach (mk_procs 0 recs)).state := by
  have h := flat_while_induction (Static recs) (Static recs)
    (fun s i s' h hs => by
      have hstep := flat_service_step s i
      rw [hs] at hstep
      exact flat_static_step h hstep)
    (fun s i e h hs => by
      have hstep := flat_service_step s i
      rw [hs] at hstep
      exact flat_static_step h hstep)
    (total_references_to_process (mk_procs 0 recs)) fuel (start recs)
    (flat_static_init recs _)
  exact flat_outcome_of_same h

end Os3_1

namespace Os3_2

theorem hier_simulate_static (recs : List Record) (fuel : Nat) :
    Static recs (simulate fuel (start recs).mach (mk_procs 0 recs)).state := by
  have h := hier_outer_induction (Static recs) (Static recs)
    (fun idx s d p s' d' h hs => by
      have hstep := hier_service_step idx s d p
      rw [hs] at hstep
      exact hier_static_step h hstep)
    (fun idx s d p e h hs => by
      have hstep := hier_service_step idx s d p
      rw [hs] at hstep
      exact hier_static_step h hstep)
    fuel 0 (start recs) (hier_static_init recs)
  exact hier_outcome_of_same h

/-- The outer loop entered at sweep `idx` cannot end normally before the sweep after
the one of the longest reference sequence. -/
theorem hier_finished_fuel {lens : List Nat} : ∀ (fuel idx : Nat) (s : Sim),
    Cursors lens idx 0 s true → ∀ s', outer_loop fuel idx s = .finished s' →
    lens.foldr max 0 < idx + fuel := by
  intro fuel
  induction fuel with
  | zero =>
    intro idx s h s' hs'
    cases hs'
  | succ fuel ih =>
    intro idx s h s' hs'
    unfold outer_loop at hs'
    have hsw := hier_cursors_sweep lens.length 0 s true (by omega) h
    rw [hier_cursors_length h, List.range_eq_range'] at hs'
    cases hr : Os3_2.sweep idx (List.range' 0 lens.length) (s, true) with
    | error e => rw [hr] at hs'; cases hs'
    | ok sd1 =>
      obtain ⟨s1, d1⟩ := sd1
      rw [hr] at hs'
      obtain ⟨hc1, _⟩ := hsw.1 s1 d1 hr
      have hd := hc1.2.2.1
      simp only [Nat.zero_add] at hd
      rw [row_part_zero, row_eq_nil_iff] at hd
      cases d1 with
      | true =>
        have := (maxlen_le_iff lens idx).mpr (hd.mp rfl)
        omega
      | false =>
        simp only [Bool.false_eq_true, if_false] at hs'
        have hc2 : Cursors lens (idx + 1) 0 s1 true := by
          refine ⟨hc1.1, ?_, by simp [row_part], hc1.2.2.2⟩
          intro i p hp
          have hi : i < s1.procs.length := (List.getElem?_eq_some.mp hp).1
          rw [hier_cursors_length hc1] at hi
          have := hc1.2.1 i p hp
          simp only [Nat.zero_add, hi, if_true] at this
          simpa using this
        have := ih (idx + 1) s1 hc2 s' hs'
        omega

end Os3_2

/-- C17: termination and the terminal state, in both variants, for every input.  Let
`L` be the longest reference length of the loaded processes.  The flat `while` loop
ends, normally or by an abort, within `L` sweeps, and the two-level outer loop within
`L + 1` sweeps.  When the replay ends normally, the flat loop has run at least `L`
sweeps and the two-level loop at least `L + 1`, the last of which found nothing to
do; every process has `ref_count` equal to its reference length; and the serviced
references are those of the sweeps `0 .. L-1`, each of which serviced at least one
reference, while no process has a reference for a sweep from `L` on. -/
theorem simulate_terminates (input : List Record) (fuel : Nat) :
    ((((ref_lens input).foldr max 0 ≤ fuel →
        ∃ s, Os3_1.run fuel input = some (.finished s) ∨
          Os3_1.run fuel input = some (.out_of_memory s)) ∧
      (∀ s, Os3_1.run fuel input = some (.finished s) →
        (ref_lens input).foldr max 0 ≤ fuel ∧
        s.procs.length = (input.take 10).length ∧
        (∀ (i : Nat) (p : Os3_1.process), s.procs[i]? = some p →
          (input.take 10)[i]? = some (p.pid, p.references) ∧
          p.ref_count = p.references.length) ∧
        Os3_1.keys s.trace = sched (ref_lens input) ((ref_lens input).foldr max 0))) ∧
    (((ref_lens input).foldr max 0 < fuel →
        ∃ s, Os3_2.run fuel input = some (.finished s) ∨
          Os3_2.run fuel input = some (.out_of_memory s)) ∧
      (∀ s, Os3_2.run fuel input = some (.finished s) →
        (ref_lens input).foldr max 0 < fuel ∧
        s.procs.length = (input.take 10).length ∧
        (∀ (i : Nat) (p : Os3_2.process), s.procs[i]? = some p →
          (input.take 10)[i]? = some (p.pid, p.references) ∧
          p.ref_count = p.references.length) ∧
        Os3_2.keys s.trace = sched (ref_lens input) ((ref_lens input).foldr max 0)))) ∧
    (∀ k, row (ref_lens input) k ≠ [] ↔ k < (ref_lens input).foldr max 0) := by
  refine ⟨⟨⟨?_, ?_⟩, ⟨?_, ?_⟩⟩, ?_⟩
  · intro hf
    have h := Os3_1.flat_simulate_ordered (input.take 10)
      (Os3_1.start (input.take 10)).mach fuel
    rw [Os3_1.flat_run_start]
    revert h
    generalize Os3_1.simulate fuel _ _ = o
    intro h
    cases o with
    | finished s => exact ⟨s, Or.inl rfl⟩
    | out_of_memory s => exact ⟨s, Or.inr rfl⟩
    | out_of_fuel s =>
      have := h.2
      simp only [ref_lens] at hf
      omega
  · intro s hs
    have h := Os3_1.flat_simulate_ordered (input.take 10)
      (Os3_1.start (input.take 10)).mach fuel
    rw [Os3_1.flat_run_start] at hs
    simp only [Option.some.injEq] at hs
    have hfuel := Os3_1.flat_finished_fuel fuel 0 _
      (Os3_1.flat_cursors_init (input.take 10) (Os3_1.start (input.take 10)).mach) s
      (by
        have := hs
        simp only [Os3_1.simulate, Os3_1.total_references_to_process,
          Os3_1.flat_mk_procs_map_ref_len] at this
        exact this)
    rw [hs] at h
    have hst := Os3_1.flat_simulate_static (input.take 10) fuel
    rw [hs] at hst
    have hst' : Os3_1.Static (input.take 10) s := hst
    refine ⟨by simpa [ref_lens] using hfuel, Os3_1.flat_static_length hst', ?_, h.1⟩
    intro i p hp
    exact ⟨(Os3_1.flat_static_get hst' hp).1, h.2 p (List.getElem?_mem hp)⟩
  · intro hf
    have h := Os3_2.hier_simulate_ordered (input.take 10) fuel
    rw [Os3_2.hier_run_start]
    revert h
    generalize Os3_2.simulate fuel _ _ = o
    intro h
    cases o with
    | finished s => exact ⟨s, Or.inl rfl⟩
    | out_of_memory s => exact ⟨s, Or.inr rfl⟩
    | out_of_fuel s =>
      have := h.2
      simp only [ref_lens] at hf
      omega
  · intro s hs
    have h := Os3_2.hier_simulate_ordered (input.take 10) fuel
    rw [Os3_2.hier_run_start] at hs
    simp only [Option.some.injEq] at hs
    have hfuel := Os3_2.hier_finished_fuel fuel 0 _
      (Os3_2.hier_cursors_init (input.take 10)) s hs
    rw [hs] at h
    have hst := Os3_2.hier_simulate_static (input.take 10) fuel
    rw [hs] at hst
    have hst' : Os3_2.Static (input.take 10) s := hst
    refine ⟨by simpa [ref_lens] using hfuel, Os3_2.hier_static_length hst', ?_, h.1⟩
    intro i p hp
    exact ⟨(Os3_2.hier_static_get hst' hp).1, (h.2 i p hp).1⟩
  · intro k
    rw [Ne, row_eq_nil_iff, ← maxlen_le_iff]
    omega

/-- C17 on the example of the specification: process A with one reference and process
B with three.  The flat loop ends normally with 3 sweeps allowed and not with 2; the
two-level loop ends normally with 4 and not with 3. -/
theorem simulate_terminates_witness :
    (∃ s, Os3_1.run 3 [(1, [7]), (2, [1, 2, 3])] = some (.finished s) ∧
      (ref_lens [(1, [7]), (2, [1, 2, 3])]).foldr max 0 ≤ 3 ∧ s.procs.length = 2) ∧
    (∃ s, Os3_1.run 2 [(1, [7]), (2, [1, 2, 3])] = some (.out_of_fuel s)) ∧
    (∃ s, Os3_2.run 4 [(1, [7]), (2, [1, 2, 3])] = some (.finished s) ∧
      (ref_lens [(1, [7]), (2, [1, 2, 3])]).foldr max 0 < 4 ∧ s.procs.length = 2) ∧
    (∃ s, Os3_2.run 3 [(1, [7]), (2, [1, 2, 3])] = some (.out_of_fuel s)) :=
  ⟨⟨_, rfl, ((simulate_terminates [(1, [7]), (2, [1, 2, 3])] 3).1.1.2 _ rfl).1,
      ((simulate_terminates [(1, [7]), (2, [1, 2, 3])] 3).1.1.2 _ rfl).2.1⟩,
    ⟨_, rfl⟩,
    ⟨_, rfl, ((simulate_terminates [(1, [7]), (2, [1, 2, 3])] 4).1.2.2 _ rfl).1,
      ((simulate_terminates [(1, [7]), (2, [1, 2, 3])] 4).1.2.2 _ rfl).2.1⟩,
    ⟨_, rfl⟩⟩


/-- Two lists with the same keys have the same values when the key determines the
value. -/
theorem map_eq_of_keys {α β κ γ : Type} (R : κ → γ → Prop)
    (hR : ∀ k x y, R k x → R k y → x = y) (k1 : α → κ) (k2 : β → κ) (f1 : α → γ) (f2 : β → γ) :
    ∀ (l1 : List α) (l2 : List β), (∀ a ∈ l1, R (k1 a) (f1 a)) → (∀ b ∈ l2, R (k2 b) (f2 b)) →
      l1.map k1 = l2.map k2 → l1.map f1 = l2.map f2 := by
  intro l1
  induction l1 with
  | nil =>
    intro l2 _ _ hk
    cases l2 with
    | nil => rfl
    | cons b rest => simp at hk
  | cons a rest ih =>
    intro l2 h1 h2 hk
    cases l2 with
    | nil => simp at hk
    | cons b rest2 =>
      simp only [List.map_cons, List.cons.injEq] at hk ⊢
      refine ⟨?_, ih rest2 (fun x hx => h1 x (List.mem_cons_of_mem _ hx))
        (fun x hx => h2 x (List.mem_cons_of_mem _ hx)) hk.2⟩
      have r1 := h1 a (List.mem_cons_self _ _)
      have r2 := h2 b (List.mem_cons_self _ _)
      rw [hk.1] at r1
      exact hR _ _ _ r1 r2

/-- The lines of a flat trace and of a two-level trace for the same references count
the same number of references of a process to a page. -/
theorem hits_agree (t1 : List Os3_1.Access) (t2 : List Os3_2.Access)
    (h : t1.map (fun e => (e.pos, e.page)) = t2.map (fun e => (e.pos, e.page))) (i v : Nat) :
    Os3_1.hits t1 i v = Os3_2.hits t2 i v := by
  have e1 : Os3_1.hits t1 i v =
      (t1.map (fun e => (e.pos, e.page))).countP (fun x => decide (x.1 = i ∧ x.2 = v)) := by
    rw [List.countP_map]
    rfl
  have e2 : Os3_2.hits t2 i v =
      (t2.map (fun e => (e.pos, e.page))).countP (fun x => decide (x.1 = i ∧ x.2 = v)) := by
    rw [List.countP_map]
    rfl
  rw [e1, e2, h]

/-- C20: agreement of the two variants, for every input with pages below 64 on which
both replays complete.  Both variants print their lines for the same sequence of
references (process position, pid, index, page); a line of the flat variant reports a
page fault exactly when the line of the two-level variant for the same reference
reports a level-2 fault; afterwards every process has the same reference sequence and
`ref_count` in both, a page below 64 is valid in the flat table exactly when its
level-1 and level-2 entries are valid in the two-level tables, and then both hold the
same reference count; and the fault counter of the two-level variant is the one of the
flat variant plus the number of valid level-1 entries. -/
theorem variants_agree (input : List Record) (fuel1 fuel2 : Nat)
    (hpg : ∀ r ∈ input, ∀ v ∈ r.2, v < 64) (s1 : Os3_1.Sim) (s2 : Os3_2.Sim)
    (h1 : Os3_1.run fuel1 input = some (.finished s1))
    (h2 : Os3_2.run fuel2 input = some (.finished s2)) :
    s1.trace.map (fun e => (e.pos, e.pid, e.idx, e.page)) =
      s2.trace.map (fun e => (e.pos, e.pid, e.idx, e.page)) ∧
    s1.trace.map (fun e => e.pf) = s2.trace.map (fun e => e.l2_pf) ∧
    s1.procs.length = s2.procs.length ∧
    ∀ (i : Nat) (p1 : Os3_1.process) (p2 : Os3_2.process),
      s1.procs[i]? = some p1 → s2.procs[i]? = some p2 →
      p1.pid = p2.pid ∧ p1.references = p2.references ∧ p1.ref_count = p2.ref_count ∧
      p2.page_faults = p1.page_faults + Os3_2.valid_l1 s2.mach.pas p2 ∧
      ∀ v, v < 64 →
        (s1.mach.pas (Os3_1.pte_entry p1 v + 1) = 1 ↔
          (s2.mach.pas (Os3_2.l1_entry p2 v + 1) = 1 ∧
            s2.mach.pas (Os3_2.l2_entry s2.mach.pas p2 v + 1) = 1)) ∧
        (s1.mach.pas (Os3_1.pte_entry p1 v + 1) = 1 →
          s1.mach.pas (Os3_1.pte_entry p1 v + 2) =
            s2.mach.pas (Os3_2.l2_entry s2.mach.pas p2 v + 2)) := by
  have hinv1 := Os3_1.flat_simulate_inv (input.take 10) (pages_take hpg)
    (Os3_1.take_length_le input) fuel1
  have hord1 := Os3_1.flat_simulate_ordered (input.take 10)
    (Os3_1.start (input.take 10)).mach fuel1
  rw [Os3_1.flat_run_start] at h1
  simp only [Option.some.injEq] at h1
  rw [h1] at hinv1 hord1
  have hI1 : Os3_1.Inv (input.take 10) s1 := hinv1
  obtain ⟨o, ho, hsat⟩ := Os3_2.hier_run_reach fuel2 input
  have hord2 := Os3_2.hier_simulate_ordered (input.take 10) fuel2
  rw [h2] at ho
  simp only [Option.some.injEq] at ho
  rw [← ho] at hsat
  rw [Os3_2.hier_run_start] at h2
  simp only [Option.some.injEq] at h2
  rw [h2] at hord2
  obtain ⟨hI2, hT2⟩ := Os3_2.hier_reach_inv (pages_take hpg) (by simp) hsat
  have hreal1 : Os3_1.Real (input.take 10) s1.trace :=
    Os3_1.flat_real_of_book hI1.static hI1.mem hI1.book
  have hkeys : s1.trace.map (fun e => (e.pos, e.idx)) = s2.trace.map (fun e => (e.pos, e.idx)) := by
    have a1 : Os3_1.keys s1.trace = schedule ((input.take 10).map (fun r => r.2.length)) := hord1.1
    have a2 : Os3_2.keys s2.trace = schedule ((input.take 10).map (fun r => r.2.length)) := hord2.1
    have := a1.trans a2.symm
    simpa [Os3_1.keys, Os3_2.keys] using this
  have hlines : s1.trace.map (fun e => (e.pos, e.pid, e.idx, e.page)) =
      s2.trace.map (fun e => (e.pos, e.pid, e.idx, e.page)) := by
    apply map_eq_of_keys
      (fun (k : Nat × Nat) (x : Nat × Int × Nat × Nat) => x.1 = k.1 ∧ x.2.2.1 = k.2 ∧
        ∃ r, (input.take 10)[k.1]? = some r ∧ r.2[k.2]? = some x.2.2.2 ∧ x.2.1 = r.1)
      ?_ (fun e => (e.pos, e.idx)) (fun e => (e.pos, e.idx)) _ _ s1.trace s2.trace ?_ ?_ hkeys
    · rintro ⟨k1, k2⟩ ⟨a, b, c, d⟩ ⟨a', b', c', d'⟩ ⟨e1, e2, r, hr, hv, hpid⟩
        ⟨e1', e2', r', hr', hv', hpid'⟩
      simp only at e1 e2 hr hv hpid e1' e2' hr' hv' hpid'
      rw [hr] at hr'
      cases hr'
      rw [hv] at hv'
      cases hv'
      subst e1 e2 e1' e2' hpid hpid'
      rfl
    · intro e he
      exact ⟨rfl, rfl, hreal1 e he⟩
    · intro e he
      exact ⟨rfl, rfl, hI2.real e he⟩
  have hpp : s1.trace.map (fun e => (e.pos, e.page)) = s2.trace.map (fun e => (e.pos, e.page)) := by
    have := congrArg (List.map (fun x : Nat × Int × Nat × Nat => (x.1, x.2.2.2))) hlines
    simpa [List.map_map, Function.comp] using this
  have hlen : s1.trace.length = s2.trace.length := by
    have := congrArg List.length hpp
    simpa using this
  refine ⟨hlines, ?_, ?_, ?_⟩
  · apply List.ext_getElem?
    intro k
    simp only [List.getElem?_map]
    by_cases hk : k < s1.trace.length
    · have hk2 : k < s2.trace.length := by omega
      rw [List.getElem?_eq_getElem hk, List.getElem?_eq_getElem hk2]
      simp only [Option.map_some', Option.some.injEq]
      have g1 := hI1.mem.pf k _ (List.getElem?_eq_getElem hk)
      have g2 := (hI2.mem.pf k _ (List.getElem?_eq_getElem hk2)).2
      have hk1 : (s1.trace[k].pos, s1.trace[k].page) = (s2.trace[k].pos, s2.trace[k].page) := by
        have := congrArg (fun l => l[k]?) hpp
        simp only [List.getElem?_map, List.getElem?_eq_getElem hk,
          List.getElem?_eq_getElem hk2, Option.map_some', Option.some.injEq] at this
        exact this
      simp only [Prod.mk.injEq] at hk1
      have htake : (s1.trace.take k).map (fun e => (e.pos, e.page)) =
          (s2.trace.take k).map (fun e => (e.pos, e.page)) := by
        rw [List.map_take, List.map_take, hpp]
      have hh := hits_agree _ _ htake s1.trace[k].pos s1.trace[k].page
      rw [hk1.1, hk1.2] at hh g1
      rw [hh] at g1
      cases hb1 : s1.trace[k].pf <;> cases hb2 : s2.trace[k].l2_pf <;> simp_all
    · have hk2 : ¬ k < s2.trace.length := by omega
      rw [List.getElem?_eq_none (by omega), List.getElem?_eq_none (by omega)]
      rfl
  · rw [Os3_1.flat_static_length hI1.static, Os3_2.hier_static_length hI2.static]
  · intro i p1 p2 hp1 hp2
    obtain ⟨hrec1, hpt1, hi⟩ := Os3_1.flat_static_get hI1.static hp1
    obtain ⟨hrec2, hpt2, _⟩ := Os3_2.hier_static_get hI2.static hp2
    rw [hrec1] at hrec2
    simp only [Option.some.injEq, Prod.mk.injEq] at hrec2
    obtain ⟨hpid, hrefs⟩ := hrec2
    have hrc1 : p1.ref_count = p1.ref_len := hord1.2 p1 (List.getElem?_mem hp1)
    obtain ⟨hrc2, hcur2⟩ := hord2.2 i p2 hp2
    have hcur1 := (hI1.book.cursor i p1 hp1).2
    rw [hrc1] at hcur1
    obtain ⟨_, hf1⟩ := Os3_1.flat_final_faults (pages_take hpg) hI1 hp1 hrc1
    obtain ⟨hv1, hv2⟩ := Os3_2.hier_final_counts (pages_take hpg) hI2 hp2 hcur2
    have hf2 : p2.page_faults = Os3_2.valid_l1 s2.mach.pas p2 + Os3_2.valid_l2 s2.mach.pas p2 := by
      rw [Os3_2.entries_eq, hpt2]
      exact hT2.counts i p2 hp2
    refine ⟨hpid, hrefs, ?_, ?_, ?_⟩
    · rw [hrc1, hrc2]
      simp only [Os3_1.process.ref_len, Os3_2.process.ref_len, hrefs]
    · rw [hf2, hv2, hf1, hrefs]
      omega
    · intro v hv
      have hva : v / 8 < 8 := by omega
      have hh1 := Os3_1.flat_hits_eq_count hcur1 v
      have hh2 := Os3_2.hier_hits_eq_count hcur2 v
      rw [hrefs] at hh1
      have hfl1 := hI1.mem.vflag i v hi hv
      have hr1 := hI1.mem.ref i v hi hv
      have hl1 := hI2.mem.l1_flag i (v / 8) hi hva
      simp only [Os3_1.pte_entry, Os3_1.PTE_SIZE, Os3_2.l1_entry, Os3_2.l2_entry, Os3_2.PTE_SIZE,
        Os3_2.PAGESIZE, shiftRight_three, land_seven, hpt1, hpt2]
      rw [hfl1, hr1, hl1, hh1]
      by_cases hc : p2.references.count v = 0
      · have h0 : Os3_2.hits s2.trace i v = 0 := by rw [hh2]; exact hc
        simp only [hc, if_true]
        constructor
        · constructor
          · intro hcon
            cases hcon
          · rintro ⟨ha, hb⟩
            by_cases h11 : Os3_2.hits1 s2.trace i (v / 8) = 0
            · simp [h11] at ha
            · have hl2 := hI2.mem.l2_flag i v hi hv h11
              rw [hl2, h0] at hb
              simp at hb
        · intro hcon
          cases hcon
      · have h0 : Os3_2.hits s2.trace i v ≠ 0 := by rw [hh2]; exact hc
        have h11 : Os3_2.hits1 s2.trace i (v / 8) ≠ 0 := fun hz => h0 (Os3_2.hits_of_hits1 hz)
        have hl2 := hI2.mem.l2_flag i v hi hv h11
        have hr2 := hI2.mem.l2_ref i v hi hv h11
        rw [hl2, hr2, hh2]
        simp [hc, h0, h11]

/-- C20 on a concrete input: one process with the references `[5, 13, 5]`.  Both
variants service the three references in the same order with faults on the first two,
and the two-level fault counter (4) is the flat one (2) plus its two valid level-1
entries. -/
theorem variants_agree_witness :
    (∀ r ∈ [((1 : Int), [5, 13, 5])], ∀ v ∈ r.2, v < 64) ∧
    ∃ s1 s2, Os3_1.run 3 [(1, [5, 13, 5])] = some (.finished s1) ∧
      Os3_2.run 4 [(1, [5, 13, 5])] = some (.finished s2) ∧
      s1.trace.map (fun e => e.pf) = [true, true, false] ∧
      s2.trace.map (fun e => e.l2_pf) = [true, true, false] ∧
      s1.trace.map (fun e => (e.pos, e.pid, e.idx, e.page)) =
        s2.trace.map (fun e => (e.pos, e.pid, e.idx, e.page)) ∧
      s1.procs.length = s2.procs.length := by
  have hpg : ∀ r ∈ [((1 : Int), [5, 13, 5])], ∀ v ∈ r.2, v < 64 := by decide
  refine ⟨hpg, ?_⟩
  obtain ⟨s1, h1, k1⟩ : ∃ s1, Os3_1.run 3 [(1, [5, 13, 5])] = some (.finished s1) ∧
      s1.trace.map (fun e => e.pf) = [true, true, false] := ⟨_, rfl, by decide⟩
  obtain ⟨s2, h2⟩ : ∃ s2, Os3_2.run 4 [(1, [5, 13, 5])] = some (.finished s2) := ⟨_, rfl⟩
  obtain ⟨g1, g2, g3, _⟩ := variants_agree [(1, [5, 13, 5])] 3 4 hpg s1 s2 h1 h2
  exact ⟨s1, s2, h1, h2, k1, by rw [← g2, k1], g1, g3⟩


theorem sum_range_le (g : Nat → Nat) (b : Nat) : ∀ n : Nat, (∀ i, i < n → g i ≤ b) →
    ((List.range n).map g).sum ≤ n * b := by
  intro n
  induction n with
  | zero => intro _; simp
  | succ n ih =>
    intro h
    rw [List.range_succ, List.map_append, List.sum_append]
    have h1 := ih (fun i hi => h i (by omega))
    have h2 := h n (by omega)
    simp only [List.map_cons, List.map_nil, List.sum_cons, List.sum_nil, Nat.add_zero]
    rw [Nat.succ_mul]
    omega

theorem sum_map_le {α : Type} (f : α → Nat) (b : Nat) : ∀ l : List α, (∀ x ∈ l, f x ≤ b) →
    (l.map f).sum ≤ l.length * b := by
  intro l
  induction l with
  | nil => intro _; simp
  | cons x rest ih =>
    intro h
    have h1 := ih (fun y hy => h y (List.mem_cons_of_mem _ hy))
    have h2 := h x (List.mem_cons_self _ _)
    simp only [List.map_cons, List.sum_cons, List.length_cons]
    rw [Nat.succ_mul]
    omega

theorem sum_map_set_add {α : Type} (f : α → Nat) (k : Nat) : ∀ (l : List α) (i : Nat) (a b : α),
    l[i]? = some a → f b = f a + k → ((l.set i b).map f).sum = (l.map f).sum + k := by
  intro l
  induction l with
  | nil => intro i a b h; simp at h
  | cons x rest ih =>
    intro i a b h hf
    cases i with
    | zero =>
      simp at h
      subst h
      simp only [List.set_cons_zero, List.map_cons, List.sum_cons, hf]
      omega
    | succ i =>
      simp at h
      simp only [List.set_cons_succ, List.map_cons, List.sum_cons, ih i a b h hf]
      omega

namespace Os3_1

theorem valid_pages_le (pas : Nat → Nat) (pt : Nat) : valid_pages pas pt ≤ 64 := by
  unfold valid_pages
  have := List.countP_le_length (fun v => decide (pas (pt + v * 4 + 1) = 1)) (l := List.range 64)
  simpa using this

/-- The counter is the frames of the tables plus the valid entries of all tables. -/
theorem flat_counter_sum {n : Nat} {s : Sim} (hlog : LogInv n s) (hm : MemInv n s)
    (hv : ValidInv n s) :
    s.mach.allocated_frame_count =
      8 * n + ((List.range n).map (fun i => valid_pages s.mach.pas (i * 256))).sum := by
  rw [hlog.count, ← sum_faults n s.trace (fun e he => (hm.ev e he).1)]
  congr 2
  apply List.map_congr_left
  intro i hi
  rw [List.mem_range] at hi
  exact (hv i hi).symm

/-- With at most three processes the flat replay cannot run out of frames. -/
theorem flat_no_abort {recs : List Record} {e : Sim} (h : AbortInv recs e)
    (hsmall : 72 * recs.length < 256) : False := by
  have hc := flat_counter_sum h.log h.mem h.valid
  have h256 := h.aborted.1
  have hle := sum_range_le (fun i => valid_pages e.mach.pas (i * 256)) 64 recs.length
    (fun i _ => valid_pages_le _ _)
  omega

/-- A completed flat replay has found a frame for every distinct page of every
process. -/
theorem flat_finished_frames {recs : List Record} (hpg : Pages recs) {s : Sim}
    (hinv : Inv recs s) (hall : ∀ p ∈ s.procs, p.ref_count = p.ref_len) :
    8 * recs.length + (recs.map (fun r => r.2.dedup.length)).sum ≤ 256 := by
  have hc := flat_counter_sum hinv.log hinv.mem hinv.valid
  have hle := hinv.log.le
  have hn := flat_static_length hinv.static
  have hmap : (List.range recs.length).map (fun i => valid_pages s.mach.pas (i * 256)) =
      recs.map (fun r => r.2.dedup.length) := by
    apply List.ext_getElem?
    intro i
    simp only [List.getElem?_map]
    by_cases hi : i < recs.length
    · have hp : s.procs[i]? = some s.procs[i] := List.getElem?_eq_getElem (by omega)
      obtain ⟨hrec, hpt, _⟩ := flat_static_get hinv.static hp
      obtain ⟨hv, _⟩ := flat_final_faults hpg hinv hp (hall _ (List.getElem?_mem hp))
      rw [List.getElem?_range hi, hrec]
      simp only [Option.map_some', Option.some.injEq]
      rw [← hpt, hv]
    · rw [List.getElem?_eq_none (by simpa using hi), List.getElem?_eq_none (by omega)]
      rfl
  rw [hmap] at hc
  omega

theorem flat_run_finishes (input : List Record) (fuel : Nat)
    (hpg : ∀ r ∈ input, ∀ v ∈ r.2, v < 64) (hf : (ref_lens input).foldr max 0 ≤ fuel)
    (hsmall : 72 * (input.take 10).length < 256) :
    ∃ s, run fuel input = some (.finished s) := by
  have hinv := flat_simulate_inv (input.take 10) (pages_take hpg) (take_length_le input) fuel
  have hord := flat_simulate_ordered (input.take 10) (start (input.take 10)).mach fuel
  rw [flat_run_start]
  revert hinv hord
  generalize simulate fuel _ _ = o
  intro hinv hord
  cases o with
  | finished s => exact ⟨s, rfl⟩
  | out_of_memory e => exact (flat_no_abort hinv hsmall).elim
  | out_of_fuel s =>
    have := hord.2
    simp only [ref_lens] at hf
    omega

theorem flat_run_out_of_fuel (input : List Record) (fuel : Nat)
    (hpg : ∀ r ∈ input, ∀ v ∈ r.2, v < 64) (hf : fuel < (ref_lens input).foldr max 0)
    (hsmall : 72 * (input.take 10).length < 256) :
    ∃ s, run fuel input = some (.out_of_fuel s) := by
  have hinv := flat_simulate_inv (input.take 10) (pages_take hpg) (take_length_le input) fuel
  have hfin := flat_finished_fuel fuel 0 _
    (flat_cursors_init (input.take 10) (start (input.take 10)).mach)
  rw [flat_run_start]
  have hsim : simulate fuel (start (input.take 10)).mach (mk_procs 0 (input.take 10)) =
      while_loop ((input.take 10).map (fun r => r.2.length)).sum fuel
        { mach := (start (input.take 10)).mach, procs := mk_procs 0 (input.take 10),
          processed_refs := 0, trace := [] } := by
    simp only [simulate, total_references_to_process, flat_mk_procs_map_ref_len]
  rw [hsim] at hinv ⊢
  revert hinv hfin
  generalize while_loop _ fuel _ = o
  intro hinv hfin
  cases o with
  | finished s =>
    have := hfin s rfl
    simp only [ref_lens] at hf
    omega
  | out_of_memory e => exact (flat_no_abort hinv hsmall).elim
  | out_of_fuel s => exact ⟨s, rfl⟩

theorem flat_run_aborts (input : List Record) (fuel : Nat)
    (hpg : ∀ r ∈ input, ∀ v ∈ r.2, v < 64) (hf : (ref_lens input).foldr max 0 ≤ fuel)
    (hbig : 256 < 8 * (input.take 10).length +
      ((input.take 10).map (fun r => r.2.dedup.length)).sum) :
    ∃ s, run fuel input = some (.out_of_memory s) := by
  have hinv := flat_simulate_inv (input.take 10) (pages_take hpg) (take_length_le input) fuel
  have hord := flat_simulate_ordered (input.take 10) (start (input.take 10)).mach fuel
  rw [flat_run_start]
  revert hinv hord
  generalize simulate fuel _ _ = o
  intro hinv hord
  cases o with
  | finished s =>
    have := flat_finished_frames (pages_take hpg) hinv hord.2
    omega
  | out_of_memory e => exact ⟨e, rfl⟩
  | out_of_fuel s =>
    have := hord.2
    simp only [ref_lens] at hf
    omega

end Os3_1

namespace Os3_2

theorem term_le (pas : Nat → Nat) (pt a : Nat) : term pas pt a ≤ 9 := by
  unfold term
  split
  · have := List.countP_le_length
      (fun b => decide (pas (pas (pt + a * 4) * 32 + b * 4 + 1) = 1)) (l := List.range 8)
    simp only [List.length_range] at this
    omega
  · omega

theorem entries_le (pas : Nat → Nat) (pt : Nat) : entries pas pt ≤ 72 := by
  have := sum_range_le (term pas pt) 9 8 (fun a _ => term_le pas pt a)
  unfold entries
  omega

/-- The frames taken from the allocator are the level-1 tables and one frame per
counted page fault. -/
def Counted (n : Nat) (s : Sim) : Prop :=
  s.mach.allocated_frame_count = n + (s.procs.map process.page_faults).sum

theorem hier_counted_start (recs : List Record) : Counted recs.length (start recs) := by
  have h : ∀ (l : List Record) (base : Nat),
      ((mk_procs base l).map process.page_faults).sum = 0 := by
    intro l
    induction l with
    | nil => intro base; rfl
    | cons r rest ih => intro base; simp [mk_procs, ih]
  simp [Counted, start, h]

theorem hier_counted_step {recs : List Record} {idx : Nat} {s : Sim} {d : Bool} {i : Nat}
    {r : Except Sim (Sim × Bool)} (hst : Static recs s) (hpg : Pages recs)
    (ht : Tables recs.length s) (hc : Counted recs.length s) (hs : Step idx s d i r) :
    Counted recs.length (after r) ∧ (∀ e, r = .error e → 256 ≤ e.mach.allocated_frame_count) := by
  cases hs with
  | idle _ => exact ⟨hc, fun e he => by cases he⟩
  | l1_abort proc vpn hp _ _ h1 =>
    refine ⟨hc, ?_⟩
    intro e he
    cases he
    rcases level1_spec s.mach proc (proc.L1_page_table + vpn / 8 * 4) with
      ⟨_, e1⟩ | ⟨_, h256, _⟩ | ⟨_, _, e1⟩
    · rw [e1] at h1; cases h1
    · exact h256
    · rw [e1] at h1; cases h1
  | l2_abort proc vpn m1 proc1 l1_pf hp hlt hv h1 h2 =>
    obtain ⟨hrec, hpt, hi⟩ := hier_static_get hst hp
    have hv64 : vpn < 64 := hpg _ (List.getElem?_mem hrec) vpn (List.getElem?_mem hv)
    have h256 : 256 ≤ m1.allocated_frame_count := by
      rcases level2_spec m1 proc1
        (m1.pas (proc.L1_page_table + vpn / 8 * 4) * 32 + vpn % 8 * 4) with
        ⟨_, e1⟩ | ⟨_, h256, _⟩ | ⟨_, _, e1⟩
      · rw [e1] at h2; cases h2
      · exact h256
      · rw [e1] at h2; cases h2
    rw [hpt] at h1
    obtain ⟨_, _, _, hcnt, _, _, _⟩ := hier_level1_stage ht.frames hi (by omega) h1
    refine ⟨?_, ?_⟩
    · simp only [Counted, after]
      rw [sum_map_set_add process.page_faults (if l1_pf then 1 else 0) s.procs i proc proc1 hp
        (by rw [level1_proc h1]), hcnt, hc]
      omega
    · intro e he
      cases he
      exact h256
  | done proc vpn m1 proc1 l1_pf m2 proc2 l2_pf hp hlt hv h1 h2 =>
    obtain ⟨hrec, hpt, hi⟩ := hier_static_get hst hp
    have hv64 : vpn < 64 := hpg _ (List.getElem?_mem hrec) vpn (List.getElem?_mem hv)
    rw [hpt] at h1 h2
    obtain ⟨hfr1, hfl1, _, hcnt1, _, _, _⟩ := hier_level1_stage ht.frames hi (by omega) h1
    obtain ⟨_, _, _, hcnt2, _, _, _⟩ := hier_level2_stage hfr1 hi (by omega) (by omega) hfl1 h2
    refine ⟨?_, fun e he => by cases he⟩
    simp only [Counted, after]
    rw [sum_map_set_add process.page_faults
      ((if l1_pf then 1 else 0) + (if l2_pf then 1 else 0)) s.procs i proc
      { proc2 with ref_count := proc2.ref_count + 1 } hp
      (by rw [level2_proc h2, level1_proc h1]; simp only; omega), hcnt2, hcnt1, hc]
    omega

theorem hier_reach_counted {recs : List Record} (hpg : Pages recs) (hn : recs.length ≤ 256)
    {s : Sim} (h : Reach recs s) : Counted recs.length s := by
  induction h with
  | start => exact hier_counted_start recs
  | step idx s d p s' d' hr hs ih =>
    obtain ⟨hinv, ht⟩ := hier_reach_inv hpg hn hr
    have hstep := hier_service_step idx s d p
    rw [hs] at hstep
    exact (hier_counted_step hinv.static hpg ht ih hstep).1

/-- With at most three processes the two-level replay cannot run out of frames. -/
theorem hier_no_abort {recs : List Record} (hpg : Pages recs) {e : Sim} (h : Halted recs e)
    (hsmall : 73 * recs.length < 256) : False := by
  obtain ⟨hst, ht⟩ := hier_halted_inv hpg (by omega) h
  obtain ⟨idx, s, d, p, hr, hs⟩ := h
  obtain ⟨hinv, hts⟩ := hier_reach_inv hpg (by omega) hr
  have hcs := hier_reach_counted hpg (by omega) hr
  have hstep := hier_service_step idx s d p
  rw [hs] at hstep
  obtain ⟨hce, h256⟩ := hier_counted_step hinv.static hpg hts hcs hstep
  have h256' := h256 e rfl
  have hce' : e.mach.allocated_frame_count = recs.length + (e.procs.map process.page_faults).sum :=
    hce
  have hle := sum_map_le process.page_faults 72 e.procs (by
    intro q hq
    obtain ⟨j, hj⟩ := List.mem_iff_getElem?.mp hq
    rw [ht.counts j q hj]
    exact entries_le _ _)
  rw [hier_static_length hst] at hle
  omega

/-- A completed two-level replay has found a frame for every distinct level-1 index
and every distinct page of every process. -/
theorem hier_finished_frames {recs : List Record} (hpg : Pages recs) {s : Sim}
    (hr : Reach recs s) (hn : recs.length ≤ 256)
    (hcur : ∀ i p, s.procs[i]? = some p →
      (s.trace.filter (fun e => decide (e.pos = i))).map (fun e => (e.idx, e.page)) =
        (List.range p.references.length).map (fun k => (k, p.references.getD k 0))) :
    recs.length +
      (recs.map (fun r => (r.2.map (fun v => v / 8)).dedup.length + r.2.dedup.length)).sum
      ≤ 256 := by
  obtain ⟨hinv, ht⟩ := hier_reach_inv hpg hn hr
  have hc : s.mach.allocated_frame_count = recs.length + (s.procs.map process.page_faults).sum :=
    hier_reach_counted hpg hn hr
  have hle := ht.frames.le
  have hlen := hier_static_length hinv.static
  have hmap : s.procs.map process.page_faults =
      recs.map (fun r => (r.2.map (fun v => v / 8)).dedup.length + r.2.dedup.length) := by
    apply List.ext_getElem?
    intro i
    simp only [List.getElem?_map]
    by_cases hi : i < recs.length
    · have hp : s.procs[i]? = some s.procs[i] := List.getElem?_eq_getElem (by omega)
      obtain ⟨hrec, hpt, _⟩ := hier_static_get hinv.static hp
      obtain ⟨h1, h2⟩ := hier_final_counts hpg hinv hp (hcur i _ hp)
      rw [hp, hrec]
      simp only [Option.map_some', Option.some.injEq]
      rw [ht.counts i _ hp, ← hpt, ← entries_eq, h1, h2]
    · rw [List.getElem?_eq_none (by omega), List.getElem?_eq_none (by omega)]
      rfl
  rw [hmap] at hc
  omega

theorem hier_run_finishes (input : List Record) (fuel : Nat)
    (hpg : ∀ r ∈ input, ∀ v ∈ r.2, v < 64) (hf : (ref_lens input).foldr max 0 < fuel)
    (hsmall : 73 * (input.take 10).length < 256) :
    ∃ s, run fuel input = some (.finished s) := by
  have hreach := hier_simulate_reach (input.take 10) fuel
  have hord := hier_simulate_ordered (input.take 10) fuel
  rw [hier_run_start]
  revert hreach hord
  generalize simulate fuel _ _ = o
  intro hreach hord
  cases o with
  | finished s => exact ⟨s, rfl⟩
  | out_of_memory e => exact (hier_no_abort (pages_take hpg) hreach hsmall).elim
  | out_of_fuel s =>
    have := hord.2
    simp only [ref_lens] at hf
    omega

theorem hier_run_aborts (input : List Record) (fuel : Nat)
    (hpg : ∀ r ∈ input, ∀ v ∈ r.2, v < 64) (hf : (ref_lens input).foldr max 0 < fuel)
    (hbig : 256 < (input.take 10).length + ((input.take 10).map (fun r =>
      (r.2.map (fun v => v / 8)).dedup.length + r.2.dedup.length)).sum) :
    ∃ s, run fuel input = some (.out_of_memory s) := by
  have hreach := hier_simulate_reach (input.take 10) fuel
  have hord := hier_simulate_ordered (input.take 10) fuel
  rw [hier_run_start]
  revert hreach hord
  generalize simulate fuel _ _ = o
  intro hreach hord
  cases o with
  | finished s =>
    have := hier_finished_frames (pages_take hpg) hreach (by simp)
      (fun i p hp => (hord.2 i p hp).2)
    omega
  | out_of_memory e => exact ⟨e, rfl⟩
  | out_of_fuel s =>
    have := hord.2
    simp only [ref_lens] at hf
    omega

end Os3_2


/-- One process with 256 references, all to page 5. -/
def wrap_input : List Record := [(1, List.replicate 256 5)]

theorem wrap_input_pages : ∀ r ∈ wrap_input, ∀ v ∈ r.2, v < 64 := by
  intro r hr v hv
  simp only [wrap_input, List.mem_singleton] at hr
  subst hr
  have := List.eq_of_mem_replicate hv
  omega

theorem wrap_input_take : wrap_input.take 10 = [(1, List.replicate 256 5)] := rfl

theorem wrap_input_maxlen : (ref_lens wrap_input).foldr max 0 = 256 := by
  simp only [ref_lens, wrap_input_take, List.map_cons, List.map_nil, List.length_replicate,
    List.foldr_cons, List.foldr_nil]
  rfl

namespace Os3_1

/-- The entry of a page after a completed flat replay: its reference count is the
number of occurrences of the page modulo 256, and it is valid exactly when the page
occurs. -/
theorem flat_final_entry (input : List Record) (fuel : Nat)
    (hpg : ∀ r ∈ input, ∀ v ∈ r.2, v < 64) (s : Sim)
    (h : run fuel input = some (.finished s)) (i : Nat) (p : process)
    (hp : s.procs[i]? = some p) (v : Nat) (hv : v < 64) :
    (input.take 10)[i]? = some (p.pid, p.references) ∧ p.page_table = i * 256 ∧
    s.mach.pas (i * 256 + v * 4 + 2) = p.references.count v % 256 ∧
    s.mach.pas (i * 256 + v * 4 + 1) = if p.references.count v = 0 then 0 else 1 := by
  have hinv := flat_simulate_inv (input.take 10) (pages_take hpg) (take_length_le input) fuel
  have hord := flat_simulate_ordered (input.take 10) (start (input.take 10)).mach fuel
  rw [flat_run_start] at h
  simp only [Option.some.injEq] at h
  rw [h] at hinv hord
  have hinv' : Inv (input.take 10) s := hinv
  obtain ⟨hrec, hpt, hi⟩ := flat_static_get hinv'.static hp
  have hrc : p.ref_count = p.references.length := hord.2 p (List.getElem?_mem hp)
  have hcur := (hinv'.book.cursor i p hp).2
  rw [hrc] at hcur
  have hh := flat_hits_eq_count hcur v
  refine ⟨hrec, hpt, ?_, ?_⟩
  · rw [hinv'.mem.ref i v hi hv, hh]
  · rw [hinv'.mem.vflag i v hi hv, hh]

/-- What holds when the bound on the sweeps is reached. -/
theorem flat_out_of_fuel_inv (input : List Record) (fuel : Nat)
    (hpg : ∀ r ∈ input, ∀ v ∈ r.2, v < 64) (s : Sim)
    (h : run fuel input = some (.out_of_fuel s)) :
    Inv (input.take 10) s ∧
      keys s.trace = sched ((input.take 10).map (fun r => r.2.length)) fuel := by
  have hinv := flat_simulate_inv (input.take 10) (pages_take hpg) (take_length_le input) fuel
  have hord := flat_simulate_ordered (input.take 10) (start (input.take 10)).mach fuel
  rw [flat_run_start] at h
  simp only [Option.some.injEq] at h
  rw [h] at hinv hord
  refine ⟨hinv, ?_⟩
  have := hord.1
  simpa using this

theorem flat_first_proc {recs : List Record} {s : Sim} (hst : Static recs s) {r : Record}
    (hr : recs[0]? = some r) :
    ∃ p, s.procs[0]? = some p ∧ p.references = r.2 ∧ p.page_table = 0 := by
  have hlen := flat_static_length hst
  have h0 : 0 < recs.length := (List.getElem?_eq_some.mp hr).1
  have hp : s.procs[0]? = some s.procs[0] := List.getElem?_eq_getElem (by omega)
  obtain ⟨hrec, hpt, _⟩ := flat_static_get hst hp
  rw [hr] at hrec
  simp only [Option.some.injEq] at hrec
  exact ⟨_, hp, by rw [hrec], by simpa using hpt⟩

end Os3_1

namespace Os3_2

/-- The entries of a page after a completed two-level replay. -/
theorem hier_final_entry (input : List Record) (fuel : Nat)
    (hpg : ∀ r ∈ input, ∀ v ∈ r.2, v < 64) (s : Sim)
    (h : run fuel input = some (.finished s)) (i : Nat) (p : process)
    (hp : s.procs[i]? = some p) (v : Nat) (hv : v < 64) (hmem : v ∈ p.references) :
    (input.take 10)[i]? = some (p.pid, p.references) ∧ p.L1_page_table = i * 32 ∧
    s.mach.pas (i * 32 + v / 8 * 4 + 1) = 1 ∧
    s.mach.pas (s.mach.pas (i * 32 + v / 8 * 4) * 32 + v % 8 * 4 + 1) = 1 ∧
    s.mach.pas (s.mach.pas (i * 32 + v / 8 * 4) * 32 + v % 8 * 4 + 2) =
      p.references.count v % 256 := by
  have hinv := hier_simulate_inv (input.take 10) (pages_take hpg) (by simp) fuel
  have hord := hier_simulate_ordered (input.take 10) fuel
  rw [hier_run_start] at h
  simp only [Option.some.injEq] at h
  rw [h] at hinv hord
  have hinv' : Inv (input.take 10) s := hinv
  obtain ⟨hrec, hpt, hi⟩ := hier_static_get hinv'.static hp
  obtain ⟨hrc, hcur⟩ := hord.2 i p hp
  have hh := hier_hits_eq_count hcur v
  have hc : p.references.count v ≠ 0 := by
    have := List.count_pos_iff.mpr hmem
    omega
  have h0 : hits s.trace i v ≠ 0 := by rw [hh]; exact hc
  have h1 : hits1 s.trace i (v / 8) ≠ 0 := fun hz => h0 (hits_of_hits1 hz)
  refine ⟨hrec, hpt, ?_, ?_, ?_⟩
  · rw [hinv'.mem.l1_flag i (v / 8) hi (by omega)]
    simp [h1]
  · rw [hinv'.mem.l2_flag i v hi hv h1]
    simp [h0]
  · rw [hinv'.mem.l2_ref i v hi hv h1, hh]

theorem hier_first_proc {recs : List Record} {s : Sim} (hst : Static recs s) {r : Record}
    (hr : recs[0]? = some r) :
    ∃ p, s.procs[0]? = some p ∧ p.references = r.2 ∧ p.L1_page_table = 0 := by
  have hlen := hier_static_length hst
  have h0 : 0 < recs.length := (List.getElem?_eq_some.mp hr).1
  have hp : s.procs[0]? = some s.procs[0] := List.getElem?_eq_getElem (by omega)
  obtain ⟨hrec, hpt, _⟩ := hier_static_get hst hp
  rw [hr] at hrec
  simp only [Option.some.injEq] at hrec
  exact ⟨_, hp, by rw [hrec], by simpa using hpt⟩

end Os3_2

/-- C10 as stated fails: 256 references to page 5 leave reference count 0, not 256,
in the entry of page 5 (the field `ref` is an `unsigned char`), in both variants. -/
theorem reference_count_wraps :
    (∃ s p, Os3_1.run 256 [(1, List.replicate 256 5)] = some (.finished s) ∧
      s.procs[0]? = some p ∧ p.references.count 5 = 256 ∧
      s.mach.pas (p.page_table + 5 * 4 + 1) = 1 ∧ s.mach.pas (p.page_table + 5 * 4 + 2) = 0) ∧
    (∃ s p, Os3_2.run 257 [(1, List.replicate 256 5)] = some (.finished s) ∧
      s.procs[0]? = some p ∧ p.references.count 5 = 256 ∧
      s.mach.pas (Os3_2.l2_entry s.mach.pas p 5 + 1) = 1 ∧
      s.mach.pas (Os3_2.l2_entry s.mach.pas p 5 + 2) = 0) := by
  constructor
  · obtain ⟨s, hs⟩ := Os3_1.flat_run_finishes wrap_input 256 wrap_input_pages
      (by rw [wrap_input_maxlen]) (by rw [wrap_input_take]; decide)
    have hst := Os3_1.flat_simulate_static (wrap_input.take 10) 256
    have hs' := hs
    rw [Os3_1.flat_run_start] at hs'
    simp only [Option.some.injEq] at hs'
    rw [hs'] at hst
    obtain ⟨p, hp, hrefs, hpt⟩ := Os3_1.flat_first_proc (r := (1, List.replicate 256 5)) hst rfl
    obtain ⟨_, _, h1, h2⟩ := Os3_1.flat_final_entry wrap_input 256 wrap_input_pages s hs 0 p hp 5
      (by omega)
    have hcount : p.references.count 5 = 256 := by
      rw [hrefs]
      exact List.count_replicate_self 5 256
    rw [hcount] at h1 h2
    refine ⟨s, p, hs, hp, hcount, ?_, ?_⟩
    · rw [hpt]
      simpa using h2
    · rw [hpt]
      simpa using h1
  · obtain ⟨s, hs⟩ := Os3_2.hier_run_finishes wrap_input 257 wrap_input_pages
      (by rw [wrap_input_maxlen]; omega) (by rw [wrap_input_take]; decide)
    have hst := Os3_2.hier_simulate_static (wrap_input.take 10) 257
    have hs' := hs
    rw [Os3_2.hier_run_start] at hs'
    simp only [Option.some.injEq] at hs'
    rw [hs'] at hst
    obtain ⟨p, hp, hrefs, hpt⟩ := Os3_2.hier_first_proc (r := (1, List.replicate 256 5)) hst rfl
    have hcount : p.references.count 5 = 256 := by
      rw [hrefs]
      exact List.count_replicate_self 5 256
    have hmem : 5 ∈ p.references := by
      rw [hrefs]
      exact List.mem_replicate.mpr ⟨by omega, rfl⟩
    obtain ⟨_, _, _, h2, h3⟩ := Os3_2.hier_final_entry wrap_input 257 wrap_input_pages s hs 0 p hp
      5 (by omega) hmem
    rw [hcount] at h3
    refine ⟨s, p, hs, hp, hcount, ?_, ?_⟩
    · simp only [Os3_2.l2_entry, Os3_2.l1_entry, Os3_2.PTE_SIZE, Os3_2.PAGESIZE, shiftRight_three,
        land_seven, hpt]
      simpa using h2
    · simp only [Os3_2.l2_entry, Os3_2.l1_entry, Os3_2.PTE_SIZE, Os3_2.PAGESIZE, shiftRight_three,
        land_seven, hpt]
      simpa using h3

theorem sched_single (L : Nat) : ∀ K : Nat, K ≤ L → (sched [L] K).length = K := by
  intro K
  induction K with
  | zero => intro _; rfl
  | succ K ih =>
    intro h
    rw [sched_succ, List.length_append, ih (by omega)]
    have : row [L] K = [(0, K)] := by
      have hk : K < L := by omega
      have h1 : List.range 1 = [0] := rfl
      simp only [row, List.length_singleton, h1]
      simp [hk]
    rw [this]
    rfl

/-- C3 as stated fails at a reference count of 255: after 255 references to page 5
the next reference to it, a hit, leaves reference count 0, not 256. -/
theorem flat_hit_wraps_ref :
    ∃ s p s', Os3_1.run 255 [(1, List.replicate 256 5)] = some (.out_of_fuel s) ∧
      s.procs[0]? = some p ∧ p.references[p.ref_count]? = some 5 ∧
      s.mach.pas (Os3_1.pte_entry p 5 + 1) = 1 ∧
      s.mach.pas (Os3_1.pte_entry p 5 + 2) = 255 ∧
      Os3_1.service s 0 = .ok s' ∧ s'.mach.pas (Os3_1.pte_entry p 5 + 2) = 0 := by
  obtain ⟨s, hs⟩ := Os3_1.flat_run_out_of_fuel wrap_input 255 wrap_input_pages
    (by rw [wrap_input_maxlen]; omega) (by rw [wrap_input_take]; decide)
  obtain ⟨hI, hkeys⟩ := Os3_1.flat_out_of_fuel_inv wrap_input 255 wrap_input_pages s hs
  obtain ⟨p, hp, hrefs, hpt⟩ :=
    Os3_1.flat_first_proc (r := (1, List.replicate 256 5)) hI.static rfl
  -- every line of the trace is a reference of process 0 to page 5
  have hpos : ∀ e ∈ s.trace, e.pos = 0 := by
    intro e he
    have := (hI.mem.ev e he).1
    rw [wrap_input_take] at this
    simp only [List.length_singleton] at this
    omega
  have hreal := Os3_1.flat_real_of_book hI.static hI.mem hI.book
  have hpage : ∀ e ∈ s.trace, e.page = 5 := by
    intro e he
    obtain ⟨r, hr, hv, _⟩ := hreal e he
    rw [hpos e he, wrap_input_take] at hr
    simp only [List.getElem?_cons_zero, Option.some.injEq] at hr
    subst hr
    exact (List.eq_of_mem_replicate (List.getElem?_mem hv))
  have hlen : s.trace.length = 255 := by
    have hk : Os3_1.keys s.trace = sched [256] 255 := by
      have := hkeys
      rw [wrap_input_take] at this
      simp only [List.map_cons, List.map_nil, List.length_replicate] at this
      exact this
    have := congrArg List.length hk
    rw [sched_single 256 255 (by omega)] at this
    simpa [Os3_1.keys] using this
  have hhits : Os3_1.hits s.trace 0 5 = 255 := by
    unfold Os3_1.hits
    rw [← hlen, List.countP_eq_length]
    intro e he
    simp [hpos e he, hpage e he]
  have hrc : p.ref_count = 255 := by
    rw [← Os3_1.flat_cursor_length hI.book hp, ← hlen]
    congr 1
    rw [List.filter_eq_self]
    intro e he
    simp [hpos e he]
  have hflag : s.mach.pas (0 * 256 + 5 * 4 + 1) = 1 := by
    rw [hI.mem.vflag 0 5 (by rw [wrap_input_take]; decide) (by omega), hhits]
    rfl
  have href : s.mach.pas (0 * 256 + 5 * 4 + 2) = 255 := by
    rw [hI.mem.ref 0 5 (by rw [wrap_input_take]; decide) (by omega), hhits]
  have hnext : p.references[p.ref_count]? = some 5 := by
    rw [hrefs, hrc, List.getElem?_replicate]
    rfl
  have hstep := Os3_1.flat_service_step s 0
  have hfl' : s.mach.pas (p.page_table + 5 * Os3_1.PTE_SIZE + 1) = 1 := by
    rw [hpt]; exact hflag
  refine ⟨s, p, ?_, hs, hp, hnext, ?_, ?_, ?_⟩
  · exact Os3_1.hit_state s 0 p 5
  · simp only [Os3_1.pte_entry]; exact hfl'
  · simp only [Os3_1.pte_entry, Os3_1.PTE_SIZE, hpt]; exact href
  · constructor
    · revert hstep
      generalize Os3_1.service s 0 = r
      intro hstep
      cases hstep with
      | idle hid =>
        have := hid p hp
        simp only [Os3_1.process.ref_len, hrefs, List.length_replicate] at this
        omega
      | hit p' v' hp' _ hv' _ =>
        rw [hp] at hp'
        cases hp'
        rw [hnext] at hv'
        cases hv'
        rfl
      | fault p' v' hp' _ hv' hflag' _ =>
        rw [hp] at hp'
        cases hp'
        rw [hnext] at hv'
        cases hv'
        exact absurd hfl' hflag'
      | abort p' v' hp' _ hv' hflag' _ =>
        rw [hp] at hp'
        cases hp'
        rw [hnext] at hv'
        cases hv'
        exact absurd hfl' hflag'
    · simp only [Os3_1.hit_state, Os3_1.pte_entry, Os3_1.PTE_SIZE, hpt]
      rw [poke_same, href]

/-- C7 on a concrete input: ten processes referencing the pages 0..17 need 80 frames
for their tables and 180 for their pages, so the replay aborts; in the state at the
abort the counter is 256 and one process has a fault counter one above its number of
valid entries. -/
theorem flat_abort_overcounts_faults_witness :
    (∀ r ∈ Os3_1.ten_by_eighteen, ∀ v ∈ r.2, v < 64) ∧
    ∃ s, Os3_1.run 18 Os3_1.ten_by_eighteen = some (.out_of_memory s) ∧
      s.mach.allocated_frame_count = 256 ∧
      ∃ (i : Nat) (p : Os3_1.process), s.procs[i]? = some p ∧
        (Os3_1.proc_report s.mach.pas p).page_faults =
          Os3_1.valid_pages s.mach.pas p.page_table + 1 := by
  have hpg : ∀ r ∈ Os3_1.ten_by_eighteen, ∀ v ∈ r.2, v < 64 := by decide
  obtain ⟨s, hs⟩ := Os3_1.flat_run_aborts Os3_1.ten_by_eighteen 18 hpg (by decide) (by decide)
  obtain ⟨hc, i, p, hp, _, hf, _⟩ :=
    flat_abort_overcounts_faults Os3_1.ten_by_eighteen 18 hpg s hs
  exact ⟨hpg, s, hs, hc, i, p, hp, hf⟩

/-- C6 (divergence): what `main` does when `simulate` runs out of frames.  In
`os3-2.c` the `exit(1)` inside `simulate` ends the program: the exit status is 1 and
`print_page_tables` is never reached, so no statistics are printed.  In `os3-1_z.c`
`simulate` returns, and `main` prints the statistics of the state reached at the abort
and ends with status 0. -/
theorem hier_abort_discards_statistics (input : List Record) (fuel : Nat) :
    (∀ s, Os3_2.run fuel input = some (.out_of_memory s) →
      ∃ out, Os3_2.main fuel input = some out ∧ out.status = 1 ∧ out.oom = true ∧
        out.trace = s.trace ∧ out.report = none) ∧
    (∀ s, Os3_1.run fuel input = some (.out_of_memory s) →
      ∃ out, Os3_1.main fuel input = some out ∧ out.status = 0 ∧ out.oom = true ∧
        out.trace = s.trace ∧
        out.report = some (Os3_1.print_page_tables s.mach s.procs)) := by
  constructor
  · intro s hs
    simp only [Os3_2.main, hs]
    exact ⟨_, rfl, rfl, rfl, rfl, rfl⟩
  · intro s hs
    simp only [Os3_1.main, hs]
    exact ⟨_, rfl, rfl, rfl, rfl, rfl⟩

/-- C6 on a concrete input: four processes that each reference the pages 0..63 need
more than 256 frames in both variants, so both replays abort; the two-level program
then prints no statistics, the flat one does. -/
theorem hier_abort_discards_statistics_witness :
    (∃ s out, Os3_2.run 65 four_by_sixtyfour = some (.out_of_memory s) ∧
      Os3_2.main 65 four_by_sixtyfour = some out ∧ out.status = 1 ∧ out.report = none) ∧
    (∃ s out, Os3_1.run 64 four_by_sixtyfour = some (.out_of_memory s) ∧
      Os3_1.main 64 four_by_sixtyfour = some out ∧ out.status = 0 ∧
      out.report = some (Os3_1.print_page_tables s.mach s.procs)) := by
  have hpg : ∀ r ∈ four_by_sixtyfour, ∀ v ∈ r.2, v < 64 := by decide
  constructor
  · obtain ⟨s, hs⟩ := Os3_2.hier_run_aborts four_by_sixtyfour 65 hpg (by decide) (by decide)
    obtain ⟨out, h1, h2, _, _, h3⟩ := (hier_abort_discards_statistics four_by_sixtyfour 65).1 s hs
    exact ⟨s, out, hs, h1, h2, h3⟩
  · obtain ⟨s, hs⟩ := Os3_1.flat_run_aborts four_by_sixtyfour 64 hpg (by decide) (by decide)
    obtain ⟨out, h1, h2, _, _, h3⟩ := (hier_abort_discards_statistics four_by_sixtyfour 64).2 s hs
    exact ⟨s, out, hs, h1, h2, h3⟩


/-- C11 on the example of the specification: the single sequence `[5, 5, 5]` gives one
fault and then two hits, and the report shows 1 page fault for 3 references and
8 + 1 allocated frames. -/
theorem flat_run_totals_witness :
    (∀ r ∈ [((1 : Int), [5, 5, 5])], ∀ v ∈ r.2, v < 64) ∧
    ∃ s p, Os3_1.run 3 [(1, [5, 5, 5])] = some (.finished s) ∧ s.procs[0]? = some p ∧
      s.trace.map (fun e => e.pf) = [true, false, false] ∧
      p.references = [5, 5, 5] ∧ p.page_faults = 1 ∧
      (Os3_1.proc_report s.mach.pas p).allocated_frames = 8 + 1 := by
  have hpg : ∀ r ∈ [((1 : Int), [5, 5, 5])], ∀ v ∈ r.2, v < 64 := by decide
  refine ⟨hpg, ?_⟩
  have key : (Os3_1.run 3 [(1, [5, 5, 5])]).map (fun o =>
      match o with
      | .finished s => some (s.trace.map (fun e => e.pf), s.procs.map (fun p => p.references))
      | _ => none) = some (some ([true, false, false], [[5, 5, 5]])) := by decide
  obtain ⟨s, hs⟩ := Os3_1.flat_run_finishes [(1, [5, 5, 5])] 3 hpg (by decide) (by decide)
  rw [hs] at key
  simp only [Option.map_some', Option.some.injEq, Prod.mk.injEq] at key
  rcases hp : s.procs with _ | ⟨p, _ | ⟨q, rest⟩⟩
  · rw [hp] at key; simp at key
  · rw [hp] at key
    simp only [List.map_cons, List.map_nil, List.cons.injEq, and_true] at key
    have hp0 : s.procs[0]? = some p := by rw [hp]; rfl
    obtain ⟨_, h1, _, _, h2, _⟩ := flat_run_totals [(1, [5, 5, 5])] 3 hpg s hs 0 p hp0
    rw [key.2] at h1 h2
    exact ⟨s, p, hs, hp0, key.1, key.2, h1, h2⟩
  · rw [hp] at key; simp at key

/-- C12 on the example of the specification: the single sequence `[0, 8]` gives 4
faults and `ref_count` 2. -/
theorem hier_fault_count_witness :
    (∀ r ∈ [((1 : Int), [0, 8])], ∀ v ∈ r.2, v < 64) ∧
    ∃ s p, Os3_2.run 3 [(1, [0, 8])] = some (.finished s) ∧ s.procs[0]? = some p ∧
      p.references = [0, 8] ∧ p.page_faults = 4 ∧ p.ref_count = 2 := by
  have hpg : ∀ r ∈ [((1 : Int), [0, 8])], ∀ v ∈ r.2, v < 64 := by decide
  refine ⟨hpg, ?_⟩
  obtain ⟨s, hs⟩ := Os3_2.hier_run_finishes [(1, [0, 8])] 3 hpg (by decide) (by decide)
  have hst := Os3_2.hier_simulate_static (List.take 10 [((1 : Int), [0, 8])]) 3
  have hs' := hs
  rw [Os3_2.hier_run_start] at hs'
  simp only [Option.some.injEq] at hs'
  rw [hs'] at hst
  obtain ⟨p, hp, hrefs, _⟩ := Os3_2.hier_first_proc (r := (1, [0, 8])) hst rfl
  obtain ⟨_, h1, _, _, h2⟩ := hier_fault_count [(1, [0, 8])] 3 hpg s hs 0 p hp
  have hrefs' : p.references = [0, 8] := hrefs
  rw [hrefs'] at h1 h2
  exact ⟨s, p, hs, hp, hrefs', h1, h2⟩


theorem mem_row (lens : List Nat) (k i j : Nat) :
    (i, j) ∈ row lens k ↔ i < lens.length ∧ k < lens.getD i 0 ∧ j = k := by
  simp only [row, List.mem_map, List.mem_filter, List.mem_range, decide_eq_true_eq,
    Prod.mk.injEq]
  constructor
  · rintro ⟨a, ⟨ha, hk⟩, rfl, rfl⟩
    exact ⟨ha, hk, rfl⟩
  · rintro ⟨hi, hk, rfl⟩
    exact ⟨i, ⟨hi, hk⟩, rfl, rfl⟩

theorem mem_sched (lens : List Nat) (K i j : Nat) :
    (i, j) ∈ sched lens K ↔ i < lens.length ∧ j < lens.getD i 0 ∧ j < K := by
  simp only [sched, List.mem_flatMap, List.mem_range, mem_row]
  constructor
  · rintro ⟨k, hk, hi, hj, rfl⟩
    exact ⟨hi, hj, hk⟩
  · rintro ⟨hi, hj, hk⟩
    exact ⟨j, hk, hi, hj, rfl⟩

/-- The order in which the round-robin schedule lists its pairs (position, index):
by index, and within one index by position. -/
def before (a b : Nat × Nat) : Prop := a.2 < b.2 ∨ (a.2 = b.2 ∧ a.1 < b.1)

theorem row_pairwise (lens : List Nat) (k : Nat) : (row lens k).Pairwise before := by
  unfold row
  rw [List.pairwise_map]
  apply List.Pairwise.filter
  exact (List.pairwise_lt_range lens.length).imp (fun h => Or.inr ⟨rfl, h⟩)

theorem sched_pairwise (lens : List Nat) : ∀ K : Nat, (sched lens K).Pairwise before := by
  intro K
  induction K with
  | zero => simp [sched]
  | succ K ih =>
    rw [sched_succ, List.pairwise_append]
    refine ⟨ih, row_pairwise lens K, ?_⟩
    rintro ⟨i, j⟩ ha ⟨i', j'⟩ hb
    have h1 := (mem_sched lens K i j).mp ha
    have h2 := (mem_row lens K i' j').mp hb
    left
    simp only
    omega

/-- In a prefix of the round-robin schedule, the pairs of position `i` before the
pair `(i, j)` are exactly `(i, 0), ..., (i, j - 1)`. -/
theorem sched_history (lens : List Nat) (l : List (Nat × Nat)) (hl : l <+: schedule lens)
    (k i j : Nat) (hk : l[k]? = some (i, j)) :
    (∀ k' i' j', k' < k → l[k']? = some (i', j') → i' = i → j' < j) ∧
    (∀ j', j' < j → ∃ k', k' < k ∧ l[k']? = some (i, j')) := by
  have hS := sched_pairwise lens (lens.foldr max 0)
  have hkl : k < l.length := (List.getElem?_eq_some.mp hk).1
  obtain ⟨rest, hrest⟩ := hl
  have hget : ∀ n, n < l.length → (schedule lens)[n]? = l[n]? := by
    intro n hn
    rw [← hrest, List.getElem?_append_left hn]
  have hSk : (schedule lens)[k]? = some (i, j) := by rw [hget k hkl, hk]
  have hpw := List.pairwise_iff_getElem.mp hS
  obtain ⟨hkS, hkv⟩ := List.getElem?_eq_some.mp hSk
  constructor
  · intro k' i' j' hlt hk' hi
    have hk'S : (schedule lens)[k']? = some (i', j') := by rw [hget k' (by omega), hk']
    obtain ⟨hk'l, hk'v⟩ := List.getElem?_eq_some.mp hk'S
    have := hpw k' k hk'l hkS hlt
    have e1 : (sched lens (lens.foldr max 0))[k'] = (i', j') := hk'v
    have e2 : (sched lens (lens.foldr max 0))[k] = (i, j) := hkv
    rw [e1, e2] at this
    rcases this with h | ⟨h1, h2⟩
    · exact h
    · simp only at h2
      omega
  · intro j' hj'
    have hmem : (i, j) ∈ sched lens (lens.foldr max 0) := List.getElem?_mem hSk
    obtain ⟨hi, hj, hK⟩ := (mem_sched lens _ i j).mp hmem
    have hmem' : (i, j') ∈ sched lens (lens.foldr max 0) :=
      (mem_sched lens _ i j').mpr ⟨hi, by omega, by omega⟩
    obtain ⟨n, hn, hnv⟩ := List.getElem_of_mem hmem'
    have e2 : (sched lens (lens.foldr max 0))[k] = (i, j) := hkv
    have hnk : n < k := by
      by_contra hcon
      have hne : n ≠ k := by
        intro h
        subst h
        rw [hnv] at e2
        simp only [Prod.mk.injEq] at e2
        omega
      have := hpw k n hkS hn (by omega)
      rw [e2, hnv] at this
      rcases this with h | ⟨h1, h2⟩
      · simp only at h
        omega
      · simp only at h2
        omega
    refine ⟨n, hnk, ?_⟩
    rw [← hget n (by omega)]
    exact List.getElem?_eq_some.mpr ⟨hn, hnv⟩

theorem mem_take_getElem? {α : Type} {l : List α} {k : Nat} {a : α} (h : a ∈ l.take k) :
    ∃ n, n < k ∧ l[n]? = some a := by
  obtain ⟨n, hn⟩ := List.mem_iff_getElem?.mp h
  rw [List.getElem?_take] at hn
  by_cases hlt : n < k
  · rw [if_pos hlt] at hn
    exact ⟨n, hlt, hn⟩
  · rw [if_neg hlt] at hn
    cases hn

theorem getElem?_mem_take {α : Type} {l : List α} {k n : Nat} {a : α} (hn : n < k)
    (h : l[n]? = some a) : a ∈ l.take k := by
  apply List.mem_iff_getElem?.mpr
  refine ⟨n, ?_⟩
  rw [List.getElem?_take, if_pos hn]
  exact h

namespace Os3_1

/-- Hit/fault exclusivity of a trace, read against the loaded records: line `k` shows
reference number `idx` of the process at position `pos`; it is a page fault exactly
when the page does not occur among the earlier references `0 .. idx - 1` of that
process; and a hit shows the frame of an earlier line of the same process for the same
page that is a page fault. -/
def FirstFault (recs : List Record) (t : List Access) : Prop :=
  ∀ (k : Nat) (e : Access), t[k]? = some e → ∃ r : Record, recs[e.pos]? = some r ∧
    e.pid = r.1 ∧ r.2[e.idx]? = some e.page ∧
    (e.pf = true ↔ e.page ∉ r.2.take e.idx) ∧
    (e.pf = false → ∃ (k0 : Nat) (e0 : Access), k0 < k ∧ t[k0]? = some e0 ∧ e0.pos = e.pos ∧ e0.page = e.page ∧
      e0.pf = true ∧ e0.frame = e.frame)

/-- Every line has a first line for the same process and page, which is a fault and
shows the same frame. -/
theorem flat_first_line {t : List Access} (hx : Exclusive t) : ∀ (k : Nat) (e : Access),
    t[k]? = some e → ∃ k0 e0, k0 ≤ k ∧ t[k0]? = some e0 ∧ e0.pos = e.pos ∧ e0.page = e.page ∧
      e0.pf = true ∧ e0.frame = e.frame := by
  intro k
  induction k using Nat.strong_induction_on with
  | _ k ih =>
    intro e hk
    by_cases hpf : e.pf = true
    · exact ⟨k, e, Nat.le_refl _, hk, rfl, rfl, hpf, rfl⟩
    · obtain ⟨h1, h2⟩ := hx k e hk
      have hex : ∃ e' ∈ t.take k, e'.pos = e.pos ∧ e'.page = e.page := by
        by_contra hcon
        apply hpf
        rw [h1]
        intro e' he' hh
        exact hcon ⟨e', he', hh⟩
      obtain ⟨e', he', hp, hv⟩ := hex
      obtain ⟨k', hk', hke'⟩ := mem_take_getElem? he'
      obtain ⟨k0, e0, hle, hk0, hp0, hv0, hpf0, hf0⟩ := ih k' hk' e' hke'
      refine ⟨k0, e0, by omega, hk0, by rw [hp0, hp], by rw [hv0, hv], hpf0, ?_⟩
      rw [hf0, h2 e' he' hp hv]

theorem flat_first_fault {recs : List Record} {t : List Access} (hx : Exclusive t)
    (hr : Real recs t) (hk : keys t <+: schedule (recs.map (fun r => r.2.length))) :
    FirstFault recs t := by
  intro k e hke
  obtain ⟨r, hrec, hpage, hpid⟩ := hr e (List.getElem?_mem hke)
  have hkey : (keys t)[k]? = some (e.pos, e.idx) := by
    simp [keys, List.getElem?_map, hke]
  obtain ⟨hist1, hist2⟩ := sched_history _ _ hk k e.pos e.idx hkey
  obtain ⟨h1, h2⟩ := hx k e hke
  refine ⟨r, hrec, hpid, hpage, ?_, ?_⟩
  · rw [h1]
    constructor
    · intro hno hmem
      obtain ⟨j, hj, hjv⟩ := mem_take_getElem? hmem
      obtain ⟨k', hk', hk'v⟩ := hist2 j hj
      simp only [keys, List.getElem?_map, Option.map_eq_some'] at hk'v
      obtain ⟨e', he', hpe⟩ := hk'v
      simp only [Prod.mk.injEq] at hpe
      obtain ⟨r', hrec', hpage', _⟩ := hr e' (List.getElem?_mem he')
      rw [hpe.1, hrec] at hrec'
      cases hrec'
      rw [hpe.2, hjv] at hpage'
      simp only [Option.some.injEq] at hpage'
      exact hno e' (getElem?_mem_take hk' he') ⟨hpe.1, hpage'.symm⟩
    · intro hnot e' he' hh
      obtain ⟨k', hk', hk'v⟩ := mem_take_getElem? he'
      have hkey' : (keys t)[k']? = some (e'.pos, e'.idx) := by
        simp [keys, List.getElem?_map, hk'v]
      have hlt := hist1 k' e'.pos e'.idx hk' hkey' hh.1
      obtain ⟨r', hrec', hpage', _⟩ := hr e' (List.getElem?_mem hk'v)
      rw [hh.1, hrec] at hrec'
      cases hrec'
      rw [hh.2] at hpage'
      exact hnot (getElem?_mem_take hlt hpage')
  · intro hpf
    have hex : ∃ e' ∈ t.take k, e'.pos = e.pos ∧ e'.page = e.page := by
      by_contra hcon
      have : e.pf = true := by
        rw [h1]
        intro e' he' hh
        exact hcon ⟨e', he', hh⟩
      rw [hpf] at this
      cases this
    obtain ⟨e', he', hp, hv⟩ := hex
    obtain ⟨k', hk', hke'⟩ := mem_take_getElem? he'
    obtain ⟨k0, e0, hle, hk0, hp0, hv0, hpf0, hf0⟩ := flat_first_line hx k' e' hke'
    refine ⟨k0, e0, by omega, hk0, by rw [hp0, hp], by rw [hv0, hv], hpf0, ?_⟩
    rw [hf0, h2 e' he' hp hv]

/-- Which references have been serviced when `simulate` ends. -/
theorem flat_ordered_keys {lens : List Nat} {fuel : Nat} {o : Outcome Sim}
    (h : Ordered lens 0 fuel o) :
    keys o.state.trace <+: schedule lens ∧
    (∀ s, o = .finished s → keys s.trace = schedule lens) ∧
    (∀ s, o = .out_of_fuel s → keys s.trace = sched lens fuel) := by
  cases o with
  | finished s =>
    refine ⟨?_, ?_, ?_⟩
    · simp only [Outcome.state]
      rw [h.1]
    · intro s' hs'
      cases hs'
      exact h.1
    · intro s' hs'
      cases hs'
  | out_of_memory s =>
    refine ⟨h, ?_, ?_⟩ <;> intro s' hs' <;> cases hs'
  | out_of_fuel s =>
    have h1 : keys s.trace = sched lens fuel := by
      have := h.1
      simpa using this
    have h2 : fuel < lens.foldr max 0 := by
      have := h.2
      simpa using this
    refine ⟨?_, ?_, ?_⟩
    · simp only [Outcome.state]
      rw [h1]
      have := sched_prefix lens (lens.foldr max 0 - fuel) fuel
      have e : fuel + (lens.foldr max 0 - fuel) = lens.foldr max 0 := by omega
      rw [e] at this
      exact this
    · intro s' hs'
      cases hs'
    · intro s' hs'
      cases hs'
      exact h1

end Os3_1

namespace Os3_2

/-- Hit/fault exclusivity of a trace, read against the loaded records: line `k` shows
reference number `idx` of the process at position `pos`; it is a level-2 fault exactly
when the page does not occur among the earlier references `0 .. idx - 1` of that
process; and a hit shows the frame of an earlier line of the same process for the same
page that is a level-2 fault. -/
def FirstFault (recs : List Record) (t : List Access) : Prop :=
  ∀ (k : Nat) (e : Access), t[k]? = some e → ∃ r : Record, recs[e.pos]? = some r ∧
    e.pid = r.1 ∧ r.2[e.idx]? = some e.page ∧
    (e.l2_pf = true ↔ e.page ∉ r.2.take e.idx) ∧
    (e.l2_pf = false → ∃ (k0 : Nat) (e0 : Access), k0 < k ∧ t[k0]? = some e0 ∧ e0.pos = e.pos ∧ e0.page = e.page ∧
      e0.l2_pf = true ∧ e0.l2_frame = e.l2_frame)

/-- Every line has a first line for the same process and page, which is a level-2
fault and shows the same frame. -/
theorem hier_first_line {t : List Access} (hx : Exclusive t) : ∀ (k : Nat) (e : Access),
    t[k]? = some e → ∃ k0 e0, k0 ≤ k ∧ t[k0]? = some e0 ∧ e0.pos = e.pos ∧ e0.page = e.page ∧
      e0.l2_pf = true ∧ e0.l2_frame = e.l2_frame := by
  intro k
  induction k using Nat.strong_induction_on with
  | _ k ih =>
    intro e hk
    by_cases hpf : e.l2_pf = true
    · exact ⟨k, e, Nat.le_refl _, hk, rfl, rfl, hpf, rfl⟩
    · obtain ⟨h1, _, h2⟩ := hx k e hk
      have hex : ∃ e' ∈ t.take k, e'.pos = e.pos ∧ e'.page = e.page := by
        by_contra hcon
        apply hpf
        rw [h1]
        intro e' he' hh
        exact hcon ⟨e', he', hh⟩
      obtain ⟨e', he', hp, hv⟩ := hex
      obtain ⟨k', hk', hke'⟩ := mem_take_getElem? he'
      obtain ⟨k0, e0, hle, hk0, hp0, hv0, hpf0, hf0⟩ := ih k' hk' e' hke'
      refine ⟨k0, e0, by omega, hk0, by rw [hp0, hp], by rw [hv0, hv], hpf0, ?_⟩
      rw [hf0, (h2 e' he' hp hv).1]

theorem hier_first_fault {recs : List Record} {t : List Access} (hx : Exclusive t)
    (hr : Real recs t) (hk : keys t <+: schedule (recs.map (fun r => r.2.length))) :
    FirstFault recs t := by
  intro k e hke
  obtain ⟨r, hrec, hpage, hpid⟩ := hr e (List.getElem?_mem hke)
  have hkey : (keys t)[k]? = some (e.pos, e.idx) := by
    simp [keys, List.getElem?_map, hke]
  obtain ⟨hist1, hist2⟩ := sched_history _ _ hk k e.pos e.idx hkey
  obtain ⟨h1, _, h2⟩ := hx k e hke
  refine ⟨r, hrec, hpid, hpage, ?_, ?_⟩
  · rw [h1]
    constructor
    · intro hno hmem
      obtain ⟨j, hj, hjv⟩ := mem_take_getElem? hmem
      obtain ⟨k', hk', hk'v⟩ := hist2 j hj
      simp only [keys, List.getElem?_map, Option.map_eq_some'] at hk'v
      obtain ⟨e', he', hpe⟩ := hk'v
      simp only [Prod.mk.injEq] at hpe
      obtain ⟨r', hrec', hpage', _⟩ := hr e' (List.getElem?_mem he')
      rw [hpe.1, hrec] at hrec'
      cases hrec'
      rw [hpe.2, hjv] at hpage'
      simp only [Option.some.injEq] at hpage'
      exact hno e' (getElem?_mem_take hk' he') ⟨hpe.1, hpage'.symm⟩
    · intro hnot e' he' hh
      obtain ⟨k', hk', hk'v⟩ := mem_take_getElem? he'
      have hkey' : (keys t)[k']? = some (e'.pos, e'.idx) := by
        simp [keys, List.getElem?_map, hk'v]
      have hlt := hist1 k' e'.pos e'.idx hk' hkey' hh.1
      obtain ⟨r', hrec', hpage', _⟩ := hr e' (List.getElem?_mem hk'v)
      rw [hh.1, hrec] at hrec'
      cases hrec'
      rw [hh.2] at hpage'
      exact hnot (getElem?_mem_take hlt hpage')
  · intro hpf
    have hex : ∃ e' ∈ t.take k, e'.pos = e.pos ∧ e'.page = e.page := by
      by_contra hcon
      have : e.l2_pf = true := by
        rw [h1]
        intro e' he' hh
        exact hcon ⟨e', he', hh⟩
      rw [hpf] at this
      cases this
    obtain ⟨e', he', hp, hv⟩ := hex
    obtain ⟨k', hk', hke'⟩ := mem_take_getElem? he'
    obtain ⟨k0, e0, hle, hk0, hp0, hv0, hpf0, hf0⟩ := hier_first_line hx k' e' hke'
    refine ⟨k0, e0, by omega, hk0, by rw [hp0, hp], by rw [hv0, hv], hpf0, ?_⟩
    rw [hf0, (h2 e' he' hp hv).1]

/-- Which references have been serviced when `simulate` ends. -/
theorem hier_ordered_keys {lens : List Nat} {fuel : Nat} {o : Outcome Sim}
    (h : Ordered lens 0 fuel o) :
    keys o.state.trace <+: schedule lens ∧
    (∀ s, o = .finished s → keys s.trace = schedule lens) ∧
    (∀ s, o = .out_of_fuel s → keys s.trace = sched lens fuel) := by
  cases o with
  | finished s =>
    refine ⟨?_, ?_, ?_⟩
    · simp only [Outcome.state]
      rw [h.1]
    · intro s' hs'
      cases hs'
      exact h.1
    · intro s' hs'
      cases hs'
  | out_of_memory s =>
    refine ⟨h, ?_, ?_⟩ <;> intro s' hs' <;> cases hs'
  | out_of_fuel s =>
    have h1 : keys s.trace = sched lens fuel := by
      have := h.1
      simpa using this
    have h2 : fuel ≤ lens.foldr max 0 := by
      have := h.2
      simpa using this
    refine ⟨?_, ?_, ?_⟩
    · simp only [Outcome.state]
      rw [h1]
      have := sched_prefix lens (lens.foldr max 0 - fuel) fuel
      have e : fuel + (lens.foldr max 0 - fuel) = lens.foldr max 0 := by omega
      rw [e] at this
      exact this
    · intro s' hs'
      cases hs'
    · intro s' hs'
      cases hs'
      exact h1

end Os3_2

namespace Os3_2

/-- At the `exit(1)` of `simulate` every frame has been handed out. -/
theorem hier_halted_counter {recs : List Record} (hpg : Pages recs) (hn : recs.length ≤ 256)
    {e : Sim} (h : Halted recs e) : e.mach.allocated_frame_count = 256 := by
  obtain ⟨_, ht⟩ := hier_halted_inv hpg hn h
  obtain ⟨idx, s, d, p, hr, hs⟩ := h
  obtain ⟨hinv, hts⟩ := hier_reach_inv hpg hn hr
  have hcs := hier_reach_counted hpg hn hr
  have hstep := hier_service_step idx s d p
  rw [hs] at hstep
  have h256 := (hier_counted_step hinv.static hpg hts hcs hstep).2 e rfl
  have hle := ht.frames.le
  omega

end Os3_2

/-- C4: hit/fault exclusivity, for every input with pages below 64 and every bound on
the number of sweeps, in both variants.  The run produces a trace: all references in
round-robin order when the replay completes, the references of the first `fuel` sweeps
when the bound is reached, and a prefix of the round-robin order when an allocation
fails, which happens only with all 256 frames handed out.  In that trace line `k` shows
reference number `idx` of the process at position `pos`, with its pid and page; it is
reported as a fault (flat: page fault, two-level: level-2 fault) exactly when the page
does not occur among the earlier references of that process, equivalently when no
earlier line is for the same process and page; it shows the frame shown by every
earlier line of that process for that page; and a hit shows the frame of an earlier
line for the same process and page that is a fault. -/
theorem hit_fault_exclusive (input : List Record) (fuel : Nat)
    (hpg : ∀ r ∈ input, ∀ v ∈ r.2, v < 64) :
    (∃ o, Os3_1.run fuel input = some o ∧ Os3_1.Exclusive o.state.trace ∧
      Os3_1.Real (input.take 10) o.state.trace ∧
      Os3_1.FirstFault (input.take 10) o.state.trace ∧
      Os3_1.keys o.state.trace <+: schedule (ref_lens input) ∧
      (∀ s, o = .finished s → Os3_1.keys s.trace = schedule (ref_lens input)) ∧
      (∀ s, o = .out_of_fuel s → Os3_1.keys s.trace = sched (ref_lens input) fuel) ∧
      (∀ s, o = .out_of_memory s → s.mach.allocated_frame_count = 256)) ∧
    (∃ o, Os3_2.run fuel input = some o ∧ Os3_2.Exclusive o.state.trace ∧
      Os3_2.Real (input.take 10) o.state.trace ∧
      Os3_2.FirstFault (input.take 10) o.state.trace ∧
      Os3_2.keys o.state.trace <+: schedule (ref_lens input) ∧
      (∀ s, o = .finished s → Os3_2.keys s.trace = schedule (ref_lens input)) ∧
      (∀ s, o = .out_of_fuel s → Os3_2.keys s.trace = sched (ref_lens input) fuel) ∧
      (∀ s, o = .out_of_memory s → s.mach.allocated_frame_count = 256)) := by
  constructor
  · refine ⟨_, Os3_1.flat_run_start fuel input, ?_⟩
    have h := Os3_1.flat_simulate_inv (input.take 10) (pages_take hpg)
      (Os3_1.take_length_le input) fuel
    have hord := Os3_1.flat_simulate_ordered (input.take 10)
      (Os3_1.start (input.take 10)).mach fuel
    revert h hord
    generalize Os3_1.simulate fuel _ _ = o
    intro h hord
    obtain ⟨hk1, hk2, hk3⟩ := Os3_1.flat_ordered_keys hord
    have hxr : Os3_1.Exclusive o.state.trace ∧ Os3_1.Real (input.take 10) o.state.trace ∧
        ∀ s, o = .out_of_memory s → s.mach.allocated_frame_count = 256 := by
      cases o with
      | finished s =>
        exact ⟨Os3_1.flat_exclusive_of_mem h.mem,
          Os3_1.flat_real_of_book h.static h.mem h.book, fun s' hs' => by cases hs'⟩
      | out_of_fuel s =>
        exact ⟨Os3_1.flat_exclusive_of_mem h.mem,
          Os3_1.flat_real_of_book h.static h.mem h.book, fun s' hs' => by cases hs'⟩
      | out_of_memory s =>
        obtain ⟨hc, i, p, v, _, _, _, _, hb⟩ := h.aborted
        refine ⟨Os3_1.flat_exclusive_of_mem h.mem, Os3_1.flat_real_of_book h.static h.mem hb, ?_⟩
        intro s' hs'
        cases hs'
        exact hc
    exact ⟨hxr.1, hxr.2.1, Os3_1.flat_first_fault hxr.1 hxr.2.1 hk1, hk1, hk2, hk3, hxr.2.2⟩
  · refine ⟨_, Os3_2.hier_run_start fuel input, ?_⟩
    have h := Os3_2.hier_simulate_inv (input.take 10) (pages_take hpg) (by simp) fuel
    have hord := Os3_2.hier_simulate_ordered (input.take 10) fuel
    have hreach := Os3_2.hier_simulate_reach (input.take 10) fuel
    revert h hord hreach
    generalize Os3_2.simulate fuel _ _ = o
    intro h hord hreach
    obtain ⟨hk1, hk2, hk3⟩ := Os3_2.hier_ordered_keys hord
    have hxr : Os3_2.Exclusive o.state.trace ∧ Os3_2.Real (input.take 10) o.state.trace ∧
        ∀ s, o = .out_of_memory s → s.mach.allocated_frame_count = 256 := by
      cases o with
      | finished s =>
        exact ⟨Os3_2.hier_exclusive_of_mem h.mem, h.real, fun s' hs' => by cases hs'⟩
      | out_of_fuel s =>
        exact ⟨Os3_2.hier_exclusive_of_mem h.mem, h.real, fun s' hs' => by cases hs'⟩
      | out_of_memory s =>
        obtain ⟨s0, h0, ht⟩ := h
        simp only [Outcome.state]
        rw [ht]
        refine ⟨Os3_2.hier_exclusive_of_mem h0.mem, h0.real, ?_⟩
        intro s' hs'
        cases hs'
        exact Os3_2.hier_halted_counter (pages_take hpg) (by simp) hreach
    exact ⟨hxr.1, hxr.2.1, Os3_2.hier_first_fault hxr.1 hxr.2.1 hk1, hk1, hk2, hk3, hxr.2.2⟩

/-- C4 on a concrete input: process 0 references page 5 three times, process 1
references pages 5, 0 and 8.  Both variants complete and print six lines: the first
reference of process 0 to page 5 is a fault and its two later ones are hits on the same
frame, although process 1 faulted on its own page 5 in between and got another frame;
every reference of process 1 is a first access and a fault. -/
theorem hit_fault_exclusive_witness :
    (∀ r ∈ [((1 : Int), [5, 5, 5]), (2, [5, 0, 8])], ∀ v ∈ r.2, v < 64) ∧
    ((∃ o, Os3_1.run 4 [(1, [5, 5, 5]), (2, [5, 0, 8])] = some o ∧
        Os3_1.Exclusive o.state.trace ∧
        Os3_1.Real ([(1, [5, 5, 5]), (2, [5, 0, 8])].take 10) o.state.trace ∧
        Os3_1.FirstFault ([(1, [5, 5, 5]), (2, [5, 0, 8])].take 10) o.state.trace ∧
        Os3_1.keys o.state.trace <+: schedule (ref_lens [(1, [5, 5, 5]), (2, [5, 0, 8])]) ∧
        (∀ s, o = .finished s →
          Os3_1.keys s.trace = schedule (ref_lens [(1, [5, 5, 5]), (2, [5, 0, 8])])) ∧
        (∀ s, o = .out_of_fuel s →
          Os3_1.keys s.trace = sched (ref_lens [(1, [5, 5, 5]), (2, [5, 0, 8])]) 4) ∧
        (∀ s, o = .out_of_memory s → s.mach.allocated_frame_count = 256)) ∧
      (∃ o, Os3_2.run 4 [(1, [5, 5, 5]), (2, [5, 0, 8])] = some o ∧
        Os3_2.Exclusive o.state.trace ∧
        Os3_2.Real ([(1, [5, 5, 5]), (2, [5, 0, 8])].take 10) o.state.trace ∧
        Os3_2.FirstFault ([(1, [5, 5, 5]), (2, [5, 0, 8])].take 10) o.state.trace ∧
        Os3_2.keys o.state.trace <+: schedule (ref_lens [(1, [5, 5, 5]), (2, [5, 0, 8])]) ∧
        (∀ s, o = .finished s →
          Os3_2.keys s.trace = schedule (ref_lens [(1, [5, 5, 5]), (2, [5, 0, 8])])) ∧
        (∀ s, o = .out_of_fuel s →
          Os3_2.keys s.trace = sched (ref_lens [(1, [5, 5, 5]), (2, [5, 0, 8])]) 4) ∧
        (∀ s, o = .out_of_memory s → s.mach.allocated_frame_count = 256))) ∧
    (Os3_1.run 4 [(1, [5, 5, 5]), (2, [5, 0, 8])]).map
        (fun o => (o.state.trace, o.state.mach.allocated_frame_count)) =
      some ([{ pos := 0, pid := 1, idx := 0, page := 5, pf := true, frame := 16 },
             { pos := 1, pid := 2, idx := 0, page := 5, pf := true, frame := 17 },
             { pos := 0, pid := 1, idx := 1, page := 5, pf := false, frame := 16 },
             { pos := 1, pid := 2, idx := 1, page := 0, pf := true, frame := 18 },
             { pos := 0, pid := 1, idx := 2, page := 5, pf := false, frame := 16 },
             { pos := 1, pid := 2, idx := 2, page := 8, pf := true, frame := 19 }], 20) ∧
    (Os3_2.run 4 [(1, [5, 5, 5]), (2, [5, 0, 8])]).map
        (fun o => (o.state.trace, o.state.mach.allocated_frame_count)) =
      some ([{ pos := 0, pid := 1, idx := 0, page := 5, l1_pf := true, l1_frame := 2,
               l2_pf := true, l2_frame := 3 },
             { pos := 1, pid := 2, idx := 0, page := 5, l1_pf := true, l1_frame := 4,
               l2_pf := true, l2_frame := 5 },
             { pos := 0, pid := 1, idx := 1, page := 5, l1_pf := false, l1_frame := 2,
               l2_pf := false, l2_frame := 3 },
             { pos := 1, pid := 2, idx := 1, page := 0, l1_pf := false, l1_frame := 4,
               l2_pf := true, l2_frame := 6 },
             { pos := 0, pid := 1, idx := 2, page := 5, l1_pf := false, l1_frame := 2,
               l2_pf := false, l2_frame := 3 },
             { pos := 1, pid := 2, idx := 2, page := 8, l1_pf := true, l1_frame := 7,
               l2_pf := true, l2_frame := 8 }], 9) :=
  ⟨by decide, hit_fault_exclusive [(1, [5, 5, 5]), (2, [5, 0, 8])] 4 (by decide),
    by decide, by decide⟩
